import Mathlib

/-!
# STDMA slot manager (ns-3 module `stdma`): a verification development

Shallow embedding of `model/stdma-slot-manager.cc`, of `model/stdma-header.cc`
and of the parts of `model/stdma-mac.cc` that exchange slot offsets with the
slot manager or mark its slots on reception and on a busy channel.

Conventions of the embedding.

* `ns3::Time` is an integer number of nanoseconds (`Time := Int`).
* `uint8_t` / `uint16_t` / `uint32_t` values are natural numbers; where the
  source relies on unsigned wrap-around the reduction modulo `2^w` is explicit
  (`u32add`, `u32sub`, `u8dec`, `u16cast`).  The `int32_t` loop counters of the
  selection scan are integers.
* `std::map<K, V>` is an association list kept in ascending key order
  (`mapFind`, `mapInsert`, `mapErase`); `size()` is the list length.
* A `Ptr<StdmaSlot>` stored in `m_selections` aliases a cell of the ring
  `m_slots`.  It is represented by the key of that cell; the key is stable
  because the ring is only re-keyed by `RebaseFrameStart`, which requires
  `m_selections` to be empty.  A mutation through a pointer is `mapModify` on
  the ring.
* Everything the source takes from its environment is an explicit argument:
  the simulator clock (`now`), the random draws (`selection`, `NSS`) and the
  distance between this station and a stored position (`distance`, in units of
  `0.000001` m, the tie-break increment of the source).
* A violated `NS_ASSERT`, or a dereference of a ring cell that does not
  exist, aborts the operation: the embedded operation returns `none`.
* Arithmetic on `double` values follows IEEE 754 binary64 with rounding to
  nearest, ties to even (`Double`, a mantissa and an exponent; the exponent is
  unbounded): the quotients of `Setup`, the scan times of the network entry,
  the product of `StdmaMac::Receive` and the transmit probability of
  `GetNetworkEntryTimestamp64`.  The library conversions are read as follows:
  `Time::GetSeconds ()` is the number of nanoseconds divided by `10^9`, and
  `ns3::Seconds (double)` is the whole number of nanoseconds in the exact
  value of its argument (`Seconds`, `SecondsOfRat`); `StdmaMac::Receive`
  takes the latter as an argument.
* The coordinates of the header are rational numbers, the ratio of
  `SetSelectionIntervalRatio` is a fraction whose product is taken exactly,
  and `GetNetworkEntryTimestamp` is the reading of the network entry with an
  exact rational probability; the draws of its random variable are an
  argument (`draws`).
-/

namespace Stdma

set_option maxRecDepth 8000

/-- Simulation time in nanoseconds (`ns3::Time`). -/
abbrev Time := Int

/-- A 48-bit MAC address (`ns3::Mac48Address`), as a number. -/
abbrev Mac48Address := Nat

/-- A position (`ns3::Vector`). -/
structure Vector where
  x : Int
  y : Int
  z : Int
deriving DecidableEq

/-! ## Machine arithmetic -/

/-- The modulus of `uint32_t` arithmetic. -/
def UINT32_MOD : Nat := 4294967296

/-- Unsigned 32-bit addition. -/
def u32add (a b : Nat) : Nat := (a + b) % UINT32_MOD

/-- Unsigned 32-bit subtraction (wraps around below zero). -/
def u32sub (a b : Nat) : Nat := (a % UINT32_MOD + UINT32_MOD - b % UINT32_MOD) % UINT32_MOD

/-- The value of `x - 1` stored into a `uint8_t`. -/
def u8dec (x : Nat) : Nat := (x + 255) % 256

/-- Conversion of an unsigned value to `uint16_t`. -/
def u16cast (x : Nat) : Nat := x % 65536

/-- The modulus of `uint64_t` arithmetic. -/
def UINT64_MOD : Nat := 18446744073709551616

/-- Conversion of a signed 64-bit value to `uint64_t`. -/
def u64cast (x : Int) : Nat := (x % (UINT64_MOD : Int)).toNat

/-- Conversion of a signed 64-bit value to `uint32_t`. -/
def u32cast (x : Int) : Nat := (x % (UINT32_MOD : Int)).toNat

/-- The value of `sizeof (double)`. -/
def SIZEOF_DOUBLE : Nat := 8

/-- A `double` value stored into a `uint32_t`: the fraction is dropped.  (A value outside
the range of `uint32_t` has no defined conversion; it is reduced here.) -/
def doubleToU32 (x : ℚ) : Nat := (if 0 ≤ x then ⌊x⌋.toNat else 0) % UINT32_MOD

/-! ## Binary64 arithmetic -/

/-- A finite value of type `double` (IEEE 754 binary64): the number `m * 2^e`.  The results of
the operations below are zero (`m = 0`, `e = 0`) or have a mantissa of 53 bits
(`2^52 <= |m| < 2^53`).  The exponent is not bounded: overflow, subnormal numbers, infinities
and NaN are outside the model, and a quotient by zero is zero. -/
structure Double where
  m : Int
  e : Int
deriving DecidableEq

namespace Double

/-- The number of binary digits of `n`, counted in at most `fuel` steps (`fuel = n` is
enough). -/
def bitLength : Nat → Nat → Nat
  | 0, _ => 0
  | fuel + 1, n => if n = 0 then 0 else bitLength fuel (n / 2) + 1

/-- Rounding of the positive fraction `a / d` to 53 significant bits, to nearest, ties to
even: the mantissa and the exponent of the result. -/
def roundPos (a d : Nat) : Nat × Int :=
  let e0 : Int := (bitLength a a : Int) - (bitLength d d : Int) - 52
  let q0 : Nat := (a * 2 ^ (-e0).toNat) / (d * 2 ^ e0.toNat)
  let e : Int := if q0 < 2 ^ 52 then e0 - 1 else e0
  let A : Nat := a * 2 ^ (-e).toNat
  let D : Nat := d * 2 ^ e.toNat
  let q : Nat := A / D
  let r : Nat := A % D
  let q1 : Nat := if D < 2 * r ∨ (2 * r = D ∧ q % 2 = 1) then q + 1 else q
  if q1 = 2 ^ 53 then (2 ^ 52, e + 1) else (q1, e)

/-- The `double` nearest to the fraction `n / d` (ties to even). -/
def round (n : Int) (d : Nat) : Double :=
  if n = 0 ∨ d = 0 then ⟨0, 0⟩
  else if 0 < n then ⟨((roundPos n.natAbs d).1 : Int), (roundPos n.natAbs d).2⟩
  else ⟨-((roundPos n.natAbs d).1 : Int), (roundPos n.natAbs d).2⟩

/-- The numerator of the value as a fraction with the denominator `den`. -/
def num (x : Double) : Int := x.m * 2 ^ x.e.toNat

/-- The denominator of the value, a power of two. -/
def den (x : Double) : Nat := 2 ^ (-x.e).toNat

/-- The exact value. -/
def toRat (x : Double) : ℚ := (x.num : ℚ) / (x.den : ℚ)

/-- Conversion of an integer to `double`. -/
def ofInt (z : Int) : Double := round z 1

/-- The sum `x + y` in `double`. -/
def add (x y : Double) : Double := round (x.num * y.den + y.num * x.den) (x.den * y.den)

/-- The difference `x - y` in `double`. -/
def sub (x y : Double) : Double := round (x.num * y.den - y.num * x.den) (x.den * y.den)

/-- The product `x * y` in `double`. -/
def mul (x y : Double) : Double := round (x.num * y.num) (x.den * y.den)

/-- The quotient `x / y` in `double`. -/
def div (x y : Double) : Double := round (x.num * y.den * y.num.sign) (x.den * y.num.natAbs)

/-- The value of `floor (x)`, a whole number. -/
def floor (x : Double) : Int := Int.fdiv x.num x.den

/-- The value of `ceil (x)`, a whole number. -/
def ceil (x : Double) : Int := -Int.fdiv (-x.num) x.den

/-- Conversion to an integer type: the fraction is dropped. -/
def trunc (x : Double) : Int := Int.tdiv x.num x.den

/-- The comparison `x <= y`. -/
def le (x y : Double) : Bool := decide (x.num * y.den ≤ y.num * x.den)

/-- The comparison `x < y`. -/
def lt (x y : Double) : Bool := decide (x.num * y.den < y.num * x.den)

end Double

/-- The library function `Time::GetSeconds ()`: the number of nanoseconds, converted to
`double`, divided by `10^9`. -/
def GetSeconds (t : Int) : Double := Double.div (Double.ofInt t) (Double.ofInt 1000000000)

/-- The library constructor `ns3::Seconds (double)`: the whole number of nanoseconds in the
value, the fraction of a nanosecond being dropped. -/
def Seconds (x : Double) : Int := Int.tdiv (x.num * 1000000000) x.den

/-- The constructor `ns3::Seconds (double)` as a function of the exact value of its argument:
the whole number of nanoseconds in the value. -/
def SecondsOfRat (q : ℚ) : Int :=
  if 0 ≤ q then ⌊q * 1000000000⌋ else ⌈q * 1000000000⌉

/-! ## `std::map` as an ordered association list -/

/-- The lookup `m.find(k)`: the value bound to `k`, if any. -/
def mapFind {α : Type} : List (Nat × α) → Nat → Option α
  | [], _ => none
  | (k', v) :: rest, k => if k' = k then some v else mapFind rest k

/-- The assignment `m[k] = v`: replaces the binding of `k` or adds one, keeping the keys ascending. -/
def mapInsert {α : Type} : List (Nat × α) → Nat → α → List (Nat × α)
  | [], k, v => [(k, v)]
  | (k', v') :: rest, k, v =>
    if k < k' then (k, v) :: (k', v') :: rest
    else if k' = k then (k, v) :: rest
    else (k', v') :: mapInsert rest k v

/-- The removal `m.erase(k)`. -/
def mapErase {α : Type} : List (Nat × α) → Nat → List (Nat × α)
  | [], _ => []
  | (k', v) :: rest, k => if k' = k then mapErase rest k else (k', v) :: mapErase rest k

/-- A mutation of the object bound to `k`, through the pointer stored in the map. -/
def mapModify {α : Type} : List (Nat × α) → Nat → (α → α) → List (Nat × α)
  | [], _, _ => []
  | (k', v) :: rest, k, f =>
    if k' = k then (k', f v) :: mapModify rest k f else (k', v) :: mapModify rest k f

/-! ## `StdmaSlot` -/

/-- The observation state of a slot (`StdmaSlot::State`). -/
inductive State where
  | FREE
  | ALLOCATED
  | BUSY
deriving DecidableEq

/-- One slot of the frame (`class StdmaSlot`). -/
structure StdmaSlot where
  m_internal : Bool
  m_state : State
  m_previousState : State
  m_timeout : Nat
  m_internalTimeout : Nat
  m_index : Nat
  m_position : Vector
  m_owner : Mac48Address
  m_notBefore : Time
deriving DecidableEq

namespace StdmaSlot

/-- The constructor `StdmaSlot::StdmaSlot (index)`. -/
def create (index : Nat) : StdmaSlot :=
  { m_internal := false
    m_state := State.FREE
    m_previousState := State.FREE
    m_timeout := 0
    m_internalTimeout := 0
    m_index := index
    m_position := ⟨0, 0, 0⟩
    m_owner := 0
    m_notBefore := 0 }

/-- `StdmaSlot::MarkAsFree`. -/
def MarkAsFree (slot : StdmaSlot) : StdmaSlot :=
  { slot with
    m_previousState := slot.m_state
    m_state := State.FREE
    m_internal := false
    m_timeout := 0
    m_internalTimeout := 0
    m_notBefore := 0 }

/-- `StdmaSlot::IsFree (until)`. -/
def IsFree (slot : StdmaSlot) (until_ : Time) : Bool :=
  decide (slot.m_state = State.FREE) ||
    (decide (slot.m_previousState = State.FREE) && decide (until_ < slot.m_notBefore))

/-- `StdmaSlot::IsAllocated`, reading the simulator clock `now`. -/
def IsAllocated (slot : StdmaSlot) (now : Time) : Bool :=
  decide (slot.m_state = State.ALLOCATED) && decide (now ≥ slot.m_notBefore)

/-- `StdmaSlot::IsBusy`, reading the simulator clock `now`. -/
def IsBusy (slot : StdmaSlot) (now : Time) : Bool :=
  decide (slot.m_state = State.BUSY) && decide (now ≥ slot.m_notBefore)

/-- `StdmaSlot::MarkAsAllocated (timeout, owner, position, notBefore)`. -/
def MarkAsAllocated (slot : StdmaSlot) (now : Time) (timeout : Nat) (owner : Mac48Address)
    (position : Vector) (notBefore : Time) : StdmaSlot :=
  let slot1 : StdmaSlot :=
    if slot.IsAllocated now then
      let slot2 : StdmaSlot :=
        if timeout > slot.m_timeout then { slot with m_timeout := timeout } else slot
      if notBefore < slot2.m_notBefore then { slot2 with m_notBefore := notBefore } else slot2
    else
      { slot with
        m_previousState := slot.m_state
        m_timeout := timeout
        m_state := State.ALLOCATED
        m_notBefore := notBefore }
  { slot1 with m_position := position, m_owner := owner }

/-- `StdmaSlot::MarkAsInternallyAllocated (timeout)`. -/
def MarkAsInternallyAllocated (slot : StdmaSlot) (timeout : Nat) : StdmaSlot :=
  { slot with m_internal := true, m_internalTimeout := timeout }

/-- `StdmaSlot::MarkAsBusy`. -/
def MarkAsBusy (slot : StdmaSlot) : StdmaSlot :=
  { slot with
    m_previousState := slot.m_state
    m_state := State.BUSY
    m_notBefore := 0
    m_timeout := 1 }

/-- `StdmaSlot::RebaseIndex`. -/
def RebaseIndex (slot : StdmaSlot) (index : Nat) : StdmaSlot :=
  { slot with m_index := index }

/-- `StdmaSlot::SetTimeout`. -/
def SetTimeout (slot : StdmaSlot) (t : Nat) : StdmaSlot :=
  { slot with m_timeout := t }

/-- `StdmaSlot::SetInternalTimeout`. -/
def SetInternalTimeout (slot : StdmaSlot) (t : Nat) : StdmaSlot :=
  { slot with m_internalTimeout := t }

end StdmaSlot

/-! ## `StdmaSlotManager` -/

/-- The fields of `class StdmaSlotManager`. -/
structure StdmaSlotManager where
  m_slots : List (Nat × StdmaSlot)
  m_selections : List (Nat × Nat)
  m_collisions : List (Mac48Address × Nat)
  m_start : Time
  m_frameDuration : Time
  m_slotDuration : Time
  m_numSlots : Nat
  m_rate : Nat
  m_ni : Nat
  m_siHalf : Nat
  m_nss : List Nat
  m_lastFrameStart : Time
  m_current : Nat
  m_mininumCandidates : Nat
deriving DecidableEq

namespace StdmaSlotManager

/-- The constructor `StdmaSlotManager::StdmaSlotManager ()`. -/
def create : StdmaSlotManager :=
  { m_slots := []
    m_selections := []
    m_collisions := []
    m_start := 0
    m_frameDuration := 0
    m_slotDuration := 0
    m_numSlots := 0
    m_rate := 0
    m_ni := 0
    m_siHalf := 0
    m_nss := []
    m_lastFrameStart := 0
    m_current := 0
    m_mininumCandidates := 0 }

/-- `StdmaSlotManager::GetSlot (index)`: the assertion fails when the key is absent. -/
def GetSlot (s : StdmaSlotManager) (index : Nat) : Option StdmaSlot :=
  mapFind s.m_slots index

/-! ### Frame-boundary update -/

/-- First block of the loop body of `UpdateSlotObservations`: an internally allocated slot
whose internal timeout ran out is released; when it is shared with a peer, the peer must be
in the collision memory (`NS_ASSERT`) and is removed from it. -/
def releaseExpired (now : Time) (slot : StdmaSlot) (collisions : List (Mac48Address × Nat)) :
    Option (StdmaSlot × List (Mac48Address × Nat)) :=
  if slot.m_internal = true ∧ slot.m_internalTimeout ≤ 0 then
    if slot.IsAllocated now = true then
      if (mapFind collisions slot.m_owner).isSome = true then
        some (slot.MarkAsFree, mapErase collisions slot.m_owner)
      else none
    else some (slot.MarkAsFree, collisions)
  else some (slot, collisions)

/-- Second block of the loop body of `UpdateSlotObservations`: count down an externally
allocated slot, or release it. -/
def ageAllocated (now : Time) (slot : StdmaSlot) : StdmaSlot :=
  if slot.IsAllocated now = true ∧ slot.m_internal = false then
    if slot.m_timeout > 0 then slot.SetTimeout (slot.m_timeout - 1) else slot.MarkAsFree
  else slot

/-- Third block of the loop body of `UpdateSlotObservations`: count down a busy slot, or
release it. -/
def ageBusy (now : Time) (slot : StdmaSlot) : StdmaSlot :=
  if slot.IsBusy now = true ∧ slot.m_internal = false then
    if slot.m_timeout > 0 then slot.SetTimeout (slot.m_timeout - 1) else slot.MarkAsFree
  else slot

/-- The loop body of `UpdateSlotObservations` for the ring key `i`. -/
def updateSlot (now : Time) (i : Nat) (s : StdmaSlotManager) : Option StdmaSlotManager :=
  match mapFind s.m_slots i with
  | none => none
  | some slot =>
    match releaseExpired now slot s.m_collisions with
    | none => none
    | some (slot1, collisions) =>
      some { s with
        m_slots := mapModify s.m_slots i (fun _ => ageBusy now (ageAllocated now slot1))
        m_collisions := collisions }

/-- The loop of `UpdateSlotObservations` over the keys still to be visited. -/
def updateLoop (now : Time) : List Nat → StdmaSlotManager → Option StdmaSlotManager
  | [], s => some s
  | i :: rest, s =>
    match updateSlot now i s with
    | none => none
    | some s1 => updateLoop now rest s1

/-- `StdmaSlotManager::UpdateSlotObservations`, run at simulator time `now`. -/
def UpdateSlotObservations (s : StdmaSlotManager) (now : Time) : Option StdmaSlotManager :=
  updateLoop now (List.range s.m_slots.length)
    { s with m_lastFrameStart := s.m_lastFrameStart + s.m_frameDuration }

/-- The prologue shared by the public operations:
`if (Now () >= m_lastFrameStart + m_frameDuration) UpdateSlotObservations ();`. -/
def ageCheck (s : StdmaSlotManager) (now : Time) : Option StdmaSlotManager :=
  if now ≥ s.m_lastFrameStart + s.m_frameDuration then UpdateSlotObservations s now else some s

/-- A number of consecutive calls of `UpdateSlotObservations`, at the given clock readings. -/
def agingPasses : List Time → StdmaSlotManager → Option StdmaSlotManager
  | [], s => some s
  | now :: rest, s =>
    match UpdateSlotObservations s now with
    | none => none
    | some s1 => agingPasses rest s1

/-! ### Configuration -/

/-- `StdmaSlotManager::Setup (start, frameDuration, slotDuration, candidateSlots)`.
The number of slots is `floor (frameDuration.GetSeconds () / m_slotDuration.GetSeconds ())`
and the start is aligned by means of
`slotsUntilStart = start.GetSeconds () / m_slotDuration.GetSeconds ()`, both quotients of
`double` values; `NanoSeconds (m_slotDuration.GetNanoSeconds () * ceil (slotsUntilStart))` is
the `double` product converted to an integer. -/
def Setup (s : StdmaSlotManager) (start frameDuration slotDuration : Time)
    (candidateSlots : Nat) : StdmaSlotManager :=
  let numSlots : Nat :=
    (Double.floor (Double.div (GetSeconds frameDuration) (GetSeconds slotDuration))).toNat
  let slotsUntilStart : Double := Double.div (GetSeconds start) (GetSeconds slotDuration)
  let m_start : Time :=
    if slotsUntilStart = Double.ofInt (Double.floor slotsUntilStart) then start
    else Double.trunc
      (Double.mul (Double.ofInt slotDuration) (Double.ofInt (Double.ceil slotsUntilStart)))
  { s with
    m_mininumCandidates := candidateSlots
    m_slotDuration := slotDuration
    m_numSlots := numSlots
    m_frameDuration := slotDuration * numSlots
    m_start := m_start
    m_slots := (List.range numSlots).foldl (fun m i => mapInsert m i (StdmaSlot.create i)) s.m_slots
    m_lastFrameStart := m_start }

/-- `StdmaSlotManager::SetReportRate (rate)`. -/
def SetReportRate (s : StdmaSlotManager) (rate : Nat) : StdmaSlotManager :=
  { s with m_rate := rate, m_ni := s.m_numSlots / rate }

/-- `StdmaSlotManager::SetMinimumCandidateSlotSetSize (size)`. -/
def SetMinimumCandidateSlotSetSize (s : StdmaSlotManager) (size : Nat) : StdmaSlotManager :=
  { s with m_mininumCandidates := size }

/-- `StdmaSlotManager::SetSelectionIntervalRatio (ratio)` for the ratio
`ratioNum / ratioDen`: `m_siHalf = floor (0.5 * (m_ni - 1) * ratio)`, with the unsigned
`m_ni - 1`. -/
def SetSelectionIntervalRatio (s : StdmaSlotManager) (ratioNum ratioDen : Nat) :
    StdmaSlotManager :=
  { s with m_siHalf := (u32sub s.m_ni 1 * ratioNum) / (2 * ratioDen) }

/-- The nominal slots pushed by the loop of `SelectNominalSlots` for the given values of its
counter `i`: `none` when the assertion `NSS + i * m_ni < m_numSlots` fails. -/
def nominalSlots (numSlots ni NSS : Nat) : List Nat → Option (List Nat)
  | [] => some []
  | i :: rest =>
    if NSS + i * ni < numSlots then
      match nominalSlots numSlots ni NSS rest with
      | none => none
      | some l => some ((NSS + i * ni) :: l)
    else none

/-- `StdmaSlotManager::SelectNominalSlots`, with the drawn nominal start slot `NSS`. -/
def SelectNominalSlots (s : StdmaSlotManager) (now : Time) (NSS : Nat) :
    Option StdmaSlotManager :=
  match ageCheck s now with
  | none => none
  | some s1 =>
    if NSS < s1.m_ni then
      match nominalSlots s1.m_numSlots s1.m_ni NSS (List.range' 1 (s1.m_rate - 1)) with
      | none => none
      | some l => some { s1 with m_nss := NSS :: l }
    else none

end StdmaSlotManager

namespace StdmaSlotManager

/-! ### Slot selection -/

/-- The loop counters `lowerBound, ..., upperBound` of the selection scan around the nominal
slot `NS`. -/
def scanCounters (NS siHalf : Nat) : List Int :=
  (List.range (2 * siHalf + 1)).map (fun (k : Nat) => (NS : Int) - (siHalf : Int) + (k : Int))

/-- The ring key `j` visited for the loop counter `i`: wrapped around once at either end;
`none` when `NS_ASSERT (j >= 0)` or `NS_ASSERT (j < m_slots.size ())` fails. -/
def wrapIndex (numSlots size : Nat) (i : Int) : Option Nat :=
  let j : Int :=
    if i < 0 then (numSlots : Int) + i
    else if i ≥ (numSlots : Int) then i - (numSlots : Int)
    else i
  if 0 ≤ j ∧ j < (size : Int) then some j.toNat else none

/-- The loop `while (usedSlots.find (distance) != usedSlots.end ()) distance += 0.000001;`
run for at most `fuel` rounds. -/
def freeDistance (usedSlots : List (Nat × Nat)) : Nat → Nat → Nat
  | 0, d => d
  | fuel + 1, d =>
    if (mapFind usedSlots d).isSome = true then freeDistance usedSlots fuel (d + 1) else d

/-- The scan loop of `SelectTransmissionSlotForReservationWithNo` and of
`ReSelectTransmissionSlotForReservationWithNo` over the remaining loop counters.  The
accumulator holds `candidates` and `usedSlots`.  With `skipNegative` the negative counters
are skipped (first selection of the station). -/
def scanSlots (s : StdmaSlotManager) (now until_ : Time) (distance : Vector → Nat)
    (skipNegative : Bool) :
    List Int → List Nat × List (Nat × Nat) → Option (List Nat × List (Nat × Nat))
  | [], acc => some acc
  | i :: rest, acc =>
    if i < 0 ∧ skipNegative = true then scanSlots s now until_ distance skipNegative rest acc
    else
      match wrapIndex s.m_numSlots s.m_slots.length i with
      | none => none
      | some j =>
        match mapFind s.m_slots j with
        | none => none
        | some slot =>
          if slot.IsFree until_ = true then
            scanSlots s now until_ distance skipNegative rest (acc.1 ++ [slot.m_index], acc.2)
          else if slot.IsAllocated now = true ∧ slot.m_internal = false then
            scanSlots s now until_ distance skipNegative rest
              (acc.1, mapInsert acc.2
                (freeDistance acc.2 (acc.2.length + 1) (distance slot.m_position)) slot.m_index)
          else scanSlots s now until_ distance skipNegative rest acc

/-- The padding loop over `usedSlots` in decreasing distance: slots of owners we do not
collide with yet are appended until `missing` of them were added. -/
def addAllocated (s : StdmaSlotManager) : List (Nat × Nat) → Nat → List Nat → Option (List Nat)
  | [], _, candidates => some candidates
  | (_, index) :: rest, missing, candidates =>
    match mapFind s.m_slots index with
    | none => none
    | some slot =>
      if (mapFind s.m_collisions slot.m_owner).isNone = true then
        if u32sub missing 1 = 0 then some (candidates ++ [index])
        else addAllocated s rest (u32sub missing 1) (candidates ++ [index])
      else addAllocated s rest missing candidates

/-- Step 2 of the selection: the candidate list compiled around the nominal slot `NS`. -/
def compileCandidates (s : StdmaSlotManager) (now until_ : Time) (distance : Vector → Nat)
    (skipNegative : Bool) (NS : Nat) : Option (List Nat) :=
  match scanSlots s now until_ distance skipNegative (scanCounters NS s.m_siHalf) ([], []) with
  | none => none
  | some (candidates, usedSlots) =>
    if candidates.length < s.m_mininumCandidates then
      addAllocated s usedSlots.reverse (s.m_mininumCandidates - candidates.length) candidates
    else some candidates

/-- Steps 3 to 5 of the selection: the candidate drawn at position `selection` is marked
internally allocated, a collision with its external owner is remembered, and the reservation
`n` is bound to it.  Returns the new state and the chosen index. -/
def commitSelection (s : StdmaSlotManager) (now : Time) (candidates : List Nat)
    (selection n timeout : Nat) : Option (StdmaSlotManager × Nat) :=
  match candidates[selection]? with
  | none => none
  | some index =>
    match mapFind s.m_slots index with
    | none => none
    | some slot =>
      let slot1 := slot.MarkAsInternallyAllocated timeout
      some ({ s with
              m_slots := mapModify s.m_slots index (fun x => x.MarkAsInternallyAllocated timeout)
              m_collisions :=
                if slot1.IsAllocated now = true then mapInsert s.m_collisions slot1.m_owner index
                else s.m_collisions
              m_selections := mapInsert s.m_selections n index }, index)

/-- The candidate list that `SelectTransmissionSlotForReservationWithNo (n, timeout)` draws
from, together with the state after its age check. -/
def selectCandidates (s : StdmaSlotManager) (now : Time) (distance : Vector → Nat)
    (n timeout : Nat) : Option (StdmaSlotManager × List Nat) :=
  if n < s.m_nss.length then
    match ageCheck s now with
    | none => none
    | some s1 =>
      match compileCandidates s1 now (now + (timeout : Int) * s.m_frameDuration) distance
          s1.m_selections.isEmpty (s1.m_nss[n]?.getD 0) with
      | none => none
      | some candidates => some (s1, candidates)
  else none

/-- `StdmaSlotManager::SelectTransmissionSlotForReservationWithNo (n, timeout)` with the
random draw `selection`. -/
def SelectTransmissionSlotForReservationWithNo (s : StdmaSlotManager) (now : Time)
    (distance : Vector → Nat) (selection n timeout : Nat) : Option StdmaSlotManager :=
  match selectCandidates s now distance n timeout with
  | none => none
  | some (s1, candidates) =>
    match commitSelection s1 now candidates selection n timeout with
    | none => none
    | some (s2, _) => some s2

/-- The state of `ReSelectTransmissionSlotForReservationWithNo (n, timeout)` after its age
check and after the release of the old slot, with the old index. -/
def releaseOld (s : StdmaSlotManager) (now : Time) (n : Nat) : Option (StdmaSlotManager × Nat) :=
  match mapFind s.m_selections n with
  | none => none
  | some _ =>
    if n < s.m_nss.length then
      match ageCheck s now with
      | none => none
      | some s1 =>
        match mapFind s1.m_selections n with
        | none => none
        | some key =>
          match mapFind s1.m_slots key with
          | none => none
          | some selected =>
            let oldIndex := selected.m_index
            match mapFind s1.m_slots oldIndex with
            | none => none
            | some _ =>
              some ({ s1 with m_slots := mapModify s1.m_slots oldIndex StdmaSlot.MarkAsFree },
                oldIndex)
    else none

/-- The candidate list that `ReSelectTransmissionSlotForReservationWithNo (n, timeout)`
draws from, with the state it is compiled in and the old index. -/
def reselectCandidates (s : StdmaSlotManager) (now : Time) (distance : Vector → Nat)
    (n timeout : Nat) : Option (StdmaSlotManager × Nat × List Nat) :=
  match releaseOld s now n with
  | none => none
  | some (s1, oldIndex) =>
    match compileCandidates s1 now (now + (timeout : Int) * s.m_frameDuration) distance
        false (s1.m_nss[n]?.getD 0) with
    | none => none
    | some candidates => some (s1, oldIndex, candidates)

/-- The value returned by `ReSelectTransmissionSlotForReservationWithNo`:
`(newIndex - oldIndex) + m_numSlots` in `uint32_t` arithmetic. -/
def reselectOffset (numSlots oldIndex newIndex : Nat) : Nat :=
  u32add (u32sub newIndex oldIndex) numSlots

/-- `StdmaSlotManager::ReSelectTransmissionSlotForReservationWithNo (n, timeout)` with the
random draw `selection`. -/
def ReSelectTransmissionSlotForReservationWithNo (s : StdmaSlotManager) (now : Time)
    (distance : Vector → Nat) (selection n timeout : Nat) : Option (StdmaSlotManager × Nat) :=
  match reselectCandidates s now distance n timeout with
  | none => none
  | some (s1, oldIndex, candidates) =>
    match commitSelection s1 now candidates selection n timeout with
    | none => none
    | some (s2, newIndex) => some (s2, reselectOffset s2.m_numSlots oldIndex newIndex)

end StdmaSlotManager

namespace StdmaSlotManager

/-! ### Queries and marks -/

/-- `StdmaSlotManager::GetTimeUntilTransmissionOfReservationWithNo (n)`.  The library
predicate `ns3::Time::IsNegative` is an argument. -/
def GetTimeUntilTransmissionOfReservationWithNo (s : StdmaSlotManager) (now : Time)
    (IsNegative : Time → Bool) (n : Nat) : Option (StdmaSlotManager × Time) :=
  match ageCheck s now with
  | none => none
  | some s1 =>
    match mapFind s1.m_selections n with
    | none => none
    | some key =>
      match mapFind s1.m_slots key with
      | none => none
      | some slot =>
        let delayInFrame : Time := (slot.m_index : Int) * s1.m_slotDuration
        let delay : Time :=
          if s1.m_lastFrameStart > now then
            (s1.m_lastFrameStart - now) + s1.m_lastFrameStart + delayInFrame - now
              - s1.m_slotDuration
          else s1.m_lastFrameStart + delayInFrame - now
        some (s1, if IsNegative delay = true then delay + s1.m_frameDuration else delay)

/-- `StdmaSlotManager::CalculateSlotOffsetBetweenTransmissions (k, l)`. -/
def CalculateSlotOffsetBetweenTransmissions (s : StdmaSlotManager) (k l : Nat) : Option Nat :=
  if k = l then some 0
  else
    match mapFind s.m_selections k, mapFind s.m_selections l with
    | some keyFirst, some keySecond =>
      match mapFind s.m_slots keyFirst, mapFind s.m_slots keySecond with
      | some first, some second =>
        if second.m_index > first.m_index then some (u32sub second.m_index first.m_index)
        else some (u32add (u32sub s.m_numSlots first.m_index) second.m_index)
      | _, _ => none
    | _, _ => none

/-- `StdmaSlotManager::NeedsReReservation (n)`. -/
def NeedsReReservation (s : StdmaSlotManager) (now : Time) (n : Nat) :
    Option (StdmaSlotManager × Bool) :=
  match mapFind s.m_selections n with
  | none => none
  | some key =>
    match ageCheck s now with
    | none => none
    | some s1 =>
      match mapFind s1.m_slots key with
      | none => none
      | some slot => some (s1, decide (slot.m_internalTimeout ≤ 0))

/-- `StdmaSlotManager::DecreaseTimeOutOfReservationWithNumber (n)`. -/
def DecreaseTimeOutOfReservationWithNumber (s : StdmaSlotManager) (now : Time) (n : Nat) :
    Option (StdmaSlotManager × Nat) :=
  match mapFind s.m_selections n with
  | none => none
  | some key =>
    match mapFind s.m_slots key with
    | none => none
    | some slot0 =>
      if slot0.m_internal = true ∧ slot0.m_internalTimeout > 0 then
        match ageCheck s now with
        | none => none
        | some s1 =>
          match mapFind s1.m_slots key with
          | none => none
          | some slot =>
            let newValue := u8dec slot.m_internalTimeout
            match mapFind s1.m_slots slot.m_index with
            | none => none
            | some _ =>
              some ({ s1 with
                      m_slots :=
                        mapModify
                          (mapModify s1.m_slots slot.m_index
                            (fun x => x.SetInternalTimeout newValue))
                          key (fun x => x.SetInternalTimeout newValue) }, newValue)
      else none

/-- `StdmaSlotManager::MarkSlotAsAllocated (index, timeout, node, position, notbefore)`. -/
def MarkSlotAsAllocated (s : StdmaSlotManager) (now : Time) (index timeout : Nat)
    (node : Mac48Address) (position : Vector) (notbefore : Time) : Option StdmaSlotManager :=
  match ageCheck s now with
  | none => none
  | some s1 =>
    match mapFind s1.m_slots index with
    | none => none
    | some _ =>
      some { s1 with
        m_slots :=
          mapModify s1.m_slots index
            (fun x => x.MarkAsAllocated now timeout node position notbefore) }

/-- `StdmaSlotManager::MarkSlotAsFreeAgain (index)`. -/
def MarkSlotAsFreeAgain (s : StdmaSlotManager) (now : Time) (index : Nat) :
    Option StdmaSlotManager :=
  match ageCheck s now with
  | none => none
  | some s1 =>
    match mapFind s1.m_slots index with
    | none => none
    | some _ => some { s1 with m_slots := mapModify s1.m_slots index StdmaSlot.MarkAsFree }

/-- `StdmaSlotManager::MarkSlotAsBusy (index)`. -/
def MarkSlotAsBusy (s : StdmaSlotManager) (now : Time) (index : Nat) :
    Option StdmaSlotManager :=
  match ageCheck s now with
  | none => none
  | some s1 =>
    match mapFind s1.m_slots index with
    | none => none
    | some _ => some { s1 with m_slots := mapModify s1.m_slots index StdmaSlot.MarkAsBusy }

end StdmaSlotManager

namespace StdmaSlotManager

/-! ### Reservation counter, time/index mapping and rebase -/

/-- `StdmaSlotManager::GetCurrentReservationNo`. -/
def GetCurrentReservationNo (s : StdmaSlotManager) (now : Time) :
    Option (StdmaSlotManager × Nat) :=
  match ageCheck s now with
  | none => none
  | some s1 =>
    some ({ s1 with
            m_current := if s1.m_current < u32sub s1.m_rate 1 then s1.m_current + 1 else 0 },
      s1.m_current)

/-- Consecutive calls of `GetCurrentReservationNo` at the given clock readings, with the
values they return. -/
def reservationNumbers : List Time → StdmaSlotManager → Option (StdmaSlotManager × List Nat)
  | [], s => some (s, [])
  | now :: rest, s =>
    match GetCurrentReservationNo s now with
    | none => none
    | some (s1, no) =>
      match reservationNumbers rest s1 with
      | none => none
      | some (s2, nos) => some (s2, no :: nos)

/-- `StdmaSlotManager::GetSlotIndexForTimestamp (t)`, called at simulator time `now`.  The
remainder is the truncating `%` of C++ on 64-bit integers, stored into a `uint64_t`. -/
def GetSlotIndexForTimestamp (s : StdmaSlotManager) (now t : Time) :
    Option (StdmaSlotManager × Nat) :=
  match ageCheck s now with
  | none => none
  | some s1 =>
    let baseTime : Time :=
      if t ≥ s1.m_lastFrameStart then t - s1.m_lastFrameStart else t - s1.m_start
    let withinFrame : Nat := u64cast (Int.tmod baseTime s1.m_frameDuration)
    some (s1, (withinFrame / u64cast s1.m_slotDuration) % UINT32_MOD)

/-- `StdmaSlotManager::GetGlobalSlotIndexForTimestamp (t)`: both branches of the source
compute the truncated quotient. -/
def GetGlobalSlotIndexForTimestamp (s : StdmaSlotManager) (t : Time) : Nat :=
  if Int.tmod t s.m_slotDuration = 0 then u64cast (Int.tdiv t s.m_slotDuration)
  else u64cast (Int.tdiv t s.m_slotDuration)

/-- The new index given to a slot by `RebaseFrameStart` (`uint32_t` arithmetic). -/
def rebasedIndex (numSlots offset index : Nat) : Nat :=
  if index < offset then u32add (u32sub numSlots offset) index else u32sub index offset

/-- Step 2 of `RebaseFrameStart`: the slots fetched under the keys `i` of the loop, each
with its new index, in the order of the loop (`newOrder`). -/
def rebaseLoop (slots : List (Nat × StdmaSlot)) (numSlots offset : Nat) :
    List Nat → Option (List StdmaSlot)
  | [] => some []
  | i :: rest =>
    match mapFind slots i with
    | none => none
    | some slot =>
      match rebaseLoop slots numSlots offset rest with
      | none => none
      | some newOrder =>
        some (slot.RebaseIndex (rebasedIndex numSlots offset slot.m_index) :: newOrder)

/-- `StdmaSlotManager::RebaseFrameStart (now)`. -/
def RebaseFrameStart (s : StdmaSlotManager) (now : Time) : Option StdmaSlotManager :=
  if s.m_selections.length = 0 then
    if Int.tmod (now - s.m_lastFrameStart) s.m_slotDuration = 0 then
      match rebaseLoop s.m_slots s.m_numSlots
          (u32cast (Int.tdiv (now - s.m_lastFrameStart) s.m_slotDuration))
          (List.range s.m_slots.length) with
      | none => none
      | some newOrder =>
        some { s with
          m_slots := newOrder.foldl (fun m slot => mapInsert m slot.m_index slot) []
          m_lastFrameStart := now }
    else none
  else none

/-- The slot entered into `newOrder` by the pass `i` of the loop of `RebaseFrameStart`. -/
def rebasedSlot (slots : List (Nat × StdmaSlot)) (numSlots offset i : Nat) : StdmaSlot :=
  match mapFind slots i with
  | some slot => slot.RebaseIndex (rebasedIndex numSlots offset slot.m_index)
  | none => StdmaSlot.create 0

/-- `StdmaSlotManager::GetStart`. -/
def GetStart (s : StdmaSlotManager) : Time := s.m_start

/-- `StdmaSlotManager::GetFrameDuration`. -/
def GetFrameDuration (s : StdmaSlotManager) : Time := s.m_frameDuration

/-- `StdmaSlotManager::GetSlotsPerFrame`. -/
def GetSlotsPerFrame (s : StdmaSlotManager) : Nat := s.m_numSlots

end StdmaSlotManager

/-- The members of `class RandomAccessDetails`, with the probability as an exact rational
number (the reading of `GetNetworkEntryTimestamp` in exact arithmetic). -/
structure RandomAccessDetails where
  m_when : Time
  m_p : ℚ
  m_slotsLeft : Nat
deriving DecidableEq

namespace StdmaSlotManager

/-! ### Network entry -/

/-- The time `until` of the scans of `GetNetworkEntryTimestamp` and `HasFreeSlotsLeft` for
the loop counter `i`: `Now () + Seconds ((i - start + 1) * m_slotDuration.GetSeconds ())`,
the product of the `uint32_t` count and the `double` seconds. -/
def entryUntil (s : StdmaSlotManager) (now : Time) (start i : Nat) : Time :=
  now + Seconds
    (Double.mul (Double.ofInt ((u32add (u32sub i start) 1 : Nat) : Int))
      (GetSeconds s.m_slotDuration))

/-- The slot bound to `i` is free until `entryUntil`. -/
def entryFree (s : StdmaSlotManager) (now : Time) (start i : Nat) : Bool :=
  match mapFind s.m_slots i with
  | none => false
  | some slot => slot.IsFree (entryUntil s now start i)

/-- The scan loop of `GetNetworkEntryTimestamp` over the remaining loop counters: the
candidates pushed, or `none` when one of its assertions fails. -/
def entryCandidates (s : StdmaSlotManager) (now : Time) (start : Nat) :
    List Nat → Option (List Nat)
  | [] => some []
  | i :: rest =>
    match mapFind s.m_slots i with
    | none => none
    | some slot =>
      if slot.m_index = i then
        match entryCandidates s now start rest with
        | none => none
        | some candidates =>
          if slot.IsFree (entryUntil s now start i) = true then some (i :: candidates)
          else some candidates
      else none

/-- The loop `while (randomValue > prob && no < (n-1))` of `GetNetworkEntryTimestamp`, run for
at most `fuel` tests of its condition, from the counter `no` and the level `prob`; the value
drawn for the counter `no` is `draws no`.  The result is the final `(no, prob)`. -/
def entryTrials (draws : Nat → ℚ) (incr : ℚ) (n : Nat) : Nat → Nat → ℚ → Option (Nat × ℚ)
  | 0, _, _ => none
  | fuel + 1, no, prob =>
    if draws no > prob ∧ no < u32sub n 1 then entryTrials draws incr n fuel (no + 1) (prob + incr)
    else some (no, prob)

/-- `StdmaSlotManager::GetNetworkEntryTimestamp (remainingSlots, p)` read in exact
arithmetic (the probability and the draws are rational numbers; `GetNetworkEntryTimestamp64`
is the same function in `double` arithmetic), with the values `draws 0, draws 1, ...`
returned by the random variable.  The loop of trials gets
`candidates.size ()` tests of its condition, which is enough when there is a candidate;
without a candidate `candidates.at (no)` throws. -/
def GetNetworkEntryTimestamp (s : StdmaSlotManager) (now : Time) (draws : Nat → ℚ)
    (remainingSlots : Nat) (p : ℚ) : Option (StdmaSlotManager × RandomAccessDetails) :=
  match ageCheck s now with
  | none => none
  | some s1 =>
    match GetSlotIndexForTimestamp s1 now now with
    | none => none
    | some (s2, start) =>
      let endIndex := u32add start remainingSlots
      match entryCandidates s2 now start (List.range' start (endIndex - start)) with
      | none => none
      | some candidates =>
        let n := candidates.length
        let incr : ℚ := if p ≤ 1 then (1 - p) / (n : ℚ) else 0
        match entryTrials draws incr n n 0 (p + incr) with
        | none => none
        | some (no, prob) =>
          match candidates[no]? with
          | none => none
          | some slotIndex =>
            let slotoffset := u32sub slotIndex start
            some (s2,
              { m_when := now + (slotoffset : Int) * s2.m_slotDuration
                m_p := prob
                m_slotsLeft := u16cast (u32sub remainingSlots (u32sub slotIndex start)) })

/-- The members of `class RandomAccessDetails`, with the probability as a `double`. -/
structure RandomAccessDetails64 where
  m_when : Time
  m_p : Double
  m_slotsLeft : Nat
deriving DecidableEq

/-- The loop `while (randomValue > prob && no < (n-1))` of `GetNetworkEntryTimestamp` in
`double` arithmetic, run for at most `fuel` tests of its condition, from the counter `no` and
the level `prob`; the value drawn for the counter `no` is `draws no`. -/
def entryTrials64 (draws : Nat → Double) (incr : Double) (n : Nat) :
    Nat → Nat → Double → Option (Nat × Double)
  | 0, _, _ => none
  | fuel + 1, no, prob =>
    if Double.lt prob (draws no) = true ∧ no < u32sub n 1 then
      entryTrials64 draws incr n fuel (no + 1) (Double.add prob incr)
    else some (no, prob)

/-- `StdmaSlotManager::GetNetworkEntryTimestamp (remainingSlots, p)` with the probability
computed as the source does, in `double` arithmetic: `incr = (1.0 - p) / n` when `p <= 1.0`,
`prob = p + incr`, and `prob += incr` after each unsuccessful trial.  The values
`draws 0, draws 1, ...` are those returned by the random variable. -/
def GetNetworkEntryTimestamp64 (s : StdmaSlotManager) (now : Time) (draws : Nat → Double)
    (remainingSlots : Nat) (p : Double) : Option (StdmaSlotManager × RandomAccessDetails64) :=
  match ageCheck s now with
  | none => none
  | some s1 =>
    match GetSlotIndexForTimestamp s1 now now with
    | none => none
    | some (s2, start) =>
      let endIndex := u32add start remainingSlots
      match entryCandidates s2 now start (List.range' start (endIndex - start)) with
      | none => none
      | some candidates =>
        let n := candidates.length
        let incr : Double :=
          if Double.le p (Double.ofInt 1) = true then
            Double.div (Double.sub (Double.ofInt 1) p) (Double.ofInt (n : Int))
          else ⟨0, 0⟩
        match entryTrials64 draws incr n n 0 (Double.add p incr) with
        | none => none
        | some (no, prob) =>
          match candidates[no]? with
          | none => none
          | some slotIndex =>
            let slotoffset := u32sub slotIndex start
            some (s2,
              { m_when := now + (slotoffset : Int) * s2.m_slotDuration
                m_p := prob
                m_slotsLeft := u16cast (u32sub remainingSlots (u32sub slotIndex start)) })

/-- The loop of `HasFreeSlotsLeft` over the remaining loop counters; `none` when a slot is
missing (`m_slots[i]` is then a null pointer). -/
def freeSlotsScan (s : StdmaSlotManager) (now : Time) (start : Nat) : List Nat → Option Bool
  | [] => some false
  | i :: rest =>
    match mapFind s.m_slots i with
    | none => none
    | some slot =>
      if slot.IsFree (entryUntil s now start i) = true then some true
      else freeSlotsScan s now start rest

/-- `StdmaSlotManager::HasFreeSlotsLeft (remainingSlots)`. -/
def HasFreeSlotsLeft (s : StdmaSlotManager) (now : Time) (remainingSlots : Nat) :
    Option (StdmaSlotManager × Bool) :=
  match GetSlotIndexForTimestamp s now now with
  | none => none
  | some (s1, start) =>
    match freeSlotsScan s1 now start
        (List.range' start (u32add start remainingSlots - start)) with
    | none => none
    | some b => some (s1, b)

/-- `StdmaSlotManager::IsCurrentSlotStillFree`. -/
def IsCurrentSlotStillFree (s : StdmaSlotManager) (now : Time) :
    Option (StdmaSlotManager × Bool) :=
  match ageCheck s now with
  | none => none
  | some s1 =>
    match GetSlotIndexForTimestamp s1 now now with
    | none => none
    | some (s2, index) =>
      if index < s2.m_slots.length then
        match mapFind s2.m_slots index with
        | none => none
        | some slot => some (s2, slot.IsFree (now + s2.m_slotDuration))
      else none

end StdmaSlotManager

/-! ## `StdmaHeader` and the offset exchanged between stations -/

/-- The fields of `class StdmaHeader`; `m_latitude` and `m_longitude` are of type `double`,
here a rational number. -/
structure StdmaHeader where
  m_latitude : ℚ
  m_longitude : ℚ
  m_offset : Nat
  m_timeout : Nat
  m_entry : Nat
deriving DecidableEq

/-- The byte order in which `ns3::Buffer::Iterator` stores 16-bit and 32-bit words (the
library leaves the format open and only pairs each write with its read). -/
inductive ByteOrder where
  | leastSignificantFirst
  | mostSignificantFirst
deriving DecidableEq

namespace Buffer

/-- `ns3::Buffer::Iterator::WriteU8`. -/
def WriteU8 (data : Nat) : List Nat := [data % 256]

/-- `ns3::Buffer::Iterator::WriteU16`. -/
def WriteU16 (order : ByteOrder) (data : Nat) : List Nat :=
  match order with
  | ByteOrder.leastSignificantFirst => [data % 256, data / 256 % 256]
  | ByteOrder.mostSignificantFirst => [data / 256 % 256, data % 256]

/-- `ns3::Buffer::Iterator::WriteU32`. -/
def WriteU32 (order : ByteOrder) (data : Nat) : List Nat :=
  match order with
  | ByteOrder.leastSignificantFirst =>
    [data % 256, data / 256 % 256, data / 65536 % 256, data / 16777216 % 256]
  | ByteOrder.mostSignificantFirst =>
    [data / 16777216 % 256, data / 65536 % 256, data / 256 % 256, data % 256]

/-- `ns3::Buffer::Iterator::ReadU16` on the two octets read. -/
def ReadU16 (order : ByteOrder) (b0 b1 : Nat) : Nat :=
  match order with
  | ByteOrder.leastSignificantFirst => b0 + 256 * b1
  | ByteOrder.mostSignificantFirst => 256 * b0 + b1

/-- `ns3::Buffer::Iterator::ReadU32` on the four octets read. -/
def ReadU32 (order : ByteOrder) (b0 b1 b2 b3 : Nat) : Nat :=
  match order with
  | ByteOrder.leastSignificantFirst => b0 + 256 * b1 + 65536 * b2 + 16777216 * b3
  | ByteOrder.mostSignificantFirst => 16777216 * b0 + 65536 * b1 + 256 * b2 + b3

end Buffer

namespace StdmaHeader

/-- The constructor `StdmaHeader::StdmaHeader ()`. -/
def create : StdmaHeader :=
  { m_latitude := 0, m_longitude := 0, m_offset := 0, m_timeout := 0, m_entry := 0 }

/-- `StdmaHeader::GetSerializedSize`: the sum of the `sizeof` of the five members. -/
def GetSerializedSize (_h : StdmaHeader) : Nat :=
  SIZEOF_DOUBLE + SIZEOF_DOUBLE + 2 + 1 + 1

/-- `StdmaHeader::Serialize`: the octets written at the iterator. -/
def Serialize (order : ByteOrder) (h : StdmaHeader) : List Nat :=
  Buffer.WriteU32 order (doubleToU32 h.m_latitude) ++
    (Buffer.WriteU32 order (doubleToU32 h.m_longitude) ++
      (Buffer.WriteU16 order h.m_offset ++ (Buffer.WriteU8 h.m_timeout ++ Buffer.WriteU8 h.m_entry)))

/-- `StdmaHeader::Deserialize` on the octets at the iterator: the header read and the value
returned; `none` when the buffer ends before the last octet read. -/
def Deserialize (order : ByteOrder) (start : List Nat) : Option (StdmaHeader × Nat) :=
  match start with
  | b0 :: b1 :: b2 :: b3 :: b4 :: b5 :: b6 :: b7 :: b8 :: b9 :: b10 :: b11 :: _ =>
    some ({ m_latitude := (Buffer.ReadU32 order b0 b1 b2 b3 : Nat)
            m_longitude := (Buffer.ReadU32 order b4 b5 b6 b7 : Nat)
            m_offset := Buffer.ReadU16 order b8 b9
            m_timeout := b10
            m_entry := b11 },
      SIZEOF_DOUBLE + SIZEOF_DOUBLE + 2 + 1 + 1)
  | _ => none

/-- `StdmaHeader::SetLatitude (double lat)`. -/
def SetLatitude (h : StdmaHeader) (lat : ℚ) : StdmaHeader :=
  { h with m_latitude := lat }

/-- `StdmaHeader::GetLatitude`. -/
def GetLatitude (h : StdmaHeader) : ℚ := h.m_latitude

/-- `StdmaHeader::SetLongitude (double lon)`. -/
def SetLongitude (h : StdmaHeader) (lon : ℚ) : StdmaHeader :=
  { h with m_longitude := lon }

/-- `StdmaHeader::GetLongitude`. -/
def GetLongitude (h : StdmaHeader) : ℚ := h.m_longitude

/-- `StdmaHeader::SetOffset (uint16_t offset)`: the argument is converted to 16 bits. -/
def SetOffset (h : StdmaHeader) (offset : Nat) : StdmaHeader :=
  { h with m_offset := u16cast offset }

/-- `StdmaHeader::GetOffset`. -/
def GetOffset (h : StdmaHeader) : Nat := h.m_offset

/-- `StdmaHeader::SetTimeout (uint8_t timeout)`. -/
def SetTimeout (h : StdmaHeader) (timeout : Nat) : StdmaHeader :=
  { h with m_timeout := timeout % 256 }

/-- `StdmaHeader::GetTimeout`. -/
def GetTimeout (h : StdmaHeader) : Nat := h.m_timeout

/-- `StdmaHeader::SetNetworkEntry`. -/
def SetNetworkEntry (h : StdmaHeader) : StdmaHeader :=
  { h with m_entry := 1 }

/-- `StdmaHeader::GetNetworkEntry`. -/
def GetNetworkEntry (h : StdmaHeader) : Bool := decide (h.m_entry > 0)

end StdmaHeader

namespace StdmaMac

/-- The slot `newSlot` computed by `StdmaMac::Receive` for a packet with `timeout = 0` that
is no network entry, from the current slot index and the received offset (`uint32_t`
arithmetic). -/
def receiveNewSlot (slotsPerFrame current offset : Nat) : Nat :=
  if u32add current offset < slotsPerFrame then u32add current offset
  else
    let newSlot := u32sub (u32add current offset) slotsPerFrame
    if newSlot ≥ slotsPerFrame then u32sub newSlot slotsPerFrame else newSlot

/-- The offset field as read by a receiver when `StdmaMac::DoTransmit` announces the value
returned by the re-reservation: `stdmaHdr.SetOffset (offset)` at the sender,
`stdmaHdr.GetOffset ()` at the receiver. -/
def announcedOffset (offset : Nat) : Nat :=
  (StdmaHeader.create.SetOffset offset).GetOffset

/-- The slot `next` computed by `StdmaMac::Receive` for a packet with `timeout > 0` and for a
network entry packet (`uint32_t` arithmetic). -/
def receiveNext (slotsPerFrame current offset : Nat) : Nat :=
  if u32add current offset < slotsPerFrame then u32add current offset
  else u32sub (u32add current offset) slotsPerFrame

/-- `StdmaMac::Receive` for a broadcast data packet from `from_` with the STDMA header
`stdmaHdr`: the slot manager after the call.  `m_startedUp` and `m_frameDuration` are the
members of the MAC; `secondsToTime` is the constructor `ns3::Seconds (double)` of the library,
applied to the exact value of the `double` product `slotDuration * (offset-1)` (the function
`SecondsOfRat` is the reading of the library used for `Seconds`).
The position handed to the slot manager has the coordinates of the header (whole numbers in a
header read from a packet). -/
def Receive (m_startedUp : Bool) (m_frameDuration : Time) (secondsToTime : ℚ → Time)
    (m_manager : StdmaSlotManager) (now : Time) (from_ : Mac48Address)
    (stdmaHdr : StdmaHeader) : Option StdmaSlotManager :=
  if m_startedUp = false then some m_manager
  else if m_manager.GetStart > now then some m_manager
  else
    match m_manager.GetSlotIndexForTimestamp now now with
    | none => none
    | some (m0, current) =>
      let position : Vector := ⟨⌊stdmaHdr.GetLatitude⌋, ⌊stdmaHdr.GetLongitude⌋, 0⟩
      let timeout := stdmaHdr.GetTimeout
      let offset := stdmaHdr.GetOffset
      if timeout > 0 then
        match m0.MarkSlotAsAllocated now current timeout from_ position 0 with
        | none => none
        | some m1 =>
          m1.MarkSlotAsAllocated now (receiveNext m0.GetSlotsPerFrame current offset) 1 from_
            position 0
      else if stdmaHdr.GetNetworkEntry = true then
        if receiveNext m0.GetSlotsPerFrame current offset < m0.GetSlotsPerFrame then
          m0.MarkSlotAsAllocated now (receiveNext m0.GetSlotsPerFrame current offset) 1 from_
            position 0
        else none
      else
        if receiveNewSlot m0.GetSlotsPerFrame current offset < m0.GetSlotsPerFrame then
          match m0.GetSlot current with
          | none => none
          | some slot =>
            match (if slot.m_internal = false then m0.MarkSlotAsFreeAgain now current
                   else some m0) with
            | none => none
            | some m1 =>
              let slotDuration : Double :=
                Double.div (GetSeconds m_frameDuration)
                  (Double.ofInt (m1.GetSlotsPerFrame : Int))
              m1.MarkSlotAsAllocated now (receiveNewSlot m0.GetSlotsPerFrame current offset) 2
                from_ position
                (now + secondsToTime
                  (Double.toRat (Double.mul slotDuration (Double.ofInt ((offset : Int) - 1)))))
        else none

end StdmaMac

/-! ## Reachable states and state predicates -/

open StdmaSlotManager in
/-- The states of a slot manager configured once (`Setup`, `SetReportRate`,
`SetSelectionIntervalRatio` with a ratio in `[0, 1]`, `SelectNominalSlots`) and then driven by
first selections (one per reservation index), re-selections, timeout decrements, external
allocation marks and frame-boundary updates. -/
inductive Reachable (distance : Vector → Nat) : StdmaSlotManager → Prop
  | init (start frameDuration slotDuration : Time) (candidateSlots rate ratioNum ratioDen : Nat)
      (now : Time) (NSS : Nat) (s : StdmaSlotManager) :
      1 ≤ rate →
      rate ≤ (Setup create start frameDuration slotDuration candidateSlots).m_numSlots →
      ratioNum ≤ ratioDen → 0 < ratioDen →
      SelectNominalSlots
        (SetSelectionIntervalRatio
          (SetReportRate (Setup create start frameDuration slotDuration candidateSlots) rate)
          ratioNum ratioDen) now NSS = some s →
      Reachable distance s
  | select (s s1 : StdmaSlotManager) (now : Time) (selection n timeout : Nat) :
      Reachable distance s → mapFind s.m_selections n = none →
      SelectTransmissionSlotForReservationWithNo s now distance selection n timeout = some s1 →
      Reachable distance s1
  | reselect (s s1 : StdmaSlotManager) (now : Time) (selection n timeout offset : Nat) :
      Reachable distance s →
      ReSelectTransmissionSlotForReservationWithNo s now distance selection n timeout
        = some (s1, offset) →
      Reachable distance s1
  | decrease (s s1 : StdmaSlotManager) (now : Time) (n newValue : Nat) :
      Reachable distance s →
      DecreaseTimeOutOfReservationWithNumber s now n = some (s1, newValue) →
      Reachable distance s1
  | markAllocated (s s1 : StdmaSlotManager) (now : Time) (index timeout : Nat)
      (node : Mac48Address) (position : Vector) (notbefore : Time) :
      Reachable distance s →
      MarkSlotAsAllocated s now index timeout node position notbefore = some s1 →
      Reachable distance s1
  | aging (s s1 : StdmaSlotManager) (now : Time) :
      Reachable distance s → UpdateSlotObservations s now = some s1 →
      Reachable distance s1

/-- The ring is well formed: its keys are `0, ..., m_numSlots - 1` and every slot carries
its key as index. -/
def RingOK (s : StdmaSlotManager) : Prop :=
  s.m_slots.map Prod.fst = List.range s.m_numSlots ∧ ∀ p ∈ s.m_slots, p.2.m_index = p.1

/-- The slot left by one pass of the loop body of `UpdateSlotObservations` (when its
assertion holds). -/
def agedSlot (now : Time) (slot : StdmaSlot) : StdmaSlot :=
  StdmaSlotManager.ageBusy now
    (StdmaSlotManager.ageAllocated now
      (if slot.m_internal = true ∧ slot.m_internalTimeout ≤ 0 then slot.MarkAsFree else slot))

/-- The slot is internally allocated with an expired internal timeout while a peer holds it:
the case in which `UpdateSlotObservations` consults the collision memory. -/
def expiredCollision (now : Time) (slot : StdmaSlot) : Bool :=
  slot.m_internal && decide (slot.m_internalTimeout ≤ 0) && slot.IsAllocated now

/-- The owners looked up in the collision memory by one run of `UpdateSlotObservations`
over the given keys, in the order of the run. -/
def expiredOwners (now : Time) (slots : List (Nat × StdmaSlot)) : List Nat → List Mac48Address
  | [] => []
  | i :: rest =>
    match mapFind slots i with
    | none => expiredOwners now slots rest
    | some slot =>
      if expiredCollision now slot = true then slot.m_owner :: expiredOwners now slots rest
      else expiredOwners now slots rest

/-- The assertion of `UpdateSlotObservations` holds throughout a run at time `now`: every
peer it looks up is in the collision memory, and no peer is looked up twice. -/
def AgingAssertsHold (s : StdmaSlotManager) (now : Time) : Prop :=
  (expiredOwners now s.m_slots (List.range s.m_slots.length)).Nodup ∧
    ∀ o ∈ expiredOwners now s.m_slots (List.range s.m_slots.length),
      (mapFind s.m_collisions o).isSome = true


/-- No internally allocated slot of the ring has an expired internal timeout. -/
def NoExpired (s : StdmaSlotManager) : Prop :=
  ∀ k slot, mapFind s.m_slots k = some slot → slot.m_internal = true → 0 < slot.m_internalTimeout

/-- A ring of four slots, as left by `MarkSlotAsBusy (2)` and by
`MarkSlotAsAllocated (3, 8, owner, position, 0)` on a fresh ring (the situation of the unit
test of the slot manager, scaled down). -/
def exampleRing : List (Nat × StdmaSlot) :=
  [(0, StdmaSlot.create 0), (1, StdmaSlot.create 1), (2, (StdmaSlot.create 2).MarkAsBusy),
    (3, (StdmaSlot.create 3).MarkAsAllocated 0 8 171 ⟨1, 0, 0⟩ 0)]

/-- A manager set up with four slots of 10 ns that holds `exampleRing`. -/
def exampleManager : StdmaSlotManager :=
  { StdmaSlotManager.Setup StdmaSlotManager.create 0 40 10 4 with m_slots := exampleRing }

/-- A manager configured as `StdmaMac::StartInitializationPhase` and
`StdmaMac::PerformNetworkEntry` do: eight slots of 10 ns, report rate 2 (nominal increment
4), selection interval ratio 1 (`SI/2 = 1`), nominal start slot 1 (nominal slots 1 and 5). -/
def configuredManager : StdmaSlotManager :=
  (StdmaSlotManager.SelectNominalSlots
    (StdmaSlotManager.SetSelectionIntervalRatio
      (StdmaSlotManager.SetReportRate
        (StdmaSlotManager.Setup StdmaSlotManager.create 0 80 10 4) 2) 1 1) 0 1).getD
    StdmaSlotManager.create

/-- The manager `configuredManager` after the first selections of its two reservations
(timeout 5, second candidate drawn): reservation 0 is bound to slot 1 and reservation 1 to
slot 5. -/
def reservedManager : StdmaSlotManager :=
  ((StdmaSlotManager.SelectTransmissionSlotForReservationWithNo configuredManager 0
      (fun _ => 0) 1 0 5).bind
    (fun s => StdmaSlotManager.SelectTransmissionSlotForReservationWithNo s 0
      (fun _ => 0) 1 1 5)).getD StdmaSlotManager.create

/-- A manager set up at 95 ns with slots of 10 ns, so that its first frame starts at 100 ns
(eight slots, report rate 2, nominal slots 1 and 5), after the first selection of reservation
0, made at 95 ns: the reservation is bound to slot 1. -/
def earlyManager : StdmaSlotManager :=
  ((StdmaSlotManager.SelectNominalSlots
      (StdmaSlotManager.SetSelectionIntervalRatio
        (StdmaSlotManager.SetReportRate
          (StdmaSlotManager.Setup StdmaSlotManager.create 95 80 10 4) 2) 1 1) 95 1).bind
    (fun s => StdmaSlotManager.SelectTransmissionSlotForReservationWithNo s 95
      (fun _ => 0) 1 0 5)).getD StdmaSlotManager.create

/-- The index `c` is the index of a ring slot visited by the selection scan for one of the
loop counters in `l`. -/
def Scanned (s : StdmaSlotManager) (l : List Int) (c : Nat) : Prop :=
  ∃ i ∈ l, ∃ j slot, StdmaSlotManager.wrapIndex s.m_numSlots s.m_slots.length i = some j ∧
    mapFind s.m_slots j = some slot ∧ c = slot.m_index

/-- The index lies in the selection window of reservation `n`: it is `(NS_n + d) mod N` for
some `d` with `|d| <= SI/2`. -/
def InWindow (s : StdmaSlotManager) (n index : Nat) : Prop :=
  ∃ d : Int, |d| ≤ (s.m_siHalf : Int) ∧
    (index : Int) = (((s.m_nss[n]?.getD 0 : Nat) : Int) + d) % (s.m_numSlots : Int)

/-- The two states agree on the frame geometry and on the nominal slots. -/
def SameConfig (s s1 : StdmaSlotManager) : Prop :=
  s1.m_numSlots = s.m_numSlots ∧ s1.m_nss = s.m_nss ∧ s1.m_siHalf = s.m_siHalf ∧
    s1.m_rate = s.m_rate ∧ s1.m_ni = s.m_ni ∧ s1.m_frameDuration = s.m_frameDuration ∧
    s1.m_slotDuration = s.m_slotDuration

/-- The nominal slots are `NSS + k * NI` for `k < R`, the `R` nominal increments fit into the
frame, and the selection windows are narrower than the nominal increment. -/
def NominalGeometry (s : StdmaSlotManager) : Prop :=
  s.m_rate * s.m_ni ≤ s.m_numSlots ∧ 2 * s.m_siHalf < s.m_ni ∧
    ∃ NSS, NSS < s.m_ni ∧ s.m_nss = (List.range s.m_rate).map (fun k => NSS + k * s.m_ni)

/-- The invariant behind the reservation map: the ring is well formed, the nominal slots are
laid out by `SelectNominalSlots`, every reservation is bound to a slot of its own selection
window, and every internally allocated slot is bound to some reservation. -/
structure ReservationInv (s : StdmaSlotManager) : Prop where
  ring : RingOK s
  geometry : NominalGeometry s
  bound : ∀ n key, mapFind s.m_selections n = some key → n < s.m_rate ∧ InWindow s n key
  referenced : ∀ key slot, mapFind s.m_slots key = some slot → slot.m_internal = true →
    ∃ n, mapFind s.m_selections n = some key

/-- The collision memory covers the ring: every internally allocated slot in state ALLOCATED has
its owner in `m_collisions`, and two different such slots have different owners. -/
def CollisionsRecorded (s : StdmaSlotManager) : Prop :=
  (∀ p ∈ s.m_slots, p.2.m_internal = true → p.2.m_state = State.ALLOCATED →
    (mapFind s.m_collisions p.2.m_owner).isSome = true) ∧
  ∀ p ∈ s.m_slots, ∀ q ∈ s.m_slots, p.2.m_internal = true → p.2.m_state = State.ALLOCATED →
    q.2.m_internal = true → q.2.m_state = State.ALLOCATED → p.2.m_owner = q.2.m_owner →
    p.1 = q.1


/-- An event in the life of one reservation: a call of `UpdateSlotObservations`, of
`DecreaseTimeOutOfReservationWithNumber (n)` or of `NeedsReReservation (n)`, each at a clock
reading `now`. -/
inductive TimeoutEvent where
  | aging (now : Time)
  | decrease (now : Time)
  | query (now : Time)
deriving DecidableEq

/-- The value returned by an event: the new timeout of a decrement, or the answer of
`NeedsReReservation`. -/
inductive TimeoutOutput where
  | newValue (v : Nat)
  | needsReReservation (b : Bool)
deriving DecidableEq

/-- A run of events on reservation `n`, with the values returned by the calls. -/
def timeoutRun (n : Nat) :
    List TimeoutEvent → StdmaSlotManager → Option (StdmaSlotManager × List TimeoutOutput)
  | [], s => some (s, [])
  | TimeoutEvent.aging now :: rest, s =>
    match StdmaSlotManager.UpdateSlotObservations s now with
    | none => none
    | some s1 => timeoutRun n rest s1
  | TimeoutEvent.decrease now :: rest, s =>
    match StdmaSlotManager.DecreaseTimeOutOfReservationWithNumber s now n with
    | none => none
    | some (s1, v) =>
      match timeoutRun n rest s1 with
      | none => none
      | some (s2, out) => some (s2, TimeoutOutput.newValue v :: out)
  | TimeoutEvent.query now :: rest, s =>
    match StdmaSlotManager.NeedsReReservation s now n with
    | none => none
    | some (s1, b) =>
      match timeoutRun n rest s1 with
      | none => none
      | some (s2, out) => some (s2, TimeoutOutput.needsReReservation b :: out)

/-- The number of decrements in a run. -/
def decreaseCount : List TimeoutEvent → Nat
  | [] => 0
  | TimeoutEvent.decrease _ :: rest => decreaseCount rest + 1
  | _ :: rest => decreaseCount rest

/-- The values the specification expects from a run on a reservation with `r` decrements
left: a decrement returns the number of decrements left after it (the `j`-th one returns
`T - j`), a query answers true exactly when none is left, aging passes return nothing. -/
def expectedTimeoutTrace : Nat → List TimeoutEvent → List TimeoutOutput
  | _, [] => []
  | r, TimeoutEvent.aging _ :: rest => expectedTimeoutTrace r rest
  | r, TimeoutEvent.decrease _ :: rest =>
    TimeoutOutput.newValue (r - 1) :: expectedTimeoutTrace (r - 1) rest
  | r, TimeoutEvent.query _ :: rest =>
    TimeoutOutput.needsReReservation (decide (r = 0)) :: expectedTimeoutTrace r rest

/-- The slot of a reservation with `r` decrements left: its internal timeout is `r`, and it is
internally allocated while `r` is positive. -/
def TimeoutLeft (r : Nat) (slot : StdmaSlot) : Prop :=
  slot.m_internalTimeout = r ∧ (0 < r → slot.m_internal = true)

/-- The state of a run on reservation `n`, bound to the ring key `key`, with `r` decrements
left. -/
def TimeoutInv (n key r : Nat) (s : StdmaSlotManager) : Prop :=
  RingOK s ∧ CollisionsRecorded s ∧ mapFind s.m_selections n = some key ∧
    ∃ slot, mapFind s.m_slots key = some slot ∧ TimeoutLeft r slot

/-- A fresh manager with eight free slots of 10 ns (frame start 0). -/
def freshManager : StdmaSlotManager :=
  StdmaSlotManager.Setup StdmaSlotManager.create 0 80 10 4

/-- A fresh manager with eight slots of 10 ns whose slot 0 has been marked busy. -/
def takenManager : StdmaSlotManager :=
  (StdmaSlotManager.MarkSlotAsBusy freshManager 0 0).getD StdmaSlotManager.create

namespace StdmaSlotManager

/-- The ring keys `j` under which the selection scan fetches `m_slots[j]`, in the order of
the loop over the counters `i`: a negative counter is skipped on the first selection
(`skipNegative`), any other counter is wrapped around once; `none` when `NS_ASSERT (j >= 0)`
or `NS_ASSERT (j < m_slots.size ())` fails for some counter. -/
def scanKeys (numSlots size : Nat) (skipNegative : Bool) : List Int → Option (List Nat)
  | [] => some []
  | i :: rest =>
    if i < 0 ∧ skipNegative = true then scanKeys numSlots size skipNegative rest
    else
      match wrapIndex numSlots size i with
      | none => none
      | some j =>
        match scanKeys numSlots size skipNegative rest with
        | none => none
        | some keys => some (j :: keys)

/-- The body of the scan loop for the slot fetched: a slot free until `until_` is pushed to
`candidates`, an externally allocated one is entered into `usedSlots` under the distance of
its owner, any other slot is passed over. -/
def scanStep (now until_ : Time) (distance : Vector → Nat)
    (acc : List Nat × List (Nat × Nat)) (slot : StdmaSlot) : List Nat × List (Nat × Nat) :=
  if slot.IsFree until_ = true then (acc.1 ++ [slot.m_index], acc.2)
  else if slot.IsAllocated now = true ∧ slot.m_internal = false then
    (acc.1, mapInsert acc.2
      (freeDistance acc.2 (acc.2.length + 1) (distance slot.m_position)) slot.m_index)
  else acc

/-- The scan loop run over the ring keys it visits. -/
def scanFold (s : StdmaSlotManager) (now until_ : Time) (distance : Vector → Nat) :
    List Nat → List Nat × List (Nat × Nat) → Option (List Nat × List (Nat × Nat))
  | [], acc => some acc
  | j :: rest, acc =>
    match mapFind s.m_slots j with
    | none => none
    | some slot => scanFold s now until_ distance rest (scanStep now until_ distance acc slot)

end StdmaSlotManager

/-- The selection window of the nominal slot `NS` as the specification describes it: the ring
keys `(NS + d) mod N` for `d = -SI/2, ..., SI/2` in this order, without the `d` with
`NS + d < 0` when `skipNegative` is set. -/
def windowKeys (N NS siHalf : Nat) (skipNegative : Bool) : List Nat :=
  ((StdmaSlotManager.scanCounters NS siHalf).filter
    (fun i => !(decide (i < 0) && skipNegative))).map (fun i => (i % (N : Int)).toNat)

/-- The slot under the ring key `j` is free until `until_` (`IsFree (until)`). -/
def slotFreeAt (s : StdmaSlotManager) (until_ : Time) (j : Nat) : Bool :=
  match mapFind s.m_slots j with
  | none => false
  | some slot => slot.IsFree until_

/-- The slot under the ring key `j` is effectively externally allocated at `now` and not
internally allocated (`IsAllocated () && !IsInternallyAllocated ()`). -/
def slotExternalAt (s : StdmaSlotManager) (now : Time) (j : Nat) : Bool :=
  match mapFind s.m_slots j with
  | none => false
  | some slot => slot.IsAllocated now && !slot.m_internal

/-- The owner of the slot under the ring key `j` is in the collision memory. -/
def ownerCollides (s : StdmaSlotManager) (j : Nat) : Bool :=
  match mapFind s.m_slots j with
  | none => false
  | some slot => (mapFind s.m_collisions slot.m_owner).isSome

/-- The distance between this station and the owner of the slot under the ring key `j`. -/
def ownerDistance (s : StdmaSlotManager) (distance : Vector → Nat) (j : Nat) : Nat :=
  match mapFind s.m_slots j with
  | none => 0
  | some slot => distance slot.m_position

/-- The map `usedSlots` after the scan entered the slots with the keys `l`, in this order,
starting from the map `m`. -/
def usedFold (s : StdmaSlotManager) (distance : Vector → Nat) (l : List Nat)
    (m : List (Nat × Nat)) : List (Nat × Nat) :=
  l.foldl (fun m j =>
    mapInsert m (StdmaSlotManager.freeDistance m (m.length + 1) (ownerDistance s distance j)) j) m

/-- The manager `configuredManager` (nominal slot 1, scan over the slots 0, 1, 2) after three
receptions at time 0: slot 0 is allocated by a station at distance 0, slot 1 by a station at
distance 1 and slot 2 by another station at distance 0 (distances in steps of the tie-break
increment). -/
def tieManager : StdmaSlotManager :=
  (((StdmaSlotManager.MarkSlotAsAllocated configuredManager 0 0 3 10 ⟨0, 0, 0⟩ 0).bind
      (fun s => StdmaSlotManager.MarkSlotAsAllocated s 0 1 3 11 ⟨1, 0, 0⟩ 0)).bind
    (fun s => StdmaSlotManager.MarkSlotAsAllocated s 0 2 3 12 ⟨0, 0, 0⟩ 0)).getD
    StdmaSlotManager.create

/-- The manager `configuredManager` (no reservation yet, nominal slot 1, scan over the slots
0, 1, 2) after `MarkSlotAsBusy` on the slots 0, 1 and 2 at time 0. -/
def busyManager : StdmaSlotManager :=
  (((StdmaSlotManager.MarkSlotAsBusy configuredManager 0 0).bind
      (fun s => StdmaSlotManager.MarkSlotAsBusy s 0 1)).bind
    (fun s => StdmaSlotManager.MarkSlotAsBusy s 0 2)).getD StdmaSlotManager.create

namespace StdmaMac

/-- The loop `for (uint32_t i = slotAtStart; i <= slotAtEnd; i++) m_manager->MarkSlotAsBusy (i);`
of `HandleMaybeCcaBusyStartNow` over the remaining values of `i`. -/
def markBusyLoop (now : Time) : List Nat → StdmaSlotManager → Option StdmaSlotManager
  | [], m => some m
  | i :: rest, m =>
    match m.MarkSlotAsBusy now i with
    | none => none
    | some m1 => markBusyLoop now rest m1

/-- `StdmaMac::HandleMaybeCcaBusyStartNow (duration)` at simulator time `now`;
`MicroSeconds (1)` is 1000 ns.  (For `slotAtEnd` equal to the largest `uint32_t` value the
loop condition `i <= slotAtEnd` never fails: `none`.) -/
def HandleMaybeCcaBusyStartNow (m_startedUp : Bool) (m_manager : StdmaSlotManager)
    (now duration : Time) : Option StdmaSlotManager :=
  if m_startedUp = true ∧ m_manager.GetStart ≤ now then
    match m_manager.GetSlotIndexForTimestamp now now with
    | none => none
    | some (m1, slotAtStart) =>
      match m1.GetSlotIndexForTimestamp now (now + duration - 1000) with
      | none => none
      | some (m2, slotAtEnd) =>
        if slotAtEnd + 1 < UINT32_MOD then
          markBusyLoop now (List.range' slotAtStart (slotAtEnd + 1 - slotAtStart)) m2
        else none
  else some m_manager

end StdmaMac

/-- A fresh manager with eight free slots of 10 microseconds (frame start 0, frame duration
80 microseconds). -/
def ccaManager : StdmaSlotManager :=
  StdmaSlotManager.Setup StdmaSlotManager.create 0 80000 10000 4

/-- A manager set up by a MAC whose configured frame duration, 85 ns, is not a multiple of the
slot duration, 10 ns: eight slots, frame duration of the manager 80 ns. -/
def oddManager : StdmaSlotManager :=
  StdmaSlotManager.Setup StdmaSlotManager.create 0 85 10 4

namespace StdmaSlotManager

/-- The ring keys looked up by the scan loop of `GetNetworkEntryTimestamp`
(`m_slots.find (i)`, `m_slots[i]`) over the remaining loop counters: the loop ends with the
counter for which one of its two assertions fails. -/
def entryReads (s : StdmaSlotManager) : List Nat → List Nat
  | [] => []
  | i :: rest =>
    match mapFind s.m_slots i with
    | none => [i]
    | some slot => if slot.m_index = i then i :: entryReads s rest else [i]

/-- The ring keys dereferenced by the loop of `HasFreeSlotsLeft` (`m_slots[i]`) over the
remaining loop counters: the loop returns at the first slot that is free, and it does not get
past a key that is not in the ring. -/
def freeSlotsReads (s : StdmaSlotManager) (now : Time) (start : Nat) : List Nat → List Nat
  | [] => []
  | i :: rest =>
    match mapFind s.m_slots i with
    | none => [i]
    | some slot =>
      if slot.IsFree (entryUntil s now start i) = true then [i]
      else i :: freeSlotsReads s now start rest

end StdmaSlotManager

/-- The state of a run on reservation `n`, bound to the ring key `key`, with `r` decrements
left, whatever the collision memory holds. -/
def TimeoutState (n key r : Nat) (s : StdmaSlotManager) : Prop :=
  RingOK s ∧ mapFind s.m_selections n = some key ∧
    ∃ slot, mapFind s.m_slots key = some slot ∧ TimeoutLeft r slot

/-- In the list `l` of the ring keys in scan order, the key `i` is scanned before the key
`j`. -/
def ScannedBefore (l : List Nat) (i j : Nat) : Prop :=
  ∃ l1 l2, l = l1 ++ j :: l2 ∧ i ∈ l1

/-- The rule of the keys of `usedSlots` after the scan entered the ring keys `l`: the keys
are strictly ascending, there is one entry per scanned key, and the key of an entry is not
below the distance of the owner of its slot, every value from this distance up to the key
being the key of a slot scanned earlier. -/
def KeyRule (s : StdmaSlotManager) (distance : Vector → Nat) (l : List Nat)
    (m : List (Nat × Nat)) : Prop :=
  (m.map Prod.fst).Sorted (· < ·) ∧ m.length = l.length ∧
  (∀ j ∈ l, ∃ k, (k, j) ∈ m) ∧
  ∀ p ∈ m, p.2 ∈ l ∧ ownerDistance s distance p.2 ≤ p.1 ∧
    ∀ d, ownerDistance s distance p.2 ≤ d → d < p.1 → ∃ i, (d, i) ∈ m ∧ ScannedBefore l i p.2

/-- The level reached from `x` by `j` additions of `incr` in `double` arithmetic. -/
def Double.addTimes (incr : Double) : Nat → Double → Double
  | 0, x => x
  | j + 1, x => Double.addTimes incr j (Double.add x incr)

/-- A manager set up with a frame of 5 ms and slots of 566000 ns (eight slots, frame start 0)
whose slot 0 was marked allocated at time 0 for a peer that transmits in it not before
566000 ns. -/
def deferredManager : StdmaSlotManager :=
  (StdmaSlotManager.MarkSlotAsAllocated
    (StdmaSlotManager.Setup StdmaSlotManager.create 0 5000000 566000 4) 0 0 3 171 ⟨0, 0, 0⟩
    566000).getD StdmaSlotManager.create

/-- The value is zero or has a mantissa of 53 bits: it is a `double`. -/
def Double.Is53 (x : Double) : Prop :=
  (x.m = 0 ∧ x.e = 0) ∨ (2 ^ 52 ≤ x.m.natAbs ∧ x.m.natAbs < 2 ^ 53)

/-! ## Lemmas on association lists -/

theorem mapFind_mapModify_same {α : Type} (m : List (Nat × α)) (k : Nat) (f : α → α) :
    mapFind (mapModify m k f) k = (mapFind m k).map f := by
  induction m with
  | nil => rfl
  | cons p rest ih =>
    obtain ⟨k', v⟩ := p
    by_cases h : k' = k
    · simp [mapModify, mapFind, h]
    · simp [mapModify, mapFind, h, ih]

theorem mapFind_mapModify_ne {α : Type} (m : List (Nat × α)) (k k' : Nat) (f : α → α)
    (hne : k ≠ k') : mapFind (mapModify m k f) k' = mapFind m k' := by
  induction m with
  | nil => rfl
  | cons p rest ih =>
    obtain ⟨k0, v⟩ := p
    by_cases h : k0 = k
    · subst h
      simp [mapModify, mapFind, hne, ih]
    · by_cases h' : k0 = k'
      · subst h'
        simp [mapModify, mapFind, h]
      · simp [mapModify, mapFind, h, h', ih]

theorem mapModify_keys {α : Type} (m : List (Nat × α)) (k : Nat) (f : α → α) :
    (mapModify m k f).map Prod.fst = m.map Prod.fst := by
  induction m with
  | nil => rfl
  | cons p rest ih =>
    obtain ⟨k0, v⟩ := p
    by_cases h : k0 = k
    · simp [mapModify, h, ih]
    · simp [mapModify, h, ih]

theorem mapModify_length {α : Type} (m : List (Nat × α)) (k : Nat) (f : α → α) :
    (mapModify m k f).length = m.length := by
  have h := congrArg List.length (mapModify_keys m k f)
  simpa using h

theorem mapFind_mapInsert_same {α : Type} (m : List (Nat × α)) (k : Nat) (v : α) :
    mapFind (mapInsert m k v) k = some v := by
  induction m with
  | nil => simp [mapInsert, mapFind]
  | cons p rest ih =>
    obtain ⟨k0, v0⟩ := p
    by_cases h1 : k < k0
    · simp [mapInsert, mapFind, h1]
    · by_cases h2 : k0 = k
      · simp [mapInsert, mapFind, h1, h2]
      · simp [mapInsert, mapFind, h1, h2, ih]

theorem mapFind_mapInsert_ne {α : Type} (m : List (Nat × α)) (k k' : Nat) (v : α)
    (hne : k ≠ k') : mapFind (mapInsert m k v) k' = mapFind m k' := by
  induction m with
  | nil => simp [mapInsert, mapFind, hne]
  | cons p rest ih =>
    obtain ⟨k0, v0⟩ := p
    by_cases h1 : k < k0
    · simp [mapInsert, mapFind, h1, hne]
    · by_cases h2 : k0 = k
      · subst h2
        simp [mapInsert, mapFind, hne]
      · by_cases h3 : k0 = k'
        · subst h3
          simp [mapInsert, mapFind, h1, h2]
        · simp [mapInsert, mapFind, h1, h2, h3, ih]

theorem mapFind_mapErase_same {α : Type} (m : List (Nat × α)) (k : Nat) :
    mapFind (mapErase m k) k = none := by
  induction m with
  | nil => rfl
  | cons p rest ih =>
    obtain ⟨k0, v0⟩ := p
    by_cases h : k0 = k
    · simp [mapErase, h, ih]
    · simp [mapErase, h, mapFind, ih]

theorem mapFind_mapErase_ne {α : Type} (m : List (Nat × α)) (k k' : Nat) (hne : k ≠ k') :
    mapFind (mapErase m k) k' = mapFind m k' := by
  induction m with
  | nil => rfl
  | cons p rest ih =>
    obtain ⟨k0, v0⟩ := p
    by_cases h : k0 = k
    · subst h
      simp [mapErase, mapFind, hne, ih]
    · simp [mapErase, h, mapFind, ih]

theorem mapFind_mem {α : Type} (m : List (Nat × α)) (k : Nat) (v : α)
    (h : mapFind m k = some v) : (k, v) ∈ m := by
  induction m with
  | nil => simp [mapFind] at h
  | cons p rest ih =>
    obtain ⟨k0, v0⟩ := p
    by_cases h0 : k0 = k
    · simp [mapFind, h0] at h
      simp [h0, h]
    · simp [mapFind, h0] at h
      exact List.mem_cons_of_mem _ (ih h)

theorem mapFind_of_mem {α : Type} (m : List (Nat × α)) (k : Nat) (v : α)
    (hnd : (m.map Prod.fst).Nodup) (h : (k, v) ∈ m) : mapFind m k = some v := by
  induction m with
  | nil => simp at h
  | cons p rest ih =>
    obtain ⟨k0, v0⟩ := p
    simp only [List.map_cons, List.nodup_cons] at hnd
    rcases List.mem_cons.mp h with heq | hmem
    · cases heq
      simp [mapFind]
    · have hne : k0 ≠ k := by
        intro hk
        apply hnd.1
        subst hk
        exact List.mem_map_of_mem Prod.fst hmem
      simp [mapFind, hne, ih hnd.2 hmem]

theorem mapFind_isSome_iff {α : Type} (m : List (Nat × α)) (k : Nat) :
    (∃ v, mapFind m k = some v) ↔ k ∈ m.map Prod.fst := by
  induction m with
  | nil => simp [mapFind]
  | cons p rest ih =>
    obtain ⟨k0, v0⟩ := p
    by_cases h0 : k0 = k
    · simp [mapFind, h0]
    · have : ¬ k = k0 := fun h => h0 h.symm
      simp [mapFind, h0, ih, this]

/-! ## The frame-boundary update -/

open StdmaSlotManager

theorem releaseExpired_fst (now : Time) (slot slot1 : StdmaSlot)
    (c c1 : List (Mac48Address × Nat)) (h : releaseExpired now slot c = some (slot1, c1)) :
    slot1 = (if slot.m_internal = true ∧ slot.m_internalTimeout ≤ 0 then slot.MarkAsFree
      else slot) := by
  unfold releaseExpired at h
  by_cases h1 : slot.m_internal = true ∧ slot.m_internalTimeout ≤ 0
  · rw [if_pos h1] at h
    rw [if_pos h1]
    split_ifs at h
    · simp only [Option.some.injEq, Prod.mk.injEq] at h
      exact h.1.symm
    · simp only [Option.some.injEq, Prod.mk.injEq] at h
      exact h.1.symm
  · rw [if_neg h1] at h
    rw [if_neg h1]
    simp only [Option.some.injEq, Prod.mk.injEq] at h
    exact h.1.symm

theorem updateSlot_spec (now : Time) (i : Nat) (s s1 : StdmaSlotManager)
    (h : updateSlot now i s = some s1) :
    ∃ slot c1, mapFind s.m_slots i = some slot ∧
      s1 = { s with m_slots := mapModify s.m_slots i (fun _ => agedSlot now slot),
                    m_collisions := c1 } := by
  unfold updateSlot at h
  cases hf : mapFind s.m_slots i with
  | none => simp [hf] at h
  | some slot =>
    simp only [hf] at h
    cases hr : releaseExpired now slot s.m_collisions with
    | none => simp [hr] at h
    | some pr =>
      obtain ⟨slot1, c1⟩ := pr
      simp only [hr, Option.some.injEq] at h
      refine ⟨slot, c1, rfl, ?_⟩
      rw [← h, releaseExpired_fst now slot slot1 _ _ hr]
      rfl

theorem updateLoop_frame (now : Time) (l : List Nat) :
    ∀ (s s1 : StdmaSlotManager), updateLoop now l s = some s1 →
      s1.m_slots.map Prod.fst = s.m_slots.map Prod.fst ∧
      ∃ slots c, s1 = { s with m_slots := slots, m_collisions := c } := by
  induction l with
  | nil =>
    intro s s1 h
    simp only [updateLoop, Option.some.injEq] at h
    subst h
    exact ⟨rfl, s.m_slots, s.m_collisions, rfl⟩
  | cons i rest ih =>
    intro s s1 h
    simp only [updateLoop] at h
    cases hu : updateSlot now i s with
    | none => simp [hu] at h
    | some s2 =>
      simp only [hu] at h
      obtain ⟨slot, c1, _, hs2⟩ := updateSlot_spec now i s s2 hu
      obtain ⟨hk, slots, c, hs1⟩ := ih s2 s1 h
      refine ⟨?_, slots, c, ?_⟩
      · rw [hk, hs2]
        exact mapModify_keys _ _ _
      · rw [hs1, hs2]

theorem updateLoop_find (now : Time) (l : List Nat) :
    ∀ (s s1 : StdmaSlotManager), l.Nodup → updateLoop now l s = some s1 →
      ∀ k, mapFind s1.m_slots k =
        if k ∈ l then (mapFind s.m_slots k).map (agedSlot now) else mapFind s.m_slots k := by
  induction l with
  | nil =>
    intro s s1 _ h k
    simp only [updateLoop, Option.some.injEq] at h
    subst h
    simp
  | cons i rest ih =>
    intro s s1 hnd h k
    simp only [updateLoop] at h
    cases hu : updateSlot now i s with
    | none => simp [hu] at h
    | some s2 =>
      simp only [hu] at h
      obtain ⟨slot, c1, hslot, hs2⟩ := updateSlot_spec now i s s2 hu
      have hnd' := List.nodup_cons.mp hnd
      have := ih s2 s1 hnd'.2 h k
      rw [this]
      by_cases hki : k = i
      · subst hki
        have hnot : k ∉ rest := hnd'.1
        simp only [hnot, if_false, List.mem_cons, true_or, if_true]
        rw [hs2]
        simp [mapFind_mapModify_same, hslot]
      · have hne : i ≠ k := fun h => hki h.symm
        have hfind : mapFind s2.m_slots k = mapFind s.m_slots k := by
          rw [hs2]
          exact mapFind_mapModify_ne _ _ _ _ hne
        simp only [List.mem_cons, hki, false_or, hfind]

theorem keys_range_find_none (m : List (Nat × StdmaSlot)) (N k : Nat)
    (hk : m.map Prod.fst = List.range N) (h : N ≤ k) : mapFind m k = none := by
  cases hf : mapFind m k with
  | none => rfl
  | some v =>
    have := (mapFind_isSome_iff m k).mp ⟨v, hf⟩
    rw [hk, List.mem_range] at this
    omega

theorem keys_range_find_some (m : List (Nat × StdmaSlot)) (N k : Nat)
    (hk : m.map Prod.fst = List.range N) (h : k < N) : ∃ v, mapFind m k = some v := by
  apply (mapFind_isSome_iff m k).mpr
  rw [hk, List.mem_range]
  exact h

theorem keys_range_length (m : List (Nat × StdmaSlot)) (N : Nat)
    (hk : m.map Prod.fst = List.range N) : m.length = N := by
  have := congrArg List.length hk
  simpa using this

theorem UpdateSlotObservations_frame (s s1 : StdmaSlotManager) (now : Time)
    (h : UpdateSlotObservations s now = some s1) :
    s1.m_slots.map Prod.fst = s.m_slots.map Prod.fst ∧
    ∃ slots c, s1 = { s with m_slots := slots, m_collisions := c,
                             m_lastFrameStart := s.m_lastFrameStart + s.m_frameDuration } := by
  unfold UpdateSlotObservations at h
  obtain ⟨hk, slots, c, hs1⟩ := updateLoop_frame now _ _ _ h
  exact ⟨hk, slots, c, hs1⟩

theorem UpdateSlotObservations_find (s s1 : StdmaSlotManager) (now : Time) (N : Nat)
    (hkeys : s.m_slots.map Prod.fst = List.range N)
    (h : UpdateSlotObservations s now = some s1) (k : Nat) :
    mapFind s1.m_slots k = (mapFind s.m_slots k).map (agedSlot now) := by
  unfold UpdateSlotObservations at h
  have := updateLoop_find now _ _ _ (List.nodup_range _) h k
  rw [this]
  simp only [List.mem_range]
  rw [keys_range_length _ _ hkeys]
  by_cases hk : k < N
  · simp [hk]
  · simp only [hk, if_false]
    rw [keys_range_find_none _ _ _ hkeys (by omega)]
    rfl

theorem expiredOwners_congr (now : Time) (m m1 : List (Nat × StdmaSlot)) (l : List Nat)
    (h : ∀ i ∈ l, mapFind m1 i = mapFind m i) :
    expiredOwners now m1 l = expiredOwners now m l := by
  induction l with
  | nil => rfl
  | cons i rest ih =>
    have hi := h i (List.mem_cons_self _ _)
    have hrest := ih (fun j hj => h j (List.mem_cons_of_mem _ hj))
    simp only [expiredOwners, hi, hrest]

theorem updateLoop_isSome (now : Time) (l : List Nat) :
    ∀ (s : StdmaSlotManager), l.Nodup →
      (∀ i ∈ l, ∃ slot, mapFind s.m_slots i = some slot) →
      (expiredOwners now s.m_slots l).Nodup →
      (∀ o ∈ expiredOwners now s.m_slots l, ∃ v, mapFind s.m_collisions o = some v) →
      ∃ s1, updateLoop now l s = some s1 := by
  induction l with
  | nil =>
    intro s _ _ _ _
    exact ⟨s, rfl⟩
  | cons i rest ih =>
    intro s hnd hpres hown hcol
    obtain ⟨slot, hslot⟩ := hpres i (List.mem_cons_self _ _)
    have hnd' := List.nodup_cons.mp hnd
    have hrestfind : ∀ (f : StdmaSlot → StdmaSlot), ∀ j ∈ rest,
        mapFind (mapModify s.m_slots i f) j = mapFind s.m_slots j := by
      intro f j hj
      apply mapFind_mapModify_ne
      intro hij
      subst hij
      exact hnd'.1 hj
    have hpres' : ∀ (f : StdmaSlot → StdmaSlot), ∀ j ∈ rest,
        ∃ slot, mapFind (mapModify s.m_slots i f) j = some slot := by
      intro f j hj
      rw [hrestfind f j hj]
      exact hpres j (List.mem_cons_of_mem _ hj)
    by_cases hexp : expiredCollision now slot = true
    · -- the collision memory is consulted
      have hownEq : expiredOwners now s.m_slots (i :: rest)
          = slot.m_owner :: expiredOwners now s.m_slots rest := by
        simp [expiredOwners, hslot, hexp]
      rw [hownEq] at hown hcol
      obtain ⟨v, hv⟩ := hcol slot.m_owner (List.mem_cons_self _ _)
      have hown' := List.nodup_cons.mp hown
      simp only [expiredCollision, Bool.and_eq_true, decide_eq_true_eq] at hexp
      have hrel : releaseExpired now slot s.m_collisions
          = some (slot.MarkAsFree, mapErase s.m_collisions slot.m_owner) := by
        simp [releaseExpired, hexp.1.1, hexp.1.2, hexp.2, hv]
      have hstep : ∃ s2, updateSlot now i s = some s2 ∧
          (∃ f, s2.m_slots = mapModify s.m_slots i f) ∧
          s2.m_collisions = mapErase s.m_collisions slot.m_owner := by
        refine ⟨{ s with
          m_slots := mapModify s.m_slots i
            (fun _ => ageBusy now (ageAllocated now slot.MarkAsFree)),
          m_collisions := mapErase s.m_collisions slot.m_owner }, ?_, ⟨_, rfl⟩, rfl⟩
        simp only [updateSlot, hslot, hrel]
      obtain ⟨s2, hstep, ⟨f, hslots⟩, hcols⟩ := hstep
      obtain ⟨s1, hs1⟩ := ih s2 hnd'.2
        (by rw [hslots]; exact hpres' f)
        (by
          rw [hslots, expiredOwners_congr now _ _ rest (hrestfind f)]
          exact hown'.2)
        (by
          intro o ho
          rw [hslots, expiredOwners_congr now _ _ rest (hrestfind f)] at ho
          have hne : slot.m_owner ≠ o := by
            intro heq
            subst heq
            exact hown'.1 ho
          rw [hcols, mapFind_mapErase_ne _ _ _ hne]
          exact hcol o (List.mem_cons_of_mem _ ho))
      exact ⟨s1, by simp only [updateLoop, hstep, hs1]⟩
    · -- no lookup for this slot
      have hownEq : expiredOwners now s.m_slots (i :: rest)
          = expiredOwners now s.m_slots rest := by
        simp [expiredOwners, hslot, hexp]
      rw [hownEq] at hown hcol
      have hrel : ∃ slot1, releaseExpired now slot s.m_collisions
          = some (slot1, s.m_collisions) := by
        unfold releaseExpired
        by_cases h1 : slot.m_internal = true ∧ slot.m_internalTimeout ≤ 0
        · rw [if_pos h1]
          have h2 : ¬ (slot.IsAllocated now = true) := by
            intro h2
            apply hexp
            simp [expiredCollision, h1.1, h1.2, h2]
          rw [if_neg h2]
          exact ⟨_, rfl⟩
        · rw [if_neg h1]
          exact ⟨_, rfl⟩
      obtain ⟨slot1, hrel⟩ := hrel
      have hstep : ∃ s2, updateSlot now i s = some s2 ∧
          (∃ f, s2.m_slots = mapModify s.m_slots i f) ∧
          s2.m_collisions = s.m_collisions := by
        refine ⟨{ s with
          m_slots := mapModify s.m_slots i (fun _ => ageBusy now (ageAllocated now slot1)),
          m_collisions := s.m_collisions }, ?_, ⟨_, rfl⟩, rfl⟩
        simp only [updateSlot, hslot, hrel]
      obtain ⟨s2, hstep, ⟨f, hslots⟩, hcols⟩ := hstep
      obtain ⟨s1, hs1⟩ := ih s2 hnd'.2
        (by rw [hslots]; exact hpres' f)
        (by
          rw [hslots, expiredOwners_congr now _ _ rest (hrestfind f)]
          exact hown)
        (by
          intro o ho
          rw [hslots, expiredOwners_congr now _ _ rest (hrestfind f)] at ho
          rw [hcols]
          exact hcol o ho)
      exact ⟨s1, by simp only [updateLoop, hstep, hs1]⟩

theorem UpdateSlotObservations_isSome (s : StdmaSlotManager) (now : Time) (N : Nat)
    (hkeys : s.m_slots.map Prod.fst = List.range N) (hassert : AgingAssertsHold s now) :
    ∃ s1, UpdateSlotObservations s now = some s1 := by
  unfold UpdateSlotObservations
  apply updateLoop_isSome now _ _ (List.nodup_range _)
  · intro i hi
    rw [keys_range_length _ _ hkeys, List.mem_range] at hi
    exact keys_range_find_some _ _ _ hkeys hi
  · exact hassert.1
  · intro o ho
    exact Option.isSome_iff_exists.mp (hassert.2 o ho)

theorem expiredOwners_nil_of_noExpired (now : Time) (m : List (Nat × StdmaSlot)) (l : List Nat)
    (h : ∀ k slot, mapFind m k = some slot → slot.m_internal = true → 0 < slot.m_internalTimeout) :
    expiredOwners now m l = [] := by
  induction l with
  | nil => rfl
  | cons i rest ih =>
    cases hf : mapFind m i with
    | none => simp [expiredOwners, hf, ih]
    | some slot =>
      have hne : ¬ (expiredCollision now slot = true) := by
        intro hexp
        simp only [expiredCollision, Bool.and_eq_true, decide_eq_true_eq] at hexp
        have := h i slot hf hexp.1.1
        omega
      simp [expiredOwners, hf, hne, ih]

theorem AgingAssertsHold_of_noExpired (s : StdmaSlotManager) (now : Time) (h : NoExpired s) :
    AgingAssertsHold s now := by
  unfold AgingAssertsHold
  rw [expiredOwners_nil_of_noExpired now s.m_slots _ h]
  exact ⟨List.nodup_nil, fun o ho => absurd ho (List.not_mem_nil o)⟩

theorem agedSlot_internal (now : Time) (slot : StdmaSlot)
    (h : (agedSlot now slot).m_internal = true) :
    slot.m_internal = true ∧ 0 < slot.m_internalTimeout ∧ agedSlot now slot = slot := by
  unfold agedSlot at h ⊢
  by_cases h1 : slot.m_internal = true ∧ slot.m_internalTimeout ≤ 0
  · rw [if_pos h1] at h
    exfalso
    simp [ageBusy, ageAllocated, StdmaSlot.MarkAsFree, StdmaSlot.IsAllocated, StdmaSlot.IsBusy,
      StdmaSlot.SetTimeout] at h
  · rw [if_neg h1] at h ⊢
    by_cases hi : slot.m_internal = true
    · have hpos : 0 < slot.m_internalTimeout := by
        by_contra hc
        exact h1 ⟨hi, by omega⟩
      refine ⟨hi, hpos, ?_⟩
      simp [ageBusy, ageAllocated, hi]
    · exfalso
      simp only [Bool.not_eq_true] at hi
      unfold ageBusy ageAllocated at h
      split_ifs at h <;>
        simp_all [StdmaSlot.MarkAsFree, StdmaSlot.SetTimeout]

theorem agedSlot_index (now : Time) (slot : StdmaSlot) :
    (agedSlot now slot).m_index = slot.m_index := by
  unfold agedSlot ageBusy ageAllocated
  split_ifs <;> simp [StdmaSlot.MarkAsFree, StdmaSlot.SetTimeout]

theorem UpdateSlotObservations_noExpired (s s1 : StdmaSlotManager) (now : Time) (N : Nat)
    (hkeys : s.m_slots.map Prod.fst = List.range N)
    (h : UpdateSlotObservations s now = some s1) : NoExpired s1 := by
  intro k slot1 hfind hint
  rw [UpdateSlotObservations_find s s1 now N hkeys h k] at hfind
  cases hf : mapFind s.m_slots k with
  | none => simp [hf] at hfind
  | some slot =>
    simp only [hf, Option.map_some', Option.some.injEq] at hfind
    subst hfind
    obtain ⟨_, hpos, heq⟩ := agedSlot_internal now slot hint
    rw [heq]
    exact hpos

theorem agedSlot_external_pos (now : Time) (slot : StdmaSlot)
    (hint : slot.m_internal = false)
    (hstate : slot.m_state = State.ALLOCATED ∨ slot.m_state = State.BUSY)
    (hnb : slot.m_notBefore ≤ now) (hpos : 0 < slot.m_timeout) :
    agedSlot now slot = { slot with m_timeout := slot.m_timeout - 1 } := by
  rcases hstate with hst | hst
  · simp [agedSlot, ageBusy, ageAllocated, StdmaSlot.IsAllocated, StdmaSlot.IsBusy,
      StdmaSlot.SetTimeout, hint, hst, hnb, hpos]
  · simp [agedSlot, ageBusy, ageAllocated, StdmaSlot.IsAllocated, StdmaSlot.IsBusy,
      StdmaSlot.SetTimeout, hint, hst, hnb, hpos]

theorem agedSlot_external_zero (now : Time) (slot : StdmaSlot)
    (hint : slot.m_internal = false)
    (hstate : slot.m_state = State.ALLOCATED ∨ slot.m_state = State.BUSY)
    (hnb : slot.m_notBefore ≤ now) (hzero : slot.m_timeout = 0) :
    agedSlot now slot = slot.MarkAsFree := by
  rcases hstate with hst | hst
  · simp [agedSlot, ageBusy, ageAllocated, StdmaSlot.IsAllocated, StdmaSlot.IsBusy,
      StdmaSlot.MarkAsFree, hint, hst, hnb, hzero]
  · simp [agedSlot, ageBusy, ageAllocated, StdmaSlot.IsAllocated, StdmaSlot.IsBusy,
      StdmaSlot.MarkAsFree, hint, hst, hnb, hzero]

theorem agingPasses_isSome (N : Nat) (nows : List Time) :
    ∀ (s : StdmaSlotManager), s.m_slots.map Prod.fst = List.range N →
      (∀ now, nows.head? = some now → AgingAssertsHold s now) →
      ∃ s1, agingPasses nows s = some s1 := by
  induction nows with
  | nil =>
    intro s _ _
    exact ⟨s, rfl⟩
  | cons now rest ih =>
    intro s hkeys hassert
    obtain ⟨s1, hs1⟩ := UpdateSlotObservations_isSome s now N hkeys (hassert now rfl)
    have hkeys1 : s1.m_slots.map Prod.fst = List.range N := by
      rw [(UpdateSlotObservations_frame s s1 now hs1).1, hkeys]
    obtain ⟨s2, hs2⟩ := ih s1 hkeys1
      (fun now1 _ => AgingAssertsHold_of_noExpired s1 now1
        (UpdateSlotObservations_noExpired s s1 now N hkeys hs1))
    exact ⟨s2, by simp only [agingPasses, hs1, hs2]⟩

theorem agingPasses_external (N key : Nat) (nows : List Time) :
    ∀ (s s1 : StdmaSlotManager) (slot : StdmaSlot),
      s.m_slots.map Prod.fst = List.range N →
      mapFind s.m_slots key = some slot →
      slot.m_internal = false →
      (slot.m_state = State.ALLOCATED ∨ slot.m_state = State.BUSY) →
      (∀ now ∈ nows, slot.m_notBefore ≤ now) →
      agingPasses nows s = some s1 →
      (nows.length ≤ slot.m_timeout →
        ∃ slot1, mapFind s1.m_slots key = some slot1 ∧ slot1.m_state = slot.m_state ∧
          slot1.m_timeout = slot.m_timeout - nows.length) ∧
      (nows.length = slot.m_timeout + 1 →
        ∃ slot1, mapFind s1.m_slots key = some slot1 ∧ slot1.m_state = State.FREE ∧
          slot1.m_timeout = 0) := by
  induction nows with
  | nil =>
    intro s s1 slot _ hfind _ _ _ hrun
    simp only [agingPasses, Option.some.injEq] at hrun
    subst hrun
    constructor
    · intro _
      exact ⟨slot, hfind, rfl, by simp⟩
    · intro h
      simp at h
  | cons now rest ih =>
    intro s s1 slot hkeys hfind hint hstate hnb hrun
    simp only [agingPasses] at hrun
    cases hu : UpdateSlotObservations s now with
    | none => simp [hu] at hrun
    | some s2 =>
      simp only [hu] at hrun
      have hkeys2 : s2.m_slots.map Prod.fst = List.range N := by
        rw [(UpdateSlotObservations_frame s s2 now hu).1, hkeys]
      have hfind2 : mapFind s2.m_slots key = some (agedSlot now slot) := by
        rw [UpdateSlotObservations_find s s2 now N hkeys hu key, hfind]
        rfl
      have hnow : slot.m_notBefore ≤ now := hnb now (List.mem_cons_self _ _)
      by_cases hpos : 0 < slot.m_timeout
      · rw [agedSlot_external_pos now slot hint hstate hnow hpos] at hfind2
        obtain ⟨h1, h2⟩ := ih s2 s1 _ hkeys2 hfind2 hint hstate
          (fun t ht => hnb t (List.mem_cons_of_mem _ ht)) hrun
        constructor
        · intro hlen
          simp only [List.length_cons] at hlen
          obtain ⟨slot1, hf1, hst1, ht1⟩ := h1 (by simp only; omega)
          refine ⟨slot1, hf1, hst1, ?_⟩
          simp only [List.length_cons]
          simp only at ht1
          omega
        · intro hlen
          simp only [List.length_cons] at hlen
          exact h2 (by simp only; omega)
      · have hzero : slot.m_timeout = 0 := by omega
        rw [agedSlot_external_zero now slot hint hstate hnow hzero] at hfind2
        constructor
        · intro hlen
          simp only [List.length_cons] at hlen
          omega
        · intro hlen
          simp only [List.length_cons] at hlen
          have hrest : rest = [] := List.length_eq_zero.mp (by omega)
          subst hrest
          simp only [agingPasses, Option.some.injEq] at hrun
          subst hrun
          exact ⟨_, hfind2, rfl, rfl⟩

/-! ## Claims on the frame-boundary update -/

/-- C6: lifetime under aging.  A slot of a well-formed ring that is not internally
allocated, is Allocated or Busy with `not_before` not after the clock readings of the passes,
and has external timeout `t`, keeps its state and has timeout `t - k` after `k <= t`
consecutive runs of `UpdateSlotObservations`, and is Free with timeout 0 after `t + 1` runs;
the runs complete when the assertion of the first one holds.  `MarkAsBusy` leaves a Busy slot
with timeout 1 and `not_before` 0, so a slot marked busy is still Busy after one pass and Free
after two. -/
theorem aging_lifetime (s : StdmaSlotManager) (key : Nat) (slot : StdmaSlot) (nows : List Time)
    (hring : RingOK s)
    (hassert : ∀ now, nows.head? = some now → AgingAssertsHold s now)
    (hfind : mapFind s.m_slots key = some slot)
    (hint : slot.m_internal = false)
    (hstate : slot.m_state = State.ALLOCATED ∨ slot.m_state = State.BUSY)
    (hnb : ∀ now ∈ nows, slot.m_notBefore ≤ now) :
    (∃ s1, agingPasses nows s = some s1 ∧
      (nows.length ≤ slot.m_timeout →
        ∃ slot1, mapFind s1.m_slots key = some slot1 ∧ slot1.m_state = slot.m_state ∧
          slot1.m_timeout = slot.m_timeout - nows.length) ∧
      (nows.length = slot.m_timeout + 1 →
        ∃ slot1, mapFind s1.m_slots key = some slot1 ∧ slot1.m_state = State.FREE ∧
          slot1.m_timeout = 0)) ∧
    (∀ slot0 : StdmaSlot, slot0.MarkAsBusy.m_state = State.BUSY ∧
      slot0.MarkAsBusy.m_timeout = 1 ∧ slot0.MarkAsBusy.m_notBefore = 0 ∧
      slot0.MarkAsBusy.m_internal = slot0.m_internal) := by
  refine ⟨?_, fun slot0 => ⟨rfl, rfl, rfl, rfl⟩⟩
  obtain ⟨s1, hs1⟩ := agingPasses_isSome s.m_numSlots nows s hring.1 hassert
  exact ⟨s1, hs1,
    agingPasses_external s.m_numSlots key nows s s1 slot hring.1 hfind hint hstate hnb hs1⟩

/-- Witness of C6: the busy slot 2 of `exampleManager` (timeout 1) under two passes. -/
theorem aging_lifetime_witness :
    RingOK exampleManager ∧
    mapFind exampleManager.m_slots 2 = some (StdmaSlot.create 2).MarkAsBusy ∧
    ((∃ s1, agingPasses [0, 0] exampleManager = some s1 ∧
      ([(0 : Time), 0].length ≤ (StdmaSlot.create 2).MarkAsBusy.m_timeout →
        ∃ slot1, mapFind s1.m_slots 2 = some slot1 ∧
          slot1.m_state = (StdmaSlot.create 2).MarkAsBusy.m_state ∧
          slot1.m_timeout = (StdmaSlot.create 2).MarkAsBusy.m_timeout - [(0 : Time), 0].length) ∧
      ([(0 : Time), 0].length = (StdmaSlot.create 2).MarkAsBusy.m_timeout + 1 →
        ∃ slot1, mapFind s1.m_slots 2 = some slot1 ∧ slot1.m_state = State.FREE ∧
          slot1.m_timeout = 0)) ∧
    (∀ slot0 : StdmaSlot, slot0.MarkAsBusy.m_state = State.BUSY ∧
      slot0.MarkAsBusy.m_timeout = 1 ∧ slot0.MarkAsBusy.m_notBefore = 0 ∧
      slot0.MarkAsBusy.m_internal = slot0.m_internal)) :=
  ⟨by unfold RingOK; decide, by decide,
    aging_lifetime exampleManager 2 (StdmaSlot.create 2).MarkAsBusy [0, 0]
      (by unfold RingOK; decide)
      (by
        intro now hnow
        simp only [List.head?_cons, Option.some.injEq] at hnow
        subst hnow
        unfold AgingAssertsHold
        decide)
      (by decide) (by decide) (by decide) (by decide)⟩

/-- C7 (as stated, refuted): a slot allocated by a peer with timeout 2 whose `not_before`
lies after the frame boundary keeps the timeout 2 through the aging pass at the boundary. -/
theorem aging_keeps_deferred_timeout :
    ((StdmaSlotManager.MarkSlotAsAllocated
        (StdmaSlotManager.Setup StdmaSlotManager.create 0 40 10 4) 0 1 2 171 ⟨1, 0, 0⟩ 100).bind
      (fun s => s.GetSlot 1)).map (fun x => x.m_timeout) = some 2 ∧
    (((StdmaSlotManager.MarkSlotAsAllocated
        (StdmaSlotManager.Setup StdmaSlotManager.create 0 40 10 4) 0 1 2 171 ⟨1, 0, 0⟩ 100).bind
      (fun s => StdmaSlotManager.UpdateSlotObservations s 40)).bind
        (fun s => s.GetSlot 1)).map (fun x => x.m_timeout) = some 2 := by
  decide

/-- C7 (amended): for every slot of a well-formed ring that is not internally allocated, is
Allocated or Busy with `not_before <= now`, and has external timeout `t > 0`, a single run of
`UpdateSlotObservations` at `now` completes (given its assertion) and leaves the slot with
external timeout `t - 1`. -/
theorem aging_decrements_effective_timeout (s : StdmaSlotManager) (now : Time) (key : Nat)
    (slot : StdmaSlot) (hring : RingOK s) (hassert : AgingAssertsHold s now)
    (hfind : mapFind s.m_slots key = some slot)
    (hint : slot.m_internal = false)
    (hstate : slot.m_state = State.ALLOCATED ∨ slot.m_state = State.BUSY)
    (hnb : slot.m_notBefore ≤ now) (hpos : 0 < slot.m_timeout) :
    ∃ s1, UpdateSlotObservations s now = some s1 ∧
      ∃ slot1, mapFind s1.m_slots key = some slot1 ∧ slot1.m_timeout = slot.m_timeout - 1 := by
  obtain ⟨s1, hs1⟩ := UpdateSlotObservations_isSome s now s.m_numSlots hring.1 hassert
  refine ⟨s1, hs1, { slot with m_timeout := slot.m_timeout - 1 }, ?_, rfl⟩
  rw [UpdateSlotObservations_find s s1 now s.m_numSlots hring.1 hs1 key, hfind,
    ← agedSlot_external_pos now slot hint hstate hnb hpos]
  rfl

/-- Witness of C7 (amended): slot 3 of `exampleManager`, allocated with timeout 8. -/
theorem aging_decrements_effective_timeout_witness :
    RingOK exampleManager ∧
    mapFind exampleManager.m_slots 3
      = some ((StdmaSlot.create 3).MarkAsAllocated 0 8 171 ⟨1, 0, 0⟩ 0) ∧
    ∃ s1, UpdateSlotObservations exampleManager 0 = some s1 ∧
      ∃ slot1, mapFind s1.m_slots 3 = some slot1 ∧
        slot1.m_timeout = ((StdmaSlot.create 3).MarkAsAllocated 0 8 171 ⟨1, 0, 0⟩ 0).m_timeout - 1 :=
  ⟨by unfold RingOK; decide, by decide,
    aging_decrements_effective_timeout exampleManager 0 3
      ((StdmaSlot.create 3).MarkAsAllocated 0 8 171 ⟨1, 0, 0⟩ 0)
      (by unfold RingOK; decide) (by unfold AgingAssertsHold; decide)
      (by decide) (by decide) (by decide) (by decide) (by decide)⟩

/-- C8: age-check idempotence.  When the age check at `now` leaves the state `s1` and `now`
lies before the end of the frame of `s1`, a second age check at the same `now` returns `s1`
unchanged. -/
theorem ageCheck_idempotent (s s1 : StdmaSlotManager) (now : Time)
    (h1 : ageCheck s now = some s1)
    (h2 : now < s1.m_lastFrameStart + s1.m_frameDuration) :
    ageCheck s1 now = some s1 := by
  have _ := h1
  unfold ageCheck
  rw [if_neg (not_le.mpr h2)]

/-- Witness of C8: a manager set up at 0 with a 40 ns frame, checked at time 45. -/
theorem ageCheck_idempotent_witness :
    ageCheck (Setup create 0 40 10 4) 45
      = some { Setup create 0 40 10 4 with m_lastFrameStart := 40 } ∧
    (45 : Time) < (40 : Time) + (Setup create 0 40 10 4).m_frameDuration ∧
    ageCheck { Setup create 0 40 10 4 with m_lastFrameStart := 40 } 45
      = some { Setup create 0 40 10 4 with m_lastFrameStart := 40 } :=
  ⟨by decide, by decide,
    ageCheck_idempotent (Setup create 0 40 10 4)
      { Setup create 0 40 10 4 with m_lastFrameStart := 40 } 45 (by decide) (by decide)⟩

/-! ## Claims on the offsets exchanged between stations -/

theorem reselectOffset_eq (N oldIndex newIndex : Nat) (hold : oldIndex < N) (hnew : newIndex < N)
    (hN : 2 * N ≤ UINT32_MOD) : reselectOffset N oldIndex newIndex = N + newIndex - oldIndex := by
  unfold reselectOffset u32add u32sub
  unfold UINT32_MOD at *
  omega

theorem receiveNewSlot_eq (N c offset : Nat) (hc : c < N) (hoff : offset < 2 * N)
    (hN : 3 * N ≤ UINT32_MOD) :
    StdmaMac.receiveNewSlot N c offset =
      if c + offset < N then c + offset
      else if c + offset < 2 * N then c + offset - N else c + offset - 2 * N := by
  unfold StdmaMac.receiveNewSlot u32add u32sub
  unfold UINT32_MOD at *
  have h1 : (c + offset) % 4294967296 = c + offset := Nat.mod_eq_of_lt (by omega)
  simp only [h1]
  split_ifs <;> omega

/-- C3 (counterexample to the claim as worded): a station with a frame of 4 slots whose
reservation 0 moves from slot 0 to slot 2 gets the offset 6 from
`ReSelectTransmissionSlotForReservationWithNo`, which is not below the number of slots per
frame and is not `(2 - 0 + 4) mod 4 = 2`; it is `4 + 2 - 0`, the distance to the new slot in
the next frame, which the header field and the receiver of C4 expect. -/
theorem reselect_offset_not_reduced :
    ((((SelectNominalSlots
          (SetSelectionIntervalRatio (SetReportRate (Setup create 0 40 10 4) 1) 1 1) 0 1).bind
        (fun s => SelectTransmissionSlotForReservationWithNo s 0 (fun _ => 0) 0 0 1)).bind
        (fun s => DecreaseTimeOutOfReservationWithNumber s 0 0)).bind
        (fun r => ReSelectTransmissionSlotForReservationWithNo r.1 0 (fun _ => 0) 2 0 3)).map
      (fun r => (r.2, (mapFind r.1.m_selections 0), r.1.m_numSlots)) = some (6, some 2, 4) := by
  decide

/-- C4: sender/receiver agreement on a moved reservation.  When the sender announces the
offset returned by the re-reservation for the move from `oldIndex` to `newIndex`, a receiver
whose current slot index is `c` computes `(c + (newIndex - oldIndex)) mod N` as new slot, and
exactly `newIndex` when `c = oldIndex`. -/
theorem receiver_tracks_moved_reservation (N oldIndex newIndex c : Nat)
    (hold : oldIndex < N) (hnew : newIndex < N) (hc : c < N) (hN : 2 * N ≤ 65536) :
    ((StdmaMac.receiveNewSlot N c
        (StdmaMac.announcedOffset (reselectOffset N oldIndex newIndex)) : Nat) : Int)
      = ((c : Int) + ((newIndex : Int) - (oldIndex : Int))) % (N : Int) ∧
    StdmaMac.receiveNewSlot N oldIndex
        (StdmaMac.announcedOffset (reselectOffset N oldIndex newIndex)) = newIndex := by
  have hoff : StdmaMac.announcedOffset (reselectOffset N oldIndex newIndex)
      = N + newIndex - oldIndex := by
    unfold StdmaMac.announcedOffset StdmaHeader.GetOffset StdmaHeader.SetOffset u16cast
    rw [reselectOffset_eq N oldIndex newIndex hold hnew (by unfold UINT32_MOD; omega)]
    exact Nat.mod_eq_of_lt (by omega)
  rw [hoff]
  constructor
  · rw [receiveNewSlot_eq N c _ hc (by omega) (by unfold UINT32_MOD; omega)]
    have hNpos : (0 : Int) < (N : Int) := by omega
    split_ifs with h1 h2
    · have : ((c : Int) + ((newIndex : Int) - (oldIndex : Int)))
          = ((c + (N + newIndex - oldIndex) : Nat) : Int) + (-1) * (N : Int) := by
        push_cast [Nat.cast_sub (show oldIndex ≤ N + newIndex by omega)]
        ring
      rw [this, Int.add_mul_emod_self]
      exact (Int.emod_eq_of_lt (by omega) (by omega)).symm
    · have : ((c : Int) + ((newIndex : Int) - (oldIndex : Int)))
          = ((c + (N + newIndex - oldIndex) - N : Nat) : Int) := by
        omega
      rw [this]
      exact (Int.emod_eq_of_lt (by omega) (by omega)).symm
    · have : ((c : Int) + ((newIndex : Int) - (oldIndex : Int)))
          = ((c + (N + newIndex - oldIndex) - 2 * N : Nat) : Int) + 1 * (N : Int) := by
        omega
      rw [this, Int.add_mul_emod_self]
      exact (Int.emod_eq_of_lt (by omega) (by omega)).symm
  · rw [receiveNewSlot_eq N oldIndex _ hold (by omega) (by unfold UINT32_MOD; omega)]
    split_ifs <;> omega

/-- Witness of C4: a frame of 1766 slots, a move from slot 1700 to slot 20, a receiver in
slot 1700. -/
theorem receiver_tracks_moved_reservation_witness :
    ((StdmaMac.receiveNewSlot 1766 1700
        (StdmaMac.announcedOffset (reselectOffset 1766 1700 20)) : Nat) : Int)
      = (((1700 : Nat) : Int) + (((20 : Nat) : Int) - ((1700 : Nat) : Int))) % ((1766 : Nat) : Int) ∧
    StdmaMac.receiveNewSlot 1766 1700
        (StdmaMac.announcedOffset (reselectOffset 1766 1700 20)) = 20 :=
  receiver_tracks_moved_reservation 1766 1700 20 1700 (by decide) (by decide) (by decide)
    (by decide)

/-- C5: the announced offset points at the station's own next transmission.  In a
well-formed state with `m_frameDuration = m_slotDuration * m_numSlots`, at the start `now` of
the slot of reservation `k` inside the current frame, and for a reservation `l` whose slot has
another index, `GetTimeUntilTransmissionOfReservationWithNo (l)` is
`CalculateSlotOffsetBetweenTransmissions (k, l)` slot durations.  (`ns3::Time::IsNegative` is
only used on a non-zero delay here.) -/
theorem time_until_matches_slot_offset (s : StdmaSlotManager) (now : Time)
    (IsNegative : Time → Bool) (k l keyK keyL : Nat) (slotK slotL : StdmaSlot)
    (hneg : ∀ t : Time, t < 0 → IsNegative t = true)
    (hnonneg : ∀ t : Time, 0 < t → IsNegative t = false)
    (hring : RingOK s) (hN : s.m_numSlots < UINT32_MOD)
    (hgeom : s.m_frameDuration = s.m_slotDuration * (s.m_numSlots : Int))
    (hlo : s.m_lastFrameStart ≤ now) (hhi : now < s.m_lastFrameStart + s.m_frameDuration)
    (hk : mapFind s.m_selections k = some keyK) (hl : mapFind s.m_selections l = some keyL)
    (hsk : mapFind s.m_slots keyK = some slotK) (hsl : mapFind s.m_slots keyL = some slotL)
    (hnow : now = s.m_lastFrameStart + (slotK.m_index : Int) * s.m_slotDuration)
    (hdiff : slotK.m_index ≠ slotL.m_index) :
    ∃ offset, CalculateSlotOffsetBetweenTransmissions s k l = some offset ∧
      GetTimeUntilTransmissionOfReservationWithNo s now IsNegative l
        = some (s, (offset : Int) * s.m_slotDuration) := by
  have hkl : k ≠ l := by
    intro h
    subst h
    rw [hk] at hl
    cases hl
    rw [hsk] at hsl
    cases hsl
    exact hdiff rfl
  have hidx : ∀ key slot, mapFind s.m_slots key = some slot → slot.m_index < s.m_numSlots := by
    intro key slot hf
    have hmem := mapFind_mem _ _ _ hf
    have h1 := hring.2 _ hmem
    have h2 := (mapFind_isSome_iff s.m_slots key).mp ⟨slot, hf⟩
    rw [hring.1, List.mem_range] at h2
    simp only at h1
    omega
  have ha := hidx keyK slotK hsk
  have hb := hidx keyL slotL hsl
  have hage : ageCheck s now = some s := by
    unfold ageCheck
    rw [if_neg (not_le.mpr hhi)]
  have hsd : 0 < s.m_slotDuration := by
    by_contra hc
    have hle : s.m_slotDuration ≤ 0 := not_lt.mp hc
    have hprod : s.m_slotDuration * (s.m_numSlots : Int) ≤ 0 :=
      Int.mul_nonpos_of_nonpos_of_nonneg hle (Int.ofNat_nonneg _)
    rw [hgeom] at hhi
    linarith
  have hcalc : CalculateSlotOffsetBetweenTransmissions s k l
      = some (if slotL.m_index > slotK.m_index then slotL.m_index - slotK.m_index
          else s.m_numSlots - slotK.m_index + slotL.m_index) := by
    unfold CalculateSlotOffsetBetweenTransmissions
    simp only [hkl, if_false, hk, hl, hsk, hsl]
    unfold u32add u32sub
    unfold UINT32_MOD at *
    split_ifs with h1
    · congr 1
      omega
    · congr 1
      omega
  refine ⟨_, hcalc, ?_⟩
  unfold GetTimeUntilTransmissionOfReservationWithNo
  simp only [hage, hl, hsl]
  have hnot : ¬ (s.m_lastFrameStart > now) := not_lt.mpr hlo
  simp only [hnot, if_false]
  have hdelay : s.m_lastFrameStart + (slotL.m_index : Int) * s.m_slotDuration - now
      = ((slotL.m_index : Int) - (slotK.m_index : Int)) * s.m_slotDuration := by
    rw [hnow]
    ring
  rw [hdelay]
  by_cases hgt : slotL.m_index > slotK.m_index
  · have hposd : 0 < ((slotL.m_index : Int) - (slotK.m_index : Int)) * s.m_slotDuration :=
      Int.mul_pos (by omega) hsd
    rw [hnonneg _ hposd]
    simp only [Bool.false_eq_true, if_false, hgt, if_true]
    rw [Nat.cast_sub (Nat.le_of_lt hgt)]
  · have hlt : slotL.m_index < slotK.m_index := by omega
    have hnegd : ((slotL.m_index : Int) - (slotK.m_index : Int)) * s.m_slotDuration < 0 :=
      Int.mul_neg_of_neg_of_pos (by omega) hsd
    rw [hneg _ hnegd]
    simp only [if_true, hgt, if_false]
    rw [hgeom]
    push_cast [Nat.cast_sub (Nat.le_of_lt ha)]
    ring_nf

/-- Witness of C5: `reservedManager` at time 10, the start of slot 1 (reservation 0); the next
reservation sits four slots later. -/
theorem time_until_matches_slot_offset_witness :
    RingOK reservedManager ∧
    (10 : Time) = reservedManager.m_lastFrameStart
      + (((StdmaSlot.create 1).MarkAsInternallyAllocated 5).m_index : Int)
        * reservedManager.m_slotDuration ∧
    ∃ offset, CalculateSlotOffsetBetweenTransmissions reservedManager 0 1 = some offset ∧
      GetTimeUntilTransmissionOfReservationWithNo reservedManager 10
          (fun t => decide (t ≤ 0)) 1
        = some (reservedManager, (offset : Int) * reservedManager.m_slotDuration) :=
  ⟨by unfold RingOK; decide, by decide,
    time_until_matches_slot_offset reservedManager 10 (fun t => decide (t ≤ 0)) 0 1 1 5
      ((StdmaSlot.create 1).MarkAsInternallyAllocated 5)
      ((StdmaSlot.create 5).MarkAsInternallyAllocated 5)
      (by intro t ht; simp only [decide_eq_true_eq]; exact le_of_lt ht)
      (by intro t ht; simp only [decide_eq_false_iff_not]; exact not_le.mpr ht)
      (by unfold RingOK; decide) (by decide) (by decide) (by decide) (by decide)
      (by decide) (by decide) (by decide) (by decide) (by decide) (by decide)⟩

/-! ## The selection scan -/

theorem mem_mapInsert {α : Type} (m : List (Nat × α)) (k : Nat) (v : α) (p : Nat × α)
    (h : p ∈ mapInsert m k v) : p = (k, v) ∨ p ∈ m := by
  induction m with
  | nil =>
    simp only [mapInsert, List.mem_singleton] at h
    exact Or.inl h
  | cons q rest ih =>
    obtain ⟨k0, v0⟩ := q
    simp only [mapInsert] at h
    split_ifs at h with h1 h2
    · rcases List.mem_cons.mp h with h | h
      · exact Or.inl h
      · exact Or.inr h
    · rcases List.mem_cons.mp h with h | h
      · exact Or.inl h
      · exact Or.inr (List.mem_cons_of_mem _ h)
    · rcases List.mem_cons.mp h with h | h
      · exact Or.inr (by rw [h]; exact List.mem_cons_self _ _)
      · rcases ih h with h | h
        · exact Or.inl h
        · exact Or.inr (List.mem_cons_of_mem _ h)

theorem ringOK_find (s : StdmaSlotManager) (hring : RingOK s) (k : Nat) (slot : StdmaSlot)
    (h : mapFind s.m_slots k = some slot) : slot.m_index = k ∧ k < s.m_numSlots := by
  have hmem := mapFind_mem _ _ _ h
  have h1 := hring.2 _ hmem
  have h2 := (mapFind_isSome_iff s.m_slots k).mp ⟨slot, h⟩
  rw [hring.1, List.mem_range] at h2
  exact ⟨h1, h2⟩

theorem ringOK_of_find (s : StdmaSlotManager)
    (hkeys : s.m_slots.map Prod.fst = List.range s.m_numSlots)
    (hfind : ∀ k slot, mapFind s.m_slots k = some slot → slot.m_index = k) : RingOK s := by
  refine ⟨hkeys, ?_⟩
  intro p hp
  have hnd : (s.m_slots.map Prod.fst).Nodup := by
    rw [hkeys]
    exact List.nodup_range _
  exact hfind p.1 p.2 (mapFind_of_mem _ _ _ hnd hp)

theorem scanSlots_scanned (s : StdmaSlotManager) (now until_ : Time) (distance : Vector → Nat)
    (skip : Bool) (l : List Int) :
    ∀ (acc res : List Nat × List (Nat × Nat)),
      scanSlots s now until_ distance skip l acc = some res →
      (∀ c ∈ res.1, c ∈ acc.1 ∨ Scanned s l c) ∧
      (∀ p ∈ res.2, p ∈ acc.2 ∨ Scanned s l p.2) := by
  induction l with
  | nil =>
    intro acc res h
    simp only [scanSlots, Option.some.injEq] at h
    subst h
    exact ⟨fun c hc => Or.inl hc, fun p hp => Or.inl hp⟩
  | cons i rest ih =>
    intro acc res h
    have lift : ∀ c, Scanned s rest c → Scanned s (i :: rest) c := by
      intro c hc
      obtain ⟨i1, hi1, rest1⟩ := hc
      exact ⟨i1, List.mem_cons_of_mem _ hi1, rest1⟩
    simp only [scanSlots] at h
    split_ifs at h with hskip
    · obtain ⟨h1, h2⟩ := ih acc res h
      exact ⟨fun c hc => (h1 c hc).imp id (lift c), fun p hp => (h2 p hp).imp id (lift p.2)⟩
    · cases hw : wrapIndex s.m_numSlots s.m_slots.length i with
      | none => simp [hw] at h
      | some j =>
        simp only [hw] at h
        cases hf : mapFind s.m_slots j with
        | none => simp [hf] at h
        | some slot =>
          simp only [hf] at h
          have here : Scanned s (i :: rest) slot.m_index :=
            ⟨i, List.mem_cons_self _ _, j, slot, hw, hf, rfl⟩
          split_ifs at h with hfree halloc
          · obtain ⟨h1, h2⟩ := ih _ res h
            refine ⟨?_, fun p hp => (h2 p hp).imp id (lift p.2)⟩
            intro c hc
            rcases h1 c hc with hc1 | hc1
            · rcases List.mem_append.mp hc1 with hc2 | hc2
              · exact Or.inl hc2
              · rw [List.mem_singleton] at hc2
                rw [hc2]
                exact Or.inr here
            · exact Or.inr (lift c hc1)
          · obtain ⟨h1, h2⟩ := ih _ res h
            refine ⟨fun c hc => (h1 c hc).imp id (lift c), ?_⟩
            intro p hp
            rcases h2 p hp with hp1 | hp1
            · rcases mem_mapInsert _ _ _ _ hp1 with hp2 | hp2
              · rw [hp2]
                exact Or.inr here
              · exact Or.inl hp2
            · exact Or.inr (lift p.2 hp1)
          · obtain ⟨h1, h2⟩ := ih acc res h
            exact ⟨fun c hc => (h1 c hc).imp id (lift c),
              fun p hp => (h2 p hp).imp id (lift p.2)⟩

theorem addAllocated_mem (s : StdmaSlotManager) (used : List (Nat × Nat)) :
    ∀ (missing : Nat) (candidates res : List Nat),
      addAllocated s used missing candidates = some res →
      ∀ c ∈ res, c ∈ candidates ∨ ∃ p ∈ used, p.2 = c := by
  induction used with
  | nil =>
    intro missing candidates res h c hc
    simp only [addAllocated, Option.some.injEq] at h
    subst h
    exact Or.inl hc
  | cons q rest ih =>
    intro missing candidates res h c hc
    obtain ⟨d, index⟩ := q
    simp only [addAllocated] at h
    cases hf : mapFind s.m_slots index with
    | none => simp [hf] at h
    | some slot =>
      simp only [hf] at h
      have lift : (∃ p ∈ rest, p.2 = c) → ∃ p ∈ (d, index) :: rest, p.2 = c := by
        rintro ⟨p, hp, hpc⟩
        exact ⟨p, List.mem_cons_of_mem _ hp, hpc⟩
      have new : c ∈ candidates ++ [index] → c ∈ candidates ∨ ∃ p ∈ (d, index) :: rest, p.2 = c := by
        intro hc1
        rcases List.mem_append.mp hc1 with hc2 | hc2
        · exact Or.inl hc2
        · rw [List.mem_singleton] at hc2
          exact Or.inr ⟨(d, index), List.mem_cons_self _ _, hc2.symm⟩
      split_ifs at h with hcol hmiss
      · simp only [Option.some.injEq] at h
        subst h
        exact new hc
      · rcases ih _ _ res h c hc with hc1 | hc1
        · exact new hc1
        · exact Or.inr (lift hc1)
      · rcases ih _ _ res h c hc with hc1 | hc1
        · exact Or.inl hc1
        · exact Or.inr (lift hc1)

theorem compileCandidates_scanned (s : StdmaSlotManager) (now until_ : Time)
    (distance : Vector → Nat) (skip : Bool) (NS : Nat) (candidates : List Nat)
    (h : compileCandidates s now until_ distance skip NS = some candidates) :
    ∀ c ∈ candidates, Scanned s (scanCounters NS s.m_siHalf) c := by
  unfold compileCandidates at h
  cases hscan : scanSlots s now until_ distance skip (scanCounters NS s.m_siHalf) ([], []) with
  | none => simp [hscan] at h
  | some res =>
    obtain ⟨cands0, used⟩ := res
    simp only [hscan] at h
    obtain ⟨h1, h2⟩ := scanSlots_scanned s now until_ distance skip _ _ _ hscan
    have hc0 : ∀ c ∈ cands0, Scanned s (scanCounters NS s.m_siHalf) c := by
      intro c hc
      rcases h1 c hc with hc1 | hc1
      · simp at hc1
      · exact hc1
    split_ifs at h with hlt
    · intro c hc
      rcases addAllocated_mem s _ _ _ _ h c hc with hc1 | ⟨p, hp, hpc⟩
      · exact hc0 c hc1
      · rw [← hpc]
        rcases h2 p (List.mem_reverse.mp hp) with hp1 | hp1
        · simp at hp1
        · exact hp1
    · simp only [Option.some.injEq] at h
      subst h
      exact hc0

theorem wrapIndex_spec (N : Nat) (i : Int) (j : Nat) (h : wrapIndex N N i = some j) :
    j < N ∧ (j : Int) = i % (N : Int) := by
  unfold wrapIndex at h
  simp only at h
  by_cases h0 : i < 0
  · rw [if_pos h0] at h
    by_cases h1 : 0 ≤ (N : Int) + i ∧ (N : Int) + i < (N : Int)
    · rw [if_pos h1] at h
      simp only [Option.some.injEq] at h
      subst h
      have hj : (((N : Int) + i).toNat : Int) = (N : Int) + i := Int.toNat_of_nonneg h1.1
      refine ⟨by omega, ?_⟩
      rw [hj]
      have hi : i = ((N : Int) + i) + (-1) * (N : Int) := by ring
      rw [hi, Int.add_mul_emod_self, ← hi]
      exact (Int.emod_eq_of_lt (by omega) (by omega)).symm
    · rw [if_neg h1] at h
      exact absurd h (by simp)
  · rw [if_neg h0] at h
    by_cases h2 : i ≥ (N : Int)
    · rw [if_pos h2] at h
      by_cases h3 : 0 ≤ i - (N : Int) ∧ i - (N : Int) < (N : Int)
      · rw [if_pos h3] at h
        simp only [Option.some.injEq] at h
        subst h
        have hj : ((i - (N : Int)).toNat : Int) = i - (N : Int) := Int.toNat_of_nonneg h3.1
        refine ⟨by omega, ?_⟩
        rw [hj]
        have hi : i = (i - (N : Int)) + 1 * (N : Int) := by ring
        rw [hi, Int.add_mul_emod_self, ← hi]
        exact (Int.emod_eq_of_lt (by omega) (by omega)).symm
      · rw [if_neg h3] at h
        exact absurd h (by simp)
    · rw [if_neg h2] at h
      by_cases h4 : 0 ≤ i ∧ i < (N : Int)
      · rw [if_pos h4] at h
        simp only [Option.some.injEq] at h
        subst h
        have hj : (i.toNat : Int) = i := Int.toNat_of_nonneg h4.1
        refine ⟨by omega, ?_⟩
        rw [hj]
        exact (Int.emod_eq_of_lt (by omega) (by omega)).symm
      · rw [if_neg h4] at h
        exact absurd h (by simp)

theorem scanned_inWindow (s : StdmaSlotManager) (hring : RingOK s) (n c : Nat)
    (h : Scanned s (scanCounters (s.m_nss[n]?.getD 0) s.m_siHalf) c) :
    InWindow s n c ∧ ∃ slot, mapFind s.m_slots c = some slot := by
  obtain ⟨i, hi, j, slot, hw, hf, hc⟩ := h
  have hlen : s.m_slots.length = s.m_numSlots := keys_range_length _ _ hring.1
  rw [hlen] at hw
  obtain ⟨_, hj⟩ := wrapIndex_spec _ _ _ hw
  have hidx := (ringOK_find s hring j slot hf).1
  have hcj : c = j := by rw [hc, hidx]
  subst hcj
  refine ⟨?_, slot, hf⟩
  unfold scanCounters at hi
  obtain ⟨k, hk0, hik⟩ := List.mem_map.mp hi
  have hk : k < 2 * s.m_siHalf + 1 := List.mem_range.mp hk0
  refine ⟨(k : Int) - (s.m_siHalf : Int), ?_, ?_⟩
  · rw [abs_le]
    constructor <;> omega
  · rw [hj, ← hik]
    congr 1
    ring

/-! ## Effect of the operations on the ring and on the reservation map -/

theorem sameConfig_refl (s : StdmaSlotManager) : SameConfig s s :=
  ⟨rfl, rfl, rfl, rfl, rfl, rfl, rfl⟩

theorem sameConfig_trans (s s1 s2 : StdmaSlotManager) (h1 : SameConfig s s1)
    (h2 : SameConfig s1 s2) : SameConfig s s2 := by
  obtain ⟨a1, a2, a3, a4, a5, a6, a7⟩ := h1
  obtain ⟨b1, b2, b3, b4, b5, b6, b7⟩ := h2
  exact ⟨b1.trans a1, b2.trans a2, b3.trans a3, b4.trans a4, b5.trans a5, b6.trans a6,
    b7.trans a7⟩

theorem inWindow_congr (s s1 : StdmaSlotManager) (h : SameConfig s s1) (n index : Nat) :
    InWindow s1 n index ↔ InWindow s n index := by
  obtain ⟨a1, a2, a3, _, _, _, _⟩ := h
  unfold InWindow
  rw [a1, a2, a3]

theorem UpdateSlotObservations_effect (s s1 : StdmaSlotManager) (now : Time)
    (hring : RingOK s) (h : UpdateSlotObservations s now = some s1) :
    RingOK s1 ∧ SameConfig s s1 ∧ s1.m_selections = s.m_selections ∧
      ∀ k, mapFind s1.m_slots k = (mapFind s.m_slots k).map (agedSlot now) := by
  obtain ⟨hkeys, slots, c, hs1⟩ := UpdateSlotObservations_frame s s1 now h
  have hfind := UpdateSlotObservations_find s s1 now s.m_numSlots hring.1 h
  have hN : s1.m_numSlots = s.m_numSlots := by rw [hs1]
  refine ⟨?_, ?_, ?_, hfind⟩
  · apply ringOK_of_find
    · rw [hkeys, hN]
      exact hring.1
    · intro k slot1 hk
      rw [hfind k] at hk
      cases hf : mapFind s.m_slots k with
      | none => simp [hf] at hk
      | some slot =>
        simp only [hf, Option.map_some', Option.some.injEq] at hk
        rw [← hk, agedSlot_index]
        exact (ringOK_find s hring k slot hf).1
  · rw [hs1]
    exact ⟨rfl, rfl, rfl, rfl, rfl, rfl, rfl⟩
  · rw [hs1]

theorem ageCheck_effect (s s1 : StdmaSlotManager) (now : Time)
    (hring : RingOK s) (h : ageCheck s now = some s1) :
    RingOK s1 ∧ SameConfig s s1 ∧ s1.m_selections = s.m_selections ∧
      ∀ k slot1, mapFind s1.m_slots k = some slot1 →
        ∃ slot, mapFind s.m_slots k = some slot ∧ slot1.m_index = slot.m_index ∧
          (slot1.m_internal = true → slot.m_internal = true) := by
  unfold ageCheck at h
  split_ifs at h with hge
  · obtain ⟨h1, h2, h3, h4⟩ := UpdateSlotObservations_effect s s1 now hring h
    refine ⟨h1, h2, h3, ?_⟩
    intro k slot1 hk
    rw [h4 k] at hk
    cases hf : mapFind s.m_slots k with
    | none => simp [hf] at hk
    | some slot =>
      simp only [hf, Option.map_some', Option.some.injEq] at hk
      refine ⟨slot, rfl, ?_, ?_⟩
      · rw [← hk, agedSlot_index]
      · intro hint
        rw [← hk] at hint
        exact (agedSlot_internal now slot hint).1
  · simp only [Option.some.injEq] at h
    subst h
    exact ⟨hring, sameConfig_refl s, rfl, fun k slot1 hk => ⟨slot1, hk, rfl, id⟩⟩

theorem ringOK_mapModify (s : StdmaSlotManager) (hring : RingOK s) (key : Nat)
    (f : StdmaSlot → StdmaSlot) (hf : ∀ x, (f x).m_index = x.m_index)
    (s1 : StdmaSlotManager) (hslots : s1.m_slots = mapModify s.m_slots key f)
    (hN : s1.m_numSlots = s.m_numSlots) : RingOK s1 := by
  apply ringOK_of_find
  · rw [hslots, mapModify_keys, hN]
    exact hring.1
  · intro k slot1 hk
    rw [hslots] at hk
    by_cases hkey : key = k
    · subst hkey
      rw [mapFind_mapModify_same] at hk
      cases hfs : mapFind s.m_slots key with
      | none => simp [hfs] at hk
      | some slot =>
        simp only [hfs, Option.map_some', Option.some.injEq] at hk
        rw [← hk, hf]
        exact (ringOK_find s hring key slot hfs).1
    · rw [mapFind_mapModify_ne _ _ _ _ hkey] at hk
      exact (ringOK_find s hring k slot1 hk).1

theorem commitSelection_effect (s s2 : StdmaSlotManager) (now : Time) (candidates : List Nat)
    (selection n timeout index : Nat)
    (h : commitSelection s now candidates selection n timeout = some (s2, index)) :
    index ∈ candidates ∧ candidates[selection]? = some index ∧
    (∃ slot, mapFind s.m_slots index = some slot ∧
      s2.m_slots = mapModify s.m_slots index (fun x => x.MarkAsInternallyAllocated timeout)) ∧
    s2.m_selections = mapInsert s.m_selections n index ∧ SameConfig s s2 := by
  unfold commitSelection at h
  cases hg : candidates[selection]? with
  | none => simp [hg] at h
  | some idx =>
    simp only [hg] at h
    cases hf : mapFind s.m_slots idx with
    | none => simp [hf] at h
    | some slot =>
      simp only [hf, Option.some.injEq, Prod.mk.injEq] at h
      obtain ⟨hs2, hidx⟩ := h
      subst hidx
      refine ⟨List.getElem?_mem hg, rfl, ⟨slot, hf, ?_⟩, ?_, ?_⟩
      · rw [← hs2]
      · rw [← hs2]
      · rw [← hs2]
        exact ⟨rfl, rfl, rfl, rfl, rfl, rfl, rfl⟩

theorem commitSelection_isSome (s : StdmaSlotManager) (now : Time) (candidates : List Nat)
    (selection n timeout : Nat) (hsel : selection < candidates.length)
    (hring : ∀ c ∈ candidates, ∃ slot, mapFind s.m_slots c = some slot) :
    ∃ s2 index, commitSelection s now candidates selection n timeout = some (s2, index) := by
  unfold commitSelection
  rw [List.getElem?_eq_getElem hsel]
  obtain ⟨slot, hslot⟩ := hring _ (List.getElem_mem hsel)
  simp only [hslot]
  exact ⟨_, _, rfl⟩

theorem selectCandidates_effect (s s1 : StdmaSlotManager) (now : Time) (distance : Vector → Nat)
    (n timeout : Nat) (candidates : List Nat) (hring : RingOK s)
    (h : selectCandidates s now distance n timeout = some (s1, candidates)) :
    n < s.m_nss.length ∧ ageCheck s now = some s1 ∧ RingOK s1 ∧ SameConfig s s1 ∧
      s1.m_selections = s.m_selections ∧
      ∀ c ∈ candidates, InWindow s n c ∧ ∃ slot, mapFind s1.m_slots c = some slot := by
  unfold selectCandidates at h
  split_ifs at h with hn
  cases hage : ageCheck s now with
  | none => simp [hage] at h
  | some sa =>
    simp only [hage] at h
    cases hc : compileCandidates sa now (now + (timeout : Int) * s.m_frameDuration) distance
        sa.m_selections.isEmpty (sa.m_nss[n]?.getD 0) with
    | none => simp [hc] at h
    | some cands =>
      simp only [hc, Option.some.injEq, Prod.mk.injEq] at h
      obtain ⟨hs1, hcands⟩ := h
      subst hs1
      subst hcands
      obtain ⟨hr1, hcfg, hsel, _⟩ := ageCheck_effect s sa now hring hage
      refine ⟨hn, rfl, hr1, hcfg, hsel, ?_⟩
      intro c hcmem
      obtain ⟨hw, hslot⟩ := scanned_inWindow sa hr1 n c
        (compileCandidates_scanned sa _ _ _ _ _ _ hc c hcmem)
      exact ⟨(inWindow_congr s sa hcfg n c).mp hw, hslot⟩

/-- C1: the first selection binds the reservation to an internally allocated slot of its
selection window.  In a well-formed state in which
`SelectTransmissionSlotForReservationWithNo (n, timeout)` compiles a candidate list, for every
draw `selection` below the length of that list the operation completes, binds `n` in
`m_selections` to a slot that is internally allocated with internal timeout `timeout`, and
the index of that slot is `(NS_n + d) mod N` for some `d` with `|d| <= SI/2`. -/
theorem select_binds_slot_in_window (s s1 : StdmaSlotManager) (now : Time)
    (distance : Vector → Nat) (selection n timeout : Nat) (candidates : List Nat)
    (hring : RingOK s)
    (hcands : selectCandidates s now distance n timeout = some (s1, candidates))
    (hsel : selection < candidates.length) :
    n < s.m_nss.length ∧
    ∃ s2 key slot,
      SelectTransmissionSlotForReservationWithNo s now distance selection n timeout = some s2 ∧
      mapFind s2.m_selections n = some key ∧ mapFind s2.m_slots key = some slot ∧
      slot.m_internal = true ∧ slot.m_internalTimeout = timeout ∧
      ∃ d : Int, |d| ≤ (s.m_siHalf : Int) ∧
        (slot.m_index : Int) = (((s.m_nss[n]?.getD 0 : Nat) : Int) + d) % (s.m_numSlots : Int) := by
  obtain ⟨hn, _, hr1, _, _, hc⟩ := selectCandidates_effect s s1 now distance n timeout
    candidates hring hcands
  obtain ⟨s2, index, hcommit⟩ := commitSelection_isSome s1 now candidates selection n timeout
    hsel (fun c hcm => (hc c hcm).2)
  obtain ⟨hmem, _, ⟨slot, hslot, hslots2⟩, hsel2, _⟩ :=
    commitSelection_effect s1 s2 now candidates selection n timeout index hcommit
  refine ⟨hn, s2, index, slot.MarkAsInternallyAllocated timeout, ?_, ?_, ?_, rfl, rfl, ?_⟩
  · unfold SelectTransmissionSlotForReservationWithNo
    simp only [hcands, hcommit]
  · rw [hsel2]
    exact mapFind_mapInsert_same _ _ _
  · rw [hslots2, mapFind_mapModify_same, hslot]
    rfl
  · have hidx : (slot.MarkAsInternallyAllocated timeout).m_index = index :=
      (ringOK_find s1 hr1 index slot hslot).1
    rw [hidx]
    exact (hc index hmem).1

theorem releaseOld_effect (s s1 : StdmaSlotManager) (now : Time) (n oldIndex : Nat)
    (hring : RingOK s) (h : releaseOld s now n = some (s1, oldIndex)) :
    n < s.m_nss.length ∧ mapFind s.m_selections n = some oldIndex ∧
    ∃ sa x, ageCheck s now = some sa ∧ mapFind sa.m_slots oldIndex = some x ∧
      s1 = { sa with m_slots := mapModify sa.m_slots oldIndex StdmaSlot.MarkAsFree } := by
  unfold releaseOld at h
  cases hk0 : mapFind s.m_selections n with
  | none => simp [hk0] at h
  | some key0 =>
    simp only [hk0] at h
    split_ifs at h with hn
    cases hage : ageCheck s now with
    | none => simp [hage] at h
    | some sa =>
      simp only [hage] at h
      obtain ⟨hr1, _, hsel, _⟩ := ageCheck_effect s sa now hring hage
      have hk1 : mapFind sa.m_selections n = some key0 := by
        rw [hsel]
        exact hk0
      rw [hk1] at h
      simp only at h
      cases hf : mapFind sa.m_slots key0 with
      | none => simp [hf] at h
      | some selected =>
        simp only [hf] at h
        have hidx : selected.m_index = key0 := (ringOK_find sa hr1 key0 selected hf).1
        rw [hidx, hf] at h
        simp only [Option.some.injEq, Prod.mk.injEq] at h
        obtain ⟨hs1, hold⟩ := h
        subst hold
        exact ⟨hn, rfl, sa, selected, rfl, hf, hs1.symm⟩

theorem reselectCandidates_effect (s s1 : StdmaSlotManager) (now : Time)
    (distance : Vector → Nat) (n timeout oldIndex : Nat) (candidates : List Nat)
    (hring : RingOK s)
    (h : reselectCandidates s now distance n timeout = some (s1, oldIndex, candidates)) :
    releaseOld s now n = some (s1, oldIndex) ∧ RingOK s1 ∧ SameConfig s s1 ∧
      s1.m_selections = s.m_selections ∧
      ∀ c ∈ candidates, InWindow s n c ∧ ∃ slot, mapFind s1.m_slots c = some slot := by
  unfold reselectCandidates at h
  cases hrel : releaseOld s now n with
  | none => simp [hrel] at h
  | some pr =>
    obtain ⟨sr, old⟩ := pr
    simp only [hrel] at h
    cases hc : compileCandidates sr now (now + (timeout : Int) * s.m_frameDuration) distance
        false (sr.m_nss[n]?.getD 0) with
    | none => simp [hc] at h
    | some cands =>
      simp only [hc, Option.some.injEq, Prod.mk.injEq] at h
      obtain ⟨hs1, hold, hcands⟩ := h
      subst hs1
      subst hold
      subst hcands
      obtain ⟨_, _, sa, x, hage, _, hsr⟩ := releaseOld_effect s sr now n old hring hrel
      obtain ⟨hra, hcfg, hsel, _⟩ := ageCheck_effect s sa now hring hage
      have hr1 : RingOK sr :=
        ringOK_mapModify sa hra old StdmaSlot.MarkAsFree (fun _ => rfl) sr (by rw [hsr])
          (by rw [hsr])
      have hcfg1 : SameConfig s sr := by
        rw [hsr]
        exact hcfg
      have hsel1 : sr.m_selections = s.m_selections := by
        rw [hsr]
        exact hsel
      refine ⟨rfl, hr1, hcfg1, hsel1, ?_⟩
      intro c hcmem
      obtain ⟨hw, hslot⟩ := scanned_inWindow sr hr1 n c
        (compileCandidates_scanned sr _ _ _ _ _ _ hc c hcmem)
      exact ⟨(inWindow_congr s sr hcfg1 n c).mp hw, hslot⟩

/-- C2: the re-selection rebinds the reservation and leaves the old slot free.  In a
well-formed state in which `ReSelectTransmissionSlotForReservationWithNo (n, timeout)`
compiles a candidate list for the reservation `n`, bound to the slot with index `oldIndex`,
for every draw `selection` below the length of that list the operation completes and binds
`n` to a slot that is internally allocated with internal timeout `timeout`; if that slot is
not the old one, the old slot is Free, not internally allocated, and both its timeouts are
0. -/
theorem reselect_rebinds_and_frees_old (s s1 : StdmaSlotManager) (now : Time)
    (distance : Vector → Nat) (selection n timeout oldIndex : Nat) (candidates : List Nat)
    (hring : RingOK s)
    (hcands : reselectCandidates s now distance n timeout = some (s1, oldIndex, candidates))
    (hsel : selection < candidates.length) :
    mapFind s.m_selections n = some oldIndex ∧
    ∃ s2 offset key slot,
      ReSelectTransmissionSlotForReservationWithNo s now distance selection n timeout
        = some (s2, offset) ∧
      mapFind s2.m_selections n = some key ∧ mapFind s2.m_slots key = some slot ∧
      slot.m_index = key ∧ slot.m_internal = true ∧ slot.m_internalTimeout = timeout ∧
      (key ≠ oldIndex →
        ∃ old, mapFind s2.m_slots oldIndex = some old ∧ old.m_index = oldIndex ∧
          old.m_state = State.FREE ∧ old.m_internal = false ∧ old.m_timeout = 0 ∧
          old.m_internalTimeout = 0) := by
  obtain ⟨hrel, hr1, _, _, hc⟩ := reselectCandidates_effect s s1 now distance n timeout
    oldIndex candidates hring hcands
  obtain ⟨_, hold, sa, x, _, hx, hs1⟩ := releaseOld_effect s s1 now n oldIndex hring hrel
  obtain ⟨s2, index, hcommit⟩ := commitSelection_isSome s1 now candidates selection n timeout
    hsel (fun c hcm => (hc c hcm).2)
  obtain ⟨_, _, ⟨slot, hslot, hslots2⟩, hsel2, _⟩ :=
    commitSelection_effect s1 s2 now candidates selection n timeout index hcommit
  refine ⟨hold, s2, reselectOffset s2.m_numSlots oldIndex index, index,
    slot.MarkAsInternallyAllocated timeout, ?_, ?_, ?_, ?_, rfl, rfl, ?_⟩
  · unfold ReSelectTransmissionSlotForReservationWithNo
    simp only [hcands, hcommit]
  · rw [hsel2]
    exact mapFind_mapInsert_same _ _ _
  · rw [hslots2, mapFind_mapModify_same, hslot]
    rfl
  · exact (ringOK_find s1 hr1 index slot hslot).1
  · intro hne
    have hfree : mapFind s1.m_slots oldIndex = some x.MarkAsFree := by
      rw [hs1]
      show mapFind (mapModify sa.m_slots oldIndex StdmaSlot.MarkAsFree) oldIndex = _
      rw [mapFind_mapModify_same, hx]
      rfl
    refine ⟨x.MarkAsFree, ?_, ?_, rfl, rfl, rfl, rfl⟩
    · rw [hslots2, mapFind_mapModify_ne _ _ _ _ hne]
      exact hfree
    · exact (ringOK_find s1 hr1 oldIndex _ hfree).1

/-- Witness of C1: the first selection of reservation 0 on `configuredManager`; the scan
finds the free slots 0, 1, 2 around the nominal slot 1. -/
theorem select_binds_slot_in_window_witness :
    RingOK configuredManager ∧
    selectCandidates configuredManager 0 (fun _ => 0) 0 5 = some (configuredManager, [0, 1, 2]) ∧
    (0 < configuredManager.m_nss.length ∧
    ∃ s2 key slot,
      SelectTransmissionSlotForReservationWithNo configuredManager 0 (fun _ => 0) 2 0 5
        = some s2 ∧
      mapFind s2.m_selections 0 = some key ∧ mapFind s2.m_slots key = some slot ∧
      slot.m_internal = true ∧ slot.m_internalTimeout = 5 ∧
      ∃ d : Int, |d| ≤ (configuredManager.m_siHalf : Int) ∧
        (slot.m_index : Int) = (((configuredManager.m_nss[0]?.getD 0 : Nat) : Int) + d)
          % (configuredManager.m_numSlots : Int)) :=
  ⟨by unfold RingOK; decide, by decide,
    select_binds_slot_in_window configuredManager configuredManager 0 (fun _ => 0) 2 0 5
      [0, 1, 2] (by unfold RingOK; decide) (by decide) (by decide)⟩

/-- Witness of C2: the re-selection of reservation 0 of `reservedManager` (old slot 1) with
the third candidate drawn. -/
theorem reselect_rebinds_and_frees_old_witness :
    RingOK reservedManager ∧
    (reselectCandidates reservedManager 0 (fun _ => 0) 0 3).map (fun r => r.2)
      = some (1, [0, 1, 2]) ∧
    (mapFind reservedManager.m_selections 0 = some 1 ∧
    ∃ s2 offset key slot,
      ReSelectTransmissionSlotForReservationWithNo reservedManager 0 (fun _ => 0) 2 0 3
        = some (s2, offset) ∧
      mapFind s2.m_selections 0 = some key ∧ mapFind s2.m_slots key = some slot ∧
      slot.m_index = key ∧ slot.m_internal = true ∧ slot.m_internalTimeout = 3 ∧
      (key ≠ 1 →
        ∃ old, mapFind s2.m_slots 1 = some old ∧ old.m_index = 1 ∧
          old.m_state = State.FREE ∧ old.m_internal = false ∧ old.m_timeout = 0 ∧
          old.m_internalTimeout = 0)) :=
  ⟨by unfold RingOK; decide, by decide,
    reselect_rebinds_and_frees_old reservedManager
      (((reselectCandidates reservedManager 0 (fun _ => 0) 0 3).map (fun r => r.1)).getD create)
      0 (fun _ => 0) 2 0 3 1 [0, 1, 2] (by unfold RingOK; decide) (by decide) (by decide)⟩

/-! ## Collision memory -/

/-- C9 (the code at a failing input): on `configuredManager`, with the slots 0, 1, 2 allocated
by the peers 100, 101, 102, the first selection of reservation 0 takes slot 2 (a collision
with peer 102 is remembered); after the timeout decrement the re-selection moves the
reservation to slot 1.  Peer 102 is still in the collision memory, bound to slot 2, although
slot 2 is now Free and not internally allocated. -/
theorem reselect_leaves_stale_collision :
    ((((((((MarkSlotAsAllocated configuredManager 0 0 5 100 ⟨1, 0, 0⟩ 0).bind
        (fun s => MarkSlotAsAllocated s 0 1 5 101 ⟨2, 0, 0⟩ 0)).bind
        (fun s => MarkSlotAsAllocated s 0 2 5 102 ⟨3, 0, 0⟩ 0)).bind
        (fun s => SelectTransmissionSlotForReservationWithNo s 0 (fun v => v.x.toNat) 0 0 1)).bind
        (fun s => DecreaseTimeOutOfReservationWithNumber s 0 0)).bind
        (fun r => ReSelectTransmissionSlotForReservationWithNo r.1 0 (fun v => v.x.toNat)
          1 0 3)).map
      (fun r => (mapFind r.1.m_collisions 102, mapFind r.1.m_selections 0,
        (mapFind r.1.m_slots 2).map (fun x => (x.m_internal, x.m_state)))))
      = some (some 2, some 1, some (false, State.FREE))) := by
  decide

/-! ## The reservation map -/

theorem nominalGeometry_congr (s s1 : StdmaSlotManager) (h : SameConfig s s1)
    (hg : NominalGeometry s) : NominalGeometry s1 := by
  obtain ⟨a1, a2, a3, a4, a5, _, _⟩ := h
  unfold NominalGeometry
  rw [a1, a2, a3, a4, a5]
  exact hg

theorem nominal_slot_eq (s : StdmaSlotManager) (NSS n : Nat) (hn : n < s.m_rate)
    (hnss : s.m_nss = (List.range s.m_rate).map (fun k => NSS + k * s.m_ni)) :
    s.m_nss[n]?.getD 0 = NSS + n * s.m_ni := by
  rw [hnss]
  simp [List.getElem?_map, List.getElem?_range hn]

theorem window_disjoint_aux (N R NI h NSS a b : Nat) (d1 d2 : Int) (hab : a < b) (hb : b < R)
    (hfit : R * NI ≤ N) (hh : 2 * h < NI) (hd1 : |d1| ≤ (h : Int)) (hd2 : |d2| ≤ (h : Int))
    (heq : (((NSS + b * NI : Nat) : Int) + d1) % (N : Int)
      = (((NSS + a * NI : Nat) : Int) + d2) % (N : Int)) : False := by
  have hdvd : (N : Int) ∣ (((NSS + b * NI : Nat) : Int) + d1) - (((NSS + a * NI : Nat) : Int) + d2) :=
    Int.dvd_of_emod_eq_zero (Int.emod_eq_emod_iff_emod_sub_eq_zero.mp heq)
  obtain ⟨q, hq⟩ : ∃ q : Nat, b = a + q + 1 := ⟨b - a - 1, by omega⟩
  subst hq
  have h1 : (a + q + 1) * NI = a * NI + q * NI + NI := by ring
  have h2 : (a + q + 1) * NI + NI ≤ R * NI := by
    have : (a + q + 1 + 1) * NI ≤ R * NI := Nat.mul_le_mul_right NI (by omega)
    calc (a + q + 1) * NI + NI = (a + q + 1 + 1) * NI := by ring
      _ ≤ R * NI := this
  rw [abs_le] at hd1 hd2
  generalize hx : (a + q + 1) * NI = x at *
  generalize hy : a * NI = y at *
  generalize hz : q * NI = z at *
  generalize hw : R * NI = w at *
  have hval : (((NSS + x : Nat) : Int) + d1) - (((NSS + y : Nat) : Int) + d2)
      = ((z + NI : Nat) : Int) + (d1 - d2) := by
    push_cast
    omega
  rw [hval] at hdvd
  have hzero := Int.eq_zero_of_abs_lt_dvd hdvd (by
    rw [abs_lt]
    constructor
    · push_cast
      omega
    · push_cast
      omega)
  push_cast at hzero
  omega

theorem window_disjoint (s : StdmaSlotManager) (hg : NominalGeometry s) (n m key : Nat)
    (hn : n < s.m_rate) (hm : m < s.m_rate) (hwn : InWindow s n key) (hwm : InWindow s m key) :
    n = m := by
  obtain ⟨hfit, hh, NSS, _, hnss⟩ := hg
  obtain ⟨d1, hd1, hk1⟩ := hwn
  obtain ⟨d2, hd2, hk2⟩ := hwm
  rw [nominal_slot_eq s NSS n hn hnss] at hk1
  rw [nominal_slot_eq s NSS m hm hnss] at hk2
  rcases Nat.lt_trichotomy n m with hlt | heq | hgt
  · exact (window_disjoint_aux s.m_numSlots s.m_rate s.m_ni s.m_siHalf NSS n m d2 d1 hlt hm
      hfit hh hd2 hd1 (by rw [← hk1, ← hk2])).elim
  · exact heq
  · exact (window_disjoint_aux s.m_numSlots s.m_rate s.m_ni s.m_siHalf NSS m n d1 d2 hgt hn
      hfit hh hd1 hd2 (by rw [← hk1, ← hk2])).elim

theorem reservationInv_mono (s s1 : StdmaSlotManager) (hinv : ReservationInv s)
    (hring : RingOK s1) (hcfg : SameConfig s s1) (hsel : s1.m_selections = s.m_selections)
    (hint : ∀ k slot1, mapFind s1.m_slots k = some slot1 → slot1.m_internal = true →
      ∃ slot, mapFind s.m_slots k = some slot ∧ slot.m_internal = true) :
    ReservationInv s1 := by
  refine ⟨hring, nominalGeometry_congr s s1 hcfg hinv.geometry, ?_, ?_⟩
  · intro n key hk
    rw [hsel] at hk
    obtain ⟨h1, h2⟩ := hinv.bound n key hk
    exact ⟨by rw [hcfg.2.2.2.1]; exact h1, (inWindow_congr s s1 hcfg n key).mpr h2⟩
  · intro key slot1 hk hi
    obtain ⟨slot, hslot, hsi⟩ := hint key slot1 hk hi
    rw [hsel]
    exact hinv.referenced key slot hslot hsi

theorem mapFind_mapModify_internal (m : List (Nat × StdmaSlot)) (key k : Nat)
    (f : StdmaSlot → StdmaSlot) (hf : ∀ x, (f x).m_internal = x.m_internal) (slot1 : StdmaSlot)
    (h : mapFind (mapModify m key f) k = some slot1) :
    ∃ slot, mapFind m k = some slot ∧ slot1.m_internal = slot.m_internal := by
  by_cases hkey : key = k
  · subst hkey
    rw [mapFind_mapModify_same] at h
    cases hfm : mapFind m key with
    | none => simp [hfm] at h
    | some slot =>
      simp only [hfm, Option.map_some', Option.some.injEq] at h
      exact ⟨slot, rfl, by rw [← h, hf]⟩
  · rw [mapFind_mapModify_ne _ _ _ _ hkey] at h
    exact ⟨slot1, h, rfl⟩

theorem reservationInv_ageCheck (s s1 : StdmaSlotManager) (now : Time)
    (hinv : ReservationInv s) (h : ageCheck s now = some s1) : ReservationInv s1 := by
  obtain ⟨hr, hcfg, hsel, hfind⟩ := ageCheck_effect s s1 now hinv.ring h
  apply reservationInv_mono s s1 hinv hr hcfg hsel
  intro k slot1 hk hi
  obtain ⟨slot, hslot, _, himp⟩ := hfind k slot1 hk
  exact ⟨slot, hslot, himp hi⟩

theorem reservationInv_commit (s1 s2 : StdmaSlotManager) (now : Time) (candidates : List Nat)
    (selection n timeout index : Nat) (hinv : ReservationInv s1) (hn : n < s1.m_rate)
    (hwin : ∀ c ∈ candidates, InWindow s1 n c)
    (hother : ∀ key slot, mapFind s1.m_slots key = some slot → slot.m_internal = true →
      key ≠ index → ∃ m, m ≠ n ∧ mapFind s1.m_selections m = some key)
    (h : commitSelection s1 now candidates selection n timeout = some (s2, index)) :
    ReservationInv s2 := by
  obtain ⟨hmem, _, ⟨slot, _, hslots2⟩, hsel2, hcfg⟩ :=
    commitSelection_effect s1 s2 now candidates selection n timeout index h
  refine ⟨?_, nominalGeometry_congr s1 s2 hcfg hinv.geometry, ?_, ?_⟩
  · exact ringOK_mapModify s1 hinv.ring index (fun x => x.MarkAsInternallyAllocated timeout)
      (fun _ => rfl) s2 hslots2 hcfg.1
  · intro m key hk
    rw [hsel2] at hk
    rw [hcfg.2.2.2.1]
    by_cases hmn : n = m
    · subst hmn
      rw [mapFind_mapInsert_same] at hk
      cases hk
      exact ⟨hn, (inWindow_congr s1 s2 hcfg n index).mpr (hwin index hmem)⟩
    · rw [mapFind_mapInsert_ne _ _ _ _ hmn] at hk
      obtain ⟨h1, h2⟩ := hinv.bound m key hk
      exact ⟨h1, (inWindow_congr s1 s2 hcfg m key).mpr h2⟩
  · intro key slot2 hk hi
    rw [hsel2]
    by_cases hkey : index = key
    · subst hkey
      exact ⟨n, mapFind_mapInsert_same _ _ _⟩
    · rw [hslots2, mapFind_mapModify_ne _ _ _ _ hkey] at hk
      obtain ⟨m, hmn, hm⟩ := hother key slot2 hk hi (fun h => hkey h.symm)
      exact ⟨m, by rw [mapFind_mapInsert_ne _ _ _ _ (fun h => hmn h.symm)]; exact hm⟩

theorem nss_length (s : StdmaSlotManager) (hg : NominalGeometry s) :
    s.m_nss.length = s.m_rate := by
  obtain ⟨_, _, NSS, _, hnss⟩ := hg
  rw [hnss]
  simp

theorem reservationInv_select (s s2 : StdmaSlotManager) (now : Time) (distance : Vector → Nat)
    (selection n timeout : Nat) (hinv : ReservationInv s)
    (hfresh : mapFind s.m_selections n = none)
    (h : SelectTransmissionSlotForReservationWithNo s now distance selection n timeout
      = some s2) : ReservationInv s2 := by
  unfold SelectTransmissionSlotForReservationWithNo at h
  cases hc : selectCandidates s now distance n timeout with
  | none => simp [hc] at h
  | some pr =>
    obtain ⟨s1, candidates⟩ := pr
    simp only [hc] at h
    cases hcommit : commitSelection s1 now candidates selection n timeout with
    | none => simp [hcommit] at h
    | some pr2 =>
      obtain ⟨s3, index⟩ := pr2
      simp only [hcommit, Option.some.injEq] at h
      subst h
      obtain ⟨hn, hage, _, hcfg, hsel, hcands⟩ :=
        selectCandidates_effect s s1 now distance n timeout candidates hinv.ring hc
      have hinv1 := reservationInv_ageCheck s s1 now hinv hage
      apply reservationInv_commit s1 s3 now candidates selection n timeout index hinv1
      · rw [hcfg.2.2.2.1, ← nss_length s hinv.geometry]
        exact hn
      · intro c hcm
        exact (inWindow_congr s s1 hcfg n c).mpr (hcands c hcm).1
      · intro key slot hk hi _
        obtain ⟨m, hm⟩ := hinv1.referenced key slot hk hi
        refine ⟨m, ?_, hm⟩
        intro hmn
        subst hmn
        rw [hsel, hfresh] at hm
        cases hm
      · exact hcommit

theorem reservationInv_reselect (s s2 : StdmaSlotManager) (now : Time) (distance : Vector → Nat)
    (selection n timeout offset : Nat) (hinv : ReservationInv s)
    (h : ReSelectTransmissionSlotForReservationWithNo s now distance selection n timeout
      = some (s2, offset)) : ReservationInv s2 := by
  unfold ReSelectTransmissionSlotForReservationWithNo at h
  cases hc : reselectCandidates s now distance n timeout with
  | none => simp [hc] at h
  | some pr =>
    obtain ⟨s1, oldIndex, candidates⟩ := pr
    simp only [hc] at h
    cases hcommit : commitSelection s1 now candidates selection n timeout with
    | none => simp [hcommit] at h
    | some pr2 =>
      obtain ⟨s3, index⟩ := pr2
      simp only [hcommit, Option.some.injEq, Prod.mk.injEq] at h
      obtain ⟨hs3, _⟩ := h
      subst hs3
      obtain ⟨hrel, hr1, hcfg, hsel, hcands⟩ :=
        reselectCandidates_effect s s1 now distance n timeout oldIndex candidates hinv.ring hc
      obtain ⟨hn, hold, sa, x, hage, hx, hs1⟩ :=
        releaseOld_effect s s1 now n oldIndex hinv.ring hrel
      have hinva := reservationInv_ageCheck s sa now hinv hage
      obtain ⟨_, hcfga, hsela, _⟩ := ageCheck_effect s sa now hinv.ring hage
      have hslots1 : s1.m_slots = mapModify sa.m_slots oldIndex StdmaSlot.MarkAsFree := by
        rw [hs1]
      have hsel1a : s1.m_selections = sa.m_selections := by rw [hs1]
      have hcfg1a : SameConfig sa s1 := by
        rw [hs1]
        exact ⟨rfl, rfl, rfl, rfl, rfl, rfl, rfl⟩
      have hkeep : ∀ k slot1, mapFind s1.m_slots k = some slot1 → slot1.m_internal = true →
          k ≠ oldIndex ∧ mapFind sa.m_slots k = some slot1 := by
        intro k slot1 hk hi
        rw [hslots1] at hk
        by_cases hko : oldIndex = k
        · subst hko
          rw [mapFind_mapModify_same, hx] at hk
          simp only [Option.map_some', Option.some.injEq] at hk
          rw [← hk] at hi
          simp [StdmaSlot.MarkAsFree] at hi
        · rw [mapFind_mapModify_ne _ _ _ _ hko] at hk
          exact ⟨fun h => hko h.symm, hk⟩
      have hinv1 : ReservationInv s1 :=
        reservationInv_mono sa s1 hinva hr1 hcfg1a hsel1a
          (fun k slot1 hk hi => ⟨slot1, (hkeep k slot1 hk hi).2, hi⟩)
      apply reservationInv_commit s1 s3 now candidates selection n timeout index hinv1
      · rw [hcfg.2.2.2.1, ← nss_length s hinv.geometry]
        exact hn
      · intro c hcm
        exact (inWindow_congr s s1 hcfg n c).mpr (hcands c hcm).1
      · intro key slot hk hi _
        obtain ⟨hne, hka⟩ := hkeep key slot hk hi
        obtain ⟨m, hm⟩ := hinva.referenced key slot hka hi
        refine ⟨m, ?_, by rw [hsel1a]; exact hm⟩
        intro hmn
        subst hmn
        rw [hsela, hold] at hm
        cases hm
        exact hne rfl
      · exact hcommit

theorem reservationInv_decrease (s s2 : StdmaSlotManager) (now : Time) (n newValue : Nat)
    (hinv : ReservationInv s)
    (h : DecreaseTimeOutOfReservationWithNumber s now n = some (s2, newValue)) :
    ReservationInv s2 := by
  unfold DecreaseTimeOutOfReservationWithNumber at h
  cases hk : mapFind s.m_selections n with
  | none => simp [hk] at h
  | some key =>
    simp only [hk] at h
    cases hs0 : mapFind s.m_slots key with
    | none => simp [hs0] at h
    | some slot0 =>
      simp only [hs0] at h
      split_ifs at h with hguard
      cases hage : ageCheck s now with
      | none => simp [hage] at h
      | some s1 =>
        simp only [hage] at h
        cases hs1 : mapFind s1.m_slots key with
        | none => simp [hs1] at h
        | some slot =>
          simp only [hs1] at h
          cases hs2 : mapFind s1.m_slots slot.m_index with
          | none => simp [hs2] at h
          | some y =>
            simp only [hs2, Option.some.injEq, Prod.mk.injEq] at h
            obtain ⟨hfin, _⟩ := h
            have hinv1 := reservationInv_ageCheck s s1 now hinv hage
            have hmid : RingOK { s1 with m_slots := (mapModify s1.m_slots slot.m_index
                (fun x => x.SetInternalTimeout (u8dec slot.m_internalTimeout))) } :=
              ringOK_mapModify s1 hinv1.ring slot.m_index
                (fun x => x.SetInternalTimeout (u8dec slot.m_internalTimeout)) (fun _ => rfl)
                _ rfl rfl
            have hring2 : RingOK s2 :=
              ringOK_mapModify _ hmid key
                (fun x => x.SetInternalTimeout (u8dec slot.m_internalTimeout)) (fun _ => rfl)
                s2 (by rw [← hfin]) (by rw [← hfin])
            apply reservationInv_mono s1 s2 hinv1 hring2
            · rw [← hfin]
              exact ⟨rfl, rfl, rfl, rfl, rfl, rfl, rfl⟩
            · rw [← hfin]
            · intro k slot2 hk2 hi
              rw [← hfin] at hk2
              obtain ⟨a, ha, hai⟩ := mapFind_mapModify_internal _ key k
                (fun x => x.SetInternalTimeout (u8dec slot.m_internalTimeout)) (fun _ => rfl)
                slot2 hk2
              obtain ⟨b, hb, hbi⟩ :=
                mapFind_mapModify_internal _ slot.m_index k
                  (fun x => x.SetInternalTimeout (u8dec slot.m_internalTimeout)) (fun _ => rfl)
                  a ha
              exact ⟨b, hb, by rw [← hbi, ← hai]; exact hi⟩

theorem markAsAllocated_index (x : StdmaSlot) (now : Time) (timeout : Nat) (owner : Mac48Address)
    (position : Vector) (notBefore : Time) :
    (x.MarkAsAllocated now timeout owner position notBefore).m_index = x.m_index ∧
    (x.MarkAsAllocated now timeout owner position notBefore).m_internal = x.m_internal := by
  unfold StdmaSlot.MarkAsAllocated
  simp only
  split_ifs <;> exact ⟨rfl, rfl⟩

theorem reservationInv_markAllocated (s s2 : StdmaSlotManager) (now : Time) (index timeout : Nat)
    (node : Mac48Address) (position : Vector) (notbefore : Time) (hinv : ReservationInv s)
    (h : MarkSlotAsAllocated s now index timeout node position notbefore = some s2) :
    ReservationInv s2 := by
  unfold MarkSlotAsAllocated at h
  cases hage : ageCheck s now with
  | none => simp [hage] at h
  | some s1 =>
    simp only [hage] at h
    cases hs1 : mapFind s1.m_slots index with
    | none => simp [hs1] at h
    | some slot =>
      simp only [hs1, Option.some.injEq] at h
      have hinv1 := reservationInv_ageCheck s s1 now hinv hage
      have hring2 : RingOK s2 :=
        ringOK_mapModify s1 hinv1.ring index
          (fun x => x.MarkAsAllocated now timeout node position notbefore)
          (fun x => (markAsAllocated_index x now timeout node position notbefore).1) s2
          (by rw [← h]) (by rw [← h])
      apply reservationInv_mono s1 s2 hinv1 hring2
      · rw [← h]
        exact ⟨rfl, rfl, rfl, rfl, rfl, rfl, rfl⟩
      · rw [← h]
      · intro k slot2 hk2 hi
        rw [← h] at hk2
        obtain ⟨a, ha, hai⟩ := mapFind_mapModify_internal _ index k
          (fun x => x.MarkAsAllocated now timeout node position notbefore)
          (fun x => (markAsAllocated_index x now timeout node position notbefore).2) slot2 hk2
        exact ⟨a, ha, by rw [← hai]; exact hi⟩

theorem reservationInv_aging (s s2 : StdmaSlotManager) (now : Time) (hinv : ReservationInv s)
    (h : UpdateSlotObservations s now = some s2) : ReservationInv s2 := by
  obtain ⟨hr, hcfg, hsel, hfind⟩ := UpdateSlotObservations_effect s s2 now hinv.ring h
  apply reservationInv_mono s s2 hinv hr hcfg hsel
  intro k slot2 hk hi
  rw [hfind k] at hk
  cases hf : mapFind s.m_slots k with
  | none => simp [hf] at hk
  | some slot =>
    simp only [hf, Option.map_some', Option.some.injEq] at hk
    rw [← hk] at hi
    exact ⟨slot, rfl, (agedSlot_internal now slot hi).1⟩

theorem mapInsert_append {α : Type} (m : List (Nat × α)) (k : Nat) (v : α)
    (h : ∀ p ∈ m, p.1 < k) : mapInsert m k v = m ++ [(k, v)] := by
  induction m with
  | nil => rfl
  | cons q rest ih =>
    obtain ⟨k0, v0⟩ := q
    have h0 : k0 < k := h (k0, v0) (List.mem_cons_self _ _)
    have h1 : ¬ k < k0 := by omega
    have h2 : ¬ k0 = k := by omega
    simp only [mapInsert, h1, h2, if_false, List.cons_append]
    rw [ih (fun p hp => h p (List.mem_cons_of_mem _ hp))]

theorem setup_slots (N : Nat) :
    (List.range N).foldl (fun m i => mapInsert m i (StdmaSlot.create i)) []
      = (List.range N).map (fun i => (i, StdmaSlot.create i)) := by
  induction N with
  | zero => rfl
  | succ n ih =>
    rw [List.range_succ, List.foldl_append, ih, List.map_append]
    simp only [List.foldl_cons, List.foldl_nil, List.map_cons, List.map_nil]
    apply mapInsert_append
    intro p hp
    obtain ⟨i, hi, hpi⟩ := List.mem_map.mp hp
    rw [← hpi]
    exact List.mem_range.mp hi

theorem setup_ring (start frameDuration slotDuration : Time) (candidateSlots : Nat) :
    RingOK (Setup create start frameDuration slotDuration candidateSlots) ∧
    (Setup create start frameDuration slotDuration candidateSlots).m_selections = [] ∧
    ∀ k slot, mapFind (Setup create start frameDuration slotDuration candidateSlots).m_slots k
      = some slot → slot.m_internal = false := by
  have hslots : (Setup create start frameDuration slotDuration candidateSlots).m_slots
      = (List.range (Setup create start frameDuration slotDuration candidateSlots).m_numSlots).map
          (fun i => (i, StdmaSlot.create i)) := setup_slots _
  refine ⟨⟨?_, ?_⟩, rfl, ?_⟩
  · rw [hslots, List.map_map]
    exact List.map_id _
  · intro p hp
    rw [hslots] at hp
    obtain ⟨i, _, hpi⟩ := List.mem_map.mp hp
    rw [← hpi]
    rfl
  · intro k slot hk
    have hmem := mapFind_mem _ _ _ hk
    rw [hslots] at hmem
    obtain ⟨i, _, hpi⟩ := List.mem_map.mp hmem
    cases hpi
    rfl

theorem nominalSlots_spec (numSlots ni NSS : Nat) (idxs : List Nat) :
    ∀ l, nominalSlots numSlots ni NSS idxs = some l → l = idxs.map (fun i => NSS + i * ni) := by
  induction idxs with
  | nil =>
    intro l h
    simp only [nominalSlots, Option.some.injEq] at h
    rw [← h]
    rfl
  | cons i rest ih =>
    intro l h
    simp only [nominalSlots] at h
    split_ifs at h with hlt
    cases hr : nominalSlots numSlots ni NSS rest with
    | none => simp [hr] at h
    | some l1 =>
      simp only [hr, Option.some.injEq] at h
      rw [← h, ih l1 hr]
      rfl

theorem nss_layout (rate ni NSS : Nat) (hrate : 1 ≤ rate) :
    NSS :: (List.range' 1 (rate - 1)).map (fun i => NSS + i * ni)
      = (List.range rate).map (fun k => NSS + k * ni) := by
  obtain ⟨r, hr⟩ : ∃ r, rate = r + 1 := ⟨rate - 1, by omega⟩
  subst hr
  rw [List.range_eq_range', List.range'_succ]
  simp

theorem siHalf_bound (ni ratioNum ratioDen : Nat) (hni : 1 ≤ ni) (hle : ratioNum ≤ ratioDen)
    (hden : 0 < ratioDen) : 2 * ((u32sub ni 1 * ratioNum) / (2 * ratioDen)) < ni := by
  have h1 : u32sub ni 1 ≤ ni - 1 := by
    unfold u32sub UINT32_MOD
    omega
  have h2 : u32sub ni 1 * ratioNum ≤ (ni - 1) * ratioDen := Nat.mul_le_mul h1 hle
  have h3 : (u32sub ni 1 * ratioNum) / (2 * ratioDen) ≤ ((ni - 1) * ratioDen) / (2 * ratioDen) :=
    Nat.div_le_div_right h2
  have h4 : ((ni - 1) * ratioDen) / (2 * ratioDen) = (ni - 1) / 2 :=
    Nat.mul_div_mul_right _ _ hden
  rw [h4] at h3
  omega

theorem reservationInv_init (start frameDuration slotDuration : Time)
    (candidateSlots rate ratioNum ratioDen : Nat) (now : Time) (NSS : Nat)
    (s : StdmaSlotManager) (hrate : 1 ≤ rate)
    (hfit : rate ≤ (Setup create start frameDuration slotDuration candidateSlots).m_numSlots)
    (hle : ratioNum ≤ ratioDen) (hden : 0 < ratioDen)
    (h : SelectNominalSlots
        (SetSelectionIntervalRatio
          (SetReportRate (Setup create start frameDuration slotDuration candidateSlots) rate)
          ratioNum ratioDen) now NSS = some s) : ReservationInv s := by
  obtain ⟨hring0, hsel0, hint0⟩ := setup_ring start frameDuration slotDuration candidateSlots
  generalize hs0 : Setup create start frameDuration slotDuration candidateSlots = s0 at *
  have hringc : RingOK (SetSelectionIntervalRatio (SetReportRate s0 rate) ratioNum ratioDen) :=
    hring0
  unfold SelectNominalSlots at h
  cases hage : ageCheck (SetSelectionIntervalRatio (SetReportRate s0 rate) ratioNum ratioDen) now with
  | none => simp [hage] at h
  | some s1 =>
    simp only [hage] at h
    split_ifs at h with hnss
    cases hnom : nominalSlots s1.m_numSlots s1.m_ni NSS (List.range' 1 (s1.m_rate - 1)) with
    | none => simp [hnom] at h
    | some l =>
      simp only [hnom, Option.some.injEq] at h
      obtain ⟨hr1, hcfg, hsel1, hfind1⟩ := ageCheck_effect _ s1 now hringc hage
      have hrate1 : s1.m_rate = rate := hcfg.2.2.2.1
      have hni1 : s1.m_ni = s0.m_numSlots / rate := hcfg.2.2.2.2.1
      have hN1 : s1.m_numSlots = s0.m_numSlots := hcfg.1
      have hsi1 : s1.m_siHalf = (u32sub (s0.m_numSlots / rate) 1 * ratioNum) / (2 * ratioDen) :=
        hcfg.2.2.1
      have hnipos : 1 ≤ s0.m_numSlots / rate := Nat.div_pos hfit (by omega)
      have hl := nominalSlots_spec _ _ _ _ l hnom
      rw [← h]
      refine ⟨⟨hr1.1, hr1.2⟩, ?_, ?_, ?_⟩
      · refine ⟨?_, ?_, NSS, hnss, ?_⟩
        · show s1.m_rate * s1.m_ni ≤ s1.m_numSlots
          rw [hrate1, hni1, hN1]
          exact Nat.mul_div_le _ _
        · show 2 * s1.m_siHalf < s1.m_ni
          rw [hsi1, hni1]
          exact siHalf_bound _ _ _ hnipos hle hden
        · show NSS :: l = (List.range s1.m_rate).map (fun k => NSS + k * s1.m_ni)
          rw [hl]
          exact nss_layout s1.m_rate s1.m_ni NSS (by omega)
      · intro n key hk
        change mapFind s1.m_selections n = some key at hk
        rw [hsel1] at hk
        change mapFind s0.m_selections n = some key at hk
        rw [hsel0] at hk
        simp [mapFind] at hk
      · intro key slot hk hi
        change mapFind s1.m_slots key = some slot at hk
        obtain ⟨slot0, hslot0, _, himp⟩ := hfind1 key slot hk
        have := hint0 key slot0 hslot0
        rw [himp hi] at this
        cases this

theorem reachable_reservationInv (distance : Vector → Nat) (s : StdmaSlotManager)
    (h : Reachable distance s) : ReservationInv s := by
  induction h with
  | init start frameDuration slotDuration candidateSlots rate ratioNum ratioDen now NSS s
      hrate hfit hle hden hsel =>
    exact reservationInv_init start frameDuration slotDuration candidateSlots rate ratioNum
      ratioDen now NSS s hrate hfit hle hden hsel
  | select s s1 now selection n timeout _ hfresh hstep ih =>
    exact reservationInv_select s s1 now distance selection n timeout ih hfresh hstep
  | reselect s s1 now selection n timeout offset _ hstep ih =>
    exact reservationInv_reselect s s1 now distance selection n timeout offset ih hstep
  | decrease s s1 now n newValue _ hstep ih =>
    exact reservationInv_decrease s s1 now n newValue ih hstep
  | markAllocated s s1 now index timeout node position notbefore _ hstep ih =>
    exact reservationInv_markAllocated s s1 now index timeout node position notbefore ih hstep
  | aging s s1 now _ hstep ih =>
    exact reservationInv_aging s s1 now ih hstep

/-- C10: the reservation-map invariant.  In every state reached by `Setup`, the
configuration of a report rate `1 <= R <= N` and of a ratio in `[0, 1]`, `SelectNominalSlots`,
one first selection per reservation index, and any number of re-selections, timeout
decrements, external allocation marks and frame-boundary updates, every internally allocated
slot of the ring is the slot bound to exactly one reservation index in `m_selections`. -/
theorem internal_slot_bound_to_unique_reservation (distance : Vector → Nat)
    (s : StdmaSlotManager) (hreach : Reachable distance s) (key : Nat) (slot : StdmaSlot)
    (hslot : mapFind s.m_slots key = some slot) (hint : slot.m_internal = true) :
    ∃! n, mapFind s.m_selections n = some key := by
  have hinv := reachable_reservationInv distance s hreach
  obtain ⟨n, hn⟩ := hinv.referenced key slot hslot hint
  refine ⟨n, hn, ?_⟩
  intro m hm
  obtain ⟨hn1, hn2⟩ := hinv.bound n key hn
  obtain ⟨hm1, hm2⟩ := hinv.bound m key hm
  exact window_disjoint s hinv.geometry m n key hm1 hn1 hm2 hn2

theorem reservedManager_reachable : Reachable (fun _ => 0) reservedManager := by
  have h0 : Reachable (fun _ => 0) configuredManager :=
    Reachable.init 0 80 10 4 2 1 1 0 1 configuredManager (by decide) (by decide) (by decide)
      (by decide) (by decide)
  have h1 : Reachable (fun _ => 0)
      ((SelectTransmissionSlotForReservationWithNo configuredManager 0 (fun _ => 0) 1 0 5).getD
        create) :=
    Reachable.select configuredManager _ 0 1 0 5 h0 (by decide) (by decide)
  exact Reachable.select _ reservedManager 0 1 1 5 h1 (by decide) (by decide)

/-- Witness of C10: slot 1 of `reservedManager`, internally allocated for reservation 0. -/
theorem internal_slot_bound_to_unique_reservation_witness :
    Reachable (fun _ => 0) reservedManager ∧
    mapFind reservedManager.m_slots 1 = some ((StdmaSlot.create 1).MarkAsInternallyAllocated 5) ∧
    ((StdmaSlot.create 1).MarkAsInternallyAllocated 5).m_internal = true ∧
    ∃! n, mapFind reservedManager.m_selections n = some 1 :=
  ⟨reservedManager_reachable, by decide, by decide,
    internal_slot_bound_to_unique_reservation (fun _ => 0) reservedManager
      reservedManager_reachable 1 ((StdmaSlot.create 1).MarkAsInternallyAllocated 5)
      (by decide) (by decide)⟩

/-! ## Claims on `Setup` -/

theorem foldl_insert_find {α : Type} (g : Nat → α) (l : List Nat) :
    ∀ (m0 : List (Nat × α)) (k : Nat),
      mapFind (l.foldl (fun m i => mapInsert m i (g i)) m0) k
        = if k ∈ l then some (g k) else mapFind m0 k := by
  induction l with
  | nil =>
    intro m0 k
    simp
  | cons a rest ih =>
    intro m0 k
    rw [List.foldl_cons, ih]
    by_cases hk : k ∈ rest
    · simp [hk]
    · by_cases hak : a = k
      · subst hak
        simp [hk, mapFind_mapInsert_same]
      · have hka : ¬ k = a := fun h => hak h.symm
        simp [hk, hka, mapFind_mapInsert_ne _ _ _ _ hak]

/-- Where the code agrees with C13: for all arguments the frame duration set by `Setup` is
the number of slots times the slot duration, a multiple of the slot duration. -/
theorem setup_frame_multiple (s : StdmaSlotManager) (start frameDuration slotDuration : Time)
    (candidateSlots : Nat) :
    (Setup s start frameDuration slotDuration candidateSlots).GetFrameDuration
      = ((Setup s start frameDuration slotDuration candidateSlots).GetSlotsPerFrame : Int)
        * slotDuration ∧
    (Setup s start frameDuration slotDuration candidateSlots).GetFrameDuration % slotDuration
      = 0 := by
  have hfd : (Setup s start frameDuration slotDuration candidateSlots).GetFrameDuration
      = ((Setup s start frameDuration slotDuration candidateSlots).GetSlotsPerFrame : Int)
        * slotDuration := mul_comm _ _
  refine ⟨hfd, ?_⟩
  rw [hfd]
  exact Int.mul_emod_left _ _

/-- The unit test of the slot manager (C13, C14): a frame of 1 s and slots of 566000 ns give
1766 slots and a frame of 999556000 ns, and the start at 1 s is aligned to 1000122000 ns. -/
theorem setup_unit_test :
    (Setup create 1000000000 1000000000 566000 4).GetSlotsPerFrame = 1766 ∧
    (Setup create 1000000000 1000000000 566000 4).GetFrameDuration = 999556000 ∧
    (Setup create 1000000000 1000000000 566000 4).GetStart = 1000122000 ∧
    (Setup create 1000000000 1000000000 566000 4).m_lastFrameStart = 1000122000 := by
  decide

/-- C13 (the code at a failing input): for a frame of 1 s and slots of 320000 ns, the quotient
of the `double` seconds is `3124.9999999999995`, so `Setup` sets 3124 slots and a frame of
999680000 ns, where `floor (F / slot_duration)` is 3125; the frame duration is not above
`F - slot_duration`. -/
theorem setup_double_quotient_drops_slot :
    (0 : Time) < 320000 ∧ (320000 : Time) ≤ 1000000000 ∧
    Double.div (GetSeconds 1000000000) (GetSeconds 320000)
      = ⟨6871947673599999, -41⟩ ∧
    (Setup create 0 1000000000 320000 4).GetSlotsPerFrame = 3124 ∧
    (1000000000 : Int) / 320000 = 3125 ∧ (1000000000 : Int) % 320000 = 0 ∧
    (Setup create 0 1000000000 320000 4).GetFrameDuration = 999680000 ∧
    ¬ ((1000000000 : Time) - 320000
      < (Setup create 0 1000000000 320000 4).GetFrameDuration) := by
  decide

/-- C14 (the code at a failing input): for a start at 3962000 ns, which is 7 slots of
566000 ns, the quotient of the `double` seconds is `7.000000000000001`, not a whole number, so
`Setup` moves the start to `566000 * 8 = 4528000` ns: `GetStart ()` is not the least multiple
of the slot duration that is `>= start` (the start itself), and it is not below
`start + slot_duration`. -/
theorem setup_double_quotient_skips_aligned_start :
    (0 : Time) < 566000 ∧ (3962000 : Time) = 7 * 566000 ∧ (3962000 : Time) % 566000 = 0 ∧
    Double.div (GetSeconds 3962000) (GetSeconds 566000) = ⟨7881299347898369, -50⟩ ∧
    (Setup create 3962000 1000000000 566000 4).GetStart = 4528000 ∧
    (Setup create 3962000 1000000000 566000 4).m_lastFrameStart = 4528000 ∧
    ¬ ((Setup create 3962000 1000000000 566000 4).GetStart ≤ 3962000) ∧
    ¬ ((Setup create 3962000 1000000000 566000 4).GetStart < 3962000 + 566000) := by
  decide

/-- C15: all slots are free after `Setup`.  For every index `i` below the number of slots,
`GetSlot (i)` exists after `Setup`, has index `i`, is Free, is not internally allocated and
has external and internal timeout 0. -/
theorem setup_slots_free (s : StdmaSlotManager) (start frameDuration slotDuration : Time)
    (candidateSlots i : Nat)
    (hi : i < (Setup s start frameDuration slotDuration candidateSlots).GetSlotsPerFrame) :
    ∃ slot, (Setup s start frameDuration slotDuration candidateSlots).GetSlot i = some slot ∧
      slot.m_index = i ∧ slot.m_state = State.FREE ∧ slot.m_internal = false ∧
      slot.m_timeout = 0 ∧ slot.m_internalTimeout = 0 := by
  refine ⟨StdmaSlot.create i, ?_, rfl, rfl, rfl, rfl, rfl⟩
  show mapFind ((List.range _).foldl (fun m i => mapInsert m i (StdmaSlot.create i)) s.m_slots) i
    = some (StdmaSlot.create i)
  rw [foldl_insert_find StdmaSlot.create]
  exact if_pos (List.mem_range.mpr hi)

/-- Witness of C15: the last slot, 1765, of the manager of the unit test. -/
theorem setup_slots_free_witness :
    1765 < (Setup create 1000000000 1000000000 566000 4).GetSlotsPerFrame ∧
    ∃ slot, (Setup create 1000000000 1000000000 566000 4).GetSlot 1765 = some slot ∧
      slot.m_index = 1765 ∧ slot.m_state = State.FREE ∧ slot.m_internal = false ∧
      slot.m_timeout = 0 ∧ slot.m_internalTimeout = 0 :=
  ⟨by decide, setup_slots_free create 1000000000 1000000000 566000 4 1765 (by decide)⟩


/-! ## Claims on the mapping of time stamps to slot indices -/

/-- The conversion to `uint64_t` leaves a non-negative value below `2^63` unchanged. -/
theorem u64cast_of_nonneg (x : Int) (h0 : 0 ≤ x) (h1 : x < 9223372036854775808) :
    u64cast x = x.toNat := by
  unfold u64cast UINT64_MOD
  rw [Int.emod_eq_of_lt h0 (by omega)]

/-- Value of `GetSlotIndexForTimestamp` for a time stamp at or after the start of the current
frame when no aging is due: the offset within the frame divided by the slot duration. -/
theorem getSlotIndex_value (s : StdmaSlotManager) (now t : Time) (w d : Nat)
    (hsd : (d : Int) = s.m_slotDuration)
    (hfd64 : s.m_frameDuration < 9223372036854775808)
    (hfd : 0 < s.m_frameDuration) (hsdle : s.m_slotDuration ≤ s.m_frameDuration)
    (hnow : now < s.m_lastFrameStart + s.m_frameDuration)
    (ht : s.m_lastFrameStart ≤ t)
    (hw : (w : Int) = (t - s.m_lastFrameStart) % s.m_frameDuration)
    (hlt : w / d < UINT32_MOD) :
    GetSlotIndexForTimestamp s now t = some (s, w / d) := by
  have hage : ageCheck s now = some s := by
    unfold ageCheck
    rw [if_neg (not_le.mpr hnow)]
  have hbase : 0 ≤ t - s.m_lastFrameStart := by linarith
  have htm : Int.tmod (t - s.m_lastFrameStart) s.m_frameDuration
      = (t - s.m_lastFrameStart) % s.m_frameDuration :=
    Int.tmod_eq_emod hbase (le_of_lt hfd)
  have hm0 := Int.emod_nonneg (t - s.m_lastFrameStart) (ne_of_gt hfd)
  have hm1 := Int.emod_lt_of_pos (t - s.m_lastFrameStart) hfd
  have h1 : u64cast ((t - s.m_lastFrameStart) % s.m_frameDuration) = w := by
    rw [u64cast_of_nonneg _ hm0 (by linarith), ← hw]
    rfl
  have h2 : u64cast s.m_slotDuration = d := by
    rw [u64cast_of_nonneg _ (by rw [← hsd]; exact Int.ofNat_nonneg _) (by linarith), ← hsd]
    rfl
  unfold GetSlotIndexForTimestamp
  simp only [hage, if_pos (ge_iff_le.mpr ht), htm, h1, h2]
  rw [Nat.mod_eq_of_lt hlt]

/-- C16: slot index of a time stamp.  With `N` slots, a frame of `N` slot durations (below
`2^63` ns) and `now` before the end of the current frame (no aging is triggered), for every
`t >= m_lastFrameStart` the call `GetSlotIndexForTimestamp (t)` returns
`((t - m_lastFrameStart) mod m_frameDuration) div m_slotDuration`, which is below `N`, and
leaves the manager unchanged; every `t` in the `k`-th slot of the frame (`k < N`) maps to `k`,
`m_lastFrameStart` maps to 0 and `m_lastFrameStart + m_frameDuration - 1 ns` to `N - 1`. -/
theorem slot_index_of_timestamp (s : StdmaSlotManager) (now : Time)
    (hN : 0 < s.m_numSlots) (hN32 : s.m_numSlots < UINT32_MOD) (hsd : 0 < s.m_slotDuration)
    (hgeom : s.m_frameDuration = s.m_slotDuration * (s.m_numSlots : Int))
    (hfd64 : s.m_frameDuration < 9223372036854775808)
    (hnow : now < s.m_lastFrameStart + s.m_frameDuration) :
    (∀ t : Time, s.m_lastFrameStart ≤ t →
      ∃ r, GetSlotIndexForTimestamp s now t = some (s, r) ∧
        (r : Int) = ((t - s.m_lastFrameStart) % s.m_frameDuration) / s.m_slotDuration ∧
        r < s.m_numSlots) ∧
    (∀ (t : Time) (k : Nat), k < s.m_numSlots →
      s.m_lastFrameStart + (k : Int) * s.m_slotDuration ≤ t →
      t < s.m_lastFrameStart + ((k : Int) + 1) * s.m_slotDuration →
      GetSlotIndexForTimestamp s now t = some (s, k)) ∧
    GetSlotIndexForTimestamp s now s.m_lastFrameStart = some (s, 0) ∧
    GetSlotIndexForTimestamp s now (s.m_lastFrameStart + s.m_frameDuration - 1)
      = some (s, s.m_numSlots - 1) := by
  obtain ⟨d, hd⟩ : ∃ d : Nat, (d : Int) = s.m_slotDuration :=
    ⟨s.m_slotDuration.toNat, Int.toNat_of_nonneg (le_of_lt hsd)⟩
  have hdpos : 0 < d := by
    have : (0 : Int) < (d : Int) := by rw [hd]; exact hsd
    exact_mod_cast this
  have hfdN : s.m_frameDuration = ((d * s.m_numSlots : Nat) : Int) := by
    rw [hgeom, ← hd]
    push_cast
    rfl
  have hdle : d ≤ d * s.m_numSlots := Nat.le_mul_of_pos_right d hN
  have hfdpos : 0 < s.m_frameDuration := by
    rw [hfdN]
    exact_mod_cast lt_of_lt_of_le hdpos hdle
  have hsdle : s.m_slotDuration ≤ s.m_frameDuration := by
    rw [hfdN, ← hd]
    exact_mod_cast hdle
  have part1 : ∀ t : Time, s.m_lastFrameStart ≤ t →
      ∃ r, GetSlotIndexForTimestamp s now t = some (s, r) ∧
        (r : Int) = ((t - s.m_lastFrameStart) % s.m_frameDuration) / s.m_slotDuration ∧
        r < s.m_numSlots := by
    intro t ht
    have hm0 := Int.emod_nonneg (t - s.m_lastFrameStart) (ne_of_gt hfdpos)
    have hm1 := Int.emod_lt_of_pos (t - s.m_lastFrameStart) hfdpos
    obtain ⟨w, hw⟩ : ∃ w : Nat, (w : Int) = (t - s.m_lastFrameStart) % s.m_frameDuration :=
      ⟨_, Int.toNat_of_nonneg hm0⟩
    have hwlt : w < d * s.m_numSlots := by
      have : (w : Int) < ((d * s.m_numSlots : Nat) : Int) := by
        rw [hw, ← hfdN]
        exact hm1
      exact_mod_cast this
    have hr : w / d < s.m_numSlots := Nat.div_lt_of_lt_mul hwlt
    refine ⟨w / d, ?_, ?_, hr⟩
    · exact getSlotIndex_value s now t w d hd hfd64 hfdpos hsdle hnow ht hw
        (lt_trans hr hN32)
    · rw [← hw, ← hd]
      exact Int.natCast_div w d
  have part2 : ∀ (t : Time) (k : Nat), k < s.m_numSlots →
      s.m_lastFrameStart + (k : Int) * s.m_slotDuration ≤ t →
      t < s.m_lastFrameStart + ((k : Int) + 1) * s.m_slotDuration →
      GetSlotIndexForTimestamp s now t = some (s, k) := by
    intro t k hk hlo hhi
    have hknn : (0 : Int) ≤ (k : Int) * s.m_slotDuration :=
      mul_nonneg (Int.ofNat_nonneg _) (le_of_lt hsd)
    have ht : s.m_lastFrameStart ≤ t := by linarith
    have hbase : 0 ≤ t - s.m_lastFrameStart := by linarith
    obtain ⟨w, hw⟩ : ∃ w : Nat, (w : Int) = t - s.m_lastFrameStart :=
      ⟨_, Int.toNat_of_nonneg hbase⟩
    have hlo' : k * d ≤ w := by
      have : ((k * d : Nat) : Int) ≤ (w : Int) := by
        rw [hw]
        push_cast
        rw [hd]
        linarith
      exact_mod_cast this
    have hhi' : w < (k + 1) * d := by
      have : (w : Int) < (((k + 1) * d : Nat) : Int) := by
        rw [hw]
        push_cast
        rw [hd]
        linarith
      exact_mod_cast this
    have hk1 : (k + 1) * d ≤ d * s.m_numSlots := by
      rw [Nat.mul_comm d]
      exact Nat.mul_le_mul_right d hk
    have hwfd : (w : Int) < s.m_frameDuration := by
      rw [hfdN]
      exact_mod_cast lt_of_lt_of_le hhi' hk1
    have hwmod : (w : Int) = (t - s.m_lastFrameStart) % s.m_frameDuration := by
      rw [← hw]
      exact (Int.emod_eq_of_lt (Int.ofNat_nonneg _) hwfd).symm
    have hdiv : w / d = k := Nat.div_eq_of_lt_le hlo' hhi'
    have := getSlotIndex_value s now t w d hd hfd64 hfdpos hsdle hnow ht hwmod
      (by rw [hdiv]; exact lt_trans hk hN32)
    rw [hdiv] at this
    exact this
  refine ⟨part1, part2, ?_, ?_⟩
  · apply part2 _ 0 hN
    · simp
    · simp only [Nat.cast_zero, zero_add, one_mul]
      linarith
  · apply part2 _ (s.m_numSlots - 1) (by omega)
    · have hc : ((s.m_numSlots - 1 : Nat) : Int) = (s.m_numSlots : Int) - 1 := by omega
      rw [hc, hgeom]
      have : ((s.m_numSlots : Int) - 1) * s.m_slotDuration
          = s.m_slotDuration * (s.m_numSlots : Int) - s.m_slotDuration := by ring
      linarith
    · have hc : ((s.m_numSlots - 1 : Nat) : Int) + 1 = (s.m_numSlots : Int) := by omega
      rw [hc, hgeom]
      have : (s.m_numSlots : Int) * s.m_slotDuration
          = s.m_slotDuration * (s.m_numSlots : Int) := mul_comm _ _
      linarith

/-- Witness of C16: the unit test of the slot manager, where `start + 27` slots and
`start + 27.5` slots both map to slot 27 (1766 slots of 566000 ns, start 1000122000 ns). -/
theorem slot_index_of_timestamp_witness :
    GetSlotIndexForTimestamp (Setup create 1000000000 1000000000 566000 4) 1000122000
        (1000122000 + 27 * 566000)
      = some (Setup create 1000000000 1000000000 566000 4, 27) ∧
    GetSlotIndexForTimestamp (Setup create 1000000000 1000000000 566000 4) 1000122000
        (1000122000 + 27 * 566000 + 283000)
      = some (Setup create 1000000000 1000000000 566000 4, 27) ∧
    GetSlotIndexForTimestamp (Setup create 1000000000 1000000000 566000 4) 1000122000
        (Setup create 1000000000 1000000000 566000 4).m_lastFrameStart
      = some (Setup create 1000000000 1000000000 566000 4, 0) :=
  have h := slot_index_of_timestamp (Setup create 1000000000 1000000000 566000 4) 1000122000
    (by decide) (by decide) (by decide) (by decide) (by decide) (by decide)
  ⟨h.2.1 _ 27 (by decide) (by decide) (by decide),
    h.2.1 _ 27 (by decide) (by decide) (by decide), h.2.2.1⟩

/-! ## Claims on `RebaseFrameStart` -/

/-- The assignment `m[k] = v` keeps the keys strictly ascending. -/
theorem mapInsert_keys_sorted {α : Type} (m : List (Nat × α)) (k : Nat) (v : α)
    (h : (m.map Prod.fst).Sorted (· < ·)) : ((mapInsert m k v).map Prod.fst).Sorted (· < ·) := by
  induction m with
  | nil => simp [mapInsert]
  | cons p rest ih =>
    obtain ⟨k0, v0⟩ := p
    simp only [List.map_cons, List.sorted_cons] at h
    by_cases h1 : k < k0
    · simp only [mapInsert, if_pos h1, List.map_cons, List.sorted_cons]
      refine ⟨?_, h⟩
      intro b hb
      rcases List.mem_cons.mp hb with hb | hb
      · rw [hb]; exact h1
      · exact lt_trans h1 (h.1 b hb)
    · by_cases h2 : k0 = k
      · simp only [mapInsert, if_neg h1, if_pos h2, List.map_cons, List.sorted_cons]
        subst h2
        exact h
      · simp only [mapInsert, if_neg h1, if_neg h2, List.map_cons, List.sorted_cons]
        refine ⟨?_, ih h.2⟩
        intro b hb
        obtain ⟨q, hq, hqb⟩ := List.mem_map.mp hb
        rcases mem_mapInsert rest k v q hq with hq1 | hq1
        · rw [← hqb, hq1]
          show k0 < k
          omega
        · apply h.1
          rw [← hqb]
          exact List.mem_map_of_mem _ hq1

/-- A sequence of assignments keeps the keys strictly ascending. -/
theorem foldl_keyed_sorted {α : Type} (key : Nat → Nat) (val : Nat → α) (l : List Nat) :
    ∀ m0 : List (Nat × α), (m0.map Prod.fst).Sorted (· < ·) →
      ((l.foldl (fun m i => mapInsert m (key i) (val i)) m0).map Prod.fst).Sorted (· < ·) := by
  induction l with
  | nil => intro m0 h; exact h
  | cons a rest ih =>
    intro m0 h
    exact ih _ (mapInsert_keys_sorted m0 _ _ h)

/-- A sequence of assignments leaves the binding of a key that is not assigned. -/
theorem foldl_keyed_find_other {α : Type} (key : Nat → Nat) (val : Nat → α) (l : List Nat)
    (k : Nat) (hk : ∀ i ∈ l, key i ≠ k) :
    ∀ m0 : List (Nat × α),
      mapFind (l.foldl (fun m i => mapInsert m (key i) (val i)) m0) k = mapFind m0 k := by
  induction l with
  | nil => intro m0; rfl
  | cons a rest ih =>
    intro m0
    rw [List.foldl_cons, ih (fun i hi => hk i (List.mem_cons_of_mem _ hi))]
    exact mapFind_mapInsert_ne m0 _ _ _ (hk a (List.mem_cons_self _ _))

/-- After a sequence of assignments with pairwise different keys, each key is bound to the
value assigned to it. -/
theorem foldl_keyed_find_inj {α : Type} (key : Nat → Nat) (val : Nat → α) (l : List Nat)
    (i : Nat) (hinj : ∀ j ∈ l, key j = key i → j = i) :
    ∀ m0 : List (Nat × α), i ∈ l →
      mapFind (l.foldl (fun m i => mapInsert m (key i) (val i)) m0) (key i) = some (val i) := by
  induction l with
  | nil => intro m0 hi; simp at hi
  | cons a rest ih =>
    intro m0 hi
    rw [List.foldl_cons]
    by_cases hr : i ∈ rest
    · exact ih (fun j hj => hinj j (List.mem_cons_of_mem _ hj)) _ hr
    · have ha : i = a := by
        rcases List.mem_cons.mp hi with h | h
        · exact h
        · exact absurd h hr
      subst ha
      rw [foldl_keyed_find_other key val rest (key i)]
      · exact mapFind_mapInsert_same m0 _ _
      · intro j hj hkj
        have := hinj j (List.mem_cons_of_mem _ hj) hkj
        rw [this] at hj
        exact hr hj

/-- For an index below `N` and an offset of at most `N`, the index computed by
`RebaseFrameStart` does not wrap around: it is below `N`, equals `(i - offset + N) mod N`, and
adding the offset modulo `N` gives the old index back. -/
theorem rebasedIndex_spec (N off i : Nat) (hi : i < N) (hoff : off ≤ N) (hN : N < UINT32_MOD) :
    rebasedIndex N off i < N ∧ (rebasedIndex N off i + off) % N = i ∧
    (rebasedIndex N off i : Int) = ((i : Int) - (off : Int) + (N : Int)) % (N : Int) := by
  unfold UINT32_MOD at hN
  have hval : rebasedIndex N off i = if i < off then N - off + i else i - off := by
    unfold rebasedIndex u32add u32sub UINT32_MOD
    by_cases h : i < off
    · rw [if_pos h, if_pos h]
      omega
    · rw [if_neg h, if_neg h]
      omega
  rw [hval]
  by_cases h : i < off
  · rw [if_pos h]
    refine ⟨by omega, ?_, ?_⟩
    · have : N - off + i + off = i + N := by omega
      rw [this, Nat.add_mod_right, Nat.mod_eq_of_lt hi]
    · have e : ((i : Int) - (off : Int) + (N : Int)) = ((N - off + i : Nat) : Int) := by omega
      rw [e]
      norm_cast
      exact (Nat.mod_eq_of_lt (by omega)).symm
  · rw [if_neg h]
    refine ⟨by omega, ?_, ?_⟩
    · have : i - off + off = i := by omega
      rw [this, Nat.mod_eq_of_lt hi]
    · have e : ((i : Int) - (off : Int) + (N : Int)) = ((i - off : Nat) : Int) + (N : Int) := by
        omega
      rw [e, Int.add_emod_self]
      norm_cast
      exact (Nat.mod_eq_of_lt (by omega)).symm

/-- The re-indexing of `RebaseFrameStart` is injective on `[0, N)`. -/
theorem rebasedIndex_inj (N off i j : Nat) (hi : i < N) (hj : j < N) (hoff : off ≤ N)
    (hN : N < UINT32_MOD) (h : rebasedIndex N off i = rebasedIndex N off j) : i = j := by
  have h1 := (rebasedIndex_spec N off i hi hoff hN).2.1
  have h2 := (rebasedIndex_spec N off j hj hoff hN).2.1
  rw [← h1, ← h2, h]

/-- The slot that receives index `k` is the one formerly at `(k + offset) mod N`. -/
theorem rebasedIndex_inv (N off k : Nat) (hk : k < N) (hoff : off ≤ N) (hN : N < UINT32_MOD) :
    rebasedIndex N off ((k + off) % N) = k := by
  have hi : (k + off) % N < N := Nat.mod_lt _ (by omega)
  obtain ⟨h1, h2, _⟩ := rebasedIndex_spec N off ((k + off) % N) hi hoff hN
  have h3 : (rebasedIndex N off ((k + off) % N) + off) % N = (k + off) % N := h2
  have h4 : rebasedIndex N off ((k + off) % N) % N = k % N :=
    Nat.ModEq.add_right_cancel' off h3
  rwa [Nat.mod_eq_of_lt h1, Nat.mod_eq_of_lt hk] at h4

/-- The loop of step 2 of `RebaseFrameStart` completes when every key it fetches is bound. -/
theorem rebaseLoop_spec (slots : List (Nat × StdmaSlot)) (N off : Nat) (l : List Nat)
    (h : ∀ i ∈ l, ∃ slot, mapFind slots i = some slot) :
    rebaseLoop slots N off l = some (l.map (rebasedSlot slots N off)) := by
  induction l with
  | nil => rfl
  | cons a rest ih =>
    obtain ⟨slot, hs⟩ := h a (List.mem_cons_self _ _)
    have ih1 := ih (fun i hi => h i (List.mem_cons_of_mem _ hi))
    simp only [rebaseLoop, hs, ih1, List.map_cons, rebasedSlot]

/-- The conversion to `uint32_t` leaves a value below `2^32` unchanged. -/
theorem u32cast_natCast (n : Nat) (h : n < UINT32_MOD) : u32cast (n : Int) = n := by
  unfold u32cast
  rw [Int.emod_eq_of_lt (Int.ofNat_nonneg _) (by exact_mod_cast h)]
  rfl

/-- Effect of `RebaseFrameStart` on a well-formed ring without reservations, for a new start
that lies `off <= N` slot durations after the start of the current frame: the call completes,
changes only the ring and `m_lastFrameStart`, the keys are again `0 .. N-1`, and the slot
formerly bound to `i` is bound to its re-based index. -/
theorem rebase_effect (s : StdmaSlotManager) (now : Time) (off : Nat)
    (hring : RingOK s) (hsel : s.m_selections = []) (hsd : 0 < s.m_slotDuration)
    (hdelta : now - s.m_lastFrameStart = s.m_slotDuration * (off : Int))
    (hoff : off ≤ s.m_numSlots) (hN : s.m_numSlots < UINT32_MOD) :
    ∃ s1, RebaseFrameStart s now = some s1 ∧
      s1 = { s with m_slots := s1.m_slots, m_lastFrameStart := now } ∧
      s1.m_slots.map Prod.fst = List.range s.m_numSlots ∧
      ∀ i slot, mapFind s.m_slots i = some slot →
        mapFind s1.m_slots (rebasedIndex s.m_numSlots off i)
          = some (slot.RebaseIndex (rebasedIndex s.m_numSlots off i)) := by
  have hlen : s.m_slots.length = s.m_numSlots := keys_range_length _ _ hring.1
  have hloop := rebaseLoop_spec s.m_slots s.m_numSlots off (List.range s.m_slots.length)
    (by
      intro i hi
      rw [hlen, List.mem_range] at hi
      exact keys_range_find_some _ _ _ hring.1 hi)
  have hoffv : u32cast (Int.tdiv (now - s.m_lastFrameStart) s.m_slotDuration) = off := by
    rw [hdelta, Int.mul_tdiv_cancel_left _ (ne_of_gt hsd)]
    exact u32cast_natCast off (lt_of_le_of_lt hoff hN)
  have hmod : Int.tmod (now - s.m_lastFrameStart) s.m_slotDuration = 0 := by
    rw [hdelta]
    exact Int.mul_tmod_right _ _
  have hrun : RebaseFrameStart s now = some { s with
      m_slots := ((List.range s.m_slots.length).map (rebasedSlot s.m_slots s.m_numSlots off)).foldl
        (fun m slot => mapInsert m slot.m_index slot) []
      m_lastFrameStart := now } := by
    unfold RebaseFrameStart
    rw [if_pos (by rw [hsel]; rfl), if_pos hmod, hoffv, hloop]
  refine ⟨_, hrun, rfl, ?_, ?_⟩
  all_goals simp only []
  all_goals rw [List.foldl_map, hlen]
  all_goals
    have hkey : ∀ i, i < s.m_numSlots →
        (rebasedSlot s.m_slots s.m_numSlots off i).m_index = rebasedIndex s.m_numSlots off i := by
      intro i hi
      obtain ⟨slot, hs⟩ := keys_range_find_some _ _ _ hring.1 hi
      have := (ringOK_find s hring i slot hs).1
      simp only [rebasedSlot, hs, StdmaSlot.RebaseIndex, this]
  all_goals
    have hfound : ∀ i slot, mapFind s.m_slots i = some slot →
        mapFind ((List.range s.m_numSlots).foldl
          (fun m i => mapInsert m (rebasedSlot s.m_slots s.m_numSlots off i).m_index
            (rebasedSlot s.m_slots s.m_numSlots off i)) [])
          (rebasedIndex s.m_numSlots off i)
          = some (slot.RebaseIndex (rebasedIndex s.m_numSlots off i)) := by
      intro i slot hs
      obtain ⟨hidx, hi⟩ := ringOK_find s hring i slot hs
      have h := foldl_keyed_find_inj
        (fun i => (rebasedSlot s.m_slots s.m_numSlots off i).m_index)
        (rebasedSlot s.m_slots s.m_numSlots off) (List.range s.m_numSlots) i
        (by
          intro j hj heq
          rw [List.mem_range] at hj
          simp only [] at heq
          rw [hkey i hi, hkey j hj] at heq
          exact rebasedIndex_inj _ off j i hj hi hoff hN heq) [] (List.mem_range.mpr hi)
      simp only [] at h
      rw [hkey i hi] at h
      rw [h]
      simp only [rebasedSlot, hs, hidx]
  · have hsorted := foldl_keyed_sorted
      (fun i => (rebasedSlot s.m_slots s.m_numSlots off i).m_index)
      (rebasedSlot s.m_slots s.m_numSlots off) (List.range s.m_numSlots) []
      (by simp)
    refine List.eq_of_perm_of_sorted ?_ hsorted (List.sorted_lt_range _)
    rw [List.perm_ext_iff_of_nodup hsorted.nodup (List.nodup_range _)]
    intro k
    rw [List.mem_range]
    constructor
    · intro hk
      by_contra hnot
      have hfind := foldl_keyed_find_other
        (fun i => (rebasedSlot s.m_slots s.m_numSlots off i).m_index)
        (rebasedSlot s.m_slots s.m_numSlots off) (List.range s.m_numSlots) k
        (by
          intro i hi heq
          rw [List.mem_range] at hi
          simp only [] at heq
          rw [hkey i hi] at heq
          have := (rebasedIndex_spec _ off i hi hoff hN).1
          omega) []
      obtain ⟨v, hv⟩ := (mapFind_isSome_iff _ k).mpr hk
      rw [hfind] at hv
      simp [mapFind] at hv
    · intro hk
      apply (mapFind_isSome_iff _ k).mp
      have hi : (k + off) % s.m_numSlots < s.m_numSlots := Nat.mod_lt _ (by omega)
      obtain ⟨slot, hs⟩ := keys_range_find_some _ _ _ hring.1 hi
      have := hfound _ slot hs
      rw [rebasedIndex_inv _ off k hk hoff hN] at this
      exact ⟨_, this⟩
  · exact hfound

/-- A non-negative multiple `delta` of the slot duration with `delta / sd <= N` is `sd * off`
for a natural number `off <= N`. -/
theorem rebase_offset (delta sd : Int) (N : Nat) (hsd : 0 < sd) (h0 : 0 ≤ delta)
    (hmul : delta % sd = 0) (hle : delta / sd ≤ (N : Int)) :
    ∃ off : Nat, delta = sd * (off : Int) ∧ off ≤ N ∧ (off : Int) = delta / sd := by
  have hq : 0 ≤ delta / sd := Int.ediv_nonneg h0 (le_of_lt hsd)
  have hoff : (((delta / sd).toNat : Nat) : Int) = delta / sd := Int.toNat_of_nonneg hq
  refine ⟨(delta / sd).toNat, ?_, ?_, hoff⟩
  · rw [hoff]
    exact (Int.mul_ediv_cancel' (Int.dvd_of_emod_eq_zero hmul)).symm
  · have : (((delta / sd).toNat : Nat) : Int) ≤ (N : Int) := by rw [hoff]; exact hle
    exact_mod_cast this

/-- Counterexample to C11 as stated: on the ring of four slots of 10 ns, a new start 90 ns
after the frame start (a non-negative multiple of the slot duration, offset 9, no reservation
made) does not move the slot with index 0 to `(0 - 9 + 4) mod 4 = 3`: the subtraction
`m_numSlots - offset` wraps around in `uint32_t`, and the four slots end up under the keys
`2^32 - 5 .. 2^32 - 2`. -/
theorem rebase_far_offset_wraps :
    exampleManager.m_selections = [] ∧
    (0 : Int) ≤ 90 - exampleManager.m_lastFrameStart ∧
    (90 - exampleManager.m_lastFrameStart) % exampleManager.m_slotDuration = 0 ∧
    exampleManager.m_numSlots = 4 ∧
    (∃ slot, mapFind exampleManager.m_slots 0 = some slot ∧ slot.m_index = 0) ∧
    ((0 : Int) - (90 - exampleManager.m_lastFrameStart) / exampleManager.m_slotDuration
      + (exampleManager.m_numSlots : Int)) % (exampleManager.m_numSlots : Int) = 3 ∧
    (RebaseFrameStart exampleManager 90).map
        (fun s1 => (s1.m_slots.map Prod.fst, s1.m_lastFrameStart))
      = some ([4294967291, 4294967292, 4294967293, 4294967294], 90) := by
  refine ⟨by decide, by decide, by decide, by decide, ⟨_, rfl, rfl⟩, by decide, by decide⟩

/-- C11 (amended): re-basing shifts the indices.  On a well-formed ring of `N < 2^32` slots
with a positive slot duration and no reservation made, for every `new_start` such that
`delta = new_start - m_lastFrameStart` is a non-negative multiple of the slot duration with
`delta / m_slotDuration <= N`, the call `RebaseFrameStart (new_start)` completes,
`m_lastFrameStart` becomes `new_start`, and for every `i < N` the slot that had index `i` is
found, with its index re-based, under `(i - delta / m_slotDuration + N) mod N`. -/
theorem rebase_shifts_indices (s : StdmaSlotManager) (new_start : Time)
    (hring : RingOK s) (hN : s.m_numSlots < UINT32_MOD) (hsd : 0 < s.m_slotDuration)
    (hsel : s.m_selections = [])
    (h0 : 0 ≤ new_start - s.m_lastFrameStart)
    (hmul : (new_start - s.m_lastFrameStart) % s.m_slotDuration = 0)
    (hle : (new_start - s.m_lastFrameStart) / s.m_slotDuration ≤ (s.m_numSlots : Int)) :
    ∃ s1, RebaseFrameStart s new_start = some s1 ∧ s1.m_lastFrameStart = new_start ∧
      ∀ i, i < s.m_numSlots → ∃ (slot : StdmaSlot) (j : Nat),
        mapFind s.m_slots i = some slot ∧ slot.m_index = i ∧
        (j : Int) = ((i : Int) - (new_start - s.m_lastFrameStart) / s.m_slotDuration
          + (s.m_numSlots : Int)) % (s.m_numSlots : Int) ∧
        mapFind s1.m_slots j = some (slot.RebaseIndex j) ∧ (slot.RebaseIndex j).m_index = j := by
  obtain ⟨off, hdelta, hoff, hoffv⟩ := rebase_offset _ _ s.m_numSlots hsd h0 hmul hle
  obtain ⟨s1, hrun, hs1, _, hfound⟩ := rebase_effect s new_start off hring hsel hsd hdelta hoff hN
  refine ⟨s1, hrun, ?_, ?_⟩
  · rw [hs1]
  · intro i hi
    obtain ⟨slot, hs⟩ := keys_range_find_some _ _ _ hring.1 hi
    refine ⟨slot, rebasedIndex s.m_numSlots off i, hs, (ringOK_find s hring i slot hs).1, ?_,
      hfound i slot hs, rfl⟩
    rw [← hoffv]
    exact (rebasedIndex_spec _ off i hi hoff hN).2.2

/-- Witness of C11 (amended): `exampleManager` re-based by two slots (20 ns). -/
theorem rebase_shifts_indices_witness :
    RingOK exampleManager ∧ exampleManager.m_numSlots < UINT32_MOD ∧
    0 < exampleManager.m_slotDuration ∧ exampleManager.m_selections = [] ∧
    (0 : Int) ≤ 20 - exampleManager.m_lastFrameStart ∧
    (20 - exampleManager.m_lastFrameStart) % exampleManager.m_slotDuration = 0 ∧
    (20 - exampleManager.m_lastFrameStart) / exampleManager.m_slotDuration
      ≤ (exampleManager.m_numSlots : Int) ∧
    ∃ s1, RebaseFrameStart exampleManager 20 = some s1 ∧ s1.m_lastFrameStart = 20 ∧
      ∀ i, i < exampleManager.m_numSlots → ∃ (slot : StdmaSlot) (j : Nat),
        mapFind exampleManager.m_slots i = some slot ∧ slot.m_index = i ∧
        (j : Int) = ((i : Int)
          - (20 - exampleManager.m_lastFrameStart) / exampleManager.m_slotDuration
          + (exampleManager.m_numSlots : Int)) % (exampleManager.m_numSlots : Int) ∧
        mapFind s1.m_slots j = some (slot.RebaseIndex j) ∧ (slot.RebaseIndex j).m_index = j :=
  ⟨by unfold RingOK; decide, by decide, by decide, by decide, by decide, by decide, by decide,
    rebase_shifts_indices exampleManager 20 (by unfold RingOK; decide) (by decide) (by decide) (by decide)
      (by decide) (by decide) (by decide)⟩

/-- C12: re-basing only relabels the ring.  Under the conditions of a re-base by an offset
in `[0, N]`, after `RebaseFrameStart` the keys of the ring are again `0 .. N-1`, every
`GetSlot (j)` has index `j`, and there is a bijection `σ` of `[0, N)` such that the slot at `j`
is the record formerly at `σ j` with the same state, previous state, external and internal
timeout, internal flag, owner, position and `m_notBefore`. -/
theorem rebase_relabels_ring (s : StdmaSlotManager) (new_start : Time)
    (hring : RingOK s) (hN : s.m_numSlots < UINT32_MOD) (hsd : 0 < s.m_slotDuration)
    (hsel : s.m_selections = [])
    (h0 : 0 ≤ new_start - s.m_lastFrameStart)
    (hmul : (new_start - s.m_lastFrameStart) % s.m_slotDuration = 0)
    (hle : (new_start - s.m_lastFrameStart) / s.m_slotDuration ≤ (s.m_numSlots : Int)) :
    ∃ s1, RebaseFrameStart s new_start = some s1 ∧
      s1.m_numSlots = s.m_numSlots ∧
      s1.m_slots.map Prod.fst = List.range s.m_numSlots ∧
      (∀ j slot1, s1.GetSlot j = some slot1 → slot1.m_index = j) ∧
      ∃ σ : Nat → Nat,
        (∀ j, j < s.m_numSlots → σ j < s.m_numSlots) ∧
        (∀ j j', j < s.m_numSlots → j' < s.m_numSlots → σ j = σ j' → j = j') ∧
        (∀ i, i < s.m_numSlots → ∃ j, j < s.m_numSlots ∧ σ j = i) ∧
        ∀ j, j < s.m_numSlots → ∃ slot slot1,
          s.GetSlot (σ j) = some slot ∧ s1.GetSlot j = some slot1 ∧
          slot1.m_index = j ∧
          slot1.m_state = slot.m_state ∧ slot1.m_previousState = slot.m_previousState ∧
          slot1.m_timeout = slot.m_timeout ∧
          slot1.m_internalTimeout = slot.m_internalTimeout ∧
          slot1.m_internal = slot.m_internal ∧ slot1.m_owner = slot.m_owner ∧
          slot1.m_position = slot.m_position ∧ slot1.m_notBefore = slot.m_notBefore := by
  obtain ⟨off, hdelta, hoff, _⟩ := rebase_offset _ _ s.m_numSlots hsd h0 hmul hle
  obtain ⟨s1, hrun, hs1, hkeys, hfound⟩ :=
    rebase_effect s new_start off hring hsel hsd hdelta hoff hN
  have hnum : s1.m_numSlots = s.m_numSlots := by rw [hs1]
  have hsig : ∀ j, j < s.m_numSlots → (j + off) % s.m_numSlots < s.m_numSlots :=
    fun j hj => Nat.mod_lt _ (by omega)
  have hat : ∀ j, j < s.m_numSlots → ∃ slot,
      mapFind s.m_slots ((j + off) % s.m_numSlots) = some slot ∧
      mapFind s1.m_slots j = some (slot.RebaseIndex j) := by
    intro j hj
    obtain ⟨slot, hs⟩ := keys_range_find_some _ _ _ hring.1 (hsig j hj)
    have := hfound _ slot hs
    rw [rebasedIndex_inv _ off j hj hoff hN] at this
    exact ⟨slot, hs, this⟩
  refine ⟨s1, hrun, hnum, hkeys, ?_, fun j => (j + off) % s.m_numSlots, hsig, ?_, ?_, ?_⟩
  · intro j slot1 hg
    have hg1 : mapFind s1.m_slots j = some slot1 := hg
    have hj : j < s.m_numSlots := by
      have := (mapFind_isSome_iff _ j).mp ⟨slot1, hg1⟩
      rw [hkeys, List.mem_range] at this
      exact this
    obtain ⟨slot, _, h2⟩ := hat j hj
    rw [hg1] at h2
    rw [Option.some.inj h2]
    rfl
  · intro j j' hj hj' heq
    simp only [] at heq
    have h1 := rebasedIndex_inv _ off j hj hoff hN
    have h2 := rebasedIndex_inv _ off j' hj' hoff hN
    rw [← h1, ← h2, heq]
  · intro i hi
    exact ⟨rebasedIndex s.m_numSlots off i, (rebasedIndex_spec _ off i hi hoff hN).1,
      (rebasedIndex_spec _ off i hi hoff hN).2.1⟩
  · intro j hj
    obtain ⟨slot, h1, h2⟩ := hat j hj
    exact ⟨slot, slot.RebaseIndex j, h1, h2, rfl, rfl, rfl, rfl, rfl, rfl, rfl, rfl, rfl⟩

/-- Witness of C12: `exampleManager` re-based by a whole frame (offset `N = 4`). -/
theorem rebase_relabels_ring_witness :
    RingOK exampleManager ∧ exampleManager.m_numSlots < UINT32_MOD ∧
    0 < exampleManager.m_slotDuration ∧ exampleManager.m_selections = [] ∧
    (0 : Int) ≤ 40 - exampleManager.m_lastFrameStart ∧
    (40 - exampleManager.m_lastFrameStart) % exampleManager.m_slotDuration = 0 ∧
    (40 - exampleManager.m_lastFrameStart) / exampleManager.m_slotDuration
      ≤ (exampleManager.m_numSlots : Int) ∧
    ∃ s1, RebaseFrameStart exampleManager 40 = some s1 ∧
      s1.m_numSlots = exampleManager.m_numSlots ∧
      s1.m_slots.map Prod.fst = List.range exampleManager.m_numSlots ∧
      (∀ j slot1, s1.GetSlot j = some slot1 → slot1.m_index = j) ∧
      ∃ σ : Nat → Nat,
        (∀ j, j < exampleManager.m_numSlots → σ j < exampleManager.m_numSlots) ∧
        (∀ j j', j < exampleManager.m_numSlots → j' < exampleManager.m_numSlots →
          σ j = σ j' → j = j') ∧
        (∀ i, i < exampleManager.m_numSlots → ∃ j, j < exampleManager.m_numSlots ∧ σ j = i) ∧
        ∀ j, j < exampleManager.m_numSlots → ∃ slot slot1,
          exampleManager.GetSlot (σ j) = some slot ∧ s1.GetSlot j = some slot1 ∧
          slot1.m_index = j ∧
          slot1.m_state = slot.m_state ∧ slot1.m_previousState = slot.m_previousState ∧
          slot1.m_timeout = slot.m_timeout ∧
          slot1.m_internalTimeout = slot.m_internalTimeout ∧
          slot1.m_internal = slot.m_internal ∧ slot1.m_owner = slot.m_owner ∧
          slot1.m_position = slot.m_position ∧ slot1.m_notBefore = slot.m_notBefore :=
  ⟨by unfold RingOK; decide, by decide, by decide, by decide, by decide, by decide, by decide,
    rebase_relabels_ring exampleManager 40 (by unfold RingOK; decide) (by decide) (by decide) (by decide)
      (by decide) (by decide) (by decide)⟩

/-! ## Claims on the reservation counter -/

/-- A ring whose internally allocated slots all have a positive internal timeout has no
expired reservation. -/
theorem noExpired_of_forall (s : StdmaSlotManager)
    (h : ∀ p ∈ s.m_slots, p.2.m_internal = true → 0 < p.2.m_internalTimeout) : NoExpired s := by
  intro k slot hfind hint
  exact h (k, slot) (mapFind_mem _ _ _ hfind) hint

/-- Without an expired reservation the prologue of the public operations completes; it keeps
the ring well formed and without expired reservation, and leaves `m_rate` and `m_current`. -/
theorem ageCheck_noExpired (s : StdmaSlotManager) (now : Time) (hring : RingOK s)
    (hne : NoExpired s) :
    ∃ s1, ageCheck s now = some s1 ∧ RingOK s1 ∧ NoExpired s1 ∧ s1.m_rate = s.m_rate ∧
      s1.m_current = s.m_current := by
  unfold ageCheck
  by_cases hge : now ≥ s.m_lastFrameStart + s.m_frameDuration
  · rw [if_pos hge]
    obtain ⟨s1, hs1⟩ := UpdateSlotObservations_isSome s now s.m_numSlots hring.1
      (AgingAssertsHold_of_noExpired s now hne)
    obtain ⟨_, slots, c, heq⟩ := UpdateSlotObservations_frame s s1 now hs1
    refine ⟨s1, hs1, (UpdateSlotObservations_effect s s1 now hring hs1).1,
      UpdateSlotObservations_noExpired s s1 now s.m_numSlots hring.1 hs1, ?_, ?_⟩
    · rw [heq]
    · rw [heq]
  · rw [if_neg hge]
    exact ⟨s, rfl, hring, hne, rfl, rfl⟩

/-- Consecutive calls of `GetCurrentReservationNo` starting at `m_current = c < m_rate`
return `c, c + 1, ...` modulo the report rate. -/
theorem reservationNumbers_from (nows : List Time) :
    ∀ (s : StdmaSlotManager) (c : Nat), RingOK s → NoExpired s → s.m_current = c →
      c < s.m_rate → s.m_rate < UINT32_MOD →
      ∃ s1, reservationNumbers nows s
        = some (s1, (List.range nows.length).map (fun j => (c + j) % s.m_rate)) := by
  induction nows with
  | nil => intro s c _ _ _ _ _; exact ⟨s, rfl⟩
  | cons now rest ih =>
    intro s c hring hne hcur hc hR
    obtain ⟨sa, hage, hringa, hnea, hrate, hcura⟩ := ageCheck_noExpired s now hring hne
    have hsub : u32sub sa.m_rate 1 = s.m_rate - 1 := by
      rw [hrate]
      unfold u32sub
      unfold UINT32_MOD at hR ⊢
      omega
    have hnext : (if sa.m_current < u32sub sa.m_rate 1 then sa.m_current + 1 else 0)
        = (c + 1) % s.m_rate := by
      rw [hsub, hcura, hcur]
      by_cases h : c < s.m_rate - 1
      · rw [if_pos h, Nat.mod_eq_of_lt (by omega)]
      · rw [if_neg h]
        have : c + 1 = s.m_rate := by omega
        rw [this, Nat.mod_self]
    obtain ⟨sn, hsn⟩ : ∃ x : StdmaSlotManager, x = { sa with
        m_current := (if sa.m_current < u32sub sa.m_rate 1 then sa.m_current + 1 else 0) } :=
      ⟨_, rfl⟩
    have hslots : sn.m_slots = sa.m_slots := by rw [hsn]
    have hnum : sn.m_numSlots = sa.m_numSlots := by rw [hsn]
    have hrate1 : sn.m_rate = s.m_rate := by rw [hsn]; exact hrate
    have hcur1 : sn.m_current = (c + 1) % s.m_rate := by
      have h := congrArg StdmaSlotManager.m_current hsn
      simp only [] at h
      rw [h, hnext]
    have hringn : RingOK sn := by
      unfold RingOK
      rw [hslots, hnum]
      exact hringa
    have hnen : NoExpired sn := by
      unfold NoExpired
      rw [hslots]
      exact hnea
    obtain ⟨s1, hs1⟩ := ih sn ((c + 1) % s.m_rate) hringn hnen hcur1
      (by rw [hrate1]; exact Nat.mod_lt _ (by omega))
      (by rw [hrate1]; exact hR)
    refine ⟨s1, ?_⟩
    rw [hrate1, hsn] at hs1
    simp only [reservationNumbers, GetCurrentReservationNo, hage, hs1]
    rw [hcura, hcur, List.length_cons, List.range_succ_eq_map, List.map_cons, List.map_map]
    simp only [Nat.add_zero, Nat.mod_eq_of_lt hc]
    have hl : ∀ l1 l2 : List Nat, l1 = l2 → some (s1, c :: l1) = some (s1, c :: l2) := by
      intro l1 l2 h
      rw [h]
    apply hl
    apply List.map_congr_left
    intro j _
    simp only [Function.comp, Nat.succ_eq_add_one]
    rw [Nat.add_mod ((c + 1) % s.m_rate) j, Nat.mod_mod, ← Nat.add_mod]
    have : c + 1 + j = c + (j + 1) := by omega
    rw [this]

/-- C17: reservation numbers cycle modulo the report rate.  For every report rate
`1 <= R < 2^32`, on a well-formed ring without expired reservation and with `m_current = 0`
(as in a fresh manager), any number of consecutive calls of `GetCurrentReservationNo`
complete, and the `j`-th call (`j = 0, 1, 2, ...`) returns `j mod R`. -/
theorem reservation_numbers_cycle (s : StdmaSlotManager) (nows : List Time)
    (hring : RingOK s) (hne : NoExpired s) (hcur : s.m_current = 0)
    (hrate : 1 ≤ s.m_rate) (hrate32 : s.m_rate < UINT32_MOD) :
    ∃ s1 nos, reservationNumbers nows s = some (s1, nos) ∧ nos.length = nows.length ∧
      ∀ j, j < nows.length → nos[j]? = some (j % s.m_rate) := by
  obtain ⟨s1, hs1⟩ := reservationNumbers_from nows s 0 hring hne hcur (by omega) hrate32
  refine ⟨s1, _, hs1, by simp, ?_⟩
  intro j hj
  simp [hj]

/-- Witness of C17: five calls on `configuredManager` (report rate 2), across two frame
boundaries, return 0, 1, 0, 1, 0. -/
theorem reservation_numbers_cycle_witness :
    RingOK configuredManager ∧ NoExpired configuredManager ∧ configuredManager.m_current = 0 ∧
    1 ≤ configuredManager.m_rate ∧ configuredManager.m_rate < UINT32_MOD ∧
    ∃ s1 nos, reservationNumbers [0, 10, 80, 90, 170] configuredManager = some (s1, nos) ∧
      nos.length = [(0 : Time), 10, 80, 90, 170].length ∧
      ∀ j, j < [(0 : Time), 10, 80, 90, 170].length →
        nos[j]? = some (j % configuredManager.m_rate) :=
  ⟨by unfold RingOK; decide, noExpired_of_forall _ (by decide), by decide, by decide, by decide,
    reservation_numbers_cycle configuredManager [0, 10, 80, 90, 170]
      (by unfold RingOK; decide) (noExpired_of_forall _ (by decide)) (by decide) (by decide)
      (by decide)⟩

/-! ## Claims on the internal timeout of a reservation -/

/-- The collision memory after one pass of the loop body of `UpdateSlotObservations`: the
owner of a released shared slot is erased, nothing else changes. -/
theorem updateSlot_collisions (now : Time) (i : Nat) (s s1 : StdmaSlotManager)
    (h : updateSlot now i s = some s1) :
    ∃ slot, mapFind s.m_slots i = some slot ∧
      s1.m_collisions = if expiredCollision now slot = true
        then mapErase s.m_collisions slot.m_owner else s.m_collisions := by
  unfold updateSlot at h
  cases hf : mapFind s.m_slots i with
  | none => simp [hf] at h
  | some slot =>
    simp only [hf] at h
    refine ⟨slot, rfl, ?_⟩
    cases hr : releaseExpired now slot s.m_collisions with
    | none => simp [hr] at h
    | some pr =>
      obtain ⟨slot1, c1⟩ := pr
      simp only [hr, Option.some.injEq] at h
      rw [← h]
      show c1 = _
      unfold releaseExpired at hr
      unfold expiredCollision
      by_cases h1 : slot.m_internal = true ∧ slot.m_internalTimeout ≤ 0
      · rw [if_pos h1] at hr
        by_cases h2 : slot.IsAllocated now = true
        · rw [if_pos h2] at hr
          by_cases h3 : (mapFind s.m_collisions slot.m_owner).isSome = true
          · rw [if_pos h3] at hr
            simp only [Option.some.injEq, Prod.mk.injEq] at hr
            rw [← hr.2]
            simp [h1.1, h1.2, h2]
          · rw [if_neg h3] at hr
            simp at hr
        · rw [if_neg h2] at hr
          simp only [Option.some.injEq, Prod.mk.injEq] at hr
          rw [← hr.2]
          simp [h2]
      · rw [if_neg h1] at hr
        simp only [Option.some.injEq, Prod.mk.injEq] at hr
        rw [← hr.2]
        have : ¬ ((slot.m_internal && decide (slot.m_internalTimeout ≤ 0)
            && slot.IsAllocated now) = true) := by
          intro hc
          simp only [Bool.and_eq_true, decide_eq_true_eq] at hc
          exact h1 hc.1
        rw [if_neg this]

/-- A peer that is not looked up during the loop of `UpdateSlotObservations` stays in the
collision memory. -/
theorem updateLoop_collisions (now : Time) (l : List Nat) :
    ∀ (s s1 : StdmaSlotManager), l.Nodup → updateLoop now l s = some s1 →
      ∀ o, (mapFind s.m_collisions o).isSome = true →
        o ∉ expiredOwners now s.m_slots l → (mapFind s1.m_collisions o).isSome = true := by
  induction l with
  | nil =>
    intro s s1 _ h o ho _
    simp only [updateLoop, Option.some.injEq] at h
    subst h
    exact ho
  | cons i rest ih =>
    intro s s1 hnd h o ho hnot
    simp only [updateLoop] at h
    cases hu : updateSlot now i s with
    | none => simp [hu] at h
    | some s2 =>
      simp only [hu] at h
      obtain ⟨slot, c1, hslot, hs2⟩ := updateSlot_spec now i s s2 hu
      obtain ⟨slot', hslot', hc⟩ := updateSlot_collisions now i s s2 hu
      rw [hslot] at hslot'
      have hsl : slot' = slot := (Option.some.inj hslot').symm
      subst hsl
      have hnd' := List.nodup_cons.mp hnd
      have hcongr : expiredOwners now s2.m_slots rest = expiredOwners now s.m_slots rest := by
        apply expiredOwners_congr
        intro j hj
        rw [hs2]
        apply mapFind_mapModify_ne
        intro hij
        subst hij
        exact hnd'.1 hj
      have hexp : expiredOwners now s.m_slots (i :: rest)
          = if expiredCollision now slot' = true
            then slot'.m_owner :: expiredOwners now s.m_slots rest
            else expiredOwners now s.m_slots rest := by
        simp only [expiredOwners, hslot]
      rw [hexp] at hnot
      apply ih s2 s1 hnd'.2 h o
      · rw [hc]
        by_cases he : expiredCollision now slot' = true
        · rw [if_pos he] at hnot ⊢
          rw [mapFind_mapErase_ne]
          · exact ho
          · intro heq
            apply hnot
            rw [heq]
            exact List.mem_cons_self _ _
        · rw [if_neg he]
          exact ho
      · rw [hcongr]
        by_cases he : expiredCollision now slot' = true
        · rw [if_pos he] at hnot
          exact fun hm => hnot (List.mem_cons_of_mem _ hm)
        · rw [if_neg he] at hnot
          exact hnot

/-- Every peer looked up by `UpdateSlotObservations` owns an expired shared slot. -/
theorem mem_expiredOwners (now : Time) (m : List (Nat × StdmaSlot)) (l : List Nat) (o : Nat)
    (h : o ∈ expiredOwners now m l) :
    ∃ i ∈ l, ∃ slot, mapFind m i = some slot ∧ expiredCollision now slot = true ∧
      slot.m_owner = o := by
  induction l with
  | nil => simp [expiredOwners] at h
  | cons i rest ih =>
    cases hf : mapFind m i with
    | none =>
      simp only [expiredOwners, hf] at h
      obtain ⟨j, hj, r⟩ := ih h
      exact ⟨j, List.mem_cons_of_mem _ hj, r⟩
    | some slot =>
      simp only [expiredOwners, hf] at h
      by_cases he : expiredCollision now slot = true
      · rw [if_pos he] at h
        rcases List.mem_cons.mp h with h1 | h1
        · exact ⟨i, List.mem_cons_self _ _, slot, hf, he, h1.symm⟩
        · obtain ⟨j, hj, r⟩ := ih h1
          exact ⟨j, List.mem_cons_of_mem _ hj, r⟩
      · rw [if_neg he] at h
        obtain ⟨j, hj, r⟩ := ih h
        exact ⟨j, List.mem_cons_of_mem _ hj, r⟩

/-- A slot for which the collision memory is consulted is internally allocated, in state
ALLOCATED, with internal timeout 0. -/
theorem expiredCollision_spec (now : Time) (slot : StdmaSlot)
    (h : expiredCollision now slot = true) :
    slot.m_internal = true ∧ slot.m_internalTimeout = 0 ∧ slot.m_state = State.ALLOCATED := by
  unfold expiredCollision StdmaSlot.IsAllocated at h
  simp only [Bool.and_eq_true, decide_eq_true_eq] at h
  exact ⟨h.1.1, by omega, h.2.1⟩

/-- When expired shared slots have pairwise different owners, no peer is looked up twice. -/
theorem expiredOwners_nodup (now : Time) (m : List (Nat × StdmaSlot)) (l : List Nat)
    (hnd : l.Nodup)
    (hinj : ∀ i j slot slot', mapFind m i = some slot → mapFind m j = some slot' →
      expiredCollision now slot = true → expiredCollision now slot' = true →
      slot.m_owner = slot'.m_owner → i = j) :
    (expiredOwners now m l).Nodup := by
  induction l with
  | nil => simp [expiredOwners]
  | cons i rest ih =>
    have hnd' := List.nodup_cons.mp hnd
    cases hf : mapFind m i with
    | none =>
      simp only [expiredOwners, hf]
      exact ih hnd'.2
    | some slot =>
      simp only [expiredOwners, hf]
      by_cases he : expiredCollision now slot = true
      · rw [if_pos he]
        refine List.nodup_cons.mpr ⟨?_, ih hnd'.2⟩
        intro hm
        obtain ⟨j, hj, slot', hf', he', ho⟩ := mem_expiredOwners now m rest _ hm
        have := hinj i j slot slot' hf hf' he he' ho.symm
        subst this
        exact hnd'.1 hj
      · rw [if_neg he]
        exact ih hnd'.2

/-- The assertion of `UpdateSlotObservations` holds when the collision memory covers the
ring. -/
theorem agingAssertsHold_of_recorded (s : StdmaSlotManager) (now : Time)
    (hcol : CollisionsRecorded s) : AgingAssertsHold s now := by
  constructor
  · apply expiredOwners_nodup now _ _ (List.nodup_range _)
    intro i j slot slot' hf hf' he he' ho
    obtain ⟨h1, _, h2⟩ := expiredCollision_spec now slot he
    obtain ⟨h1', _, h2'⟩ := expiredCollision_spec now slot' he'
    exact hcol.2 (i, slot) (mapFind_mem _ _ _ hf) (j, slot') (mapFind_mem _ _ _ hf') h1 h2 h1' h2' ho
  · intro o ho
    obtain ⟨i, _, slot, hf, he, hown⟩ := mem_expiredOwners now _ _ o ho
    obtain ⟨h1, _, h2⟩ := expiredCollision_spec now slot he
    rw [← hown]
    exact hcol.1 (i, slot) (mapFind_mem _ _ _ hf) h1 h2

/-- The frame-boundary update keeps the collision memory covering the ring. -/
theorem aging_recorded (s s1 : StdmaSlotManager) (now : Time) (hring : RingOK s)
    (hcol : CollisionsRecorded s) (h : UpdateSlotObservations s now = some s1) :
    CollisionsRecorded s1 := by
  have hfind := UpdateSlotObservations_find s s1 now s.m_numSlots hring.1 h
  have hback : ∀ p ∈ s1.m_slots, p.2.m_internal = true →
      (p.1, p.2) ∈ s.m_slots ∧ 0 < p.2.m_internalTimeout := by
    intro p hp hint
    have hring1 := (UpdateSlotObservations_effect s s1 now hring h).1
    have hnd : (s1.m_slots.map Prod.fst).Nodup := by
      rw [hring1.1]
      exact List.nodup_range _
    have hf1 := mapFind_of_mem s1.m_slots p.1 p.2 hnd hp
    rw [hfind p.1] at hf1
    cases hf : mapFind s.m_slots p.1 with
    | none => simp [hf] at hf1
    | some slot =>
      simp only [hf, Option.map_some', Option.some.injEq] at hf1
      rw [← hf1] at hint
      obtain ⟨_, hpos, heq⟩ := agedSlot_internal now slot hint
      rw [heq] at hf1
      rw [← hf1]
      exact ⟨mapFind_mem _ _ _ hf, hpos⟩
  constructor
  · intro p hp hint hst
    obtain ⟨hmem, hpos⟩ := hback p hp hint
    have hown := hcol.1 (p.1, p.2) hmem hint hst
    unfold UpdateSlotObservations at h
    apply updateLoop_collisions now _ _ s1 (List.nodup_range _) h _ hown
    intro hm
    obtain ⟨j, _, slot', hf', he', ho⟩ := mem_expiredOwners now _ _ _ hm
    obtain ⟨h1', h0', h2'⟩ := expiredCollision_spec now slot' he'
    have hf'' : mapFind s.m_slots j = some slot' := hf'
    have := hcol.2 (j, slot') (mapFind_mem _ _ _ hf'') (p.1, p.2) hmem h1' h2' hint hst ho
    simp only [] at this
    subst this
    have hnd : (s.m_slots.map Prod.fst).Nodup := by
      rw [hring.1]
      exact List.nodup_range _
    have := mapFind_of_mem s.m_slots _ _ hnd hmem
    rw [hf''] at this
    have := Option.some.inj this
    rw [this] at h0'
    omega
  · intro p hp q hq hpi hps hqi hqs ho
    exact hcol.2 (p.1, p.2) (hback p hp hpi).1 (q.1, q.2) (hback q hq hqi).1 hpi hps hqi hqs ho

/-- Every binding of a modified map stems from a binding of the same key. -/
theorem mem_mapModify {α : Type} (m : List (Nat × α)) (k : Nat) (f : α → α) (p : Nat × α)
    (h : p ∈ mapModify m k f) : ∃ v, (p.1, v) ∈ m ∧ (p.2 = v ∨ p.2 = f v) := by
  induction m with
  | nil => simp [mapModify] at h
  | cons q rest ih =>
    obtain ⟨k0, v0⟩ := q
    by_cases hk : k0 = k
    · simp only [mapModify, if_pos hk, List.mem_cons] at h
      rcases h with h | h
      · exact ⟨v0, by rw [h]; exact List.mem_cons_self _ _, Or.inr (by rw [h])⟩
      · obtain ⟨v, hv, hr⟩ := ih h
        exact ⟨v, List.mem_cons_of_mem _ hv, hr⟩
    · simp only [mapModify, if_neg hk, List.mem_cons] at h
      rcases h with h | h
      · exact ⟨v0, by rw [h]; exact List.mem_cons_self _ _, Or.inl (by rw [h])⟩
      · obtain ⟨v, hv, hr⟩ := ih h
        exact ⟨v, List.mem_cons_of_mem _ hv, hr⟩

/-- A change of the ring that keeps the internal flag, the state and the owner of every slot,
and keeps the collision memory, keeps the collision memory covering the ring. -/
theorem recorded_of_fields (s s1 : StdmaSlotManager) (hc : s1.m_collisions = s.m_collisions)
    (h : ∀ p ∈ s1.m_slots, ∃ v, (p.1, v) ∈ s.m_slots ∧ p.2.m_internal = v.m_internal ∧
      p.2.m_state = v.m_state ∧ p.2.m_owner = v.m_owner)
    (hcol : CollisionsRecorded s) : CollisionsRecorded s1 := by
  constructor
  · intro p hp hint hst
    obtain ⟨v, hv, h1, h2, h3⟩ := h p hp
    rw [hc, h3]
    exact hcol.1 (p.1, v) hv (by rw [← h1]; exact hint) (by rw [← h2]; exact hst)
  · intro p hp q hq hpi hps hqi hqs ho
    obtain ⟨v, hv, h1, h2, h3⟩ := h p hp
    obtain ⟨w, hw, g1, g2, g3⟩ := h q hq
    exact hcol.2 (p.1, v) hv (q.1, w) hw (by rw [← h1]; exact hpi) (by rw [← h2]; exact hps)
      (by rw [← g1]; exact hqi) (by rw [← g2]; exact hqs) (by
        show v.m_owner = w.m_owner
        rw [← h3, ← g3]
        exact ho)

/-- The frame-boundary update leaves the slot of a reservation with decrements left, and
keeps an internal timeout of 0. -/
theorem agedSlot_timeoutLeft (now : Time) (r : Nat) (slot : StdmaSlot)
    (h : TimeoutLeft r slot) : TimeoutLeft r (agedSlot now slot) := by
  obtain ⟨h1, h2⟩ := h
  by_cases hr : 0 < r
  · have hint := h2 hr
    have : agedSlot now slot = slot := by
      unfold agedSlot
      have hne : ¬ (slot.m_internal = true ∧ slot.m_internalTimeout ≤ 0) := by
        intro hc
        omega
      rw [if_neg hne]
      simp [ageBusy, ageAllocated, hint]
    rw [this]
    exact ⟨h1, h2⟩
  · have hr0 : r = 0 := by omega
    subst hr0
    refine ⟨?_, fun h => absurd h (lt_irrefl 0)⟩
    unfold agedSlot ageBusy ageAllocated
    split_ifs <;> simp [StdmaSlot.MarkAsFree, StdmaSlot.SetTimeout, h1]

/-- A call of `UpdateSlotObservations` completes and keeps the state of the run. -/
theorem timeoutInv_aging (n key r : Nat) (s : StdmaSlotManager) (now : Time)
    (h : TimeoutInv n key r s) :
    ∃ s1, UpdateSlotObservations s now = some s1 ∧ TimeoutInv n key r s1 := by
  obtain ⟨hring, hcol, hsel, slot, hslot, hleft⟩ := h
  obtain ⟨s1, hs1⟩ := UpdateSlotObservations_isSome s now s.m_numSlots hring.1
    (agingAssertsHold_of_recorded s now hcol)
  obtain ⟨hring1, _, hsel1, hfind⟩ := UpdateSlotObservations_effect s s1 now hring hs1
  refine ⟨s1, hs1, hring1, aging_recorded s s1 now hring hcol hs1, ?_, agedSlot now slot, ?_,
    agedSlot_timeoutLeft now r slot hleft⟩
  · rw [hsel1]
    exact hsel
  · rw [hfind key, hslot]
    rfl

/-- The prologue of the public operations completes and keeps the state of the run. -/
theorem timeoutInv_ageCheck (n key r : Nat) (s : StdmaSlotManager) (now : Time)
    (h : TimeoutInv n key r s) :
    ∃ s1, ageCheck s now = some s1 ∧ TimeoutInv n key r s1 := by
  unfold ageCheck
  by_cases hge : now ≥ s.m_lastFrameStart + s.m_frameDuration
  · rw [if_pos hge]
    exact timeoutInv_aging n key r s now h
  · rw [if_neg hge]
    exact ⟨s, rfl, h⟩

/-- A call of `NeedsReReservation (n)` answers true exactly when no decrement is left. -/
theorem timeoutInv_query (n key r : Nat) (s : StdmaSlotManager) (now : Time)
    (h : TimeoutInv n key r s) :
    ∃ s1, NeedsReReservation s now n = some (s1, decide (r = 0)) ∧ TimeoutInv n key r s1 := by
  obtain ⟨s1, hage, hinv⟩ := timeoutInv_ageCheck n key r s now h
  have hinv1 := hinv
  obtain ⟨_, _, _, slot1, hslot1, hleft1⟩ := hinv
  refine ⟨s1, ?_, hinv1⟩
  unfold NeedsReReservation
  simp only [h.2.2.1, hage, hslot1, hleft1.1]
  congr 2
  simp

/-- A call of `DecreaseTimeOutOfReservationWithNumber (n)` with `r > 0` decrements left
returns `r - 1`. -/
theorem timeoutInv_decrease (n key r : Nat) (s : StdmaSlotManager) (now : Time)
    (h : TimeoutInv n key r s) (hr : 0 < r) (h256 : r < 256) :
    ∃ s1, DecreaseTimeOutOfReservationWithNumber s now n = some (s1, r - 1) ∧
      TimeoutInv n key (r - 1) s1 := by
  obtain ⟨s1, hage, hinv⟩ := timeoutInv_ageCheck n key r s now h
  obtain ⟨hring, _, hsel, slot, hslot, hleft⟩ := h
  obtain ⟨hring1, hcol1, hsel1, slot1, hslot1, hleft1⟩ := hinv
  have hidx : slot1.m_index = key := (ringOK_find s1 hring1 key slot1 hslot1).1
  have hdec : u8dec slot1.m_internalTimeout = r - 1 := by
    rw [hleft1.1]
    unfold u8dec
    omega
  have hguard : slot.m_internal = true ∧ slot.m_internalTimeout > 0 :=
    ⟨hleft.2 hr, by rw [hleft.1]; exact hr⟩
  have hrun : DecreaseTimeOutOfReservationWithNumber s now n
      = some ({ s1 with
                m_slots := mapModify (mapModify s1.m_slots key
                    (fun x => x.SetInternalTimeout (r - 1)))
                  key (fun x => x.SetInternalTimeout (r - 1)) }, r - 1) := by
    unfold DecreaseTimeOutOfReservationWithNumber
    simp only [hsel, hslot, if_pos hguard, hage, hslot1, hidx, hdec]
  refine ⟨_, hrun, ?_, ?_, hsel1, (slot1.SetInternalTimeout (r - 1)).SetInternalTimeout (r - 1),
    ?_, ?_⟩
  · have hmid : RingOK { s1 with
        m_slots := (mapModify s1.m_slots key (fun x => x.SetInternalTimeout (r - 1))) } :=
      ringOK_mapModify s1 hring1 key (fun x => x.SetInternalTimeout (r - 1))
        (fun _ => rfl) _ rfl rfl
    exact ringOK_mapModify _ hmid key (fun x => x.SetInternalTimeout (r - 1))
      (fun _ => rfl) _ rfl rfl
  · refine recorded_of_fields s1 _ rfl ?_ hcol1
    intro p hp
    obtain ⟨v, hv, hpv⟩ := mem_mapModify _ _ _ p hp
    obtain ⟨w, hw, hvw⟩ := mem_mapModify _ _ _ (p.1, v) hv
    refine ⟨w, hw, ?_⟩
    rcases hpv with e1 | e1 <;> rcases hvw with e2 | e2 <;>
      (simp only [] at e2; rw [e1, e2]; exact ⟨rfl, rfl, rfl⟩)
  · show mapFind (mapModify (mapModify s1.m_slots key _) key _) key = _
    rw [mapFind_mapModify_same, mapFind_mapModify_same, hslot1]
    rfl
  · refine ⟨rfl, ?_⟩
    intro _
    exact hleft1.2 hr

/-- A run with at most `r` decrements completes with the expected values. -/
theorem timeoutRun_trace (n key : Nat) (evs : List TimeoutEvent) :
    ∀ (r : Nat) (s : StdmaSlotManager), TimeoutInv n key r s → r < 256 →
      decreaseCount evs ≤ r →
      ∃ s1, timeoutRun n evs s = some (s1, expectedTimeoutTrace r evs) := by
  induction evs with
  | nil => intro r s _ _ _; exact ⟨s, rfl⟩
  | cons ev rest ih =>
    intro r s hinv h256 hcount
    cases ev with
    | aging now =>
      obtain ⟨s1, hs1, hinv1⟩ := timeoutInv_aging n key r s now hinv
      obtain ⟨s2, hs2⟩ := ih r s1 hinv1 h256 hcount
      exact ⟨s2, by simp only [timeoutRun, hs1, hs2, expectedTimeoutTrace]⟩
    | decrease now =>
      have hr : 0 < r := by
        simp only [decreaseCount] at hcount
        omega
      obtain ⟨s1, hs1, hinv1⟩ := timeoutInv_decrease n key r s now hinv hr h256
      obtain ⟨s2, hs2⟩ := ih (r - 1) s1 hinv1 (by omega) (by
        simp only [decreaseCount] at hcount
        omega)
      exact ⟨s2, by simp only [timeoutRun, hs1, hs2, expectedTimeoutTrace]⟩
    | query now =>
      obtain ⟨s1, hs1, hinv1⟩ := timeoutInv_query n key r s now hinv
      obtain ⟨s2, hs2⟩ := ih r s1 hinv1 h256 hcount
      exact ⟨s2, by simp only [timeoutRun, hs1, hs2, expectedTimeoutTrace]⟩

/-! ## Claims on `StdmaHeader` -/

/-- A `double` that holds an integer of `[0, 2^32)` is stored into a `uint32_t` unchanged. -/
theorem doubleToU32_natCast (n : Nat) (h : n < UINT32_MOD) : doubleToU32 (n : ℚ) = n := by
  unfold doubleToU32
  rw [if_pos (Nat.cast_nonneg n), Int.floor_natCast, Int.toNat_natCast, Nat.mod_eq_of_lt h]

/-- A 32-bit word is read back from the four octets written for it, in either byte order. -/
theorem readU32_writeU32 (order : ByteOrder) (x : Nat) (h : x < UINT32_MOD) :
    ∃ b0 b1 b2 b3, Buffer.WriteU32 order x = [b0, b1, b2, b3] ∧
      Buffer.ReadU32 order b0 b1 b2 b3 = x := by
  unfold UINT32_MOD at h
  cases order
  · exact ⟨_, _, _, _, rfl, by unfold Buffer.ReadU32; simp only []; omega⟩
  · exact ⟨_, _, _, _, rfl, by unfold Buffer.ReadU32; simp only []; omega⟩

/-- A 16-bit word is read back from the two octets written for it, in either byte order. -/
theorem readU16_writeU16 (order : ByteOrder) (x : Nat) (h : x < 65536) :
    ∃ b0 b1, Buffer.WriteU16 order x = [b0, b1] ∧ Buffer.ReadU16 order b0 b1 = x := by
  cases order
  · exact ⟨_, _, rfl, by unfold Buffer.ReadU16; simp only []; omega⟩
  · exact ⟨_, _, rfl, by unfold Buffer.ReadU16; simp only []; omega⟩

/-- A header whose latitude and longitude are integers of `[0, 2^32)` and whose other fields
are within their widths is read back from the octets `Serialize` writes. -/
theorem deserialize_serialize (order : ByteOrder) (h : StdmaHeader) (lat lon : Nat)
    (hlat : h.m_latitude = (lat : ℚ)) (hlon : h.m_longitude = (lon : ℚ))
    (hlat32 : lat < UINT32_MOD) (hlon32 : lon < UINT32_MOD)
    (hoff : h.m_offset < 65536) (hto : h.m_timeout < 256) (hen : h.m_entry < 256)
    (rest : List Nat) :
    StdmaHeader.Deserialize order (StdmaHeader.Serialize order h ++ rest)
      = some (h, SIZEOF_DOUBLE + SIZEOF_DOUBLE + 2 + 1 + 1) := by
  obtain ⟨a0, a1, a2, a3, ha, hra⟩ := readU32_writeU32 order lat hlat32
  obtain ⟨c0, c1, c2, c3, hc, hrc⟩ := readU32_writeU32 order lon hlon32
  obtain ⟨d0, d1, hd, hrd⟩ := readU16_writeU16 order h.m_offset hoff
  unfold StdmaHeader.Serialize
  rw [hlat, hlon, doubleToU32_natCast lat hlat32, doubleToU32_natCast lon hlon32, ha, hc, hd]
  simp only [Buffer.WriteU8, List.cons_append, List.nil_append, StdmaHeader.Deserialize,
    hra, hrc, hrd, Nat.mod_eq_of_lt hto, Nat.mod_eq_of_lt hen]
  rw [← hlat, ← hlon]

/-- C19 (divergence): for every header and either byte order, `GetSerializedSize ()` returns
20 (the members `m_latitude` and `m_longitude` are of type `double`, 8 octets each), and
`Deserialize` returns 20 as well, while `Serialize` writes 12 octets (4 latitude, 4 longitude,
2 offset, 1 timeout, 1 entry): the reported size is not the number of octets written. -/
theorem serialized_size_exceeds_written (order : ByteOrder) (h : StdmaHeader) :
    h.GetSerializedSize = 20 ∧ (StdmaHeader.Serialize order h).length = 12 ∧
    (∀ rest : List Nat,
      (StdmaHeader.Deserialize order (StdmaHeader.Serialize order h ++ rest)).map Prod.snd
        = some 20) ∧
    h.GetSerializedSize ≠ (StdmaHeader.Serialize order h).length := by
  have hlen : (StdmaHeader.Serialize order h).length = 12 := by
    cases order <;> rfl
  refine ⟨rfl, hlen, ?_, ?_⟩
  · intro rest
    cases order <;> rfl
  · rw [hlen]
    exact (by decide : (20 : Nat) ≠ 12)

/-- C20: header value round trip.  For every latitude and longitude that are integers in
`[0, 2^32)`, every offset `< 2^16`, every timeout `< 2^8`, either setting of the network-entry
flag, and either byte order of the buffer, `Deserialize` on the octets written by `Serialize`
(followed by any payload) succeeds and yields a header whose `GetLatitude`, `GetLongitude`,
`GetOffset`, `GetTimeout` and `GetNetworkEntry` return the values set before. -/
theorem header_round_trip (order : ByteOrder) (lat lon offset timeout : Nat) (entry : Bool)
    (rest : List Nat)
    (hlat : lat < 2 ^ 32) (hlon : lon < 2 ^ 32) (hoff : offset < 2 ^ 16)
    (hto : timeout < 2 ^ 8) :
    ∃ h1 size,
      StdmaHeader.Deserialize order
        (StdmaHeader.Serialize order
          (if entry = true then
            ((((StdmaHeader.create.SetLatitude (lat : ℚ)).SetLongitude (lon : ℚ)).SetOffset
              offset).SetTimeout timeout).SetNetworkEntry
          else
            (((StdmaHeader.create.SetLatitude (lat : ℚ)).SetLongitude (lon : ℚ)).SetOffset
              offset).SetTimeout timeout) ++ rest) = some (h1, size) ∧
      h1.GetLatitude = (lat : ℚ) ∧ h1.GetLongitude = (lon : ℚ) ∧ h1.GetOffset = offset ∧
      h1.GetTimeout = timeout ∧ h1.GetNetworkEntry = entry := by
  have hoff1 : u16cast offset = offset := Nat.mod_eq_of_lt (by omega)
  have hto1 : timeout % 256 = timeout := Nat.mod_eq_of_lt (by omega)
  cases entry
  · refine ⟨_, _, deserialize_serialize order _ lat lon rfl rfl hlat hlon ?_ ?_ ?_ rest,
      rfl, rfl, hoff1, hto1, rfl⟩
    · show u16cast offset < 65536
      exact Nat.mod_lt _ (by decide)
    · show timeout % 256 < 256
      exact Nat.mod_lt _ (by decide)
    · show (0 : Nat) < 256
      decide
  · refine ⟨_, _, deserialize_serialize order _ lat lon rfl rfl hlat hlon ?_ ?_ ?_ rest,
      rfl, rfl, hoff1, hto1, rfl⟩
    · show u16cast offset < 65536
      exact Nat.mod_lt _ (by decide)
    · show timeout % 256 < 256
      exact Nat.mod_lt _ (by decide)
    · show (1 : Nat) < 256
      decide

/-- Witness of C20: latitude 12345, longitude 67890, offset 7, timeout 5, entry flag set. -/
theorem header_round_trip_witness :
    (12345 : Nat) < 2 ^ 32 ∧ (67890 : Nat) < 2 ^ 32 ∧ (7 : Nat) < 2 ^ 16 ∧ (5 : Nat) < 2 ^ 8 ∧
    ∃ h1 size,
      StdmaHeader.Deserialize ByteOrder.mostSignificantFirst
        (StdmaHeader.Serialize ByteOrder.mostSignificantFirst
          (if true = true then
            ((((StdmaHeader.create.SetLatitude ((12345 : Nat) : ℚ)).SetLongitude
              ((67890 : Nat) : ℚ)).SetOffset 7).SetTimeout 5).SetNetworkEntry
          else
            (((StdmaHeader.create.SetLatitude ((12345 : Nat) : ℚ)).SetLongitude
              ((67890 : Nat) : ℚ)).SetOffset 7).SetTimeout 5) ++ []) = some (h1, size) ∧
      h1.GetLatitude = ((12345 : Nat) : ℚ) ∧ h1.GetLongitude = ((67890 : Nat) : ℚ) ∧
      h1.GetOffset = 7 ∧ h1.GetTimeout = 5 ∧ h1.GetNetworkEntry = true :=
  ⟨by decide, by decide, by decide, by decide,
    header_round_trip ByteOrder.mostSignificantFirst 12345 67890 7 5 true []
      (by decide) (by decide) (by decide) (by decide)⟩

/-- C21: header byte round trip.  For every buffer `b` of 12 octets and either byte order of
the buffer words, `Deserialize` succeeds on `b`, and `Serialize` of the header it read writes
exactly the 12 octets of `b`. -/
theorem header_bytes_round_trip (order : ByteOrder) (b : List Nat) (hlen : b.length = 12)
    (hoct : ∀ x ∈ b, x < 256) :
    ∃ h size, StdmaHeader.Deserialize order b = some (h, size) ∧
      StdmaHeader.Serialize order h = b := by
  match b, hlen with
  | [b0, b1, b2, b3, b4, b5, b6, b7, b8, b9, b10, b11], _ =>
    have h0 := hoct b0 (by simp)
    have h1 := hoct b1 (by simp)
    have h2 := hoct b2 (by simp)
    have h3 := hoct b3 (by simp)
    have h4 := hoct b4 (by simp)
    have h5 := hoct b5 (by simp)
    have h6 := hoct b6 (by simp)
    have h7 := hoct b7 (by simp)
    have h8 := hoct b8 (by simp)
    have h9 := hoct b9 (by simp)
    have h10 := hoct b10 (by simp)
    have h11 := hoct b11 (by simp)
    refine ⟨_, _, rfl, ?_⟩
    have hr32 : ∀ a0 a1 a2 a3 : Nat, a0 < 256 → a1 < 256 → a2 < 256 → a3 < 256 →
        Buffer.WriteU32 order (doubleToU32 ((Buffer.ReadU32 order a0 a1 a2 a3 : Nat) : ℚ))
          = [a0, a1, a2, a3] := by
      intro a0 a1 a2 a3 g0 g1 g2 g3
      have hlt : Buffer.ReadU32 order a0 a1 a2 a3 < UINT32_MOD := by
        unfold UINT32_MOD
        cases order <;> (unfold Buffer.ReadU32; simp only []; omega)
      rw [doubleToU32_natCast _ hlt]
      cases order
      · unfold Buffer.WriteU32 Buffer.ReadU32
        simp only [List.cons.injEq, and_true]
        refine ⟨?_, ?_, ?_, ?_⟩ <;> omega
      · unfold Buffer.WriteU32 Buffer.ReadU32
        simp only [List.cons.injEq, and_true]
        refine ⟨?_, ?_, ?_, ?_⟩ <;> omega
    have hr16 : Buffer.WriteU16 order (Buffer.ReadU16 order b8 b9) = [b8, b9] := by
      cases order
      · unfold Buffer.WriteU16 Buffer.ReadU16
        simp only [List.cons.injEq, and_true]
        refine ⟨?_, ?_⟩ <;> omega
      · unfold Buffer.WriteU16 Buffer.ReadU16
        simp only [List.cons.injEq, and_true]
        refine ⟨?_, ?_⟩ <;> omega
    unfold StdmaHeader.Serialize
    simp only [hr32 b0 b1 b2 b3 h0 h1 h2 h3, hr32 b4 b5 b6 b7 h4 h5 h6 h7, hr16, Buffer.WriteU8,
      Nat.mod_eq_of_lt h10, Nat.mod_eq_of_lt h11, List.cons_append, List.nil_append]

/-- Witness of C21: the octets 1, 2, ..., 12. -/
theorem header_bytes_round_trip_witness :
    [1, 2, 3, 4, 5, 6, 7, 8, 9, 10, 11, 12].length = 12 ∧
    (∀ x ∈ [1, 2, 3, 4, 5, 6, 7, 8, 9, 10, 11, 12], x < 256) ∧
    ∃ h size, StdmaHeader.Deserialize ByteOrder.mostSignificantFirst
        [1, 2, 3, 4, 5, 6, 7, 8, 9, 10, 11, 12] = some (h, size) ∧
      StdmaHeader.Serialize ByteOrder.mostSignificantFirst h
        = [1, 2, 3, 4, 5, 6, 7, 8, 9, 10, 11, 12] :=
  ⟨by decide, by decide,
    header_bytes_round_trip ByteOrder.mostSignificantFirst
      [1, 2, 3, 4, 5, 6, 7, 8, 9, 10, 11, 12] (by decide) (by decide)⟩

/-! ## Claims on the state of a slot -/

/-- C24 (divergence): `StdmaSlot::MarkAsBusy` overwrites every state.  For every slot the
state after `MarkAsBusy` is BUSY and the external timeout is 1; in particular slot 3 of
`exampleManager`, in state ALLOCATED with external timeout 8, is left by `MarkSlotAsBusy (3)`
in state BUSY with external timeout 1 (the state ALLOCATED, of higher priority, is
overwritten by BUSY). -/
theorem mark_busy_overwrites_allocated :
    (∀ slot : StdmaSlot, slot.MarkAsBusy.m_state = State.BUSY ∧ slot.MarkAsBusy.m_timeout = 1) ∧
    (mapFind exampleManager.m_slots 3).map (fun slot => (slot.m_state, slot.m_timeout))
      = some (State.ALLOCATED, 8) ∧
    ((MarkSlotAsBusy exampleManager 0 3).bind (fun s => s.GetSlot 3)).map
        (fun slot => (slot.m_state, slot.m_timeout, slot.m_previousState))
      = some (State.BUSY, 1, State.ALLOCATED) := by
  refine ⟨fun slot => ⟨rfl, rfl⟩, by decide, by decide⟩

/-- Counterexample to C25 as stated: a slot in state ALLOCATED with external timeout 8 and
`m_notBefore` = 100 ns, marked at time 50 ns (before `m_notBefore`) with timeout 1 and
`notBefore` = 200 ns, ends with external timeout 1 and `m_notBefore` = 200 ns, not with the
maximum 8 and the minimum 100: `IsAllocated ()` is false before `m_notBefore`, so the values
are overwritten. -/
theorem deferred_allocation_is_overwritten :
    ((StdmaSlot.create 0).MarkAsAllocated 0 8 171 ⟨1, 0, 0⟩ 100).m_state = State.ALLOCATED ∧
    ((StdmaSlot.create 0).MarkAsAllocated 0 8 171 ⟨1, 0, 0⟩ 100).m_timeout = 8 ∧
    ((StdmaSlot.create 0).MarkAsAllocated 0 8 171 ⟨1, 0, 0⟩ 100).m_notBefore = 100 ∧
    (((StdmaSlot.create 0).MarkAsAllocated 0 8 171 ⟨1, 0, 0⟩ 100).MarkAsAllocated
        50 1 205 ⟨2, 0, 0⟩ 200).m_timeout = 1 ∧
    (((StdmaSlot.create 0).MarkAsAllocated 0 8 171 ⟨1, 0, 0⟩ 100).MarkAsAllocated
        50 1 205 ⟨2, 0, 0⟩ 200).m_notBefore = 200 ∧
    max 8 1 ≠ 1 ∧ min (100 : Time) 200 ≠ 200 := by
  decide

/-- C25 (amended): Allocated -> Allocated.  For every slot in state ALLOCATED with external
timeout `t0` and `m_notBefore` = `nb0`, and every call
`MarkAsAllocated (t1, owner, position, nb1)` at a time `now >= nb0`, the slot afterwards is in
state ALLOCATED with external timeout `max (t0, t1)`, `m_notBefore` = `min (nb0, nb1)`, and
owner and position equal to the new values. -/
theorem allocated_keeps_larger_timeout (slot : StdmaSlot) (now : Time) (t1 : Nat)
    (owner : Mac48Address) (position : Vector) (nb1 : Time)
    (hstate : slot.m_state = State.ALLOCATED) (hnb : slot.m_notBefore ≤ now) :
    (slot.MarkAsAllocated now t1 owner position nb1).m_state = State.ALLOCATED ∧
    (slot.MarkAsAllocated now t1 owner position nb1).m_timeout = max slot.m_timeout t1 ∧
    (slot.MarkAsAllocated now t1 owner position nb1).m_notBefore = min slot.m_notBefore nb1 ∧
    (slot.MarkAsAllocated now t1 owner position nb1).m_owner = owner ∧
    (slot.MarkAsAllocated now t1 owner position nb1).m_position = position := by
  have hall : slot.IsAllocated now = true := by
    unfold StdmaSlot.IsAllocated
    simp [hstate, hnb]
  unfold StdmaSlot.MarkAsAllocated
  simp only [hall, if_true]
  by_cases h1 : t1 > slot.m_timeout
  · by_cases h2 : nb1 < slot.m_notBefore
    · simp only [h1, h2, if_true]
      refine ⟨hstate, ?_, ?_, by first | rfl | trivial, by first | rfl | trivial⟩
      · exact (max_eq_right (le_of_lt h1)).symm
      · exact (min_eq_right (le_of_lt h2)).symm
    · simp only [h1, h2, if_true, if_false]
      refine ⟨hstate, ?_, ?_, by first | rfl | trivial, by first | rfl | trivial⟩
      · exact (max_eq_right (le_of_lt h1)).symm
      · exact (min_eq_left (not_lt.mp h2)).symm
  · by_cases h2 : nb1 < slot.m_notBefore
    · simp only [h1, h2, if_true, if_false]
      refine ⟨hstate, ?_, ?_, by first | rfl | trivial, by first | rfl | trivial⟩
      · exact (max_eq_left (not_lt.mp h1)).symm
      · exact (min_eq_right (le_of_lt h2)).symm
    · simp only [h1, h2, if_false]
      refine ⟨hstate, ?_, ?_, by first | rfl | trivial, by first | rfl | trivial⟩
      · exact (max_eq_left (not_lt.mp h1)).symm
      · exact (min_eq_left (not_lt.mp h2)).symm

/-- Witness of C25 (amended): a slot allocated with timeout 8 at time 0, marked again at time
50 ns with timeout 1 and `notBefore` = 200 ns. -/
theorem allocated_keeps_larger_timeout_witness :
    ((StdmaSlot.create 3).MarkAsAllocated 0 8 171 ⟨1, 0, 0⟩ 0).m_state = State.ALLOCATED ∧
    ((StdmaSlot.create 3).MarkAsAllocated 0 8 171 ⟨1, 0, 0⟩ 0).m_notBefore ≤ (50 : Time) ∧
    (((StdmaSlot.create 3).MarkAsAllocated 0 8 171 ⟨1, 0, 0⟩ 0).MarkAsAllocated
        50 1 205 ⟨2, 0, 0⟩ 200).m_state = State.ALLOCATED ∧
    (((StdmaSlot.create 3).MarkAsAllocated 0 8 171 ⟨1, 0, 0⟩ 0).MarkAsAllocated
        50 1 205 ⟨2, 0, 0⟩ 200).m_timeout
      = max ((StdmaSlot.create 3).MarkAsAllocated 0 8 171 ⟨1, 0, 0⟩ 0).m_timeout 1 ∧
    (((StdmaSlot.create 3).MarkAsAllocated 0 8 171 ⟨1, 0, 0⟩ 0).MarkAsAllocated
        50 1 205 ⟨2, 0, 0⟩ 200).m_notBefore
      = min ((StdmaSlot.create 3).MarkAsAllocated 0 8 171 ⟨1, 0, 0⟩ 0).m_notBefore 200 ∧
    (((StdmaSlot.create 3).MarkAsAllocated 0 8 171 ⟨1, 0, 0⟩ 0).MarkAsAllocated
        50 1 205 ⟨2, 0, 0⟩ 200).m_owner = 205 ∧
    (((StdmaSlot.create 3).MarkAsAllocated 0 8 171 ⟨1, 0, 0⟩ 0).MarkAsAllocated
        50 1 205 ⟨2, 0, 0⟩ 200).m_position = ⟨2, 0, 0⟩ :=
  ⟨by decide, by decide,
    allocated_keeps_larger_timeout ((StdmaSlot.create 3).MarkAsAllocated 0 8 171 ⟨1, 0, 0⟩ 0)
      50 1 205 ⟨2, 0, 0⟩ 200 (by decide) (by decide)⟩

/-! ## Claims on the selection interval and on the offset between reservations -/

/-- C29 (divergence): size of the selection interval.  With `SI/2` as computed by
`SetSelectionIntervalRatio`, the scan of `[NS - SI/2, NS + SI/2]` visits
`2 * floor (0.5 * (NI - 1) * ratio) + 1` slots, an odd number; for the nominal increment
`NI = 10` (20 slots, report rate 2) and the ratio 1 these are 9 slots, whereas
`ceil (NI * ratio)` is 10. -/
theorem selection_interval_size_is_odd :
    (∀ (s : StdmaSlotManager) (NS ratioNum ratioDen : Nat),
      (scanCounters NS (SetSelectionIntervalRatio s ratioNum ratioDen).m_siHalf).length
        = 2 * ((u32sub s.m_ni 1 * ratioNum) / (2 * ratioDen)) + 1) ∧
    (SetReportRate (Setup create 0 200 10 4) 2).m_ni = 10 ∧
    (scanCounters 5
      (SetSelectionIntervalRatio (SetReportRate (Setup create 0 200 10 4) 2) 1 1).m_siHalf).length
      = 9 ∧
    ⌈(((SetReportRate (Setup create 0 200 10 4) 2).m_ni : Nat) : ℚ) * ((1 : ℚ) / 1)⌉ = 10 := by
  refine ⟨?_, by decide, by decide, ?_⟩
  · intro s NS ratioNum ratioDen
    simp [scanCounters, SetSelectionIntervalRatio]
  · have h : (SetReportRate (Setup create 0 200 10 4) 2).m_ni = 10 := by decide
    rw [h]
    norm_num

/-- C30: slot offset between two reservations.  On a well-formed ring of `N < 2^32` slots,
for reservations `k` and `l` bound to slots with indices `a` and `b` (both below `N`),
`CalculateSlotOffsetBetweenTransmissions (k, l)` returns an `r` with `0 <= r <= N` and
`(a + r) mod N = b`; `r = 0` exactly when `k = l`, and for `k` different from `l` the value is
`b - a` when `b > a` and `N - a + b` otherwise. -/
theorem slot_offset_between_reservations (s : StdmaSlotManager) (k l keyK keyL : Nat)
    (slotK slotL : StdmaSlot)
    (hring : RingOK s) (hN : s.m_numSlots < UINT32_MOD)
    (hk : mapFind s.m_selections k = some keyK) (hl : mapFind s.m_selections l = some keyL)
    (hsk : mapFind s.m_slots keyK = some slotK) (hsl : mapFind s.m_slots keyL = some slotL) :
    slotK.m_index < s.m_numSlots ∧ slotL.m_index < s.m_numSlots ∧
    ∃ r, CalculateSlotOffsetBetweenTransmissions s k l = some r ∧
      r ≤ s.m_numSlots ∧ (slotK.m_index + r) % s.m_numSlots = slotL.m_index ∧
      (r = 0 ↔ k = l) ∧
      (k ≠ l → slotL.m_index > slotK.m_index → r = slotL.m_index - slotK.m_index) ∧
      (k ≠ l → ¬ slotL.m_index > slotK.m_index →
        r = s.m_numSlots - slotK.m_index + slotL.m_index) := by
  have ha := ringOK_find s hring keyK slotK hsk
  have hb := ringOK_find s hring keyL slotL hsl
  have ha1 : slotK.m_index < s.m_numSlots := by rw [ha.1]; exact ha.2
  have hb1 : slotL.m_index < s.m_numSlots := by rw [hb.1]; exact hb.2
  refine ⟨ha1, hb1, ?_⟩
  by_cases hkl : k = l
  · subst hkl
    rw [hk] at hl
    cases hl
    rw [hsk] at hsl
    cases hsl
    refine ⟨0, ?_, Nat.zero_le _, ?_, ?_, ?_, ?_⟩
    · unfold CalculateSlotOffsetBetweenTransmissions
      simp
    · rw [Nat.add_zero]
      exact Nat.mod_eq_of_lt ha1
    · simp
    · intro h; exact absurd rfl h
    · intro h; exact absurd rfl h
  · have hcalc : CalculateSlotOffsetBetweenTransmissions s k l
        = some (if slotL.m_index > slotK.m_index then slotL.m_index - slotK.m_index
            else s.m_numSlots - slotK.m_index + slotL.m_index) := by
      unfold CalculateSlotOffsetBetweenTransmissions
      simp only [hkl, if_false, hk, hl, hsk, hsl]
      unfold u32add u32sub
      unfold UINT32_MOD at *
      split_ifs with h1
      · congr 1
        omega
      · congr 1
        omega
    refine ⟨_, hcalc, ?_, ?_, ?_, ?_, ?_⟩
    · split_ifs <;> omega
    · by_cases h1 : slotL.m_index > slotK.m_index
      · rw [if_pos h1]
        have : slotK.m_index + (slotL.m_index - slotK.m_index) = slotL.m_index := by omega
        rw [this]
        exact Nat.mod_eq_of_lt hb1
      · rw [if_neg h1]
        have : slotK.m_index + (s.m_numSlots - slotK.m_index + slotL.m_index)
            = slotL.m_index + s.m_numSlots := by omega
        rw [this, Nat.add_mod_right]
        exact Nat.mod_eq_of_lt hb1
    · constructor
      · intro h
        exfalso
        split_ifs at h <;> omega
      · intro h
        exact absurd h hkl
    · intro _ h1
      rw [if_pos h1]
    · intro _ h1
      rw [if_neg h1]

/-- Witness of C30: reservations 1 and 0 of `reservedManager` (slots 5 and 1 of 8). -/
theorem slot_offset_between_reservations_witness :
    RingOK reservedManager ∧ reservedManager.m_numSlots < UINT32_MOD ∧
    mapFind reservedManager.m_selections 1 = some 5 ∧
    mapFind reservedManager.m_selections 0 = some 1 ∧
    ((StdmaSlot.create 5).MarkAsInternallyAllocated 5).m_index < reservedManager.m_numSlots ∧
    ((StdmaSlot.create 1).MarkAsInternallyAllocated 5).m_index < reservedManager.m_numSlots ∧
    ∃ r, CalculateSlotOffsetBetweenTransmissions reservedManager 1 0 = some r ∧
      r ≤ reservedManager.m_numSlots ∧
      (((StdmaSlot.create 5).MarkAsInternallyAllocated 5).m_index + r)
          % reservedManager.m_numSlots
        = ((StdmaSlot.create 1).MarkAsInternallyAllocated 5).m_index ∧
      (r = 0 ↔ 1 = 0) ∧
      ((1 : Nat) ≠ 0 → ((StdmaSlot.create 1).MarkAsInternallyAllocated 5).m_index
          > ((StdmaSlot.create 5).MarkAsInternallyAllocated 5).m_index →
        r = ((StdmaSlot.create 1).MarkAsInternallyAllocated 5).m_index
          - ((StdmaSlot.create 5).MarkAsInternallyAllocated 5).m_index) ∧
      ((1 : Nat) ≠ 0 → ¬ ((StdmaSlot.create 1).MarkAsInternallyAllocated 5).m_index
          > ((StdmaSlot.create 5).MarkAsInternallyAllocated 5).m_index →
        r = reservedManager.m_numSlots
          - ((StdmaSlot.create 5).MarkAsInternallyAllocated 5).m_index
          + ((StdmaSlot.create 1).MarkAsInternallyAllocated 5).m_index) :=
  ⟨by unfold RingOK; decide, by decide, by decide, by decide,
    slot_offset_between_reservations reservedManager 1 0 5 1
      ((StdmaSlot.create 5).MarkAsInternallyAllocated 5)
      ((StdmaSlot.create 1).MarkAsInternallyAllocated 5)
      (by unfold RingOK; decide) (by decide) (by decide) (by decide) (by decide) (by decide)⟩

/-! ## Claims on the time until a transmission -/

/-- C28 (the code at a failing input): `earlyManager` (frame start 100 ns, slots of 10 ns,
reservation 0 bound to the slot with index 1, whose start is 110 ns) at `now` = 95 ns.  The
slot start is after `now`; the claim, the comment of the source ("the starting time of the
current frame plus the delay within the frame until the specific slot, minus the current time
stamp") and its `else` branch give `110 - 95 = 15` ns, but the branch
`m_lastFrameStart > Now ()` of `GetTimeUntilTransmissionOfReservationWithNo (0)` returns
10 ns, and `now + 10` is not the start of the slot. -/
theorem time_until_before_frame_start :
    earlyManager.m_lastFrameStart = 100 ∧ earlyManager.m_slotDuration = 10 ∧
    (mapFind earlyManager.m_selections 0).bind (fun key =>
      (mapFind earlyManager.m_slots key).map (fun slot => slot.m_index)) = some 1 ∧
    (GetTimeUntilTransmissionOfReservationWithNo earlyManager 95 (fun t => decide (t ≤ 0)) 0).map
      Prod.snd = some 10 ∧
    (100 : Time) + 1 * 10 - 95 = 15 ∧ (95 : Time) + 10 ≠ 100 + 1 * 10 := by
  decide

/-- Where the code agrees with the claim C28.  Let `m_lastFrameStart` be the frame start
after the aging prologue of the call, let it be `<= now` or exactly one slot duration after
`now`, and let reservation `n` be bound to a slot with index `i` whose start
`s = m_lastFrameStart + i * m_slotDuration` differs from `now`.  Then
`GetTimeUntilTransmissionOfReservationWithNo (n)` returns `s - now` if `s` is after `now` and
`s + m_frameDuration - now` if `s` precedes `now`; `now` plus the result is the start of that
slot, in the current or in the next frame.  (`ns3::Time::IsNegative` is only used on a non-zero
delay here.) -/
theorem time_until_slot_start (s s1 : StdmaSlotManager) (now : Time)
    (IsNegative : Time → Bool) (n key : Nat) (slot : StdmaSlot)
    (hneg : ∀ t : Time, t < 0 → IsNegative t = true)
    (hnonneg : ∀ t : Time, 0 < t → IsNegative t = false)
    (hage : ageCheck s now = some s1)
    (hsel : mapFind s1.m_selections n = some key) (hslot : mapFind s1.m_slots key = some slot)
    (hdom : s1.m_lastFrameStart ≤ now ∨ s1.m_lastFrameStart - now = s1.m_slotDuration)
    (hdiff : s1.m_lastFrameStart + (slot.m_index : Int) * s1.m_slotDuration ≠ now) :
    ∃ r, GetTimeUntilTransmissionOfReservationWithNo s now IsNegative n = some (s1, r) ∧
      (now < s1.m_lastFrameStart + (slot.m_index : Int) * s1.m_slotDuration →
        r = s1.m_lastFrameStart + (slot.m_index : Int) * s1.m_slotDuration - now ∧
        now + r = s1.m_lastFrameStart + (slot.m_index : Int) * s1.m_slotDuration) ∧
      (s1.m_lastFrameStart + (slot.m_index : Int) * s1.m_slotDuration < now →
        r = s1.m_lastFrameStart + (slot.m_index : Int) * s1.m_slotDuration
          + s1.m_frameDuration - now ∧
        now + r = s1.m_lastFrameStart + s1.m_frameDuration
          + (slot.m_index : Int) * s1.m_slotDuration) := by
  obtain ⟨S, hS⟩ : ∃ S : Int, S = s1.m_lastFrameStart + (slot.m_index : Int) * s1.m_slotDuration :=
    ⟨_, rfl⟩
  have hdelay : (if s1.m_lastFrameStart > now then
        (s1.m_lastFrameStart - now) + s1.m_lastFrameStart
          + (slot.m_index : Int) * s1.m_slotDuration - now - s1.m_slotDuration
      else s1.m_lastFrameStart + (slot.m_index : Int) * s1.m_slotDuration - now) = S - now := by
    by_cases hgt : s1.m_lastFrameStart > now
    · rw [if_pos hgt]
      rcases hdom with h | h
      · exact absurd hgt (not_lt.mpr h)
      · rw [hS]
        linarith
    · rw [if_neg hgt, hS]
  unfold GetTimeUntilTransmissionOfReservationWithNo
  simp only [hage, hsel, hslot, hdelay]
  rw [← hS] at hdiff ⊢
  rcases lt_or_gt_of_ne hdiff with hlt | hgt
  · -- the slot start precedes now
    have hn : S - now < 0 := by linarith
    rw [hneg _ hn]
    refine ⟨_, rfl, ?_, ?_⟩
    · intro h
      exact absurd h (not_lt.mpr (le_of_lt hlt))
    · intro _
      simp only [if_true]
      constructor
      · ring
      · rw [hS]
        ring
  · have hp : 0 < S - now := by linarith
    rw [hnonneg _ hp]
    refine ⟨_, rfl, ?_, ?_⟩
    · intro _
      simp only [Bool.false_eq_true, if_false]
      constructor
      · trivial
      · ring
    · intro h
      exact absurd h (not_lt.mpr (le_of_lt hgt))

/-- An instance where the code agrees with C28: reservation 0 of `reservedManager` (slot 1,
start 10 ns) at
`now` = 30 ns; the next start of the slot is 90 ns. -/
theorem time_until_slot_start_witness :
    ageCheck reservedManager 30 = some reservedManager ∧
    mapFind reservedManager.m_selections 0 = some 1 ∧
    mapFind reservedManager.m_slots 1 = some ((StdmaSlot.create 1).MarkAsInternallyAllocated 5) ∧
    ∃ r, GetTimeUntilTransmissionOfReservationWithNo reservedManager 30
        (fun t => decide (t ≤ 0)) 0 = some (reservedManager, r) ∧
      ((30 : Time) < reservedManager.m_lastFrameStart
          + (((StdmaSlot.create 1).MarkAsInternallyAllocated 5).m_index : Int)
            * reservedManager.m_slotDuration →
        r = reservedManager.m_lastFrameStart
          + (((StdmaSlot.create 1).MarkAsInternallyAllocated 5).m_index : Int)
            * reservedManager.m_slotDuration - 30 ∧
        30 + r = reservedManager.m_lastFrameStart
          + (((StdmaSlot.create 1).MarkAsInternallyAllocated 5).m_index : Int)
            * reservedManager.m_slotDuration) ∧
      (reservedManager.m_lastFrameStart
          + (((StdmaSlot.create 1).MarkAsInternallyAllocated 5).m_index : Int)
            * reservedManager.m_slotDuration < 30 →
        r = reservedManager.m_lastFrameStart
          + (((StdmaSlot.create 1).MarkAsInternallyAllocated 5).m_index : Int)
            * reservedManager.m_slotDuration
          + reservedManager.m_frameDuration - 30 ∧
        30 + r = reservedManager.m_lastFrameStart + reservedManager.m_frameDuration
          + (((StdmaSlot.create 1).MarkAsInternallyAllocated 5).m_index : Int)
            * reservedManager.m_slotDuration) :=
  ⟨by decide, by decide, by decide,
    time_until_slot_start reservedManager reservedManager 30 (fun t => decide (t ≤ 0)) 0 1
      ((StdmaSlot.create 1).MarkAsInternallyAllocated 5)
      (by intro t ht; simp only [decide_eq_true_eq]; exact le_of_lt ht)
      (by intro t ht; simp only [decide_eq_false_iff_not]; exact not_le.mpr ht)
      (by decide) (by decide) (by decide) (Or.inl (by decide)) (by decide)⟩

/-! ## Claims on `StdmaMac::Receive` -/

/-- After `MarkAsAllocated` a slot is in state ALLOCATED, owned by the new owner, with an
external timeout of at least the new value; the internal timeout is kept. -/
theorem markAsAllocated_fields (x : StdmaSlot) (now : Time) (timeout : Nat)
    (owner : Mac48Address) (position : Vector) (notBefore : Time) :
    (x.MarkAsAllocated now timeout owner position notBefore).m_state = State.ALLOCATED ∧
    (x.MarkAsAllocated now timeout owner position notBefore).m_owner = owner ∧
    timeout ≤ (x.MarkAsAllocated now timeout owner position notBefore).m_timeout ∧
    (x.MarkAsAllocated now timeout owner position notBefore).m_internalTimeout
      = x.m_internalTimeout := by
  unfold StdmaSlot.MarkAsAllocated
  by_cases hall : x.IsAllocated now = true
  · have hst : x.m_state = State.ALLOCATED := by
      unfold StdmaSlot.IsAllocated at hall
      simp only [Bool.and_eq_true, decide_eq_true_eq] at hall
      exact hall.1
    simp only [hall, if_true]
    split_ifs <;> simp_all
  · simp only [hall]
    simp

/-- On a slot that `IsAllocated ()`, `MarkAsAllocated` does not lower the external timeout. -/
theorem markAsAllocated_again (x : StdmaSlot) (now : Time) (timeout : Nat)
    (owner : Mac48Address) (position : Vector) (notBefore : Time)
    (hall : x.IsAllocated now = true) :
    x.m_timeout ≤ (x.MarkAsAllocated now timeout owner position notBefore).m_timeout := by
  unfold StdmaSlot.MarkAsAllocated
  simp only [hall, if_true]
  split_ifs <;> simp_all <;> omega

/-- A slot marked with `notBefore` = 0 at a time `now >= 0` is allocated at `now`. -/
theorem markAsAllocated_isAllocated (x : StdmaSlot) (now : Time) (timeout : Nat)
    (owner : Mac48Address) (position : Vector) (hnow : 0 ≤ now) :
    (x.MarkAsAllocated now timeout owner position 0).IsAllocated now = true := by
  by_cases hall : x.IsAllocated now = true
  · have h := hall
    unfold StdmaSlot.IsAllocated at h
    simp only [Bool.and_eq_true, decide_eq_true_eq] at h
    unfold StdmaSlot.MarkAsAllocated StdmaSlot.IsAllocated
    simp only [hall, if_true]
    split_ifs <;> simp_all
  · unfold StdmaSlot.MarkAsAllocated
    simp only [hall]
    unfold StdmaSlot.IsAllocated
    simp [hnow]

/-- The slot `next` of `Receive` is `(c + offset) mod N` when `c + offset < 2 N`. -/
theorem receiveNext_eq (N c offset : Nat) (hoff : c + offset < 2 * N)
    (h32 : c + offset < UINT32_MOD) :
    StdmaMac.receiveNext N c offset = (c + offset) % N := by
  have hval : StdmaMac.receiveNext N c offset
      = if c + offset < N then c + offset else c + offset - N := by
    unfold StdmaMac.receiveNext u32add u32sub
    unfold UINT32_MOD at *
    have h1 : (c + offset) % 4294967296 = c + offset := Nat.mod_eq_of_lt h32
    simp only [h1]
    split_ifs <;> omega
  rw [hval]
  by_cases h : c + offset < N
  · rw [if_pos h, Nat.mod_eq_of_lt h]
  · rw [if_neg h, Nat.mod_eq_sub_mod (not_lt.mp h), Nat.mod_eq_of_lt (by omega)]

/-- `MarkSlotAsAllocated` when no aging is due: it completes and modifies the slot `index`
only. -/
theorem markSlotAsAllocated_effect (s : StdmaSlotManager) (now : Time) (index timeout : Nat)
    (node : Mac48Address) (position : Vector) (notbefore : Time)
    (hring : RingOK s) (hidx : index < s.m_numSlots)
    (hnoage : now < s.m_lastFrameStart + s.m_frameDuration) :
    ∃ s1, MarkSlotAsAllocated s now index timeout node position notbefore = some s1 ∧
      s1.m_slots = mapModify s.m_slots index
        (fun x => x.MarkAsAllocated now timeout node position notbefore) ∧
      s1.m_numSlots = s.m_numSlots ∧ s1.m_lastFrameStart = s.m_lastFrameStart ∧
      s1.m_frameDuration = s.m_frameDuration ∧ RingOK s1 := by
  have hage : ageCheck s now = some s := by
    unfold ageCheck
    rw [if_neg (not_le.mpr hnoage)]
  obtain ⟨slot, hslot⟩ := keys_range_find_some _ _ _ hring.1 hidx
  refine ⟨{ s with m_slots := (mapModify s.m_slots index
      (fun x => x.MarkAsAllocated now timeout node position notbefore)) }, ?_, rfl, rfl, rfl, rfl,
    ?_⟩
  · unfold MarkSlotAsAllocated
    simp only [hage, hslot]
  · exact ringOK_mapModify s hring index
      (fun x => x.MarkAsAllocated now timeout node position notbefore)
      (fun x => (markAsAllocated_index x now timeout node position notbefore).1) _ rfl rfl

/-- `MarkSlotAsFreeAgain` when no aging is due: it completes and modifies the slot `index`
only. -/
theorem markSlotAsFreeAgain_effect (s : StdmaSlotManager) (now : Time) (index : Nat)
    (hring : RingOK s) (hidx : index < s.m_numSlots)
    (hnoage : now < s.m_lastFrameStart + s.m_frameDuration) :
    ∃ s1, MarkSlotAsFreeAgain s now index = some s1 ∧
      s1.m_slots = mapModify s.m_slots index StdmaSlot.MarkAsFree ∧
      s1.m_numSlots = s.m_numSlots ∧ s1.m_lastFrameStart = s.m_lastFrameStart ∧
      s1.m_frameDuration = s.m_frameDuration ∧ RingOK s1 := by
  have hage : ageCheck s now = some s := by
    unfold ageCheck
    rw [if_neg (not_le.mpr hnoage)]
  obtain ⟨slot, hslot⟩ := keys_range_find_some _ _ _ hring.1 hidx
  refine ⟨{ s with m_slots := (mapModify s.m_slots index StdmaSlot.MarkAsFree) }, ?_, rfl, rfl,
    rfl, rfl, ?_⟩
  · unfold MarkSlotAsFreeAgain
    simp only [hage, hslot]
  · exact ringOK_mapModify s hring index StdmaSlot.MarkAsFree (fun _ => rfl) _ rfl rfl

/-- C22 (amended): reception with `timeout > 0` when no frame-boundary update is due.  On a
started MAC whose manager has a well-formed ring (`N + 2^16 <= 2^32`), at a time `now >= 0` not
before the start of the manager and before the end of the current frame
(`now < last_frame_start + frame_duration`), for the current slot index `c < N` and every
16-bit offset with `c + offset < 2 N`: `Receive` completes; afterwards slot `c` is in state
ALLOCATED with owner = sender and external timeout `>=` the announced timeout, slot
`(c + offset) mod N` is in state ALLOCATED with owner = sender and external timeout `>= 1`,
and no other slot changes.  A reception that is the first call of a new frame also runs the
frame-boundary update, which changes other slots. -/
theorem receive_marks_current_and_next (m_frameDuration : Time) (secondsToTime : ℚ → Time)
    (s : StdmaSlotManager) (now : Time) (from_ : Mac48Address) (hdr : StdmaHeader) (c : Nat)
    (hring : RingOK s) (hN : s.m_numSlots + 65536 ≤ UINT32_MOD)
    (hstart : s.GetStart ≤ now) (hnow : 0 ≤ now)
    (hnoage : now < s.m_lastFrameStart + s.m_frameDuration)
    (hcur : GetSlotIndexForTimestamp s now now = some (s, c)) (hc : c < s.m_numSlots)
    (hto : hdr.GetTimeout > 0) (hoff16 : hdr.GetOffset < 65536)
    (hoff : c + hdr.GetOffset < 2 * s.m_numSlots) :
    ∃ s1, StdmaMac.Receive true m_frameDuration secondsToTime s now from_ hdr = some s1 ∧
      (∃ slot, s1.GetSlot c = some slot ∧ slot.m_state = State.ALLOCATED ∧
        slot.m_owner = from_ ∧ hdr.GetTimeout ≤ slot.m_timeout) ∧
      (∃ slot, s1.GetSlot ((c + hdr.GetOffset) % s.m_numSlots) = some slot ∧
        slot.m_state = State.ALLOCATED ∧ slot.m_owner = from_ ∧ 1 ≤ slot.m_timeout) ∧
      (∀ k, k ≠ c → k ≠ (c + hdr.GetOffset) % s.m_numSlots → s1.GetSlot k = s.GetSlot k) := by
  have hNpos : 0 < s.m_numSlots := by omega
  have hnext : StdmaMac.receiveNext s.m_numSlots c hdr.GetOffset
      = (c + hdr.GetOffset) % s.m_numSlots :=
    receiveNext_eq _ _ _ hoff (by omega)
  have hnextlt : (c + hdr.GetOffset) % s.m_numSlots < s.m_numSlots := Nat.mod_lt _ hNpos
  obtain ⟨position, hpos⟩ : ∃ v : Vector,
      v = ⟨⌊hdr.GetLatitude⌋, ⌊hdr.GetLongitude⌋, 0⟩ := ⟨_, rfl⟩
  obtain ⟨m1, hm1, hslots1, hnum1, hlfs1, hfd1, hring1⟩ :=
    markSlotAsAllocated_effect s now c hdr.GetTimeout from_ position 0 hring hc hnoage
  obtain ⟨m2, hm2, hslots2, _, _, _, _⟩ :=
    markSlotAsAllocated_effect m1 now ((c + hdr.GetOffset) % s.m_numSlots) 1 from_ position 0
      hring1 (by rw [hnum1]; exact hnextlt) (by rw [hlfs1, hfd1]; exact hnoage)
  obtain ⟨slotc, hslotc⟩ := keys_range_find_some _ _ _ hring.1 hc
  obtain ⟨slotn, hslotn⟩ := keys_range_find_some _ _ _ hring.1 hnextlt
  have hrun : StdmaMac.Receive true m_frameDuration secondsToTime s now from_ hdr = some m2 := by
    unfold StdmaMac.Receive
    simp only [Bool.true_eq_false, if_false, not_lt.mpr hstart, hcur, hto, if_true,
      GetSlotsPerFrame, hnext, ← hpos, hm1, hm2]
  refine ⟨m2, hrun, ?_, ?_, ?_⟩
  · by_cases hcn : (c + hdr.GetOffset) % s.m_numSlots = c
    · refine ⟨(slotc.MarkAsAllocated now hdr.GetTimeout from_ position 0).MarkAsAllocated
        now 1 from_ position 0, ?_, ?_⟩
      · show mapFind m2.m_slots c = _
        rw [hslots2, hcn, mapFind_mapModify_same, hslots1, mapFind_mapModify_same, hslotc]
        rfl
      · obtain ⟨h1, h2, _, _⟩ := markAsAllocated_fields
          (slotc.MarkAsAllocated now hdr.GetTimeout from_ position 0) now 1 from_ position 0
        obtain ⟨_, _, g3, _⟩ := markAsAllocated_fields slotc now hdr.GetTimeout from_ position 0
        have h3 := markAsAllocated_again
          (slotc.MarkAsAllocated now hdr.GetTimeout from_ position 0) now 1 from_ position 0
          (markAsAllocated_isAllocated slotc now hdr.GetTimeout from_ position hnow)
        exact ⟨h1, h2, le_trans g3 h3⟩
    · refine ⟨slotc.MarkAsAllocated now hdr.GetTimeout from_ position 0, ?_, ?_⟩
      · show mapFind m2.m_slots c = _
        rw [hslots2, mapFind_mapModify_ne _ _ _ _ hcn, hslots1, mapFind_mapModify_same, hslotc]
        rfl
      · obtain ⟨g1, g2, g3, _⟩ := markAsAllocated_fields slotc now hdr.GetTimeout from_ position 0
        exact ⟨g1, g2, g3⟩
  · obtain ⟨x, hx⟩ : ∃ x, mapFind m1.m_slots ((c + hdr.GetOffset) % s.m_numSlots) = some x := by
      apply keys_range_find_some _ _ _ hring1.1
      rw [hnum1]
      exact hnextlt
    refine ⟨x.MarkAsAllocated now 1 from_ position 0, ?_, ?_⟩
    · show mapFind m2.m_slots _ = _
      rw [hslots2, mapFind_mapModify_same, hx]
      rfl
    · obtain ⟨g1, g2, g3, _⟩ := markAsAllocated_fields x now 1 from_ position 0
      exact ⟨g1, g2, g3⟩
  · intro k hk1 hk2
    show mapFind m2.m_slots k = mapFind s.m_slots k
    rw [hslots2, mapFind_mapModify_ne _ _ _ _ (fun h => hk2 h.symm), hslots1,
      mapFind_mapModify_ne _ _ _ _ (fun h => hk1 h.symm)]

/-- Witness of C22 (amended): `exampleManager` at 15 ns (slot 1, inside the first frame), a
packet of station 205 with timeout 3 and offset 2. -/
theorem receive_marks_current_and_next_witness :
    RingOK exampleManager ∧ exampleManager.m_numSlots + 65536 ≤ UINT32_MOD ∧
    exampleManager.GetStart ≤ 15 ∧ (0 : Time) ≤ 15 ∧
    (15 : Time) < exampleManager.m_lastFrameStart + exampleManager.m_frameDuration ∧
    GetSlotIndexForTimestamp exampleManager 15 15 = some (exampleManager, 1) ∧
    1 < exampleManager.m_numSlots ∧
    ((StdmaHeader.create.SetOffset 2).SetTimeout 3).GetTimeout > 0 ∧
    ((StdmaHeader.create.SetOffset 2).SetTimeout 3).GetOffset < 65536 ∧
    1 + ((StdmaHeader.create.SetOffset 2).SetTimeout 3).GetOffset
      < 2 * exampleManager.m_numSlots ∧
    ∃ s1, StdmaMac.Receive true 40 (fun _ => 0) exampleManager 15 205
        ((StdmaHeader.create.SetOffset 2).SetTimeout 3) = some s1 ∧
      (∃ slot, s1.GetSlot 1 = some slot ∧ slot.m_state = State.ALLOCATED ∧
        slot.m_owner = 205 ∧
        ((StdmaHeader.create.SetOffset 2).SetTimeout 3).GetTimeout ≤ slot.m_timeout) ∧
      (∃ slot, s1.GetSlot ((1 + ((StdmaHeader.create.SetOffset 2).SetTimeout 3).GetOffset)
          % exampleManager.m_numSlots) = some slot ∧
        slot.m_state = State.ALLOCATED ∧ slot.m_owner = 205 ∧ 1 ≤ slot.m_timeout) ∧
      (∀ k, k ≠ 1 →
        k ≠ (1 + ((StdmaHeader.create.SetOffset 2).SetTimeout 3).GetOffset)
          % exampleManager.m_numSlots →
        s1.GetSlot k = exampleManager.GetSlot k) :=
  ⟨by unfold RingOK; decide, by decide, by decide, by decide, by decide, by decide, by decide,
    by decide, by decide, by decide,
    receive_marks_current_and_next 40 (fun _ => 0) exampleManager 15 205
      ((StdmaHeader.create.SetOffset 2).SetTimeout 3) 1
      (by unfold RingOK; decide) (by decide) (by decide) (by decide) (by decide) (by decide)
      (by decide) (by decide) (by decide) (by decide)⟩

/-- The slot `newSlot` of `Receive` is `(c + offset) mod N` when `offset < 2 N`. -/
theorem receiveNewSlot_mod (N c offset : Nat) (hc : c < N) (hoff : offset < 2 * N)
    (h32 : c + offset < UINT32_MOD) :
    StdmaMac.receiveNewSlot N c offset = (c + offset) % N := by
  have hval : StdmaMac.receiveNewSlot N c offset
      = if c + offset < N then c + offset
        else if c + offset < 2 * N then c + offset - N else c + offset - 2 * N := by
    unfold StdmaMac.receiveNewSlot u32add u32sub
    unfold UINT32_MOD at *
    have h1 : (c + offset) % 4294967296 = c + offset := Nat.mod_eq_of_lt h32
    simp only [h1]
    split_ifs <;> omega
  rw [hval]
  by_cases h : c + offset < N
  · rw [if_pos h, Nat.mod_eq_of_lt h]
  · rw [if_neg h]
    by_cases h2 : c + offset < 2 * N
    · rw [if_pos h2, Nat.mod_eq_sub_mod (not_lt.mp h), Nat.mod_eq_of_lt (by omega)]
    · rw [if_neg h2, Nat.mod_eq_sub_mod (not_lt.mp h),
        Nat.mod_eq_sub_mod (by omega : c + offset - N ≥ N), Nat.mod_eq_of_lt (by omega)]
      omega

/-- C23: reception with `timeout = 0` and `entry = 0`.  On a started MAC whose manager has a
well-formed ring (`N + 2^16 <= 2^32`), at a time not before the start of the manager and with
no aging due, for the current slot index `c < N` and every 16-bit offset `< 2 N`: the computed
`newSlot` is `(c + offset) mod N`, which is below `N`; `Receive` completes; afterwards
`newSlot` is in state ALLOCATED with owner = sender and external timeout `>= 2`; if slot `c`
is not internally allocated and differs from `newSlot` it is FREE; if slot `c` is internally
allocated it stays internally allocated with its internal timeout (and is untouched when it
differs from `newSlot`); no other slot changes. -/
theorem receive_moves_reservation (m_frameDuration : Time) (secondsToTime : ℚ → Time)
    (s : StdmaSlotManager) (now : Time) (from_ : Mac48Address) (hdr : StdmaHeader) (c : Nat)
    (hring : RingOK s) (hN : s.m_numSlots + 65536 ≤ UINT32_MOD)
    (hstart : s.GetStart ≤ now)
    (hnoage : now < s.m_lastFrameStart + s.m_frameDuration)
    (hcur : GetSlotIndexForTimestamp s now now = some (s, c)) (hc : c < s.m_numSlots)
    (hto : hdr.GetTimeout = 0) (hentry : hdr.GetNetworkEntry = false)
    (hoff16 : hdr.GetOffset < 65536) (hoff : hdr.GetOffset < 2 * s.m_numSlots) :
    StdmaMac.receiveNewSlot s.GetSlotsPerFrame c hdr.GetOffset
      = (c + hdr.GetOffset) % s.m_numSlots ∧
    (c + hdr.GetOffset) % s.m_numSlots < s.GetSlotsPerFrame ∧
    ∃ s1, StdmaMac.Receive true m_frameDuration secondsToTime s now from_ hdr = some s1 ∧
      (∃ slot, s1.GetSlot ((c + hdr.GetOffset) % s.m_numSlots) = some slot ∧
        slot.m_state = State.ALLOCATED ∧ slot.m_owner = from_ ∧ 2 ≤ slot.m_timeout) ∧
      (∀ slot0, s.GetSlot c = some slot0 → slot0.m_internal = false →
        c ≠ (c + hdr.GetOffset) % s.m_numSlots →
        ∃ slot, s1.GetSlot c = some slot ∧ slot.m_state = State.FREE) ∧
      (∀ slot0, s.GetSlot c = some slot0 → slot0.m_internal = true →
        ∃ slot, s1.GetSlot c = some slot ∧ slot.m_internal = true ∧
          slot.m_internalTimeout = slot0.m_internalTimeout ∧
          (c ≠ (c + hdr.GetOffset) % s.m_numSlots → slot = slot0)) ∧
      (∀ k, k ≠ c → k ≠ (c + hdr.GetOffset) % s.m_numSlots → s1.GetSlot k = s.GetSlot k) := by
  have hNpos : 0 < s.m_numSlots := by omega
  have hnew : StdmaMac.receiveNewSlot s.m_numSlots c hdr.GetOffset
      = (c + hdr.GetOffset) % s.m_numSlots :=
    receiveNewSlot_mod _ _ _ hc hoff (by omega)
  have hnewlt : (c + hdr.GetOffset) % s.m_numSlots < s.m_numSlots := Nat.mod_lt _ hNpos
  refine ⟨hnew, hnewlt, ?_⟩
  obtain ⟨position, hpos⟩ : ∃ v : Vector,
      v = ⟨⌊hdr.GetLatitude⌋, ⌊hdr.GetLongitude⌋, 0⟩ := ⟨_, rfl⟩
  obtain ⟨slotc, hslotc⟩ := keys_range_find_some _ _ _ hring.1 hc
  obtain ⟨m1, hm1, hslots1, hnum1, hlfs1, hfd1, hring1⟩ :
      ∃ m1, (if slotc.m_internal = false then MarkSlotAsFreeAgain s now c else some s) = some m1 ∧
        m1.m_slots = (if slotc.m_internal = false
          then mapModify s.m_slots c StdmaSlot.MarkAsFree else s.m_slots) ∧
        m1.m_numSlots = s.m_numSlots ∧ m1.m_lastFrameStart = s.m_lastFrameStart ∧
        m1.m_frameDuration = s.m_frameDuration ∧ RingOK m1 := by
    by_cases hint : slotc.m_internal = false
    · obtain ⟨m1, h1, h2, h3, h4, h5, h6⟩ := markSlotAsFreeAgain_effect s now c hring hc hnoage
      exact ⟨m1, by rw [if_pos hint]; exact h1, by rw [if_pos hint]; exact h2, h3, h4, h5, h6⟩
    · exact ⟨s, by rw [if_neg hint], by rw [if_neg hint], rfl, rfl, rfl, hring⟩
  obtain ⟨when, hwhen⟩ : ∃ w : Time, w = now + secondsToTime
      (Double.toRat
        (Double.mul
          (Double.div (GetSeconds m_frameDuration) (Double.ofInt (m1.GetSlotsPerFrame : Int)))
          (Double.ofInt ((hdr.GetOffset : Int) - 1)))) := ⟨_, rfl⟩
  obtain ⟨m2, hm2, hslots2, _, _, _, _⟩ :=
    markSlotAsAllocated_effect m1 now ((c + hdr.GetOffset) % s.m_numSlots) 2 from_ position when
      hring1 (by rw [hnum1]; exact hnewlt) (by rw [hlfs1, hfd1]; exact hnoage)
  have hget : s.GetSlot c = some slotc := hslotc
  have hrun : StdmaMac.Receive true m_frameDuration secondsToTime s now from_ hdr = some m2 := by
    unfold StdmaMac.Receive
    simp only [Bool.true_eq_false, if_false, not_lt.mpr hstart, hcur, hto, lt_irrefl,
      hentry, GetSlotsPerFrame, hnew, hnewlt, if_true, hget, ← hpos, hm1]
    simp only [GetSlotsPerFrame] at hwhen
    rw [← hwhen, hm2]
    rfl
  refine ⟨m2, hrun, ?_, ?_, ?_, ?_⟩
  · obtain ⟨x, hx⟩ : ∃ x, mapFind m1.m_slots ((c + hdr.GetOffset) % s.m_numSlots) = some x := by
      apply keys_range_find_some _ _ _ hring1.1
      rw [hnum1]
      exact hnewlt
    refine ⟨x.MarkAsAllocated now 2 from_ position when, ?_, ?_⟩
    · show mapFind m2.m_slots _ = _
      rw [hslots2, mapFind_mapModify_same, hx]
      rfl
    · obtain ⟨g1, g2, g3, _⟩ := markAsAllocated_fields x now 2 from_ position when
      exact ⟨g1, g2, g3⟩
  · intro slot0 h0 hint hne
    have h0' : mapFind s.m_slots c = some slot0 := h0
    rw [hslotc] at h0'
    have hs : slotc = slot0 := Option.some.inj h0'
    subst hs
    refine ⟨slotc.MarkAsFree, ?_, rfl⟩
    show mapFind m2.m_slots c = _
    rw [hslots2, mapFind_mapModify_ne _ _ _ _ (fun h => hne h.symm), hslots1, if_pos hint,
      mapFind_mapModify_same, hslotc]
    rfl
  · intro slot0 h0 hint
    have h0' : mapFind s.m_slots c = some slot0 := h0
    rw [hslotc] at h0'
    have hs : slotc = slot0 := Option.some.inj h0'
    subst hs
    have hnf : ¬ slotc.m_internal = false := by rw [hint]; decide
    have hfind1 : mapFind m1.m_slots c = some slotc := by
      rw [hslots1, if_neg hnf]
      exact hslotc
    by_cases hne : c = (c + hdr.GetOffset) % s.m_numSlots
    · refine ⟨slotc.MarkAsAllocated now 2 from_ position when, ?_, ?_, ?_, ?_⟩
      · show mapFind m2.m_slots c = _
        rw [hslots2, ← hne, mapFind_mapModify_same, hfind1]
        rfl
      · rw [(markAsAllocated_index slotc now 2 from_ position when).2]
        exact hint
      · exact (markAsAllocated_fields slotc now 2 from_ position when).2.2.2
      · intro h
        exact absurd hne h
    · refine ⟨slotc, ?_, hint, rfl, fun _ => rfl⟩
      show mapFind m2.m_slots c = _
      rw [hslots2, mapFind_mapModify_ne _ _ _ _ (fun h => hne h.symm), hfind1]
  · intro k hk1 hk2
    show mapFind m2.m_slots k = mapFind s.m_slots k
    rw [hslots2, mapFind_mapModify_ne _ _ _ _ (fun h => hk2 h.symm), hslots1]
    by_cases hint : slotc.m_internal = false
    · rw [if_pos hint, mapFind_mapModify_ne _ _ _ _ (fun h => hk1 h.symm)]
    · rw [if_neg hint]

/-- Witness of C23: `exampleManager` at 15 ns (slot 1), a packet of station 205 with
timeout 0 and offset 6 (new slot 3). -/
theorem receive_moves_reservation_witness :
    RingOK exampleManager ∧ exampleManager.m_numSlots + 65536 ≤ UINT32_MOD ∧
    exampleManager.GetStart ≤ 15 ∧
    (15 : Time) < exampleManager.m_lastFrameStart + exampleManager.m_frameDuration ∧
    GetSlotIndexForTimestamp exampleManager 15 15 = some (exampleManager, 1) ∧
    1 < exampleManager.m_numSlots ∧
    (StdmaHeader.create.SetOffset 6).GetTimeout = 0 ∧ (StdmaHeader.create.SetOffset 6).GetNetworkEntry = false ∧
    (StdmaHeader.create.SetOffset 6).GetOffset < 65536 ∧ (StdmaHeader.create.SetOffset 6).GetOffset < 2 * exampleManager.m_numSlots ∧
    StdmaMac.receiveNewSlot exampleManager.GetSlotsPerFrame 1 (StdmaHeader.create.SetOffset 6).GetOffset
      = (1 + (StdmaHeader.create.SetOffset 6).GetOffset) % exampleManager.m_numSlots ∧
    (1 + (StdmaHeader.create.SetOffset 6).GetOffset) % exampleManager.m_numSlots < exampleManager.GetSlotsPerFrame ∧
    ∃ s1, StdmaMac.Receive true 40 (fun _ => 0) exampleManager 15 205 (StdmaHeader.create.SetOffset 6) = some s1 ∧
      (∃ slot, s1.GetSlot ((1 + (StdmaHeader.create.SetOffset 6).GetOffset) % exampleManager.m_numSlots) = some slot ∧
        slot.m_state = State.ALLOCATED ∧ slot.m_owner = 205 ∧ 2 ≤ slot.m_timeout) ∧
      (∀ slot0, exampleManager.GetSlot 1 = some slot0 → slot0.m_internal = false →
        1 ≠ (1 + (StdmaHeader.create.SetOffset 6).GetOffset) % exampleManager.m_numSlots →
        ∃ slot, s1.GetSlot 1 = some slot ∧ slot.m_state = State.FREE) ∧
      (∀ slot0, exampleManager.GetSlot 1 = some slot0 → slot0.m_internal = true →
        ∃ slot, s1.GetSlot 1 = some slot ∧ slot.m_internal = true ∧
          slot.m_internalTimeout = slot0.m_internalTimeout ∧
          (1 ≠ (1 + (StdmaHeader.create.SetOffset 6).GetOffset) % exampleManager.m_numSlots → slot = slot0)) ∧
      (∀ k, k ≠ 1 → k ≠ (1 + (StdmaHeader.create.SetOffset 6).GetOffset) % exampleManager.m_numSlots →
        s1.GetSlot k = exampleManager.GetSlot k) :=
  ⟨by unfold RingOK; decide, by decide, by decide, by decide, by decide, by decide, by decide,
    by decide, by decide, by decide,
    receive_moves_reservation 40 (fun _ => 0) exampleManager 15 205 (StdmaHeader.create.SetOffset 6) 1
      (by unfold RingOK; decide) (by decide) (by decide) (by decide) (by decide) (by decide)
      (by decide) (by decide) (by decide) (by decide)⟩

/-! ## Claims on the network entry -/

/-- The loop of trials of `GetNetworkEntryTimestamp` with `n >= 1` candidates ends within
`n - no` tests: after `j` unsuccessful trials it stops at the counter `no + j < n` and the level
`prob + j * incr`, at the first successful trial or at the last candidate. -/
theorem entryTrials_spec (draws : Nat → ℚ) (incr : ℚ) (n : Nat) (hn : 1 ≤ n)
    (hn32 : n < UINT32_MOD) :
    ∀ (fuel no : Nat) (prob : ℚ), no < n → n - no ≤ fuel →
      ∃ j : Nat, entryTrials draws incr n fuel no prob = some (no + j, prob + (j : ℚ) * incr) ∧
        no + j < n ∧ (∀ i, i < j → draws (no + i) > prob + (i : ℚ) * incr) ∧
        (no + j = n - 1 ∨ draws (no + j) ≤ prob + (j : ℚ) * incr) := by
  have hsub : u32sub n 1 = n - 1 := by
    unfold u32sub
    unfold UINT32_MOD at hn32 ⊢
    omega
  intro fuel
  induction fuel with
  | zero =>
    intro no prob hno hfuel
    exfalso
    have h0 : n - no = 0 := Nat.le_zero.mp hfuel
    have h1 : 0 < n - no := Nat.sub_pos_of_lt hno
    rw [h0] at h1
    exact lt_irrefl 0 h1
  | succ fuel ih =>
    intro no prob hno hfuel
    by_cases hcond : draws no > prob ∧ no < u32sub n 1
    · have hlt : no < n - 1 := by rw [← hsub]; exact hcond.2
      obtain ⟨j, hrun, hj, hall, hlast⟩ := ih (no + 1) (prob + incr) (by omega) (by omega)
      refine ⟨j + 1, ?_, by omega, ?_, ?_⟩
      · simp only [entryTrials, if_pos hcond]
        rw [hrun]
        have e1 : no + 1 + j = no + (j + 1) := by omega
        have e2 : prob + incr + (j : ℚ) * incr = prob + ((j + 1 : Nat) : ℚ) * incr := by
          push_cast
          ring
        rw [e1, e2]
      · intro i hi
        cases i with
        | zero =>
          simp only [Nat.add_zero, Nat.cast_zero, zero_mul, add_zero]
          exact hcond.1
        | succ i =>
          have h := hall i (by omega)
          have e1 : no + (i + 1) = no + 1 + i := by omega
          rw [e1]
          have e2 : prob + ((i + 1 : Nat) : ℚ) * incr = prob + incr + (i : ℚ) * incr := by
            push_cast
            ring
          rw [e2]
          exact h
      · have e1 : no + (j + 1) = no + 1 + j := by omega
        have e2 : prob + ((j + 1 : Nat) : ℚ) * incr = prob + incr + (j : ℚ) * incr := by
          push_cast
          ring
        rw [e1, e2]
        exact hlast
    · refine ⟨0, ?_, by omega, ?_, ?_⟩
      · simp only [entryTrials, if_neg hcond, Nat.add_zero, Nat.cast_zero, zero_mul, add_zero]
      · intro i hi
        omega
      · simp only [Nat.add_zero, Nat.cast_zero, zero_mul, add_zero]
        by_cases hd : draws no > prob
        · left
          have : ¬ no < u32sub n 1 := fun h => hcond ⟨hd, h⟩
          rw [hsub] at this
          omega
        · right
          exact not_lt.mp hd

/-- On slots that exist and carry their key as index, the scan of
`GetNetworkEntryTimestamp` collects the counters whose slot is free. -/
theorem entryCandidates_filter (s : StdmaSlotManager) (now : Time) (start : Nat)
    (l : List Nat)
    (h : ∀ i ∈ l, ∃ slot, mapFind s.m_slots i = some slot ∧ slot.m_index = i) :
    entryCandidates s now start l = some (l.filter (entryFree s now start)) := by
  induction l with
  | nil => rfl
  | cons i rest ih =>
    obtain ⟨slot, hslot, hidx⟩ := h i (List.mem_cons_self _ _)
    have ih1 := ih (fun j hj => h j (List.mem_cons_of_mem _ hj))
    have hfree : entryFree s now start i = slot.IsFree (entryUntil s now start i) := by
      unfold entryFree
      rw [hslot]
    simp only [entryCandidates, hslot, hidx, if_true, ih1, List.filter_cons, hfree]
    by_cases hf : slot.IsFree (entryUntil s now start i) = true
    · rw [if_pos hf, if_pos hf]
    · rw [if_neg hf, if_neg hf]

/-- When `HasFreeSlotsLeft` finds a free slot, one of the counters has a free slot. -/
theorem freeSlotsScan_true (s : StdmaSlotManager) (now : Time) (start : Nat) (l : List Nat)
    (h : freeSlotsScan s now start l = some true) :
    ∃ i ∈ l, entryFree s now start i = true := by
  induction l with
  | nil => simp [freeSlotsScan] at h
  | cons i rest ih =>
    cases hslot : mapFind s.m_slots i with
    | none => simp [freeSlotsScan, hslot] at h
    | some slot =>
      simp only [freeSlotsScan, hslot] at h
      by_cases hf : slot.IsFree (entryUntil s now start i) = true
      · refine ⟨i, List.mem_cons_self _ _, ?_⟩
        unfold entryFree
        rw [hslot]
        exact hf
      · rw [if_neg hf] at h
        obtain ⟨j, hj, hfree⟩ := ih h
        exact ⟨j, List.mem_cons_of_mem _ hj, hfree⟩

/-- When no aging is due and the scan found a candidate, `GetNetworkEntryTimestamp` returns,
for every `p`, the details of one of the candidates. -/
theorem getNetworkEntryTimestamp_index (s : StdmaSlotManager) (now : Time) (draws : Nat → ℚ)
    (remainingSlots : Nat) (p : ℚ) (start : Nat) (candidates : List Nat)
    (hnoage : now < s.m_lastFrameStart + s.m_frameDuration)
    (hcur : GetSlotIndexForTimestamp s now now = some (s, start))
    (hcands : entryCandidates s now start
      (List.range' start (u32add start remainingSlots - start)) = some candidates)
    (hn : 1 ≤ candidates.length) (hn32 : candidates.length < UINT32_MOD) :
    ∃ (no slotIndex : Nat) (prob : ℚ), candidates[no]? = some slotIndex ∧
      GetNetworkEntryTimestamp s now draws remainingSlots p
        = some (s,
            { m_when := now + ((u32sub slotIndex start : Nat) : Int) * s.m_slotDuration
              m_p := prob
              m_slotsLeft := u16cast (u32sub remainingSlots (u32sub slotIndex start)) }) := by
  have hage : ageCheck s now = some s := by
    unfold ageCheck
    rw [if_neg (not_le.mpr hnoage)]
  obtain ⟨j, hrun, hj, _, _⟩ := entryTrials_spec draws
    (if p ≤ 1 then (1 - p) / (candidates.length : ℚ) else 0) candidates.length hn hn32
    candidates.length 0
    (p + (if p ≤ 1 then (1 - p) / (candidates.length : ℚ) else 0)) (by omega) (by omega)
  simp only [Nat.zero_add] at hrun hj
  obtain ⟨slotIndex, hidx⟩ : ∃ x, candidates[j]? = some x :=
    ⟨candidates[j], List.getElem?_eq_getElem hj⟩
  refine ⟨j, slotIndex, (p + if p ≤ 1 then (1 - p) / (candidates.length : ℚ) else 0)
    + (j : ℚ) * (if p ≤ 1 then (1 - p) / (candidates.length : ℚ) else 0), hidx, ?_⟩
  unfold GetNetworkEntryTimestamp
  simp only [hage, hcur, hcands, hrun, hidx]

/-! ## Claims on the nominal slots -/

theorem nominalSlots_total (numSlots ni NSS : Nat) (idxs : List Nat)
    (h : ∀ i ∈ idxs, NSS + i * ni < numSlots) :
    nominalSlots numSlots ni NSS idxs = some (idxs.map (fun i => NSS + i * ni)) := by
  induction idxs with
  | nil => rfl
  | cons i rest ih =>
    have hi : NSS + i * ni < numSlots := h i (List.mem_cons_self _ _)
    have hrest := ih (fun j hj => h j (List.mem_cons_of_mem _ hj))
    simp only [nominalSlots, hi, if_true, hrest, List.map_cons]

theorem nominal_slot_below (N R NSS k : Nat) (hNSS : NSS < N / R) (hk : k < R) :
    NSS + k * (N / R) < N := by
  have h1 : R * (N / R) ≤ N := Nat.mul_div_le N R
  have h2 : (k + 1) * (N / R) ≤ R * (N / R) := Nat.mul_le_mul_right _ hk
  have h3 : (k + 1) * (N / R) = k * (N / R) + N / R := by ring
  omega

/-- C31: after `SetReportRate (R)` with `R >= 1` (so `NI = floor (N / R)`), for every drawn
`NSS < NI` (which needs `N >= R`), `SelectNominalSlots` completes, so neither of its
assertions fails, and stores exactly the nominal slots `NSS + k * NI` for `0 <= k < R`; each
of them is below `N`, and consecutive ones are `NI` apart. -/
theorem nominal_slots_layout (s0 s1 : StdmaSlotManager) (R : Nat) (now : Time) (NSS : Nat)
    (hring : RingOK s0) (hR : 1 ≤ R)
    (hage : ageCheck (SetReportRate s0 R) now = some s1)
    (hNSS : NSS < s0.m_numSlots / R) :
    (SetReportRate s0 R).m_ni = s0.m_numSlots / R ∧
    ∃ s2, SelectNominalSlots (SetReportRate s0 R) now NSS = some s2 ∧
      s2 = { s1 with m_nss := (List.range R).map (fun k => NSS + k * (s0.m_numSlots / R)) } ∧
      s2.m_nss.length = R ∧
      (∀ k, k < R → s2.m_nss[k]? = some (NSS + k * (s0.m_numSlots / R))) ∧
      (∀ x ∈ s2.m_nss, x < s0.m_numSlots) ∧
      (∀ k x y, s2.m_nss[k]? = some x → s2.m_nss[k + 1]? = some y →
        y = x + s0.m_numSlots / R) := by
  have hringc : RingOK (SetReportRate s0 R) := hring
  obtain ⟨_, hcfg, _, _⟩ := ageCheck_effect _ s1 now hringc hage
  have hrate1 : s1.m_rate = R := hcfg.2.2.2.1
  have hni1 : s1.m_ni = s0.m_numSlots / R := hcfg.2.2.2.2.1
  have hN1 : s1.m_numSlots = s0.m_numSlots := hcfg.1
  have hget : ∀ k, k < R →
      ((List.range R).map (fun k => NSS + k * (s0.m_numSlots / R)))[k]?
        = some (NSS + k * (s0.m_numSlots / R)) := by
    intro k hk
    rw [List.getElem?_map, List.getElem?_range hk]
    rfl
  refine ⟨rfl, _, ?_, rfl, ?_, hget, ?_, ?_⟩
  · unfold SelectNominalSlots
    simp only [hage]
    have hlt : NSS < s1.m_ni := by rw [hni1]; exact hNSS
    rw [if_pos hlt]
    have htot := nominalSlots_total s1.m_numSlots s1.m_ni NSS (List.range' 1 (s1.m_rate - 1))
      (by
        intro i hi
        rw [List.mem_range'_1] at hi
        rw [hni1, hN1]
        exact nominal_slot_below _ R _ _ hNSS (by omega))
    simp only [htot]
    have hl := nss_layout s1.m_rate s1.m_ni NSS (by omega)
    rw [hl, hrate1, hni1]
  · show ((List.range R).map (fun k => NSS + k * (s0.m_numSlots / R))).length = R
    simp
  · intro x hx
    change x ∈ (List.range R).map (fun k => NSS + k * (s0.m_numSlots / R)) at hx
    obtain ⟨k, hk, rfl⟩ := List.mem_map.mp hx
    exact nominal_slot_below _ R _ _ hNSS (List.mem_range.mp hk)
  · intro k x y hx hy
    change ((List.range R).map (fun k => NSS + k * (s0.m_numSlots / R)))[k]? = some x at hx
    change ((List.range R).map (fun k => NSS + k * (s0.m_numSlots / R)))[k + 1]? = some y at hy
    have hk1 : k + 1 < R := by
      by_contra hcon
      rw [List.getElem?_eq_none (by simp; omega)] at hy
      cases hy
    rw [hget k (by omega)] at hx
    rw [hget (k + 1) hk1] at hy
    cases hx
    cases hy
    ring

/-- Witness of C31: eight slots, report rate 2 (`NI = 4`), drawn `NSS = 1`: the nominal slots
are 1 and 5. -/
theorem nominal_slots_layout_witness :
    RingOK (Setup create 0 80 10 4) ∧
    ∃ s2, SelectNominalSlots (SetReportRate (Setup create 0 80 10 4) 2) 0 1 = some s2 ∧
      s2 = { SetReportRate (Setup create 0 80 10 4) 2 with
        m_nss := (List.range 2).map (fun k => 1 + k * ((Setup create 0 80 10 4).m_numSlots / 2)) } ∧
      s2.m_nss.length = 2 ∧
      (∀ k, k < 2 → s2.m_nss[k]? = some (1 + k * ((Setup create 0 80 10 4).m_numSlots / 2))) ∧
      (∀ x ∈ s2.m_nss, x < (Setup create 0 80 10 4).m_numSlots) ∧
      (∀ k x y, s2.m_nss[k]? = some x → s2.m_nss[k + 1]? = some y →
        y = x + (Setup create 0 80 10 4).m_numSlots / 2) :=
  ⟨by unfold RingOK; decide,
    (nominal_slots_layout (Setup create 0 80 10 4) (SetReportRate (Setup create 0 80 10 4) 2)
      2 0 1 (by unfold RingOK; decide) (by decide) (by decide) (by decide)).2⟩

/-! ## The selection scan as a pass over the keys of the selection window -/

theorem scanSlots_fold (s : StdmaSlotManager) (now until_ : Time) (distance : Vector → Nat)
    (skip : Bool) (l : List Int) :
    ∀ acc, scanSlots s now until_ distance skip l acc =
      match scanKeys s.m_numSlots s.m_slots.length skip l with
      | none => none
      | some keys => scanFold s now until_ distance keys acc := by
  induction l with
  | nil => intro acc; rfl
  | cons i rest ih =>
    intro acc
    unfold scanSlots scanKeys
    by_cases hskip : i < 0 ∧ skip = true
    · rw [if_pos hskip, if_pos hskip]
      exact ih acc
    · rw [if_neg hskip, if_neg hskip]
      cases hw : wrapIndex s.m_numSlots s.m_slots.length i with
      | none => rfl
      | some j =>
        simp only []
        cases hf : mapFind s.m_slots j with
        | none =>
          cases hk : scanKeys s.m_numSlots s.m_slots.length skip rest with
          | none => rfl
          | some keys => simp only [scanFold, hf]
        | some slot =>
          simp only []
          have hstep : (if slot.IsFree until_ = true then
                scanSlots s now until_ distance skip rest (acc.1 ++ [slot.m_index], acc.2)
              else if slot.IsAllocated now = true ∧ slot.m_internal = false then
                scanSlots s now until_ distance skip rest
                  (acc.1, mapInsert acc.2
                    (freeDistance acc.2 (acc.2.length + 1) (distance slot.m_position))
                    slot.m_index)
              else scanSlots s now until_ distance skip rest acc)
              = scanSlots s now until_ distance skip rest
                  (scanStep now until_ distance acc slot) := by
            unfold scanStep
            split_ifs <;> rfl
          rw [hstep, ih]
          cases hk : scanKeys s.m_numSlots s.m_slots.length skip rest with
          | none => rfl
          | some keys => simp only [scanFold, hf]

theorem wrapIndex_total (N : Nat) (i : Int) (hlo : -(N : Int) ≤ i) (hhi : i < 2 * (N : Int)) :
    wrapIndex N N i = some (i % (N : Int)).toNat := by
  have hN : (0 : Int) < N := by omega
  unfold wrapIndex
  by_cases h0 : i < 0
  · have hmod : i % (N : Int) = i + N := by
      rw [← Int.add_emod_self]
      exact Int.emod_eq_of_lt (by omega) (by omega)
    simp only [h0, if_true]
    rw [if_pos ⟨by omega, by omega⟩, hmod, add_comm]
  · by_cases h1 : i ≥ (N : Int)
    · have hmod : i % (N : Int) = i - N := by
        have hs := @Int.add_emod_self (i - (N : Int)) (N : Int)
        rw [sub_add_cancel] at hs
        rw [hs]
        exact Int.emod_eq_of_lt (by omega) (by omega)
      simp only [h0, if_false, h1, if_true]
      rw [if_pos ⟨by omega, by omega⟩, hmod]
    · have hmod : i % (N : Int) = i := Int.emod_eq_of_lt (by omega) (by omega)
      simp only [h0, if_false, h1]
      rw [if_pos ⟨by omega, by omega⟩, hmod]

theorem scanKeys_total (N : Nat) (skip : Bool) (l : List Int)
    (h : ∀ i ∈ l, -(N : Int) ≤ i ∧ i < 2 * (N : Int)) :
    scanKeys N N skip l = some
      ((l.filter (fun i => !(decide (i < 0) && skip))).map (fun i => (i % (N : Int)).toNat)) := by
  induction l with
  | nil => rfl
  | cons i rest ih =>
    have hrest := ih (fun j hj => h j (List.mem_cons_of_mem _ hj))
    obtain ⟨hlo, hhi⟩ := h i (List.mem_cons_self _ _)
    unfold scanKeys
    by_cases hskip : i < 0 ∧ skip = true
    · rw [if_pos hskip, hrest]
      have : (!(decide (i < 0) && skip)) = false := by simp [hskip.1, hskip.2]
      simp only [List.filter_cons, this]
      rfl
    · rw [if_neg hskip, wrapIndex_total N i hlo hhi]
      simp only [hrest]
      have : (!(decide (i < 0) && skip)) = true := by
        by_cases h0 : i < 0
        · have : skip = false := by
            cases skip
            · rfl
            · exact absurd ⟨h0, rfl⟩ hskip
          simp [this]
        · simp [h0]
      simp only [List.filter_cons, this, if_true, List.map_cons]

theorem mem_scanCounters (NS h : Nat) (i : Int) :
    i ∈ scanCounters NS h ↔ (NS : Int) - h ≤ i ∧ i ≤ (NS : Int) + h := by
  unfold scanCounters
  rw [List.mem_map]
  constructor
  · rintro ⟨k, hk, rfl⟩
    rw [List.mem_range] at hk
    omega
  · intro hi
    refine ⟨(i - ((NS : Int) - h)).toNat, ?_, ?_⟩
    · rw [List.mem_range]
      omega
    · omega

theorem scanKeys_window (N NS h : Nat) (skip : Bool) (hNS : NS < N) (hh : h ≤ N) :
    scanKeys N N skip (scanCounters NS h) = some (windowKeys N NS h skip) := by
  unfold windowKeys
  apply scanKeys_total
  intro i hi
  rw [mem_scanCounters] at hi
  omega

theorem mem_windowKeys (N NS h : Nat) (skip : Bool) (j : Nat) (hN : 0 < N) :
    j ∈ windowKeys N NS h skip ↔
      ∃ d : Int, -(h : Int) ≤ d ∧ d ≤ h ∧ (skip = true → 0 ≤ (NS : Int) + d) ∧
        (j : Int) = ((NS : Int) + d) % (N : Int) := by
  unfold windowKeys
  rw [List.mem_map]
  constructor
  · rintro ⟨i, hi, rfl⟩
    rw [List.mem_filter, mem_scanCounters] at hi
    obtain ⟨hr, hp⟩ := hi
    refine ⟨i - NS, by omega, by omega, ?_, ?_⟩
    · intro hs
      subst hs
      simp at hp
      omega
    · have : (NS : Int) + (i - NS) = i := by ring
      rw [this, Int.toNat_of_nonneg (Int.emod_nonneg _ (by omega))]
  · rintro ⟨d, hd1, hd2, hs, hj⟩
    refine ⟨(NS : Int) + d, ?_, ?_⟩
    · rw [List.mem_filter, mem_scanCounters]
      refine ⟨by omega, ?_⟩
      cases skip
      · simp
      · have := hs rfl
        simp
        omega
    · show (((NS : Int) + d) % (N : Int)).toNat = j
      rw [← hj]
      rfl

theorem windowKeys_example (N : Nat) (hN : 4 ≤ N) :
    windowKeys N 0 3 false = [N - 3, N - 2, N - 1, 0, 1, 2, 3] ∧
    windowKeys N 0 3 true = [0, 1, 2, 3] := by
  have hc : scanCounters 0 3 = [-3, -2, -1, 0, 1, 2, 3] := by decide
  have hm : ∀ k : Nat, 1 ≤ k → k ≤ N → ((-(k : Int)) % (N : Int)).toNat = N - k := by
    intro k hk1 hk2
    have h1 : (-(k : Int)) % (N : Int) = -(k : Int) + N := by
      rw [← Int.add_emod_self]
      exact Int.emod_eq_of_lt (by omega) (by omega)
    rw [h1]
    omega
  have hp : ∀ k : Nat, k < N → (((k : Nat) : Int) % (N : Int)).toNat = k := by
    intro k hk
    rw [Int.emod_eq_of_lt (by omega) (by omega)]
    rfl
  have h3 := hm 3 (by omega) (by omega)
  have h2 := hm 2 (by omega) (by omega)
  have h1 := hm 1 (by omega) (by omega)
  have p0 := hp 0 (by omega)
  have p1 := hp 1 (by omega)
  have p2 := hp 2 (by omega)
  have p3 := hp 3 (by omega)
  unfold windowKeys
  rw [hc]
  constructor
  · have hf : List.filter (fun i : Int => !(decide (i < 0) && false)) [-3, -2, -1, 0, 1, 2, 3]
        = [-3, -2, -1, 0, 1, 2, 3] := by decide
    rw [hf]
    simp only [List.map]
    simp only [Nat.cast_ofNat, Nat.cast_one, Nat.cast_zero] at h3 h2 h1 p0 p1 p2 p3
    rw [h3, h2, h1, p0, p1, p2, p3]
  · have hf : List.filter (fun i : Int => !(decide (i < 0) && true)) [-3, -2, -1, 0, 1, 2, 3]
        = [0, 1, 2, 3] := by decide
    rw [hf]
    simp only [List.map]
    simp only [Nat.cast_ofNat, Nat.cast_one, Nat.cast_zero] at p0 p1 p2 p3
    rw [p0, p1, p2, p3]

/-- C32: in a well-formed ring of `N` slots, for a nominal slot `NS < N` and `SI/2 <= N`, the
scan loop of the selection (`skip` is `m_selections.empty ()` in
`SelectTransmissionSlotForReservationWithNo` and `false` in
`ReSelectTransmissionSlotForReservationWithNo`) passes every assertion on its index and
fetches exactly the slots with the keys `(NS + d) mod N` for `-SI/2 <= d <= SI/2`, in this
order, leaving out the `d` with `NS + d < 0` when `skip` is set.  For `NS = 0` and
`SI/2 = 3` the keys are `N-3, N-2, N-1, 0, 1, 2, 3`, and `0, 1, 2, 3` on the first
selection. -/
theorem scan_covers_cyclic_window (s : StdmaSlotManager) (hring : RingOK s) (NS : Nat)
    (hNS : NS < s.m_numSlots) (hh : s.m_siHalf ≤ s.m_numSlots) (skip : Bool) :
    scanKeys s.m_numSlots s.m_slots.length skip (scanCounters NS s.m_siHalf)
      = some (windowKeys s.m_numSlots NS s.m_siHalf skip) ∧
    (∀ (now until_ : Time) (distance : Vector → Nat) (acc : List Nat × List (Nat × Nat)),
      scanSlots s now until_ distance skip (scanCounters NS s.m_siHalf) acc
        = scanFold s now until_ distance (windowKeys s.m_numSlots NS s.m_siHalf skip) acc) ∧
    (∀ j : Nat, j ∈ windowKeys s.m_numSlots NS s.m_siHalf skip ↔
      ∃ d : Int, -(s.m_siHalf : Int) ≤ d ∧ d ≤ s.m_siHalf ∧
        (skip = true → 0 ≤ (NS : Int) + d) ∧
        (j : Int) = ((NS : Int) + d) % (s.m_numSlots : Int)) ∧
    (NS = 0 → s.m_siHalf = 3 → 4 ≤ s.m_numSlots →
      scanKeys s.m_numSlots s.m_slots.length false (scanCounters NS s.m_siHalf)
        = some [s.m_numSlots - 3, s.m_numSlots - 2, s.m_numSlots - 1, 0, 1, 2, 3] ∧
      scanKeys s.m_numSlots s.m_slots.length true (scanCounters NS s.m_siHalf)
        = some [0, 1, 2, 3]) := by
  have hlen : s.m_slots.length = s.m_numSlots := keys_range_length _ _ hring.1
  have hk : ∀ sk, scanKeys s.m_numSlots s.m_slots.length sk (scanCounters NS s.m_siHalf)
      = some (windowKeys s.m_numSlots NS s.m_siHalf sk) := by
    intro sk
    rw [hlen]
    exact scanKeys_window _ _ _ sk hNS hh
  refine ⟨hk skip, ?_, fun j => mem_windowKeys _ _ _ skip j (by omega), ?_⟩
  · intro now until_ distance acc
    rw [scanSlots_fold, hk skip]
  · intro h0 h3 h4
    obtain ⟨e1, e2⟩ := windowKeys_example s.m_numSlots h4
    rw [hk false, hk true, h0, h3, e1, e2]
    exact ⟨rfl, rfl⟩

/-- Witness of C32: the scan of `configuredManager` around nominal slot 1 with `SI/2 = 1`
fetches the slots 0, 1, 2. -/
theorem scan_covers_cyclic_window_witness :
    scanKeys 8 8 false (scanCounters 1 1) = some [0, 1, 2] ∧
    (∀ j : Nat, j ∈ windowKeys 8 1 1 false ↔
      ∃ d : Int, -((1 : Nat) : Int) ≤ d ∧ d ≤ ((1 : Nat) : Int) ∧
        (false = true → 0 ≤ ((1 : Nat) : Int) + d) ∧
        (j : Int) = (((1 : Nat) : Int) + d) % ((8 : Nat) : Int)) :=
  ⟨(scan_covers_cyclic_window configuredManager (by unfold RingOK; decide) 1 (by decide)
      (by decide) false).1,
    (scan_covers_cyclic_window configuredManager (by unfold RingOK; decide) 1 (by decide)
      (by decide) false).2.2.1⟩

/-! ## The candidate list -/

theorem scanFold_spec (s : StdmaSlotManager) (hring : RingOK s) (now until_ : Time)
    (distance : Vector → Nat) (keys : List Nat) :
    ∀ (acc : List Nat × List (Nat × Nat)), (∀ j ∈ keys, j < s.m_numSlots) →
      scanFold s now until_ distance keys acc =
        some (acc.1 ++ keys.filter (slotFreeAt s until_),
          usedFold s distance
            (keys.filter (fun j => !slotFreeAt s until_ j && slotExternalAt s now j)) acc.2) := by
  induction keys with
  | nil =>
    intro acc _
    simp [scanFold, usedFold]
  | cons j rest ih =>
    intro acc hlt
    obtain ⟨slot, hslot⟩ := keys_range_find_some _ _ j hring.1 (hlt j (List.mem_cons_self _ _))
    have hidx : slot.m_index = j := (ringOK_find s hring j slot hslot).1
    have hrest := fun a => ih a (fun k hk => hlt k (List.mem_cons_of_mem _ hk))
    have hfree : slotFreeAt s until_ j = slot.IsFree until_ := by
      unfold slotFreeAt
      rw [hslot]
    have hext : slotExternalAt s now j = (slot.IsAllocated now && !slot.m_internal) := by
      unfold slotExternalAt
      rw [hslot]
    have hdist : ownerDistance s distance j = distance slot.m_position := by
      unfold ownerDistance
      rw [hslot]
    simp only [scanFold, hslot]
    rw [hrest]
    unfold scanStep
    by_cases h1 : slot.IsFree until_ = true
    · rw [if_pos h1]
      simp only [List.filter_cons, hfree, h1, if_true, Bool.not_true, Bool.false_and, hidx]
      simp
    · rw [if_neg h1]
      have h1f : slot.IsFree until_ = false := by
        cases h : slot.IsFree until_
        · rfl
        · exact absurd h h1
      by_cases h2 : slot.IsAllocated now = true ∧ slot.m_internal = false
      · rw [if_pos h2]
        simp only [List.filter_cons, hfree, hext, h1f, h2.1, h2.2, Bool.not_false, Bool.and_self,
          if_true, hidx]
        simp only [usedFold, List.foldl_cons, hdist]
        simp
      · rw [if_neg h2]
        have hx : (slot.IsAllocated now && !slot.m_internal) = false := by
          cases ha : slot.IsAllocated now
          · rfl
          · cases hi : slot.m_internal
            · exact absurd ⟨ha, hi⟩ h2
            · rfl
        simp only [List.filter_cons, hfree, hext, h1f, hx, Bool.and_false]
        simp

theorem freeDistance_cases (m : List (Nat × Nat)) :
    ∀ (fuel d : Nat), mapFind m (freeDistance m fuel d) = none ∨
      ∀ k, d ≤ k → k < d + fuel → (mapFind m k).isSome = true := by
  intro fuel
  induction fuel with
  | zero =>
    intro d
    right
    intro k h1 h2
    omega
  | succ fuel ih =>
    intro d
    unfold freeDistance
    by_cases hd : (mapFind m d).isSome = true
    · rw [if_pos hd]
      rcases ih (d + 1) with h | h
      · exact Or.inl h
      · right
        intro k h1 h2
        by_cases hk : k = d
        · rw [hk]; exact hd
        · exact h k (by omega) (by omega)
    · rw [if_neg hd]
      left
      cases hf : mapFind m d with
      | none => rfl
      | some v => rw [hf] at hd; exact absurd rfl hd

theorem freeDistance_fresh (m : List (Nat × Nat)) (d : Nat) :
    mapFind m (freeDistance m (m.length + 1) d) = none := by
  rcases freeDistance_cases m (m.length + 1) d with h | h
  · exact h
  · exfalso
    have hsub : Finset.Ico d (d + (m.length + 1)) ⊆ (m.map Prod.fst).toFinset := by
      intro k hk
      rw [Finset.mem_Ico] at hk
      rw [List.mem_toFinset]
      have := h k hk.1 hk.2
      apply (mapFind_isSome_iff m k).mp
      cases hf : mapFind m k with
      | none => rw [hf] at this; cases this
      | some v => exact ⟨v, rfl⟩
    have h1 := Finset.card_le_card hsub
    rw [Nat.card_Ico] at h1
    have h2 := List.toFinset_card_le (m.map Prod.fst)
    rw [List.length_map] at h2
    omega

theorem freeDistance_same (m : List (Nat × Nat)) (fuel d : Nat) (h : mapFind m d = none) :
    freeDistance m (fuel + 1) d = d := by
  unfold freeDistance
  rw [h]
  rfl

theorem mem_mapInsert_fresh {α : Type} (m : List (Nat × α)) (k : Nat) (v : α)
    (h : mapFind m k = none) : (k, v) ∈ mapInsert m k v ∧ ∀ p ∈ m, p ∈ mapInsert m k v := by
  induction m with
  | nil =>
    simp [mapInsert]
  | cons q rest ih =>
    obtain ⟨k0, v0⟩ := q
    simp only [mapFind] at h
    split_ifs at h with hk
    obtain ⟨i1, i2⟩ := ih h
    simp only [mapInsert]
    split_ifs with h1
    · exact ⟨List.mem_cons_self _ _, fun p hp => List.mem_cons_of_mem _ hp⟩
    · refine ⟨List.mem_cons_of_mem _ i1, ?_⟩
      intro p hp
      rcases List.mem_cons.mp hp with hp | hp
      · rw [hp]; exact List.mem_cons_self _ _
      · exact List.mem_cons_of_mem _ (i2 p hp)

theorem usedFold_mem (s : StdmaSlotManager) (distance : Vector → Nat) (l : List Nat) :
    ∀ m : List (Nat × Nat),
      (∀ p ∈ usedFold s distance l m, p ∈ m ∨ p.2 ∈ l) ∧
      (∀ p ∈ m, p ∈ usedFold s distance l m) ∧
      (∀ j ∈ l, ∃ d, (d, j) ∈ usedFold s distance l m) := by
  induction l with
  | nil =>
    intro m
    refine ⟨fun p hp => Or.inl hp, fun p hp => hp, ?_⟩
    intro j hj
    cases hj
  | cons a rest ih =>
    intro m
    have hfresh := freeDistance_fresh m (ownerDistance s distance a)
    obtain ⟨i1, i2⟩ := mem_mapInsert_fresh m _ a hfresh
    obtain ⟨r1, r2, r3⟩ := ih (mapInsert m
      (freeDistance m (m.length + 1) (ownerDistance s distance a)) a)
    have hunf : usedFold s distance (a :: rest) m = usedFold s distance rest (mapInsert m
      (freeDistance m (m.length + 1) (ownerDistance s distance a)) a) := rfl
    rw [hunf]
    refine ⟨?_, ?_, ?_⟩
    · intro p hp
      rcases r1 p hp with h | h
      · rcases mem_mapInsert _ _ _ _ h with h | h
        · right
          rw [h]
          exact List.mem_cons_self _ _
        · exact Or.inl h
      · exact Or.inr (List.mem_cons_of_mem _ h)
    · intro p hp
      exact r2 p (i2 p hp)
    · intro j hj
      rcases List.mem_cons.mp hj with h | h
      · rw [h]
        exact ⟨_, r2 _ i1⟩
      · exact r3 j h

theorem usedFold_plain (s : StdmaSlotManager) (distance : Vector → Nat) (l : List Nat) :
    ∀ m : List (Nat × Nat),
      (∀ j ∈ l, mapFind m (ownerDistance s distance j) = none) →
      l.Pairwise (fun a b => ownerDistance s distance a ≠ ownerDistance s distance b) →
      usedFold s distance l m
        = l.foldl (fun m j => mapInsert m (ownerDistance s distance j) (id j)) m := by
  induction l with
  | nil => intro m _ _; rfl
  | cons a rest ih =>
    intro m hnone hpw
    have ha := hnone a (List.mem_cons_self _ _)
    have hunf : usedFold s distance (a :: rest) m = usedFold s distance rest (mapInsert m
      (freeDistance m (m.length + 1) (ownerDistance s distance a)) a) := rfl
    rw [hunf, freeDistance_same m m.length _ ha, List.foldl_cons]
    rw [List.pairwise_cons] at hpw
    apply ih
    · intro j hj
      rw [mapFind_mapInsert_ne _ _ _ _ (hpw.1 j hj)]
      exact hnone j (List.mem_cons_of_mem _ hj)
    · exact hpw.2

theorem foldl_keyed_mem (key : Nat → Nat) (l : List Nat) :
    ∀ m0 : List (Nat × Nat),
      ∀ p ∈ l.foldl (fun m i => mapInsert m (key i) (id i)) m0,
        p ∈ m0 ∨ (p.2 ∈ l ∧ p.1 = key p.2) := by
  induction l with
  | nil => intro m0 p hp; exact Or.inl hp
  | cons a rest ih =>
    intro m0 p hp
    rw [List.foldl_cons] at hp
    rcases ih _ p hp with h | h
    · rcases mem_mapInsert _ _ _ _ h with h | h
      · right
        rw [h]
        exact ⟨List.mem_cons_self _ _, rfl⟩
      · exact Or.inl h
    · exact Or.inr ⟨List.mem_cons_of_mem _ h.1, h.2⟩

theorem addAllocated_take (s : StdmaSlotManager) (used : List (Nat × Nat))
    (hfind : ∀ p ∈ used, ∃ slot, mapFind s.m_slots p.2 = some slot) :
    ∀ (missing : Nat) (candidates : List Nat), 1 ≤ missing → missing < UINT32_MOD →
      addAllocated s used missing candidates =
        some (candidates ++
          ((used.map Prod.snd).filter (fun j => !ownerCollides s j)).take missing) := by
  induction used with
  | nil =>
    intro missing candidates _ _
    simp [addAllocated]
  | cons p rest ih =>
    intro missing candidates h1 h2
    obtain ⟨d, index⟩ := p
    obtain ⟨slot, hslot⟩ := hfind (d, index) (List.mem_cons_self _ _)
    have hrest := ih (fun q hq => hfind q (List.mem_cons_of_mem _ hq))
    have hcol : ownerCollides s index = (mapFind s.m_collisions slot.m_owner).isSome := by
      unfold ownerCollides
      rw [hslot]
    have hsub : u32sub missing 1 = missing - 1 := by
      unfold u32sub UINT32_MOD
      unfold UINT32_MOD at h2
      omega
    simp only [addAllocated, hslot, List.map_cons, List.filter_cons, hcol]
    cases hc : mapFind s.m_collisions slot.m_owner with
    | none =>
      simp only [Option.isNone_none, if_true, Option.isSome_none, Bool.not_false]
      rw [hsub]
      by_cases hm : missing - 1 = 0
      · rw [if_pos hm]
        have : missing = 1 := by omega
        rw [this]
        simp
      · rw [if_neg hm, hrest (missing - 1) _ (by omega) (by omega)]
        obtain ⟨k, hk⟩ : ∃ k, missing = k + 1 := ⟨missing - 1, by omega⟩
        rw [hk]
        simp
    | some v =>
      simp only [Option.isNone_some, Option.isSome_some, Bool.not_true]
      rw [hrest missing candidates h1 h2]
      simp

theorem windowKeys_lt (N NS h : Nat) (skip : Bool) (hN : 0 < N) :
    ∀ j ∈ windowKeys N NS h skip, j < N := by
  intro j hj
  obtain ⟨d, _, _, _, hd⟩ := (mem_windowKeys N NS h skip j hN).mp hj
  have := Int.emod_lt_of_pos ((NS : Int) + d) (show (0 : Int) < N by omega)
  omega

theorem windowKeys_nodup (N NS h : Nat) (skip : Bool) (hh : 2 * h < N) :
    (windowKeys N NS h skip).Nodup := by
  unfold windowKeys
  have hN : (0 : Int) < N := by omega
  have hcnt : (scanCounters NS h).Nodup := by
    unfold scanCounters
    apply List.Nodup.map _ (List.nodup_range _)
    intro a b hab
    simp only at hab
    omega
  apply List.Nodup.map_on _ (hcnt.filter _)
  intro x hx y hy hxy
  rw [List.mem_filter, mem_scanCounters] at hx hy
  have hx0 := Int.emod_nonneg x (show (N : Int) ≠ 0 by omega)
  have hy0 := Int.emod_nonneg y (show (N : Int) ≠ 0 by omega)
  have hmod : x % (N : Int) = y % (N : Int) := by
    have := congrArg (fun n : Nat => (n : Int)) hxy
    simp only [Int.toNat_of_nonneg hx0, Int.toNat_of_nonneg hy0] at this
    exact this
  have hdvd : (N : Int) ∣ x - y :=
    Int.dvd_of_emod_eq_zero (Int.emod_eq_emod_iff_emod_sub_eq_zero.mp hmod)
  obtain ⟨c, hc⟩ := hdvd
  have hc0 : c = 0 := by
    by_contra hne
    rcases lt_or_gt_of_ne hne with hlt | hgt
    · have : (N : Int) * c ≤ (N : Int) * (-1) :=
        mul_le_mul_of_nonneg_left (by omega) (by omega)
      omega
    · have : (N : Int) * 1 ≤ (N : Int) * c :=
        mul_le_mul_of_nonneg_left (by omega) (by omega)
      omega
  rw [hc0, mul_zero] at hc
  omega

theorem compileCandidates_spec (s : StdmaSlotManager) (hring : RingOK s) (now until_ : Time)
    (distance : Vector → Nat) (skip : Bool) (NS : Nat) (hNS : NS < s.m_numSlots)
    (hh : s.m_siHalf ≤ s.m_numSlots) (hmin : s.m_mininumCandidates < UINT32_MOD) :
    compileCandidates s now until_ distance skip NS =
      some ((windowKeys s.m_numSlots NS s.m_siHalf skip).filter (slotFreeAt s until_) ++
        ((((usedFold s distance
            ((windowKeys s.m_numSlots NS s.m_siHalf skip).filter
              (fun j => !slotFreeAt s until_ j && slotExternalAt s now j)) []).reverse.map
          Prod.snd).filter (fun j => !ownerCollides s j)).take
          (s.m_mininumCandidates
            - ((windowKeys s.m_numSlots NS s.m_siHalf skip).filter
                (slotFreeAt s until_)).length))) := by
  have hlen : s.m_slots.length = s.m_numSlots := keys_range_length _ _ hring.1
  have hlt := windowKeys_lt s.m_numSlots NS s.m_siHalf skip (by omega)
  unfold compileCandidates
  rw [scanSlots_fold, hlen, scanKeys_window _ _ _ skip hNS hh]
  simp only []
  rw [scanFold_spec s hring now until_ distance _ _ hlt]
  simp only [List.nil_append]
  generalize hfree : (windowKeys s.m_numSlots NS s.m_siHalf skip).filter (slotFreeAt s until_)
    = free
  generalize hused : usedFold s distance
    ((windowKeys s.m_numSlots NS s.m_siHalf skip).filter
      (fun j => !slotFreeAt s until_ j && slotExternalAt s now j)) [] = used
  have hfind : ∀ p ∈ used.reverse, ∃ slot, mapFind s.m_slots p.2 = some slot := by
    intro p hp
    rw [List.mem_reverse, ← hused] at hp
    rcases (usedFold_mem s distance _ []).1 p hp with h | h
    · cases h
    · exact keys_range_find_some _ _ _ hring.1 (hlt _ (List.mem_filter.mp h).1)
  by_cases hf : free.length < s.m_mininumCandidates
  · rw [if_pos hf, addAllocated_take s _ hfind _ _ (by omega) (by omega)]
  · rw [if_neg hf]
    have : s.m_mininumCandidates - free.length = 0 := by omega
    rw [this, List.take_zero, List.append_nil]

/-! ## Claims on the candidate list -/

theorem external_not_free (s : StdmaSlotManager) (now until_ : Time) (hnu : now ≤ until_)
    (j : Nat) (h : slotExternalAt s now j = true) : slotFreeAt s until_ j = false := by
  unfold slotExternalAt at h
  unfold slotFreeAt
  cases hf : mapFind s.m_slots j with
  | none => rfl
  | some slot =>
    rw [hf] at h
    simp only [StdmaSlot.IsAllocated, Bool.and_eq_true, decide_eq_true_eq] at h
    simp only [StdmaSlot.IsFree, Bool.or_eq_false_iff, Bool.and_eq_false_iff,
      decide_eq_false_iff_not]
    obtain ⟨⟨hst, hnb⟩, _⟩ := h
    refine ⟨?_, Or.inr ?_⟩
    · rw [hst]
      intro hc
      cases hc
    · exact not_lt.mpr (le_trans hnb hnu)

/-- C33 (counterexample): the scan for nominal slot 1 visits the slots 0, 1, 2, whose owners
are at the distances 0, 1, 0.  Slot 2 ties with slot 0, its key in `usedSlots` is raised past
the key of slot 1, and the padded candidate list is `[2, 1, 0]`: the slot of an owner at
distance 0 precedes the slot of the owner at distance 1. -/
theorem padding_order_follows_raised_keys :
    selectCandidates tieManager 0 (fun v => v.x.toNat) 0 3 = some (tieManager, [2, 1, 0]) ∧
    ownerDistance tieManager (fun v => v.x.toNat) 2 = 0 ∧
    ownerDistance tieManager (fun v => v.x.toNat) 1 = 1 ∧
    slotExternalAt tieManager 0 1 = true ∧ slotExternalAt tieManager 0 2 = true ∧
    ownerCollides tieManager 1 = false ∧ ownerCollides tieManager 2 = false := by
  decide

theorem compileCandidates_nonempty_iff (s : StdmaSlotManager) (hring : RingOK s)
    (now until_ : Time) (distance : Vector → Nat) (skip : Bool) (NS : Nat)
    (hNS : NS < s.m_numSlots) (hh : s.m_siHalf ≤ s.m_numSlots)
    (hmin1 : 1 ≤ s.m_mininumCandidates) (hmin : s.m_mininumCandidates < UINT32_MOD) :
    ∃ cands, compileCandidates s now until_ distance skip NS = some cands ∧
      (cands ≠ [] ↔ ∃ j ∈ windowKeys s.m_numSlots NS s.m_siHalf skip,
        slotFreeAt s until_ j = true ∨
          (slotExternalAt s now j = true ∧ ownerCollides s j = false)) := by
  have hspec := compileCandidates_spec s hring now until_ distance skip NS hNS hh hmin
  refine ⟨_, hspec, ?_⟩
  generalize hkeys : windowKeys s.m_numSlots NS s.m_siHalf skip = keys
  generalize hfree : keys.filter (slotFreeAt s until_) = free
  generalize hext : keys.filter (fun j => !slotFreeAt s until_ j && slotExternalAt s now j)
    = ext
  obtain ⟨m1, _, m3⟩ := usedFold_mem s distance ext []
  generalize hused : usedFold s distance ext [] = used at *
  constructor
  · intro hne
    obtain ⟨c, hc⟩ := List.exists_mem_of_ne_nil _ hne
    rcases List.mem_append.mp hc with h | h
    · rw [← hfree, List.mem_filter] at h
      exact ⟨c, h.1, Or.inl h.2⟩
    · have h1 := List.mem_of_mem_take h
      rw [List.mem_filter, List.mem_map] at h1
      obtain ⟨⟨p, hp, hpc⟩, hcol⟩ := h1
      rw [List.mem_reverse] at hp
      rcases m1 p hp with h2 | h2
      · cases h2
      · rw [hpc, ← hext, List.mem_filter] at h2
        refine ⟨c, h2.1, Or.inr ⟨?_, ?_⟩⟩
        · have := h2.2
          simp only [Bool.and_eq_true] at this
          exact this.2
        · cases hcc : ownerCollides s c
          · rfl
          · rw [hcc] at hcol
            cases hcol
  · rintro ⟨j, hj, hcase⟩
    by_cases hfj : slotFreeAt s until_ j = true
    · intro hnil
      have : j ∈ free := by
        rw [← hfree, List.mem_filter]
        exact ⟨hj, hfj⟩
      have h0 := List.append_eq_nil.mp hnil
      rw [h0.1] at this
      cases this
    · rcases hcase with h | ⟨he, hc⟩
      · exact absurd h hfj
      · intro hnil
        have h0 := List.append_eq_nil.mp hnil
        have hjext : j ∈ ext := by
          rw [← hext, List.mem_filter]
          refine ⟨hj, ?_⟩
          have : slotFreeAt s until_ j = false := by
            cases hx : slotFreeAt s until_ j
            · rfl
            · exact absurd hx hfj
          rw [this, he]
          rfl
        obtain ⟨d, hd⟩ := m3 j hjext
        have hjl : j ∈ (used.reverse.map Prod.snd).filter (fun j => !ownerCollides s j) := by
          rw [List.mem_filter, List.mem_map]
          refine ⟨⟨(d, j), List.mem_reverse.mpr hd, rfl⟩, ?_⟩
          rw [hc]
          rfl
        rw [h0.1, List.length_nil, Nat.sub_zero] at h0
        have h2 := h0.2
        obtain ⟨k, hk⟩ : ∃ k, s.m_mininumCandidates = k + 1 :=
          ⟨s.m_mininumCandidates - 1, by omega⟩
        rw [hk] at h2
        cases hl : (used.reverse.map Prod.snd).filter (fun j => !ownerCollides s j) with
        | nil => rw [hl] at hjl; cases hjl
        | cons a rest => rw [hl] at h2; simp at h2

/-- C38: let `s1` be the state after the aging prologue of
`SelectTransmissionSlotForReservationWithNo (n, timeout)`, a well-formed ring with nominal
slot `NS < N`, `SI/2 <= N` and `min_candidates >= 1`.  The candidate list is non-empty if and
only if some scanned slot is free until `until`, or is effectively externally allocated, not
internally allocated, with an owner outside the collision memory; the call returns exactly
for the draws `selection < candidates.size ()`.  There is a state, every scanned slot of
which is busy, where the list is empty and the call fails for every draw. -/
theorem select_picks_iff_candidate (s s1 : StdmaSlotManager) (now : Time)
    (distance : Vector → Nat) (n timeout : Nat) (hn : n < s.m_nss.length)
    (hage : ageCheck s now = some s1) (hring : RingOK s1)
    (hNS : s1.m_nss[n]?.getD 0 < s1.m_numSlots) (hh : s1.m_siHalf ≤ s1.m_numSlots)
    (hmin1 : 1 ≤ s1.m_mininumCandidates) (hmin : s1.m_mininumCandidates < UINT32_MOD) :
    (∃ cands, selectCandidates s now distance n timeout = some (s1, cands) ∧
      (cands ≠ [] ↔
        ∃ j ∈ windowKeys s1.m_numSlots (s1.m_nss[n]?.getD 0) s1.m_siHalf
            s1.m_selections.isEmpty,
          slotFreeAt s1 (now + (timeout : Int) * s.m_frameDuration) j = true ∨
            (slotExternalAt s1 now j = true ∧ ownerCollides s1 j = false)) ∧
      ∀ selection,
        (SelectTransmissionSlotForReservationWithNo s now distance selection n timeout).isSome
          = true ↔ selection < cands.length) ∧
    ∃ b : StdmaSlotManager, RingOK b ∧ 1 ≤ b.m_mininumCandidates ∧
      (∀ j ∈ windowKeys b.m_numSlots (b.m_nss[0]?.getD 0) b.m_siHalf b.m_selections.isEmpty,
        ∃ slot, mapFind b.m_slots j = some slot ∧ slot.IsBusy 0 = true) ∧
      selectCandidates b 0 distance 0 3 = some (b, []) ∧
      ∀ selection, SelectTransmissionSlotForReservationWithNo b 0 distance selection 0 3
        = none := by
  constructor
  · obtain ⟨cands, hc, hiff⟩ := compileCandidates_nonempty_iff s1 hring now
      (now + (timeout : Int) * s.m_frameDuration) distance s1.m_selections.isEmpty
      (s1.m_nss[n]?.getD 0) hNS hh hmin1 hmin
    have hsel : selectCandidates s now distance n timeout = some (s1, cands) := by
      unfold selectCandidates
      rw [if_pos hn]
      simp only [hage, hc]
    refine ⟨cands, hsel, hiff, ?_⟩
    intro selection
    unfold SelectTransmissionSlotForReservationWithNo
    simp only [hsel]
    constructor
    · intro h
      by_contra hlt
      have hnone : cands[selection]? = none := List.getElem?_eq_none (by omega)
      unfold commitSelection at h
      simp only [hnone] at h
      cases h
    · intro hlt
      have hfind : ∀ c ∈ cands, ∃ slot, mapFind s1.m_slots c = some slot := by
        intro c hcm
        exact (scanned_inWindow s1 hring n c
          (compileCandidates_scanned s1 now _ distance _ _ cands hc c hcm)).2
      obtain ⟨s2, index, h2⟩ := commitSelection_isSome s1 now cands selection n timeout hlt hfind
      simp only [h2]
      rfl
  · have hb : selectCandidates busyManager 0 distance 0 3 = some (busyManager, []) := by
      have hf : ∀ (l : List Int) acc, (∀ i ∈ l, i = 0 ∨ i = 1 ∨ i = 2) →
          scanSlots busyManager 0 240 distance true l acc = some acc := by
        intro l
        induction l with
        | nil => intro acc _; rfl
        | cons i rest ih =>
          intro acc hi
          have hrest := ih acc (fun k hk => hi k (List.mem_cons_of_mem _ hk))
          rcases hi i (List.mem_cons_self _ _) with h | h | h <;> subst h <;>
            exact hrest
      have hcnt : scanCounters 1 1 = [0, 1, 2] := by decide
      unfold selectCandidates
      have h1 : (0 : Nat) < busyManager.m_nss.length := by decide
      rw [if_pos h1]
      have h2 : ageCheck busyManager 0 = some busyManager := by decide
      simp only [h2]
      have h3 : busyManager.m_selections.isEmpty = true := by decide
      have h4 : busyManager.m_nss[0]?.getD 0 = 1 := by decide
      have h5 : busyManager.m_siHalf = 1 := by decide
      have h6 : (0 : Time) + ((3 : Nat) : Int) * busyManager.m_frameDuration = 240 := by decide
      have h7 : busyManager.m_mininumCandidates = 4 := by decide
      unfold compileCandidates
      rw [h3, h4, h5, h6, hcnt, hf _ _ (by simp), h7]
      rfl
    refine ⟨busyManager, by unfold RingOK; decide, by decide, by decide, hb, ?_⟩
    intro selection
    unfold SelectTransmissionSlotForReservationWithNo
    simp only [hb]
    unfold commitSelection
    simp

/-- Witness of C38: the first selection of reservation 0 of `configuredManager` at time 0. -/
theorem select_picks_iff_candidate_witness :
    ∃ cands, selectCandidates configuredManager 0 (fun _ => 0) 0 5
        = some (configuredManager, cands) ∧
      (cands ≠ [] ↔
        ∃ j ∈ windowKeys configuredManager.m_numSlots (configuredManager.m_nss[0]?.getD 0)
            configuredManager.m_siHalf configuredManager.m_selections.isEmpty,
          slotFreeAt configuredManager
              (0 + ((5 : Nat) : Int) * configuredManager.m_frameDuration) j = true ∨
            (slotExternalAt configuredManager 0 j = true ∧
              ownerCollides configuredManager j = false)) ∧
      ∀ selection,
        (SelectTransmissionSlotForReservationWithNo configuredManager 0 (fun _ => 0)
          selection 0 5).isSome = true ↔ selection < cands.length :=
  (select_picks_iff_candidate configuredManager configuredManager 0 (fun _ => 0) 0 5
    (by decide) (by decide) (by unfold RingOK; decide) (by decide) (by decide) (by decide)
    (by decide)).1

theorem addAllocated_total (s : StdmaSlotManager) (used : List (Nat × Nat))
    (hfind : ∀ p ∈ used, ∃ slot, mapFind s.m_slots p.2 = some slot) :
    ∀ (missing : Nat) (candidates : List Nat),
      ∃ res, addAllocated s used missing candidates = some res ∧ ∀ c ∈ candidates, c ∈ res := by
  induction used with
  | nil =>
    intro missing candidates
    exact ⟨candidates, rfl, fun c hc => hc⟩
  | cons p rest ih =>
    intro missing candidates
    obtain ⟨d, index⟩ := p
    obtain ⟨slot, hslot⟩ := hfind (d, index) (List.mem_cons_self _ _)
    have hrest := ih (fun q hq => hfind q (List.mem_cons_of_mem _ hq))
    simp only [addAllocated, hslot]
    split_ifs with h1 h2
    · exact ⟨_, rfl, fun c hc => List.mem_append_left _ hc⟩
    · obtain ⟨res, hres, hsub⟩ := hrest (u32sub missing 1) (candidates ++ [index])
      exact ⟨res, hres, fun c hc => hsub c (List.mem_append_left _ hc)⟩
    · exact hrest missing candidates

theorem compileCandidates_total (s : StdmaSlotManager) (hring : RingOK s) (now until_ : Time)
    (distance : Vector → Nat) (skip : Bool) (NS : Nat) (hNS : NS < s.m_numSlots)
    (hh : s.m_siHalf ≤ s.m_numSlots) :
    ∃ cands, compileCandidates s now until_ distance skip NS = some cands ∧
      ∀ j ∈ windowKeys s.m_numSlots NS s.m_siHalf skip, slotFreeAt s until_ j = true →
        j ∈ cands := by
  have hlen : s.m_slots.length = s.m_numSlots := keys_range_length _ _ hring.1
  have hlt := windowKeys_lt s.m_numSlots NS s.m_siHalf skip (by omega)
  unfold compileCandidates
  rw [scanSlots_fold, hlen, scanKeys_window _ _ _ skip hNS hh]
  simp only []
  rw [scanFold_spec s hring now until_ distance _ _ hlt]
  simp only [List.nil_append]
  generalize hused : usedFold s distance
    ((windowKeys s.m_numSlots NS s.m_siHalf skip).filter
      (fun j => !slotFreeAt s until_ j && slotExternalAt s now j)) [] = used
  have hfind : ∀ p ∈ used.reverse, ∃ slot, mapFind s.m_slots p.2 = some slot := by
    intro p hp
    rw [List.mem_reverse, ← hused] at hp
    rcases (usedFold_mem s distance _ []).1 p hp with h | h
    · cases h
    · exact keys_range_find_some _ _ _ hring.1 (hlt _ (List.mem_filter.mp h).1)
  split_ifs with hf
  · obtain ⟨res, hres, hsub⟩ := addAllocated_total s used.reverse hfind
      (s.m_mininumCandidates
        - ((windowKeys s.m_numSlots NS s.m_siHalf skip).filter (slotFreeAt s until_)).length)
      ((windowKeys s.m_numSlots NS s.m_siHalf skip).filter (slotFreeAt s until_))
    exact ⟨res, hres, fun j hj hfree => hsub j (List.mem_filter.mpr ⟨hj, hfree⟩)⟩
  · exact ⟨_, rfl, fun j hj hfree => List.mem_filter.mpr ⟨hj, hfree⟩⟩

/-- C37: in a well-formed state with the nominal slots laid out by `SelectNominalSlots`, let
reservation `n` be bound to the slot `key`, which lies in the selection window of `n`, and let
the aging prologue complete.  Then
`ReSelectTransmissionSlotForReservationWithNo (n, timeout)` marks the old slot free, scans it
as free for `until`, and compiles a candidate list that contains it; so the list is not empty,
and for every draw `selection < candidates.size ()` the call returns. -/
theorem reselect_always_picks (s sa : StdmaSlotManager) (now : Time)
    (distance : Vector → Nat) (n timeout key : Nat) (hring : RingOK s)
    (hgeo : NominalGeometry s) (hn : n < s.m_rate)
    (hsel : mapFind s.m_selections n = some key) (hwin : InWindow s n key)
    (hage : ageCheck s now = some sa) :
    ∃ s1 cands, reselectCandidates s now distance n timeout = some (s1, key, cands) ∧
      s1 = { sa with m_slots := mapModify sa.m_slots key StdmaSlot.MarkAsFree } ∧
      slotFreeAt s1 (now + (timeout : Int) * s.m_frameDuration) key = true ∧
      key ∈ cands ∧ cands ≠ [] ∧
      ∀ selection, selection < cands.length →
        ∃ s2 offset, ReSelectTransmissionSlotForReservationWithNo s now distance selection n
          timeout = some (s2, offset) := by
  obtain ⟨hra, hcfg, hsela, _⟩ := ageCheck_effect s sa now hring hage
  obtain ⟨hfit, hwide, NSS, hNSS, hnss⟩ := hgeo
  have hNSeq : s.m_nss[n]?.getD 0 = NSS + n * s.m_ni := nominal_slot_eq s NSS n hn hnss
  have hlenn : n < s.m_nss.length := by
    rw [hnss]
    simpa using hn
  have hmul : (n + 1) * s.m_ni ≤ s.m_rate * s.m_ni := Nat.mul_le_mul_right _ hn
  have hexp : (n + 1) * s.m_ni = n * s.m_ni + s.m_ni := by ring
  have hNSlt : s.m_nss[n]?.getD 0 < s.m_numSlots := by
    rw [hNSeq]
    omega
  have hhle : s.m_siHalf ≤ s.m_numSlots := by omega
  have hNpos : 0 < s.m_numSlots := by omega
  obtain ⟨d, hd, hkey⟩ := hwin
  have hkeylt : key < s.m_numSlots := by
    have := Int.emod_lt_of_pos (((s.m_nss[n]?.getD 0 : Nat) : Int) + d)
      (show (0 : Int) < s.m_numSlots by omega)
    omega
  have hNa : sa.m_numSlots = s.m_numSlots := hcfg.1
  obtain ⟨selected, hselected⟩ := keys_range_find_some _ _ key hra.1 (by rw [hNa]; exact hkeylt)
  have hidx : selected.m_index = key := (ringOK_find sa hra key selected hselected).1
  obtain ⟨s1, hs1⟩ : ∃ s1, s1 = { sa with m_slots := mapModify sa.m_slots key StdmaSlot.MarkAsFree } :=
    ⟨_, rfl⟩
  have hrel : releaseOld s now n = some (s1, key) := by
    unfold releaseOld
    simp only [hsel, if_pos hlenn, hage, hsela, hselected, hidx, hs1]
  have hslots1 : s1.m_slots = mapModify sa.m_slots key StdmaSlot.MarkAsFree := by rw [hs1]
  have hN1 : s1.m_numSlots = sa.m_numSlots := by rw [hs1]
  have hr1 : RingOK s1 := ringOK_mapModify sa hra key StdmaSlot.MarkAsFree (fun _ => rfl) s1
    hslots1 hN1
  have hnss1 : s1.m_nss = s.m_nss := by rw [hs1]; exact hcfg.2.1
  have hsi1 : s1.m_siHalf = s.m_siHalf := by rw [hs1]; exact hcfg.2.2.1
  have hN1s : s1.m_numSlots = s.m_numSlots := by rw [hN1, hNa]
  obtain ⟨cands, hc, hfree⟩ := compileCandidates_total s1 hr1 now
    (now + (timeout : Int) * s.m_frameDuration) distance false (s1.m_nss[n]?.getD 0)
    (by rw [hnss1, hN1s]; exact hNSlt) (by rw [hsi1, hN1s]; exact hhle)
  have hcands : reselectCandidates s now distance n timeout = some (s1, key, cands) := by
    unfold reselectCandidates
    simp only [hrel, hc]
  have hfreekey : slotFreeAt s1 (now + (timeout : Int) * s.m_frameDuration) key = true := by
    unfold slotFreeAt
    rw [hslots1, mapFind_mapModify_same, hselected]
    rfl
  have hkeywin : key ∈ windowKeys s1.m_numSlots (s1.m_nss[n]?.getD 0) s1.m_siHalf false := by
    rw [mem_windowKeys _ _ _ _ _ (by rw [hN1s]; exact hNpos), hnss1, hsi1, hN1s]
    have hab := abs_le.mp hd
    exact ⟨d, hab.1, hab.2, fun h => (by cases h), hkey⟩
  have hmem : key ∈ cands := hfree key hkeywin hfreekey
  refine ⟨s1, cands, hcands, hs1, hfreekey, hmem, List.ne_nil_of_mem hmem, ?_⟩
  intro selection hlt
  have hfind : ∀ c ∈ cands, ∃ slot, mapFind s1.m_slots c = some slot := by
    intro c hcm
    exact (scanned_inWindow s1 hr1 n c
      (compileCandidates_scanned s1 now _ distance _ _ cands hc c hcm)).2
  obtain ⟨s2, index, h2⟩ := commitSelection_isSome s1 now cands selection n timeout hlt hfind
  refine ⟨s2, reselectOffset s2.m_numSlots key index, ?_⟩
  unfold ReSelectTransmissionSlotForReservationWithNo
  simp only [hcands, h2]

/-- Witness of C37: the re-selection of reservation 0 of `reservedManager`, bound to slot 1. -/
theorem reselect_always_picks_witness :
    RingOK reservedManager ∧ NominalGeometry reservedManager ∧
    mapFind reservedManager.m_selections 0 = some 1 ∧ InWindow reservedManager 0 1 ∧
    ∃ s1 cands, reselectCandidates reservedManager 0 (fun _ => 0) 0 3 = some (s1, 1, cands) ∧
      s1 = { reservedManager with
        m_slots := mapModify reservedManager.m_slots 1 StdmaSlot.MarkAsFree } ∧
      slotFreeAt s1 (0 + ((3 : Nat) : Int) * reservedManager.m_frameDuration) 1 = true ∧
      1 ∈ cands ∧ cands ≠ [] ∧
      ∀ selection, selection < cands.length →
        ∃ s2 offset, ReSelectTransmissionSlotForReservationWithNo reservedManager 0
          (fun _ => 0) selection 0 3 = some (s2, offset) :=
  ⟨by unfold RingOK; decide, (reachable_reservationInv _ _ reservedManager_reachable).geometry,
    by decide, ((reachable_reservationInv _ _ reservedManager_reachable).bound 0 1 (by decide)).2,
    reselect_always_picks reservedManager reservedManager 0 (fun _ => 0) 0 3 1
      (by unfold RingOK; decide) (reachable_reservationInv _ _ reservedManager_reachable).geometry
      (by decide)
      (by decide) ((reachable_reservationInv _ _ reservedManager_reachable).bound 0 1
        (by decide)).2 (by decide)⟩

/-! ## Claims on the selection windows -/

/-- C36: after `SetReportRate (R)` and `SetSelectionIntervalRatio (ratio)` with a ratio in
`[0, 1]` on a frame of `N` slots, for every `NSS < NI = floor (N / R)` (so `N >= R >= 1`) the
selection windows `{(NSS + m * NI + d) mod N : |d| <= SI/2}` of two different reservation
indices below `R` have no common element; and in every reachable state two reservation
indices bound to the same slot are equal. -/
theorem selection_windows_disjoint (s0 : StdmaSlotManager) (R ratioNum ratioDen NSS : Nat)
    (hle : ratioNum ≤ ratioDen) (hden : 0 < ratioDen) (hNSS : NSS < s0.m_numSlots / R) :
    (SetSelectionIntervalRatio (SetReportRate s0 R) ratioNum ratioDen).m_ni
      = s0.m_numSlots / R ∧
    (SetSelectionIntervalRatio (SetReportRate s0 R) ratioNum ratioDen).m_siHalf
      = (u32sub (s0.m_numSlots / R) 1 * ratioNum) / (2 * ratioDen) ∧
    (∀ (m n : Nat) (d1 d2 : Int), m < R → n < R → m ≠ n →
      |d1| ≤ ((SetSelectionIntervalRatio (SetReportRate s0 R) ratioNum ratioDen).m_siHalf : Int) →
      |d2| ≤ ((SetSelectionIntervalRatio (SetReportRate s0 R) ratioNum ratioDen).m_siHalf : Int) →
      (((NSS + m * (SetSelectionIntervalRatio (SetReportRate s0 R) ratioNum ratioDen).m_ni : Nat)
          : Int) + d1) % (s0.m_numSlots : Int)
        ≠ (((NSS + n * (SetSelectionIntervalRatio (SetReportRate s0 R) ratioNum ratioDen).m_ni
          : Nat) : Int) + d2) % (s0.m_numSlots : Int)) ∧
    (∀ (distance : Vector → Nat) (s : StdmaSlotManager), Reachable distance s →
      ∀ n m key, mapFind s.m_selections n = some key → mapFind s.m_selections m = some key →
        n = m) := by
  have hni : 1 ≤ s0.m_numSlots / R := by omega
  have hwide := siHalf_bound (s0.m_numSlots / R) ratioNum ratioDen hni hle hden
  have hfit : R * (s0.m_numSlots / R) ≤ s0.m_numSlots := Nat.mul_div_le _ _
  refine ⟨rfl, rfl, ?_, ?_⟩
  · intro m n d1 d2 hm hn hne hd1 hd2 heq
    change |d1| ≤ (((u32sub (s0.m_numSlots / R) 1 * ratioNum) / (2 * ratioDen) : Nat) : Int)
      at hd1
    change |d2| ≤ (((u32sub (s0.m_numSlots / R) 1 * ratioNum) / (2 * ratioDen) : Nat) : Int)
      at hd2
    change (((NSS + m * (s0.m_numSlots / R) : Nat) : Int) + d1) % (s0.m_numSlots : Int)
      = (((NSS + n * (s0.m_numSlots / R) : Nat) : Int) + d2) % (s0.m_numSlots : Int) at heq
    rcases Nat.lt_or_gt_of_ne hne with hlt | hgt
    · exact window_disjoint_aux s0.m_numSlots R (s0.m_numSlots / R) _ NSS m n d2 d1 hlt hn hfit
        hwide hd2 hd1 heq.symm
    · exact window_disjoint_aux s0.m_numSlots R (s0.m_numSlots / R) _ NSS n m d1 d2 hgt hm hfit
        hwide hd1 hd2 heq
  · intro distance s hreach n m key h1 h2
    have hinv := reachable_reservationInv distance s hreach
    obtain ⟨hn, hwn⟩ := hinv.bound n key h1
    obtain ⟨hm, hwm⟩ := hinv.bound m key h2
    exact window_disjoint s hinv.geometry n m key hn hm hwn hwm

/-- Witness of C36: eight slots, report rate 2, ratio 1, `NSS = 1`; and the reservation map
of `reservedManager`. -/
theorem selection_windows_disjoint_witness :
    (∀ (m n : Nat) (d1 d2 : Int), m < 2 → n < 2 → m ≠ n →
      |d1| ≤ ((SetSelectionIntervalRatio (SetReportRate (Setup create 0 80 10 4) 2) 1 1).m_siHalf
        : Int) →
      |d2| ≤ ((SetSelectionIntervalRatio (SetReportRate (Setup create 0 80 10 4) 2) 1 1).m_siHalf
        : Int) →
      (((1 + m * (SetSelectionIntervalRatio (SetReportRate (Setup create 0 80 10 4) 2) 1 1).m_ni
          : Nat) : Int) + d1) % ((Setup create 0 80 10 4).m_numSlots : Int)
        ≠ (((1 + n * (SetSelectionIntervalRatio (SetReportRate (Setup create 0 80 10 4) 2) 1 1).m_ni
          : Nat) : Int) + d2) % ((Setup create 0 80 10 4).m_numSlots : Int)) ∧
    ∀ n m key, mapFind reservedManager.m_selections n = some key →
      mapFind reservedManager.m_selections m = some key → n = m :=
  ⟨(selection_windows_disjoint (Setup create 0 80 10 4) 2 1 1 1 (by decide) (by decide)
      (by decide)).2.2.1,
    (selection_windows_disjoint (Setup create 0 80 10 4) 2 1 1 1 (by decide) (by decide)
      (by decide)).2.2.2 (fun _ => 0) reservedManager reservedManager_reachable⟩

/-! ## Claims on the CCA-busy handler -/

theorem markSlotAsBusy_effect (s : StdmaSlotManager) (now : Time) (index : Nat)
    (hring : RingOK s) (hidx : index < s.m_numSlots)
    (hnoage : now < s.m_lastFrameStart + s.m_frameDuration) :
    MarkSlotAsBusy s now index
      = some { s with m_slots := mapModify s.m_slots index StdmaSlot.MarkAsBusy } := by
  unfold MarkSlotAsBusy
  have hage : ageCheck s now = some s := by
    unfold ageCheck
    rw [if_neg (not_le.mpr hnoage)]
  obtain ⟨slot, hslot⟩ := keys_range_find_some _ _ index hring.1 hidx
  simp only [hage, hslot]

theorem markBusyLoop_effect (now : Time) (l : List Nat) :
    ∀ m : StdmaSlotManager, RingOK m → now < m.m_lastFrameStart + m.m_frameDuration →
      (∀ i ∈ l, i < m.m_numSlots) → l.Nodup →
      ∃ m1, StdmaMac.markBusyLoop now l m = some m1 ∧ m1 = { m with m_slots := m1.m_slots } ∧
        ∀ j slot, mapFind m.m_slots j = some slot →
          mapFind m1.m_slots j = some (if j ∈ l then slot.MarkAsBusy else slot) := by
  induction l with
  | nil =>
    intro m _ _ _ _
    refine ⟨m, rfl, rfl, ?_⟩
    intro j slot h
    simpa using h
  | cons i rest ih =>
    intro m hring hnoage hlt hnd
    rw [List.nodup_cons] at hnd
    obtain ⟨m0, hm0⟩ : ∃ m0, m0 = { m with m_slots := mapModify m.m_slots i StdmaSlot.MarkAsBusy } :=
      ⟨_, rfl⟩
    have hstep : MarkSlotAsBusy m now i = some m0 := by
      rw [hm0]
      exact markSlotAsBusy_effect m now i hring (hlt i (List.mem_cons_self _ _)) hnoage
    have hslots0 : m0.m_slots = mapModify m.m_slots i StdmaSlot.MarkAsBusy := by rw [hm0]
    have hN0 : m0.m_numSlots = m.m_numSlots := by rw [hm0]
    have hring0 : RingOK m0 :=
      ringOK_mapModify m hring i StdmaSlot.MarkAsBusy (fun _ => rfl) m0 hslots0 hN0
    have hnoage0 : now < m0.m_lastFrameStart + m0.m_frameDuration := by rw [hm0]; exact hnoage
    obtain ⟨m1, h1, hm1, hfind⟩ := ih m0 hring0 hnoage0
      (fun k hk => by rw [hN0]; exact hlt k (List.mem_cons_of_mem _ hk)) hnd.2
    refine ⟨m1, ?_, ?_, ?_⟩
    · simp only [StdmaMac.markBusyLoop, hstep, h1]
    · rw [hm1, hm0]
    · intro j slot hj
      by_cases hji : j = i
      · subst hji
        have h0 : mapFind m0.m_slots j = some slot.MarkAsBusy := by
          rw [hslots0, mapFind_mapModify_same, hj]
          rfl
        rw [hfind j _ h0, if_neg hnd.1, if_pos (List.mem_cons_self _ _)]
      · have h0 : mapFind m0.m_slots j = some slot := by
          rw [hslots0, mapFind_mapModify_ne _ _ _ _ (Ne.symm hji), hj]
        rw [hfind j _ h0]
        by_cases hjr : j ∈ rest
        · rw [if_pos hjr, if_pos (List.mem_cons_of_mem _ hjr)]
        · rw [if_neg hjr, if_neg (by
            intro hc
            rcases List.mem_cons.mp hc with h | h
            · exact hji h
            · exact hjr h)]

/-- C34 (the code): let no aging be due at `now >= start`, and let `a` and `b` be the indices
that `GetSlotIndexForTimestamp` gives for `now` and for `now + duration - 1 us`.  When
`a <= b`, `HandleMaybeCcaBusyStartNow (duration)` applies `MarkAsBusy` to exactly the slots
`a, ..., b` and changes nothing else.  When `b < a`, which happens when the busy period
crosses the end of the frame, its loop `for (i = a; i <= b; i++)` does not run and no slot is
marked at all. -/
theorem cca_busy_marks_index_range (m : StdmaSlotManager) (now duration : Time) (a b : Nat)
    (hring : RingOK m) (hstart : m.GetStart ≤ now)
    (hnoage : now < m.m_lastFrameStart + m.m_frameDuration)
    (ha : GetSlotIndexForTimestamp m now now = some (m, a))
    (hb : GetSlotIndexForTimestamp m now (now + duration - 1000) = some (m, b))
    (hbN : b < m.m_numSlots) (hN : m.m_numSlots < UINT32_MOD) :
    (a ≤ b → ∃ m1, StdmaMac.HandleMaybeCcaBusyStartNow true m now duration = some m1 ∧
      m1 = { m with m_slots := m1.m_slots } ∧
      ∀ j slot, mapFind m.m_slots j = some slot →
        mapFind m1.m_slots j = some (if a ≤ j ∧ j ≤ b then slot.MarkAsBusy else slot)) ∧
    (b < a → StdmaMac.HandleMaybeCcaBusyStartNow true m now duration = some m) := by
  have hunf : StdmaMac.HandleMaybeCcaBusyStartNow true m now duration
      = StdmaMac.markBusyLoop now (List.range' a (b + 1 - a)) m := by
    unfold StdmaMac.HandleMaybeCcaBusyStartNow
    rw [if_pos ⟨rfl, hstart⟩]
    simp only [ha, hb]
    rw [if_pos (by omega)]
  constructor
  · intro hab
    obtain ⟨m1, h1, hm1, hfind⟩ := markBusyLoop_effect now (List.range' a (b + 1 - a)) m hring
      hnoage (by
        intro i hi
        rw [List.mem_range'_1] at hi
        omega) (List.nodup_range' _ _)
    refine ⟨m1, by rw [hunf, h1], hm1, ?_⟩
    intro j slot hj
    rw [hfind j slot hj]
    by_cases hjr : a ≤ j ∧ j ≤ b
    · rw [if_pos hjr, if_pos (by rw [List.mem_range'_1]; omega)]
    · rw [if_neg hjr, if_neg (by rw [List.mem_range'_1]; omega)]
  · intro hba
    rw [hunf]
    have : b + 1 - a = 0 := by omega
    rw [this]
    rfl

/-- Witness of C34 at the failing input: eight slots of 10 us, `now = 75 us` (inside slot 7),
a busy period of 10 us.  Its last microsecond-shifted instant `84 us` lies in slot 0 of the
next frame; the handler marks nothing, and slot 7, which the period overlaps, stays free. -/
theorem cca_busy_marks_index_range_witness :
    RingOK ccaManager ∧
    GetSlotIndexForTimestamp ccaManager 75000 75000 = some (ccaManager, 7) ∧
    GetSlotIndexForTimestamp ccaManager 75000 (75000 + 10000 - 1000) = some (ccaManager, 0) ∧
    StdmaMac.HandleMaybeCcaBusyStartNow true ccaManager 75000 10000 = some ccaManager ∧
    (mapFind ccaManager.m_slots 7).map (fun slot => (slot.m_state, slot.IsBusy 75000))
      = some (State.FREE, false) :=
  ⟨by unfold RingOK; decide, by decide, by decide,
    (cca_busy_marks_index_range ccaManager 75000 10000 7 0 (by unfold RingOK; decide)
      (by decide) (by decide) (by decide) (by decide) (by decide) (by decide)).2 (by decide),
    by decide⟩

theorem receive_reallocation_call (m_frameDuration : Time) (secondsToTime : ℚ → Time)
    (s : StdmaSlotManager) (now : Time) (from_ : Mac48Address) (hdr : StdmaHeader) (c : Nat)
    (hring : RingOK s) (hN : s.m_numSlots + 65536 ≤ UINT32_MOD)
    (hstart : s.GetStart ≤ now)
    (hnoage : now < s.m_lastFrameStart + s.m_frameDuration)
    (hcur : GetSlotIndexForTimestamp s now now = some (s, c)) (hc : c < s.m_numSlots)
    (hto : hdr.GetTimeout = 0) (hentry : hdr.GetNetworkEntry = false)
    (hoff16 : hdr.GetOffset < 65536) (hoff : hdr.GetOffset < 2 * s.m_numSlots) :
    ∃ slotc m1, s.GetSlot c = some slotc ∧
      (if slotc.m_internal = false then MarkSlotAsFreeAgain s now c else some s) = some m1 ∧
      m1.m_slots = (if slotc.m_internal = false
        then mapModify s.m_slots c StdmaSlot.MarkAsFree else s.m_slots) ∧
      m1.m_numSlots = s.m_numSlots ∧ m1.m_lastFrameStart = s.m_lastFrameStart ∧
      m1.m_frameDuration = s.m_frameDuration ∧ RingOK m1 ∧
      StdmaMac.Receive true m_frameDuration secondsToTime s now from_ hdr
        = m1.MarkSlotAsAllocated now ((c + hdr.GetOffset) % s.m_numSlots) 2 from_
            ⟨⌊hdr.GetLatitude⌋, ⌊hdr.GetLongitude⌋, 0⟩
            (now + secondsToTime
              (Double.toRat
                (Double.mul
                  (Double.div (GetSeconds m_frameDuration) (Double.ofInt (s.m_numSlots : Int)))
                  (Double.ofInt ((hdr.GetOffset : Int) - 1))))) := by
  have hNpos : 0 < s.m_numSlots := by omega
  have hnew : StdmaMac.receiveNewSlot s.m_numSlots c hdr.GetOffset
      = (c + hdr.GetOffset) % s.m_numSlots :=
    receiveNewSlot_mod _ _ _ hc hoff (by omega)
  have hnewlt : (c + hdr.GetOffset) % s.m_numSlots < s.m_numSlots := Nat.mod_lt _ hNpos
  obtain ⟨slotc, hslotc⟩ := keys_range_find_some _ _ _ hring.1 hc
  obtain ⟨m1, hm1, hslots1, hnum1, hlfs1, hfd1, hring1⟩ :
      ∃ m1, (if slotc.m_internal = false then MarkSlotAsFreeAgain s now c else some s) = some m1 ∧
        m1.m_slots = (if slotc.m_internal = false
          then mapModify s.m_slots c StdmaSlot.MarkAsFree else s.m_slots) ∧
        m1.m_numSlots = s.m_numSlots ∧ m1.m_lastFrameStart = s.m_lastFrameStart ∧
        m1.m_frameDuration = s.m_frameDuration ∧ RingOK m1 := by
    by_cases hint : slotc.m_internal = false
    · obtain ⟨m1, h1, h2, h3, h4, h5, h6⟩ := markSlotAsFreeAgain_effect s now c hring hc hnoage
      exact ⟨m1, by rw [if_pos hint]; exact h1, by rw [if_pos hint]; exact h2, h3, h4, h5, h6⟩
    · exact ⟨s, by rw [if_neg hint], by rw [if_neg hint], rfl, rfl, rfl, hring⟩
  have hget : s.GetSlot c = some slotc := hslotc
  refine ⟨slotc, m1, hget, hm1, hslots1, hnum1, hlfs1, hfd1, hring1, ?_⟩
  unfold StdmaMac.Receive
  simp only [Bool.true_eq_false, if_false, not_lt.mpr hstart, hcur, hto, lt_irrefl,
    hentry, GetSlotsPerFrame, hnew, hnewlt, if_true, hget, hm1, hnum1]
  rfl

/-! ## Claims on the window of the network entry -/

theorem entry_details_window (s : StdmaSlotManager) (now : Time) (remaining start : Nat)
    (hN : s.m_numSlots < UINT32_MOD) (hrem16 : remaining < 65536)
    (hend : start + remaining ≤ s.m_numSlots) (slotIndex : Nat)
    (hmem : slotIndex ∈ (List.range' start remaining).filter (entryFree s now start)) :
    1 ≤ u16cast (u32sub remaining (u32sub slotIndex start)) ∧
    u16cast (u32sub remaining (u32sub slotIndex start)) ≤ remaining ∧
    now + ((u32sub slotIndex start : Nat) : Int) * s.m_slotDuration
      = now + ((remaining : Int)
          - ((u16cast (u32sub remaining (u32sub slotIndex start)) : Nat) : Int))
        * s.m_slotDuration := by
  obtain ⟨hrange, _⟩ := List.mem_filter.mp hmem
  rw [List.mem_range'_1] at hrange
  obtain ⟨k, hk⟩ : ∃ k, slotIndex = start + k := ⟨slotIndex - start, by omega⟩
  have hk2 : k < remaining := by omega
  have hoff : u32sub slotIndex start = k := by
    unfold u32sub
    unfold UINT32_MOD at hN ⊢
    omega
  have hleftv : u16cast (u32sub remaining (u32sub slotIndex start)) = remaining - k := by
    rw [hoff]
    unfold u16cast u32sub
    unfold UINT32_MOD
    omega
  rw [hleftv, hoff]
  refine ⟨by omega, by omega, ?_⟩
  have : ((remaining - k : Nat) : Int) = (remaining : Int) - k := by omega
  rw [this]
  ring

/-! ## Claims on the indices read by the network-entry scans -/

theorem entryReads_range (s : StdmaSlotManager) (hring : RingOK s) :
    ∀ (n a : Nat), a ≤ s.m_numSlots →
      entryReads s (List.range' a n) = List.range' a (min n (s.m_numSlots - a + 1)) := by
  intro n
  induction n with
  | zero =>
    intro a _
    simp [entryReads]
  | succ n ih =>
    intro a ha
    rw [List.range'_succ]
    by_cases haN : a < s.m_numSlots
    · obtain ⟨slot, hslot⟩ := keys_range_find_some _ _ a hring.1 haN
      have hidx := (ringOK_find s hring a slot hslot).1
      simp only [entryReads, hslot, hidx, if_true]
      rw [ih (a + 1) (by omega)]
      have : min (n + 1) (s.m_numSlots - a + 1) = min n (s.m_numSlots - (a + 1) + 1) + 1 := by
        omega
      rw [this, List.range'_succ]
    · have hnone := keys_range_find_none _ _ a hring.1 (by omega)
      simp only [entryReads, hnone]
      have : min (n + 1) (s.m_numSlots - a + 1) = 1 := by omega
      rw [this]
      rfl

theorem entryCandidates_missing (s : StdmaSlotManager) (now : Time) (start : Nat) (l : List Nat)
    (h : ∃ i ∈ l, mapFind s.m_slots i = none) : entryCandidates s now start l = none := by
  induction l with
  | nil =>
    obtain ⟨i, hi, _⟩ := h
    cases hi
  | cons a rest ih =>
    unfold entryCandidates
    cases ha : mapFind s.m_slots a with
    | none => rfl
    | some slot =>
      simp only []
      by_cases hidx : slot.m_index = a
      · have hrest : entryCandidates s now start rest = none := by
          apply ih
          obtain ⟨i, hi, hnone⟩ := h
          rcases List.mem_cons.mp hi with h1 | h1
          · rw [h1, ha] at hnone
            cases hnone
          · exact ⟨i, h1, hnone⟩
        rw [if_pos hidx]
        simp only [hrest]
      · rw [if_neg hidx]

theorem freeSlotsReads_takeWhile (s : StdmaSlotManager) (now : Time) (start : Nat)
    (l : List Nat) :
    freeSlotsReads s now start l
      = l.takeWhile (fun i => (mapFind s.m_slots i).isSome && !entryFree s now start i)
        ++ (l.dropWhile
          (fun i => (mapFind s.m_slots i).isSome && !entryFree s now start i)).take 1 := by
  induction l with
  | nil => rfl
  | cons a rest ih =>
    cases ha : mapFind s.m_slots a with
    | none =>
      simp [freeSlotsReads, ha, List.takeWhile, List.dropWhile]
    | some slot =>
      have he : entryFree s now start a = slot.IsFree (entryUntil s now start a) := by
        unfold entryFree
        rw [ha]
      cases hf : slot.IsFree (entryUntil s now start a) with
      | true =>
        rw [hf] at he
        simp [freeSlotsReads, ha, hf, he, List.takeWhile, List.dropWhile]
      | false =>
        rw [hf] at he
        have hc : ((mapFind s.m_slots a).isSome && !entryFree s now start a) = true := by
          rw [ha, he]
          rfl
        simp only [List.takeWhile_cons, List.dropWhile_cons, hc, if_true, List.cons_append]
        rw [← ih]
        simp only [freeSlotsReads, ha, hf]
        rfl

theorem freeSlots_range (s : StdmaSlotManager) (hring : RingOK s) (now : Time) (start : Nat) :
    ∀ (n a : Nat), (∃ i, a ≤ i ∧ i < a + n ∧ entryFree s now start i = true) →
      (∀ j ∈ freeSlotsReads s now start (List.range' a n), j < s.m_numSlots) ∧
      freeSlotsScan s now start (List.range' a n) = some true := by
  intro n
  induction n with
  | zero =>
    rintro a ⟨i, h1, h2, _⟩
    omega
  | succ n ih =>
    rintro a ⟨i, h1, h2, h3⟩
    have hiN : i < s.m_numSlots := by
      unfold entryFree at h3
      cases hf : mapFind s.m_slots i with
      | none => rw [hf] at h3; cases h3
      | some slot => exact (ringOK_find s hring i slot hf).2
    obtain ⟨slot, hslot⟩ := keys_range_find_some _ _ a hring.1 (by omega)
    rw [List.range'_succ]
    by_cases hf : slot.IsFree (entryUntil s now start a) = true
    · simp only [freeSlotsReads, freeSlotsScan, hslot, hf, if_true]
      refine ⟨?_, trivial⟩
      intro j hj
      rw [List.mem_singleton] at hj
      omega
    · have hne : i ≠ a := by
        intro h
        subst h
        unfold entryFree at h3
        rw [hslot] at h3
        exact hf h3
      obtain ⟨r1, r2⟩ := ih (a + 1) ⟨i, by omega, by omega, h3⟩
      simp only [freeSlotsReads, freeSlotsScan, hslot, hf, if_false]
      refine ⟨?_, r2⟩
      intro j hj
      rcases List.mem_cons.mp hj with h | h
      · omega
      · exact r1 j h

/-- C39 (counterexample): on a fresh ring of eight free slots, at time 0 (`start = 0`),
`HasFreeSlotsLeft (20)` dereferences only `m_slots[0]` and returns `true`: every index it reads
is inside the ring although `start + remaining = 20 > 8`. -/
theorem free_slots_scan_stops_at_first_free :
    GetSlotIndexForTimestamp freshManager 0 0 = some (freshManager, 0) ∧
    freeSlotsReads freshManager 0 0 (List.range' 0 (u32add 0 20 - 0)) = [0] ∧
    HasFreeSlotsLeft freshManager 0 20 = some (freshManager, true) ∧
    ¬ (0 + 20 ≤ freshManager.m_numSlots) := by
  decide

/-- C39 (amended): in a well-formed ring of `N` slots with `N + 65536 <= 2^32`, when no aging
is due, for `start` the index of the current slot and a 16-bit `remaining`, both scans run
over the counters `start, ..., start + remaining - 1` without reduction modulo `N`.
`GetNetworkEntryTimestamp` looks up these keys one after the other up to the first key
outside the ring; all keys it reads are inside the ring if and only if
`start + remaining <= N`, and for `start + remaining > N` its lookup assertion fails.
`HasFreeSlotsLeft` reads the same keys, but only up to the first slot that is free or
missing; when one of the slots `start, ..., start + remaining - 1` is free, it reads keys of
the ring only and returns `true`, whatever `start + remaining` is. -/
theorem entry_scans_read_unwrapped (s : StdmaSlotManager) (now : Time) (start remaining : Nat)
    (hring : RingOK s) (hN : s.m_numSlots + 65536 ≤ UINT32_MOD)
    (hnoage : now < s.m_lastFrameStart + s.m_frameDuration)
    (hcur : GetSlotIndexForTimestamp s now now = some (s, start))
    (hstart : start < s.m_numSlots) (hrem16 : remaining < 65536) :
    List.range' start (u32add start remaining - start) = List.range' start remaining ∧
    entryReads s (List.range' start remaining)
      = List.range' start (min remaining (s.m_numSlots - start + 1)) ∧
    ((∀ i ∈ entryReads s (List.range' start remaining), i < s.m_numSlots)
      ↔ start + remaining ≤ s.m_numSlots) ∧
    (s.m_numSlots < start + remaining →
      ∀ (draws : Nat → ℚ) (p : ℚ), GetNetworkEntryTimestamp s now draws remaining p = none) ∧
    freeSlotsReads s now start (List.range' start remaining)
      = (List.range' start remaining).takeWhile
          (fun i => (mapFind s.m_slots i).isSome && !entryFree s now start i)
        ++ ((List.range' start remaining).dropWhile
          (fun i => (mapFind s.m_slots i).isSome && !entryFree s now start i)).take 1 ∧
    ((∃ i, start ≤ i ∧ i < start + remaining ∧ entryFree s now start i = true) →
      (∀ j ∈ freeSlotsReads s now start (List.range' start remaining), j < s.m_numSlots) ∧
      HasFreeSlotsLeft s now remaining = some (s, true)) := by
  have hendv : u32add start remaining - start = remaining := by
    unfold u32add
    unfold UINT32_MOD at hN ⊢
    rw [Nat.mod_eq_of_lt (by omega)]
    omega
  have hreads := entryReads_range s hring remaining start (by omega)
  refine ⟨by rw [hendv], hreads, ?_, ?_, freeSlotsReads_takeWhile s now start _, ?_⟩
  · rw [hreads]
    constructor
    · intro h
      by_contra hcon
      have := h s.m_numSlots (by rw [List.mem_range'_1]; omega)
      omega
    · intro h i hi
      rw [List.mem_range'_1] at hi
      omega
  · intro hgt draws p
    have hage : ageCheck s now = some s := by
      unfold ageCheck
      rw [if_neg (not_le.mpr hnoage)]
    have hnone : entryCandidates s now start (List.range' start remaining) = none :=
      entryCandidates_missing s now start _
        ⟨s.m_numSlots, by rw [List.mem_range'_1]; omega,
          keys_range_find_none _ _ _ hring.1 (le_refl _)⟩
    unfold GetNetworkEntryTimestamp
    simp only [hage, hcur, hendv, hnone]
  · intro hfree
    obtain ⟨r1, r2⟩ := freeSlots_range s hring now start remaining start hfree
    refine ⟨r1, ?_⟩
    unfold HasFreeSlotsLeft
    simp only [hcur, hendv, r2]

/-- Witness of C39: `takenManager` at time 0 (slot 0 is busy, slot 1 is free), three
remaining slots. -/
theorem entry_scans_read_unwrapped_witness :
    RingOK takenManager ∧
    entryReads takenManager (List.range' 0 3) = List.range' 0 (min 3 (takenManager.m_numSlots - 0 + 1)) ∧
    ((∀ i ∈ entryReads takenManager (List.range' 0 3), i < takenManager.m_numSlots)
      ↔ 0 + 3 ≤ takenManager.m_numSlots) ∧
    ((∃ i, 0 ≤ i ∧ i < 0 + 3 ∧ entryFree takenManager 0 0 i = true) →
      (∀ j ∈ freeSlotsReads takenManager 0 0 (List.range' 0 3), j < takenManager.m_numSlots) ∧
      HasFreeSlotsLeft takenManager 0 3 = some (takenManager, true)) :=
  ⟨by unfold RingOK; decide,
    (entry_scans_read_unwrapped takenManager 0 0 3 (by unfold RingOK; decide) (by decide)
      (by decide) (by decide) (by decide) (by decide)).2.1,
    (entry_scans_read_unwrapped takenManager 0 0 3 (by unfold RingOK; decide) (by decide)
      (by decide) (by decide) (by decide) (by decide)).2.2.1,
    (entry_scans_read_unwrapped takenManager 0 0 3 (by unfold RingOK; decide) (by decide)
      (by decide) (by decide) (by decide) (by decide)).2.2.2.2.2⟩

/-! ## The countdown of the internal timeout in every run that completes -/

theorem timeoutState_aging (n key r : Nat) (s s1 : StdmaSlotManager) (now : Time)
    (h : TimeoutState n key r s) (hs1 : UpdateSlotObservations s now = some s1) :
    TimeoutState n key r s1 := by
  obtain ⟨hring, hsel, slot, hslot, hleft⟩ := h
  obtain ⟨hring1, _, hsel1, hfind⟩ := UpdateSlotObservations_effect s s1 now hring hs1
  refine ⟨hring1, ?_, agedSlot now slot, ?_, agedSlot_timeoutLeft now r slot hleft⟩
  · rw [hsel1]
    exact hsel
  · rw [hfind key, hslot]
    rfl

theorem timeoutState_ageCheck (n key r : Nat) (s s1 : StdmaSlotManager) (now : Time)
    (h : TimeoutState n key r s) (hs1 : ageCheck s now = some s1) :
    TimeoutState n key r s1 := by
  unfold ageCheck at hs1
  split_ifs at hs1 with hge
  · exact timeoutState_aging n key r s s1 now h hs1
  · cases hs1
    exact h

theorem timeoutState_query (n key r : Nat) (s s1 : StdmaSlotManager) (now : Time) (b : Bool)
    (h : TimeoutState n key r s) (hrun : NeedsReReservation s now n = some (s1, b)) :
    b = decide (r = 0) ∧ TimeoutState n key r s1 := by
  unfold NeedsReReservation at hrun
  simp only [h.2.1] at hrun
  cases hage : ageCheck s now with
  | none => simp [hage] at hrun
  | some sa =>
    have hinv := timeoutState_ageCheck n key r s sa now h hage
    have hinv0 := hinv
    obtain ⟨_, _, slot1, hslot1, hleft1⟩ := hinv0
    simp only [hage, hslot1, Option.some.injEq, Prod.mk.injEq] at hrun
    obtain ⟨e1, e2⟩ := hrun
    subst e1
    refine ⟨?_, hinv⟩
    rw [← e2, hleft1.1]
    simp

theorem timeoutState_decrease (n key r : Nat) (s s1 : StdmaSlotManager) (now : Time) (v : Nat)
    (h : TimeoutState n key r s) (hr : 0 < r) (h256 : r < 256)
    (hrun : DecreaseTimeOutOfReservationWithNumber s now n = some (s1, v)) :
    v = r - 1 ∧ TimeoutState n key (r - 1) s1 := by
  obtain ⟨hring, hsel, slot, hslot, hleft⟩ := h
  have hguard : slot.m_internal = true ∧ slot.m_internalTimeout > 0 :=
    ⟨hleft.2 hr, by rw [hleft.1]; exact hr⟩
  unfold DecreaseTimeOutOfReservationWithNumber at hrun
  simp only [hsel, hslot, if_pos hguard] at hrun
  cases hage : ageCheck s now with
  | none => simp [hage] at hrun
  | some sa =>
    obtain ⟨hring1, hsel1, slot1, hslot1, hleft1⟩ :=
      timeoutState_ageCheck n key r s sa now ⟨hring, hsel, slot, hslot, hleft⟩ hage
    have hidx : slot1.m_index = key := (ringOK_find sa hring1 key slot1 hslot1).1
    have hdec : u8dec slot1.m_internalTimeout = r - 1 := by
      rw [hleft1.1]
      unfold u8dec
      omega
    simp only [hage, hslot1, hidx, hdec, Option.some.injEq, Prod.mk.injEq] at hrun
    obtain ⟨e1, e2⟩ := hrun
    refine ⟨e2.symm, ?_⟩
    rw [← e1]
    refine ⟨?_, hsel1, (slot1.SetInternalTimeout (r - 1)).SetInternalTimeout (r - 1), ?_, ?_⟩
    · have hmid : RingOK { sa with
          m_slots := (mapModify sa.m_slots key (fun x => x.SetInternalTimeout (r - 1))) } :=
        ringOK_mapModify sa hring1 key (fun x => x.SetInternalTimeout (r - 1))
          (fun _ => rfl) _ rfl rfl
      exact ringOK_mapModify _ hmid key (fun x => x.SetInternalTimeout (r - 1))
        (fun _ => rfl) _ rfl rfl
    · show mapFind (mapModify (mapModify sa.m_slots key _) key _) key = _
      rw [mapFind_mapModify_same, mapFind_mapModify_same, hslot1]
      rfl
    · refine ⟨rfl, ?_⟩
      intro _
      exact hleft1.2 hr

/-- A run with at most `r` decrements that completes returns the expected values. -/
theorem timeoutRun_values (n key : Nat) (evs : List TimeoutEvent) :
    ∀ (r : Nat) (s s1 : StdmaSlotManager) (out : List TimeoutOutput),
      TimeoutState n key r s → r < 256 → decreaseCount evs ≤ r →
      timeoutRun n evs s = some (s1, out) → out = expectedTimeoutTrace r evs := by
  induction evs with
  | nil =>
    intro r s s1 out _ _ _ h
    simp only [timeoutRun, Option.some.injEq, Prod.mk.injEq] at h
    rw [← h.2]
    rfl
  | cons ev rest ih =>
    intro r s s1 out hinv h256 hcount hrun
    cases ev with
    | aging now =>
      simp only [timeoutRun] at hrun
      cases hs : UpdateSlotObservations s now with
      | none => simp [hs] at hrun
      | some sa =>
        simp only [hs] at hrun
        exact ih r sa s1 out (timeoutState_aging n key r s sa now hinv hs) h256 hcount hrun
    | decrease now =>
      have hr : 0 < r := by
        simp only [decreaseCount] at hcount
        omega
      simp only [timeoutRun] at hrun
      cases hs : DecreaseTimeOutOfReservationWithNumber s now n with
      | none => simp [hs] at hrun
      | some res =>
        obtain ⟨sa, v⟩ := res
        obtain ⟨hv, hinv1⟩ := timeoutState_decrease n key r s sa now v hinv hr h256 hs
        simp only [hs] at hrun
        cases hrest : timeoutRun n rest sa with
        | none => simp [hrest] at hrun
        | some res2 =>
          obtain ⟨s2, out2⟩ := res2
          simp only [hrest, Option.some.injEq, Prod.mk.injEq] at hrun
          have := ih (r - 1) sa s2 out2 hinv1 (by omega) (by
            simp only [decreaseCount] at hcount
            omega) hrest
          rw [← hrun.2, this, hv]
          rfl
    | query now =>
      simp only [timeoutRun] at hrun
      cases hs : NeedsReReservation s now n with
      | none => simp [hs] at hrun
      | some res =>
        obtain ⟨sa, b⟩ := res
        obtain ⟨hb, hinv1⟩ := timeoutState_query n key r s sa now b hinv hs
        simp only [hs] at hrun
        cases hrest : timeoutRun n rest sa with
        | none => simp [hrest] at hrun
        | some res2 =>
          obtain ⟨s2, out2⟩ := res2
          simp only [hrest, Option.some.injEq, Prod.mk.injEq] at hrun
          have := ih r sa s2 out2 hinv1 h256 (by
            simp only [decreaseCount] at hcount
            exact hcount) hrest
          rw [← hrun.2, this, hb]
          rfl

/-- C18: the internal timeout of a reservation counts down.  Let reservation `n` be bound to
an internally allocated slot with internal timeout `T < 256` (as left by a selection with
timeout `T`) on a well-formed ring, and take any run of calls of
`DecreaseTimeOutOfReservationWithNumber (n)`, `NeedsReReservation (n)` and
`UpdateSlotObservations` at arbitrary clock readings (aging passes interleaved) with at most
`T` decrements.  Whenever the run completes, that is, whenever no aging pass stops at its
assertion on the collision memory, its values are those of `expectedTimeoutTrace`: the `j`-th
decrement returns `T - j`, and `NeedsReReservation (n)` answers false after fewer than `T`
decrements and true after the `T`-th.  The run does complete when the collision memory holds
the owner of every shared slot. -/
theorem decrease_counts_down (s : StdmaSlotManager) (n key T : Nat) (slot : StdmaSlot)
    (evs : List TimeoutEvent)
    (hring : RingOK s)
    (hsel : mapFind s.m_selections n = some key) (hslot : mapFind s.m_slots key = some slot)
    (hint : slot.m_internal = true) (hT : slot.m_internalTimeout = T)
    (h256 : T < 256) (hcount : decreaseCount evs ≤ T) :
    (∀ s1 out, timeoutRun n evs s = some (s1, out) → out = expectedTimeoutTrace T evs) ∧
    (CollisionsRecorded s → ∃ s1, timeoutRun n evs s = some (s1, expectedTimeoutTrace T evs)) := by
  constructor
  · intro s1 out hrun
    exact timeoutRun_values n key evs T s s1 out ⟨hring, hsel, slot, hslot, hT, fun _ => hint⟩
      h256 hcount hrun
  · intro hcol
    exact timeoutRun_trace n key evs T s ⟨hring, hcol, hsel, slot, hslot, hT, fun _ => hint⟩
      h256 hcount

/-- Witness of C18: reservation 0 of `reservedManager` (slot 1, timeout 5), decremented five
times over five frames with queries and aging passes in between. -/
theorem decrease_counts_down_witness :
    RingOK reservedManager ∧ CollisionsRecorded reservedManager ∧
    mapFind reservedManager.m_selections 0 = some 1 ∧
    mapFind reservedManager.m_slots 1 = some ((StdmaSlot.create 1).MarkAsInternallyAllocated 5) ∧
    decreaseCount [TimeoutEvent.query 0, TimeoutEvent.decrease 0, TimeoutEvent.aging 80,
      TimeoutEvent.decrease 90, TimeoutEvent.query 100, TimeoutEvent.decrease 170,
      TimeoutEvent.decrease 250, TimeoutEvent.decrease 330, TimeoutEvent.query 330,
      TimeoutEvent.aging 400, TimeoutEvent.query 410] ≤ 5 ∧
    expectedTimeoutTrace 5 [TimeoutEvent.query 0, TimeoutEvent.decrease 0, TimeoutEvent.aging 80,
      TimeoutEvent.decrease 90, TimeoutEvent.query 100, TimeoutEvent.decrease 170,
      TimeoutEvent.decrease 250, TimeoutEvent.decrease 330, TimeoutEvent.query 330,
      TimeoutEvent.aging 400, TimeoutEvent.query 410]
      = [TimeoutOutput.needsReReservation false, TimeoutOutput.newValue 4,
        TimeoutOutput.newValue 3, TimeoutOutput.needsReReservation false,
        TimeoutOutput.newValue 2, TimeoutOutput.newValue 1, TimeoutOutput.newValue 0,
        TimeoutOutput.needsReReservation true, TimeoutOutput.needsReReservation true] ∧
    (∀ s1 out, timeoutRun 0 [TimeoutEvent.query 0, TimeoutEvent.decrease 0, TimeoutEvent.aging 80,
      TimeoutEvent.decrease 90, TimeoutEvent.query 100, TimeoutEvent.decrease 170,
      TimeoutEvent.decrease 250, TimeoutEvent.decrease 330, TimeoutEvent.query 330,
      TimeoutEvent.aging 400, TimeoutEvent.query 410] reservedManager = some (s1, out) →
      out = expectedTimeoutTrace 5 [TimeoutEvent.query 0, TimeoutEvent.decrease 0, TimeoutEvent.aging 80,
      TimeoutEvent.decrease 90, TimeoutEvent.query 100, TimeoutEvent.decrease 170,
      TimeoutEvent.decrease 250, TimeoutEvent.decrease 330, TimeoutEvent.query 330,
      TimeoutEvent.aging 400, TimeoutEvent.query 410]) ∧
    ∃ s1, timeoutRun 0 [TimeoutEvent.query 0, TimeoutEvent.decrease 0, TimeoutEvent.aging 80,
      TimeoutEvent.decrease 90, TimeoutEvent.query 100, TimeoutEvent.decrease 170,
      TimeoutEvent.decrease 250, TimeoutEvent.decrease 330, TimeoutEvent.query 330,
      TimeoutEvent.aging 400, TimeoutEvent.query 410] reservedManager
      = some (s1, expectedTimeoutTrace 5 [TimeoutEvent.query 0, TimeoutEvent.decrease 0, TimeoutEvent.aging 80,
      TimeoutEvent.decrease 90, TimeoutEvent.query 100, TimeoutEvent.decrease 170,
      TimeoutEvent.decrease 250, TimeoutEvent.decrease 330, TimeoutEvent.query 330,
      TimeoutEvent.aging 400, TimeoutEvent.query 410]) :=
  ⟨by unfold RingOK; decide, by unfold CollisionsRecorded; decide, by decide, by decide,
    by decide, by decide,
    (decrease_counts_down reservedManager 0 1 5 ((StdmaSlot.create 1).MarkAsInternallyAllocated 5)
      _ (by unfold RingOK; decide) (by decide)
      (by decide) (by decide) (by decide) (by decide) (by decide)).1,
    (decrease_counts_down reservedManager 0 1 5 ((StdmaSlot.create 1).MarkAsInternallyAllocated 5)
      _ (by unfold RingOK; decide) (by decide)
      (by decide) (by decide) (by decide) (by decide) (by decide)).2
      (by unfold CollisionsRecorded; decide)⟩

/-! ## The offset returned by a re-selection -/

/-- C3 (amended): in a well-formed ring of `N` slots with `2 * N <= 2^32`, a call of
`ReSelectTransmissionSlotForReservationWithNo (n, timeout)` that moves reservation `n` from
the slot with index `oldIndex` to the slot with index `newIndex` (both below `N`) returns
`N + newIndex - oldIndex`, the distance from the old slot to the new slot of the next frame.
The value lies in `[1, 2 * N - 1]`, it is below `N` exactly when `newIndex < oldIndex`, its
residue modulo `N` is `(newIndex - oldIndex + N) mod N`, and `oldIndex` advanced by it is
`newIndex` modulo `N`. -/
theorem reselect_offset_reaches_next_frame (s s2 : StdmaSlotManager) (now : Time)
    (distance : Vector → Nat) (selection n timeout offset : Nat) (hring : RingOK s)
    (hN : 2 * s.m_numSlots ≤ UINT32_MOD)
    (hrun : ReSelectTransmissionSlotForReservationWithNo s now distance selection n timeout
      = some (s2, offset)) :
    ∃ oldIndex newIndex, mapFind s.m_selections n = some oldIndex ∧
      mapFind s2.m_selections n = some newIndex ∧
      oldIndex < s.m_numSlots ∧ newIndex < s.m_numSlots ∧
      offset = s.m_numSlots + newIndex - oldIndex ∧
      1 ≤ offset ∧ offset ≤ 2 * s.m_numSlots - 1 ∧
      (offset < s.m_numSlots ↔ newIndex < oldIndex) ∧
      offset % s.m_numSlots = (newIndex + s.m_numSlots - oldIndex) % s.m_numSlots ∧
      (oldIndex + offset) % s.m_numSlots = newIndex := by
  unfold ReSelectTransmissionSlotForReservationWithNo at hrun
  cases hc : reselectCandidates s now distance n timeout with
  | none => simp [hc] at hrun
  | some r =>
    obtain ⟨s1, oldIndex, cands⟩ := r
    simp only [hc] at hrun
    cases hcm : commitSelection s1 now cands selection n timeout with
    | none => simp [hcm] at hrun
    | some r2 =>
      obtain ⟨s2', newIndex⟩ := r2
      simp only [hcm, Option.some.injEq, Prod.mk.injEq] at hrun
      obtain ⟨e1, e2⟩ := hrun
      subst e1
      obtain ⟨hrel, hr1, hcfg1, _, hcand⟩ := reselectCandidates_effect s s1 now distance n
        timeout oldIndex cands hring hc
      obtain ⟨_, hold, sa, x, hage, hx, hs1⟩ := releaseOld_effect s s1 now n oldIndex hring hrel
      obtain ⟨hmem, _, _, hsel2, hcfg2⟩ :=
        commitSelection_effect s1 s2' now cands selection n timeout newIndex hcm
      obtain ⟨hra, hcfga, _, _⟩ := ageCheck_effect s sa now hring hage
      have hN1 : s1.m_numSlots = s.m_numSlots := hcfg1.1
      have hN2 : s2'.m_numSlots = s.m_numSlots := by rw [hcfg2.1, hN1]
      have holdlt : oldIndex < s.m_numSlots := by
        have := (ringOK_find sa hra oldIndex x hx).2
        rw [hcfga.1] at this
        exact this
      have hnewlt : newIndex < s.m_numSlots := by
        obtain ⟨slot, hslot⟩ := (hcand newIndex hmem).2
        have := (ringOK_find s1 hr1 newIndex slot hslot).2
        rw [hN1] at this
        exact this
      have hoff : offset = s.m_numSlots + newIndex - oldIndex := by
        rw [← e2, hN2]
        exact reselectOffset_eq _ _ _ holdlt hnewlt hN
      refine ⟨oldIndex, newIndex, hold, ?_, holdlt, hnewlt, hoff, by omega, by omega, by omega,
        ?_, ?_⟩
      · rw [hsel2]
        exact mapFind_mapInsert_same _ _ _
      · rw [hoff]
        congr 1
        omega
      · rw [hoff]
        have : oldIndex + (s.m_numSlots + newIndex - oldIndex) = newIndex + s.m_numSlots := by
          omega
        rw [this, Nat.add_mod_right]
        exact Nat.mod_eq_of_lt hnewlt

/-- Witness of C3 (amended): the re-selection of reservation 0 of `reservedManager` (old slot 1)
with the third candidate drawn (new slot 2) returns `8 + 2 - 1 = 9`. -/
theorem reselect_offset_reaches_next_frame_witness :
    RingOK reservedManager ∧ 2 * reservedManager.m_numSlots ≤ UINT32_MOD ∧
    (ReSelectTransmissionSlotForReservationWithNo reservedManager 0 (fun _ => 0) 2 0 3).map
      Prod.snd = some 9 ∧
    ∃ oldIndex newIndex, mapFind reservedManager.m_selections 0 = some oldIndex ∧
      mapFind (((ReSelectTransmissionSlotForReservationWithNo reservedManager 0 (fun _ => 0) 2 0
        3).map Prod.fst).getD create).m_selections 0 = some newIndex ∧
      oldIndex < reservedManager.m_numSlots ∧ newIndex < reservedManager.m_numSlots ∧
      9 = reservedManager.m_numSlots + newIndex - oldIndex ∧
      1 ≤ 9 ∧ 9 ≤ 2 * reservedManager.m_numSlots - 1 ∧
      (9 < reservedManager.m_numSlots ↔ newIndex < oldIndex) ∧
      9 % reservedManager.m_numSlots
        = (newIndex + reservedManager.m_numSlots - oldIndex) % reservedManager.m_numSlots ∧
      (oldIndex + 9) % reservedManager.m_numSlots = newIndex :=
  ⟨by unfold RingOK; decide, by decide, by decide,
    reselect_offset_reaches_next_frame reservedManager
      (((ReSelectTransmissionSlotForReservationWithNo reservedManager 0 (fun _ => 0) 2 0
        3).map Prod.fst).getD create) 0 (fun _ => 0) 2 0 3 9 (by unfold RingOK; decide)
      (by decide) (by decide)⟩

/-! ## A reception at a frame boundary -/

/-- The branch of `StdmaMac::Receive` for a packet with `timeout > 0` on a started MAC whose
manager has started: the slot index of `now` is computed (with the frame-boundary update that
is due), then the current and the next slot are marked. -/
theorem receive_timeout_call (m_frameDuration : Time) (secondsToTime : ℚ → Time)
    (s : StdmaSlotManager) (now : Time) (from_ : Mac48Address) (hdr : StdmaHeader)
    (hstart : s.GetStart ≤ now) (hto : hdr.GetTimeout > 0) :
    StdmaMac.Receive true m_frameDuration secondsToTime s now from_ hdr
      = (GetSlotIndexForTimestamp s now now).bind (fun r =>
          (r.1.MarkSlotAsAllocated now r.2 hdr.GetTimeout from_
            ⟨⌊hdr.GetLatitude⌋, ⌊hdr.GetLongitude⌋, 0⟩ 0).bind (fun m1 =>
              m1.MarkSlotAsAllocated now
                (StdmaMac.receiveNext r.1.GetSlotsPerFrame r.2 hdr.GetOffset) 1 from_
                ⟨⌊hdr.GetLatitude⌋, ⌊hdr.GetLongitude⌋, 0⟩ 0)) := by
  unfold StdmaMac.Receive
  simp only [Bool.true_eq_false, if_false, not_lt.mpr hstart, hto, if_true]
  cases h : GetSlotIndexForTimestamp s now now with
  | none => rfl
  | some r =>
    obtain ⟨m0, c⟩ := r
    simp only [Option.bind]
    cases h1 : m0.MarkSlotAsAllocated now c hdr.GetTimeout from_
        ⟨⌊hdr.GetLatitude⌋, ⌊hdr.GetLongitude⌋, 0⟩ 0 with
    | none => rfl
    | some m1 => rfl

/-- C22 (counterexample to "no other slot changes"): `exampleManager` (four slots of 10 ns,
frame 0 .. 40 ns, slot 3 allocated by station 171 with timeout 8) receives at 45 ns, in the
first call of the next frame, a packet of station 205 with timeout 3 and offset 1.  The
current slot is 0 and the next slot is 1, `Receive` completes, and slot 3, which is neither,
has changed: the frame-boundary update made by the slot-index computation counted its timeout
down from 8 to 7. -/
theorem receive_at_frame_boundary_ages_other_slots :
    exampleManager.m_lastFrameStart + exampleManager.m_frameDuration ≤ 45 ∧
    (GetSlotIndexForTimestamp exampleManager 45 45).map Prod.snd = some 0 ∧
    0 < exampleManager.m_numSlots ∧
    ((StdmaHeader.create.SetOffset 1).SetTimeout 3).GetTimeout > 0 ∧
    0 + ((StdmaHeader.create.SetOffset 1).SetTimeout 3).GetOffset
      < 2 * exampleManager.m_numSlots ∧
    (0 + ((StdmaHeader.create.SetOffset 1).SetTimeout 3).GetOffset)
      % exampleManager.m_numSlots = 1 ∧
    (exampleManager.GetSlot 3).map (fun slot => slot.m_timeout) = some 8 ∧
    ∃ s1, StdmaMac.Receive true 40 (fun _ => 0) exampleManager 45 205
        ((StdmaHeader.create.SetOffset 1).SetTimeout 3) = some s1 ∧
      (s1.GetSlot 0).map (fun slot => (slot.m_state, slot.m_owner)) = some (State.ALLOCATED, 205) ∧
      (s1.GetSlot 1).map (fun slot => (slot.m_state, slot.m_owner)) = some (State.ALLOCATED, 205) ∧
      (s1.GetSlot 3).map (fun slot => slot.m_timeout) = some 7 ∧
      s1.GetSlot 3 ≠ exampleManager.GetSlot 3 := by
  refine ⟨by decide, by decide, by decide, by decide, by decide, by decide, by decide, ?_⟩
  have hrun := receive_timeout_call 40 (fun _ => 0) exampleManager 45 205
    ((StdmaHeader.create.SetOffset 1).SetTimeout 3) (by decide) (by decide)
  have hlat : ⌊((StdmaHeader.create.SetOffset 1).SetTimeout 3).GetLatitude⌋ = 0 := by
    have : ((StdmaHeader.create.SetOffset 1).SetTimeout 3).GetLatitude = 0 := rfl
    rw [this, Int.floor_zero]
  have hlon : ⌊((StdmaHeader.create.SetOffset 1).SetTimeout 3).GetLongitude⌋ = 0 := by
    have : ((StdmaHeader.create.SetOffset 1).SetTimeout 3).GetLongitude = 0 := rfl
    rw [this, Int.floor_zero]
  rw [hlat, hlon] at hrun
  have hsome : ((GetSlotIndexForTimestamp exampleManager 45 45).bind (fun r =>
          (r.1.MarkSlotAsAllocated 45 r.2 ((StdmaHeader.create.SetOffset 1).SetTimeout 3).GetTimeout
            205 ⟨0, 0, 0⟩ 0).bind (fun m1 =>
              m1.MarkSlotAsAllocated 45
                (StdmaMac.receiveNext r.1.GetSlotsPerFrame r.2
                  ((StdmaHeader.create.SetOffset 1).SetTimeout 3).GetOffset) 1 205
                ⟨0, 0, 0⟩ 0))).isSome = true := by decide
  obtain ⟨s1, hs1⟩ := Option.isSome_iff_exists.mp hsome
  refine ⟨s1, hrun.trans hs1, ?_, ?_, ?_, ?_⟩
  · have h : (((GetSlotIndexForTimestamp exampleManager 45 45).bind (fun r =>
          (r.1.MarkSlotAsAllocated 45 r.2 ((StdmaHeader.create.SetOffset 1).SetTimeout 3).GetTimeout
            205 ⟨0, 0, 0⟩ 0).bind (fun m1 =>
              m1.MarkSlotAsAllocated 45
                (StdmaMac.receiveNext r.1.GetSlotsPerFrame r.2
                  ((StdmaHeader.create.SetOffset 1).SetTimeout 3).GetOffset) 1 205
                ⟨0, 0, 0⟩ 0))).bind (fun s1 => (s1.GetSlot 0).map
                  (fun slot => (slot.m_state, slot.m_owner)))) = some (State.ALLOCATED, 205) := by
      decide
    rw [hs1] at h
    exact h
  · have h : (((GetSlotIndexForTimestamp exampleManager 45 45).bind (fun r =>
          (r.1.MarkSlotAsAllocated 45 r.2 ((StdmaHeader.create.SetOffset 1).SetTimeout 3).GetTimeout
            205 ⟨0, 0, 0⟩ 0).bind (fun m1 =>
              m1.MarkSlotAsAllocated 45
                (StdmaMac.receiveNext r.1.GetSlotsPerFrame r.2
                  ((StdmaHeader.create.SetOffset 1).SetTimeout 3).GetOffset) 1 205
                ⟨0, 0, 0⟩ 0))).bind (fun s1 => (s1.GetSlot 1).map
                  (fun slot => (slot.m_state, slot.m_owner)))) = some (State.ALLOCATED, 205) := by
      decide
    rw [hs1] at h
    exact h
  · have h : (((GetSlotIndexForTimestamp exampleManager 45 45).bind (fun r =>
          (r.1.MarkSlotAsAllocated 45 r.2 ((StdmaHeader.create.SetOffset 1).SetTimeout 3).GetTimeout
            205 ⟨0, 0, 0⟩ 0).bind (fun m1 =>
              m1.MarkSlotAsAllocated 45
                (StdmaMac.receiveNext r.1.GetSlotsPerFrame r.2
                  ((StdmaHeader.create.SetOffset 1).SetTimeout 3).GetOffset) 1 205
                ⟨0, 0, 0⟩ 0))).bind (fun s1 => (s1.GetSlot 3).map
                  (fun slot => slot.m_timeout))) = some 7 := by
      decide
    rw [hs1] at h
    exact h
  · have h : (((GetSlotIndexForTimestamp exampleManager 45 45).bind (fun r =>
          (r.1.MarkSlotAsAllocated 45 r.2 ((StdmaHeader.create.SetOffset 1).SetTimeout 3).GetTimeout
            205 ⟨0, 0, 0⟩ 0).bind (fun m1 =>
              m1.MarkSlotAsAllocated 45
                (StdmaMac.receiveNext r.1.GetSlotsPerFrame r.2
                  ((StdmaHeader.create.SetOffset 1).SetTimeout 3).GetOffset) 1 205
                ⟨0, 0, 0⟩ 0))).bind (fun s1 => (s1.GetSlot 3).map
                  (fun slot => slot.m_timeout))) = some 7 := by
      decide
    rw [hs1] at h
    have h2 : (s1.GetSlot 3).map (fun slot => slot.m_timeout) = some 7 := h
    intro heq
    rw [heq] at h2
    revert h2
    decide

/-! ## The keys of the distance map and the padding of the candidate list -/

theorem freeDistance_range (m : List (Nat × Nat)) :
    ∀ (fuel d : Nat), d ≤ freeDistance m fuel d ∧
      ∀ k, d ≤ k → k < freeDistance m fuel d → (mapFind m k).isSome = true := by
  intro fuel
  induction fuel with
  | zero =>
    intro d
    refine ⟨le_refl _, ?_⟩
    intro k h1 h2
    simp only [freeDistance] at h2
    omega
  | succ fuel ih =>
    intro d
    unfold freeDistance
    by_cases hd : (mapFind m d).isSome = true
    · rw [if_pos hd]
      obtain ⟨h1, h2⟩ := ih (d + 1)
      refine ⟨by omega, ?_⟩
      intro k hk1 hk2
      by_cases hk : k = d
      · rw [hk]; exact hd
      · exact h2 k (by omega) hk2
    · rw [if_neg hd]
      refine ⟨le_refl _, ?_⟩
      intro k h1 h2
      omega

theorem mapInsert_length_fresh {α : Type} (m : List (Nat × α)) (k : Nat) (v : α)
    (h : mapFind m k = none) : (mapInsert m k v).length = m.length + 1 := by
  induction m with
  | nil => simp [mapInsert]
  | cons q rest ih =>
    obtain ⟨k0, v0⟩ := q
    simp only [mapFind] at h
    split_ifs at h with hk
    simp only [mapInsert]
    split_ifs with h1
    · simp
    · simp [ih h]

theorem scannedBefore_append (l : List Nat) (a i j : Nat) (h : ScannedBefore l i j) :
    ScannedBefore (l ++ [a]) i j := by
  obtain ⟨l1, l2, h1, h2⟩ := h
  exact ⟨l1, l2 ++ [a], by rw [h1]; simp, h2⟩

theorem scannedBefore_filter (P : Nat → Bool) (l : List Nat) (i j : Nat)
    (h : ScannedBefore (l.filter P) i j) : ScannedBefore l i j := by
  induction l with
  | nil =>
    obtain ⟨l1, l2, h1, _⟩ := h
    simp at h1
  | cons a rest ih =>
    obtain ⟨l1, l2, h1, h2⟩ := h
    by_cases ha : P a = true
    · rw [List.filter_cons_of_pos ha] at h1
      cases l1 with
      | nil => cases h2
      | cons b l1 =>
        simp only [List.cons_append, List.cons.injEq] at h1
        obtain ⟨hab, hrest⟩ := h1
        rcases List.mem_cons.mp h2 with hi | hi
        · -- i = b = a, and j occurs in the rest
          have hj : j ∈ rest := by
            have : j ∈ rest.filter P := by rw [hrest]; simp
            exact (List.mem_filter.mp this).1
          obtain ⟨r1, r2, hr⟩ := List.append_of_mem hj
          refine ⟨a :: r1, r2, by rw [hr]; rfl, ?_⟩
          rw [hi, ← hab]
          exact List.mem_cons_self _ _
        · obtain ⟨r1, r2, hr, hir⟩ := ih ⟨l1, l2, hrest, hi⟩
          exact ⟨a :: r1, r2, by rw [hr]; rfl, List.mem_cons_of_mem _ hir⟩
    · rw [List.filter_cons_of_neg ha] at h1
      obtain ⟨r1, r2, hr, hir⟩ := ih ⟨l1, l2, h1, h2⟩
      exact ⟨a :: r1, r2, by rw [hr]; rfl, List.mem_cons_of_mem _ hir⟩

/-- The scan keeps the rule of the keys: entering the slots `l` after the slots `pre`. -/
theorem usedFold_keyRule (s : StdmaSlotManager) (distance : Vector → Nat) (l : List Nat) :
    ∀ (pre : List Nat) (m : List (Nat × Nat)), KeyRule s distance pre m →
      KeyRule s distance (pre ++ l) (usedFold s distance l m) := by
  induction l with
  | nil =>
    intro pre m h
    rw [List.append_nil]
    exact h
  | cons a rest ih =>
    intro pre m h
    have hunf : usedFold s distance (a :: rest) m = usedFold s distance rest (mapInsert m
      (freeDistance m (m.length + 1) (ownerDistance s distance a)) a) := rfl
    have happ : pre ++ a :: rest = (pre ++ [a]) ++ rest := by simp
    rw [hunf, happ]
    apply ih
    obtain ⟨hsorted, hlen, hall, hrule⟩ := h
    have hfresh := freeDistance_fresh m (ownerDistance s distance a)
    obtain ⟨hge, hbetween⟩ := freeDistance_range m (m.length + 1) (ownerDistance s distance a)
    obtain ⟨i1, i2⟩ := mem_mapInsert_fresh m _ a hfresh
    refine ⟨mapInsert_keys_sorted m _ _ hsorted, ?_, ?_, ?_⟩
    · rw [mapInsert_length_fresh m _ a hfresh, hlen]
      simp
    · intro j hj
      rcases List.mem_append.mp hj with hj | hj
      · obtain ⟨k, hk⟩ := hall j hj
        exact ⟨k, i2 _ hk⟩
      · rw [List.mem_singleton] at hj
        rw [hj]
        exact ⟨_, i1⟩
    · intro p hp
      rcases mem_mapInsert _ _ _ _ hp with hp | hp
      · rw [hp]
        refine ⟨by simp, hge, ?_⟩
        intro d hd1 hd2
        have hsome := hbetween d hd1 hd2
        cases hf : mapFind m d with
        | none => rw [hf] at hsome; cases hsome
        | some i =>
          have hmem := mapFind_mem m d i hf
          exact ⟨i, i2 _ hmem, pre, [], rfl, (hrule _ hmem).1⟩
      · obtain ⟨h1, h2, h3⟩ := hrule p hp
        refine ⟨List.mem_append_left _ h1, h2, ?_⟩
        intro d hd1 hd2
        obtain ⟨i, hi1, hi2⟩ := h3 d hd1 hd2
        exact ⟨i, i2 _ hi1, scannedBefore_append pre a i p.2 hi2⟩

/-- C33 (amended): in a well-formed ring, for a nominal slot `NS < N`, `2 * SI/2 < N` and
`now <= until`, let `free` be the scanned slots with `IsFree (until)` in scan order.  There
is a map `used` from keys to slots (the distance map of the scan) and a list `pad` such that:
the keys of `used` are strictly ascending; its slots are the scanned slots that are
effectively externally allocated and not internally allocated, each once; the key of a slot
is at least the distance of its owner, and every value from this distance up to the key is
the key of a slot scanned earlier (the distance was raised in steps of the tie-break
increment while it was taken); `pad` is the list of the slots of `used` in decreasing key
order whose owner is not in the collision memory; the candidate list is `free` followed by
the first `min_candidates - |free|` slots of `pad`, and it is `free` when
`|free| >= min_candidates`; a candidate whose owner is in the collision memory is free.  If
the scanned externally allocated slots have pairwise different owner distances, every key is
the distance of the owner and `pad` is in strictly decreasing owner distance. -/
theorem candidate_padding (s : StdmaSlotManager) (hring : RingOK s) (now until_ : Time)
    (hnu : now ≤ until_) (distance : Vector → Nat) (skip : Bool) (NS : Nat)
    (hNS : NS < s.m_numSlots) (hh : 2 * s.m_siHalf < s.m_numSlots)
    (hmin : s.m_mininumCandidates < UINT32_MOD) :
    ∃ (used : List (Nat × Nat)) (pad : List Nat),
      (used.map Prod.fst).Sorted (· < ·) ∧
      (used.map Prod.snd).Perm
        ((windowKeys s.m_numSlots NS s.m_siHalf skip).filter (slotExternalAt s now)) ∧
      (∀ p ∈ used, ownerDistance s distance p.2 ≤ p.1 ∧
        ∀ d, ownerDistance s distance p.2 ≤ d → d < p.1 →
          ∃ i, (d, i) ∈ used ∧
            ScannedBefore (windowKeys s.m_numSlots NS s.m_siHalf skip) i p.2) ∧
      pad = (used.reverse.map Prod.snd).filter (fun j => !ownerCollides s j) ∧
      (∀ j, j ∈ pad ↔ j ∈ windowKeys s.m_numSlots NS s.m_siHalf skip ∧
        slotExternalAt s now j = true ∧ ownerCollides s j = false) ∧
      pad.Nodup ∧
      compileCandidates s now until_ distance skip NS =
        some ((windowKeys s.m_numSlots NS s.m_siHalf skip).filter (slotFreeAt s until_) ++
          pad.take (s.m_mininumCandidates
            - ((windowKeys s.m_numSlots NS s.m_siHalf skip).filter
                (slotFreeAt s until_)).length)) ∧
      (s.m_mininumCandidates
          ≤ ((windowKeys s.m_numSlots NS s.m_siHalf skip).filter (slotFreeAt s until_)).length →
        compileCandidates s now until_ distance skip NS =
          some ((windowKeys s.m_numSlots NS s.m_siHalf skip).filter (slotFreeAt s until_))) ∧
      (∀ c ∈ (windowKeys s.m_numSlots NS s.m_siHalf skip).filter (slotFreeAt s until_) ++
          pad.take (s.m_mininumCandidates
            - ((windowKeys s.m_numSlots NS s.m_siHalf skip).filter
                (slotFreeAt s until_)).length),
        ownerCollides s c = true → slotFreeAt s until_ c = true) ∧
      ((∀ i ∈ windowKeys s.m_numSlots NS s.m_siHalf skip,
          ∀ j ∈ windowKeys s.m_numSlots NS s.m_siHalf skip,
            slotExternalAt s now i = true → slotExternalAt s now j = true →
            ownerDistance s distance i = ownerDistance s distance j → i = j) →
        (∀ p ∈ used, p.1 = ownerDistance s distance p.2) ∧
        pad.Pairwise (fun a b => ownerDistance s distance a > ownerDistance s distance b)) := by
  have hspec := compileCandidates_spec s hring now until_ distance skip NS hNS (by omega) hmin
  generalize hkeys : windowKeys s.m_numSlots NS s.m_siHalf skip = keys at *
  have hnd : keys.Nodup := by
    rw [← hkeys]
    exact windowKeys_nodup _ _ _ skip hh
  have hfilt : keys.filter (fun j => !slotFreeAt s until_ j && slotExternalAt s now j)
      = keys.filter (slotExternalAt s now) := by
    apply List.filter_congr
    intro j _
    cases he : slotExternalAt s now j
    · simp
    · rw [external_not_free s now until_ hnu j he]
      rfl
  rw [hfilt] at hspec
  have hrule := usedFold_keyRule s distance (keys.filter (slotExternalAt s now)) [] []
    ⟨List.sorted_nil, rfl, fun j hj => (by cases hj), fun p hp => (by cases hp)⟩
  rw [List.nil_append] at hrule
  have hplainOf := usedFold_plain s distance (keys.filter (slotExternalAt s now)) []
    (fun j _ => rfl)
  have hfilterOf : ∀ i j, ScannedBefore (keys.filter (slotExternalAt s now)) i j →
      ScannedBefore keys i j := scannedBefore_filter _ keys
  generalize hext : keys.filter (slotExternalAt s now) = ext at *
  have hextmem : ∀ j, j ∈ ext ↔ j ∈ keys ∧ slotExternalAt s now j = true := by
    intro j
    rw [← hext, List.mem_filter]
  have hnde : ext.Nodup := by
    rw [← hext]
    exact hnd.filter _
  generalize hused : usedFold s distance ext [] = used at *
  obtain ⟨hsorted, hlen, hall, hprops⟩ := hrule
  have hperm : (used.map Prod.snd).Perm ext := by
    have hsub : ext ⊆ used.map Prod.snd := by
      intro j hj
      obtain ⟨k, hk⟩ := hall j hj
      exact List.mem_map.mpr ⟨(k, j), hk, rfl⟩
    have hsp := List.subperm_of_subset hnde hsub
    exact (hsp.perm_of_length_le (by rw [List.length_map, hlen])).symm
  have hpadmem : ∀ j, j ∈ (used.reverse.map Prod.snd).filter (fun j => !ownerCollides s j) ↔
      j ∈ keys ∧ slotExternalAt s now j = true ∧ ownerCollides s j = false := by
    intro j
    rw [List.mem_filter, List.map_reverse, List.mem_reverse, hperm.mem_iff, hextmem]
    constructor
    · rintro ⟨⟨h1, h2⟩, h3⟩
      refine ⟨h1, h2, ?_⟩
      cases h : ownerCollides s j
      · rfl
      · rw [h] at h3
        cases h3
    · rintro ⟨h1, h2, h3⟩
      refine ⟨⟨h1, h2⟩, ?_⟩
      rw [h3]
      rfl
  refine ⟨used, (used.reverse.map Prod.snd).filter (fun j => !ownerCollides s j), hsorted,
    hperm, ?_, rfl, hpadmem, ?_, hspec, ?_, ?_, ?_⟩
  · intro p hp
    obtain ⟨_, h2, h3⟩ := hprops p hp
    refine ⟨h2, ?_⟩
    intro d hd1 hd2
    obtain ⟨i, hi1, hi2⟩ := h3 d hd1 hd2
    exact ⟨i, hi1, hfilterOf i p.2 hi2⟩
  · apply List.Nodup.filter
    rw [List.map_reverse, List.nodup_reverse]
    exact hperm.nodup_iff.mpr hnde
  · intro hle
    rw [hspec]
    have : s.m_mininumCandidates - (keys.filter (slotFreeAt s until_)).length = 0 := by omega
    rw [this, List.take_zero, List.append_nil]
  · intro c hc hcol
    rcases List.mem_append.mp hc with h | h
    · exact (List.mem_filter.mp h).2
    · have := List.mem_of_mem_take h
      rw [List.mem_filter, hcol] at this
      cases this.2
  · intro hdist
    have hpw : ext.Pairwise
        (fun a b => ownerDistance s distance a ≠ ownerDistance s distance b) := by
      refine List.Pairwise.imp_of_mem ?_ hnde
      intro a b ha hb hne heq
      exact hne (hdist a ((hextmem a).mp ha).1 b ((hextmem b).mp hb).1 ((hextmem a).mp ha).2
        ((hextmem b).mp hb).2 heq)
    have hplain := hplainOf hpw
    have hpm : ∀ p ∈ used, p.1 = ownerDistance s distance p.2 := by
      intro p hp
      rw [hplain] at hp
      rcases foldl_keyed_mem (ownerDistance s distance) ext [] p hp with h | h
      · cases h
      · exact h.2
    refine ⟨hpm, ?_⟩
    apply List.Pairwise.filter
    rw [List.pairwise_map, List.pairwise_reverse]
    have h1 : used.Pairwise (fun p q => p.1 < q.1) := by
      have := hsorted
      unfold List.Sorted at this
      rw [List.pairwise_map] at this
      exact this
    refine List.Pairwise.imp_of_mem ?_ h1
    intro p q hp hq hlt
    show ownerDistance s distance q.2 > ownerDistance s distance p.2
    rw [← hpm p hp, ← hpm q hq]
    exact hlt

/-- Witness of C33 (amended): the scan of `tieManager` around nominal slot 1 visits the slots
0, 1, 2, all externally allocated, with owners at the distances 0, 1, 0; no slot is free and
four candidates are wanted, so the candidate list is the padding `[2, 1, 0]` in decreasing key
order (keys 2, 1, 0: the key of slot 2 was raised twice). -/
theorem candidate_padding_witness :
    RingOK tieManager ∧ (0 : Time) ≤ 240 ∧ 1 < tieManager.m_numSlots ∧
    2 * tieManager.m_siHalf < tieManager.m_numSlots ∧
    tieManager.m_mininumCandidates < UINT32_MOD ∧
    compileCandidates tieManager 0 240 (fun v => v.x.toNat) false 1 = some [2, 1, 0] ∧
    ∃ (used : List (Nat × Nat)) (pad : List Nat),
      (used.map Prod.fst).Sorted (· < ·) ∧
      (used.map Prod.snd).Perm
        ((windowKeys tieManager.m_numSlots 1 tieManager.m_siHalf false).filter
          (slotExternalAt tieManager 0)) ∧
      (∀ p ∈ used, ownerDistance tieManager (fun v => v.x.toNat) p.2 ≤ p.1 ∧
        ∀ d, ownerDistance tieManager (fun v => v.x.toNat) p.2 ≤ d → d < p.1 →
          ∃ i, (d, i) ∈ used ∧
            ScannedBefore (windowKeys tieManager.m_numSlots 1 tieManager.m_siHalf false) i p.2) ∧
      pad = (used.reverse.map Prod.snd).filter (fun j => !ownerCollides tieManager j) ∧
      (∀ j, j ∈ pad ↔ j ∈ windowKeys tieManager.m_numSlots 1 tieManager.m_siHalf false ∧
        slotExternalAt tieManager 0 j = true ∧ ownerCollides tieManager j = false) ∧
      pad.Nodup ∧
      compileCandidates tieManager 0 240 (fun v => v.x.toNat) false 1 =
        some ((windowKeys tieManager.m_numSlots 1 tieManager.m_siHalf false).filter
            (slotFreeAt tieManager 240) ++
          pad.take (tieManager.m_mininumCandidates
            - ((windowKeys tieManager.m_numSlots 1 tieManager.m_siHalf false).filter
                (slotFreeAt tieManager 240)).length)) ∧
      (tieManager.m_mininumCandidates
          ≤ ((windowKeys tieManager.m_numSlots 1 tieManager.m_siHalf false).filter
              (slotFreeAt tieManager 240)).length →
        compileCandidates tieManager 0 240 (fun v => v.x.toNat) false 1 =
          some ((windowKeys tieManager.m_numSlots 1 tieManager.m_siHalf false).filter
            (slotFreeAt tieManager 240))) ∧
      (∀ c ∈ (windowKeys tieManager.m_numSlots 1 tieManager.m_siHalf false).filter
            (slotFreeAt tieManager 240) ++
          pad.take (tieManager.m_mininumCandidates
            - ((windowKeys tieManager.m_numSlots 1 tieManager.m_siHalf false).filter
                (slotFreeAt tieManager 240)).length),
        ownerCollides tieManager c = true → slotFreeAt tieManager 240 c = true) ∧
      ((∀ i ∈ windowKeys tieManager.m_numSlots 1 tieManager.m_siHalf false,
          ∀ j ∈ windowKeys tieManager.m_numSlots 1 tieManager.m_siHalf false,
            slotExternalAt tieManager 0 i = true → slotExternalAt tieManager 0 j = true →
            ownerDistance tieManager (fun v => v.x.toNat) i
              = ownerDistance tieManager (fun v => v.x.toNat) j → i = j) →
        (∀ p ∈ used, p.1 = ownerDistance tieManager (fun v => v.x.toNat) p.2) ∧
        pad.Pairwise (fun a b => ownerDistance tieManager (fun v => v.x.toNat) a
          > ownerDistance tieManager (fun v => v.x.toNat) b)) :=
  ⟨by unfold RingOK; decide, by decide, by decide, by decide, by decide, by decide,
    candidate_padding tieManager (by unfold RingOK; decide) 0 240 (by decide)
      (fun v => v.x.toNat) false 1 (by decide) (by decide) (by decide)⟩

/-! ## The network entry in `double` arithmetic -/

/-- The loop of trials of `GetNetworkEntryTimestamp64` with `n >= 1` candidates ends within
`n - no` tests: after `j` unsuccessful trials it stops at the counter `no + j < n` and the level
reached by `j` additions of `incr`, at the first successful trial or at the last candidate. -/
theorem entryTrials64_spec (draws : Nat → Double) (incr : Double) (n : Nat) (hn : 1 ≤ n)
    (hn32 : n < UINT32_MOD) :
    ∀ (fuel no : Nat) (prob : Double), no < n → n - no ≤ fuel →
      ∃ j : Nat, entryTrials64 draws incr n fuel no prob
          = some (no + j, Double.addTimes incr j prob) ∧
        no + j < n ∧
        (∀ i, i < j → Double.lt (Double.addTimes incr i prob) (draws (no + i)) = true) ∧
        (no + j = n - 1 ∨
          Double.lt (Double.addTimes incr j prob) (draws (no + j)) = false) := by
  have hsub : u32sub n 1 = n - 1 := by
    unfold u32sub
    unfold UINT32_MOD at hn32 ⊢
    omega
  intro fuel
  induction fuel with
  | zero =>
    intro no prob hno hfuel
    exfalso
    omega
  | succ fuel ih =>
    intro no prob hno hfuel
    by_cases hcond : Double.lt prob (draws no) = true ∧ no < u32sub n 1
    · have hlt : no < n - 1 := by rw [← hsub]; exact hcond.2
      obtain ⟨j, hrun, hj, hall, hlast⟩ := ih (no + 1) (Double.add prob incr) (by omega)
        (by omega)
      refine ⟨j + 1, ?_, by omega, ?_, ?_⟩
      · simp only [entryTrials64, if_pos hcond]
        rw [hrun]
        have e1 : no + 1 + j = no + (j + 1) := by omega
        rw [e1]
        rfl
      · intro i hi
        cases i with
        | zero => exact hcond.1
        | succ i =>
          have h := hall i (by omega)
          have e1 : no + (i + 1) = no + 1 + i := by omega
          rw [e1]
          exact h
      · have e1 : no + (j + 1) = no + 1 + j := by omega
        rw [e1]
        exact hlast
    · refine ⟨0, ?_, by omega, ?_, ?_⟩
      · simp only [entryTrials64, if_neg hcond, Nat.add_zero]
        rfl
      · intro i hi
        omega
      · by_cases hd : Double.lt prob (draws no) = true
        · left
          have : ¬ no < u32sub n 1 := fun h => hcond ⟨hd, h⟩
          rw [hsub] at this
          omega
        · right
          show Double.lt prob (draws (no + 0)) = false
          cases h : Double.lt prob (draws no)
          · exact h
          · exact absurd h hd

/-- Result of `GetNetworkEntryTimestamp64` when no aging is due, from the candidates of its
scan: the position `no` is the first one whose draw is not above the level reached by `no`
additions of the increment to `p + incr`, or the last position; the probability returned is
this level. -/
theorem getNetworkEntryTimestamp64_pick (s : StdmaSlotManager) (now : Time)
    (draws : Nat → Double) (remainingSlots : Nat) (p : Double) (start : Nat)
    (candidates : List Nat)
    (hnoage : now < s.m_lastFrameStart + s.m_frameDuration)
    (hcur : GetSlotIndexForTimestamp s now now = some (s, start))
    (hcands : entryCandidates s now start
      (List.range' start (u32add start remainingSlots - start)) = some candidates)
    (hn : 1 ≤ candidates.length) (hn32 : candidates.length < UINT32_MOD) :
    ∃ (no slotIndex : Nat) (incr : Double), no < candidates.length ∧
      candidates[no]? = some slotIndex ∧
      incr = (if Double.le p (Double.ofInt 1) = true then
          Double.div (Double.sub (Double.ofInt 1) p) (Double.ofInt (candidates.length : Int))
        else ⟨0, 0⟩) ∧
      (∀ k, k < no →
        Double.lt (Double.addTimes incr k (Double.add p incr)) (draws k) = true) ∧
      (no = candidates.length - 1 ∨
        Double.lt (Double.addTimes incr no (Double.add p incr)) (draws no) = false) ∧
      GetNetworkEntryTimestamp64 s now draws remainingSlots p
        = some (s,
            { m_when := now + ((u32sub slotIndex start : Nat) : Int) * s.m_slotDuration
              m_p := Double.addTimes incr no (Double.add p incr)
              m_slotsLeft := u16cast (u32sub remainingSlots (u32sub slotIndex start)) }) := by
  have hage : ageCheck s now = some s := by
    unfold ageCheck
    rw [if_neg (not_le.mpr hnoage)]
  obtain ⟨incr, hincr⟩ : ∃ incr : Double, incr
      = (if Double.le p (Double.ofInt 1) = true then
          Double.div (Double.sub (Double.ofInt 1) p) (Double.ofInt (candidates.length : Int))
        else ⟨0, 0⟩) := ⟨_, rfl⟩
  obtain ⟨j, hrun, hj, hall, hlast⟩ := entryTrials64_spec draws incr candidates.length hn hn32
    candidates.length 0 (Double.add p incr) (by omega) (by omega)
  simp only [Nat.zero_add] at hrun hj hall hlast
  obtain ⟨slotIndex, hidx⟩ : ∃ x, candidates[j]? = some x :=
    ⟨candidates[j], List.getElem?_eq_getElem hj⟩
  refine ⟨j, slotIndex, incr, hj, hidx, hincr, hall, hlast, ?_⟩
  unfold GetNetworkEntryTimestamp64
  simp only [hage, hcur, hcands, ← hincr, hrun, hidx]

/-- When no aging is due and the scan found a candidate, `GetNetworkEntryTimestamp64` returns,
for every `p`, the details of one of the candidates. -/
theorem getNetworkEntryTimestamp64_index (s : StdmaSlotManager) (now : Time)
    (draws : Nat → Double) (remainingSlots : Nat) (p : Double) (start : Nat)
    (candidates : List Nat)
    (hnoage : now < s.m_lastFrameStart + s.m_frameDuration)
    (hcur : GetSlotIndexForTimestamp s now now = some (s, start))
    (hcands : entryCandidates s now start
      (List.range' start (u32add start remainingSlots - start)) = some candidates)
    (hn : 1 ≤ candidates.length) (hn32 : candidates.length < UINT32_MOD) :
    ∃ (no slotIndex : Nat) (prob : Double), candidates[no]? = some slotIndex ∧
      GetNetworkEntryTimestamp64 s now draws remainingSlots p
        = some (s,
            { m_when := now + ((u32sub slotIndex start : Nat) : Int) * s.m_slotDuration
              m_p := prob
              m_slotsLeft := u16cast (u32sub remainingSlots (u32sub slotIndex start)) }) := by
  obtain ⟨no, slotIndex, incr, _, hidx, _, _, _, hrun⟩ := getNetworkEntryTimestamp64_pick s now
    draws remainingSlots p start candidates hnoage hcur hcands hn hn32
  exact ⟨no, slotIndex, _, hidx, hrun⟩

/-- Where the code agrees with C27: on a well-formed ring (`N < 2^32`, slot duration `> 0`),
at a slot start `now` with no aging due, when the scan does not take the current slot as a
candidate, `1 <= remaining < 2^16`, the current slot index plus `remaining` is at most `N`, and
`HasFreeSlotsLeft (remaining)` is true: for every `p` and all draws,
`GetNetworkEntryTimestamp (remaining, p)` returns a time `when = now + k * m_slotDuration`
with `1 <= k < remaining`, so `when` is strictly later than `now`, at most
`now + (remaining - 1) * m_slotDuration`, and a slot start; the slot `k` slots after the
current one is free until the time `until` of the scan; the returned remaining count is
`remaining - k`, in `[1, remaining - 1]`. -/
theorem network_entry_repick (s : StdmaSlotManager) (now : Time) (draws : Nat → Double)
    (remaining : Nat) (p : Double) (start : Nat)
    (hring : RingOK s) (hN : s.m_numSlots < UINT32_MOD) (hsd : 0 < s.m_slotDuration)
    (hnoage : now < s.m_lastFrameStart + s.m_frameDuration)
    (hslotStart : (now - s.m_lastFrameStart) % s.m_slotDuration = 0)
    (hcur : GetSlotIndexForTimestamp s now now = some (s, start))
    (hnotfree : entryFree s now start start = false)
    (hrem : 1 ≤ remaining) (hrem16 : remaining < 65536)
    (hend : start + remaining ≤ s.m_numSlots)
    (hleft : HasFreeSlotsLeft s now remaining = some (s, true)) :
    ∃ (details : RandomAccessDetails64) (k : Nat) (slot : StdmaSlot),
      GetNetworkEntryTimestamp64 s now draws remaining p = some (s, details) ∧
      now < details.m_when ∧
      details.m_when ≤ now + ((remaining : Int) - 1) * s.m_slotDuration ∧
      (details.m_when - s.m_lastFrameStart) % s.m_slotDuration = 0 ∧
      details.m_when = now + (k : Int) * s.m_slotDuration ∧
      s.GetSlot (start + k) = some slot ∧
      slot.IsFree (entryUntil s now start (start + k)) = true ∧
      details.m_slotsLeft = remaining - k ∧
      1 ≤ details.m_slotsLeft ∧ details.m_slotsLeft ≤ remaining - 1 := by
  have hstartlt : start < s.m_numSlots := by omega
  have hendv : u32add start remaining - start = remaining := by
    unfold u32add
    unfold UINT32_MOD at hN ⊢
    rw [Nat.mod_eq_of_lt (by omega)]
    omega
  have hcands := entryCandidates_filter s now start (List.range' start remaining)
    (by
      intro i hi
      rw [List.mem_range'_1] at hi
      obtain ⟨slot, hslot⟩ := keys_range_find_some _ _ _ hring.1 (by omega : i < s.m_numSlots)
      exact ⟨slot, hslot, (ringOK_find s hring i slot hslot).1⟩)
  obtain ⟨i0, hi0, hfree⟩ : ∃ i ∈ List.range' start remaining,
      entryFree s now start i = true := by
    unfold HasFreeSlotsLeft at hleft
    simp only [hcur, hendv] at hleft
    cases hscan : freeSlotsScan s now start (List.range' start remaining) with
    | none => simp [hscan] at hleft
    | some b =>
      simp only [hscan, Option.some.injEq, Prod.mk.injEq, true_and] at hleft
      subst hleft
      exact freeSlotsScan_true s now start _ hscan
  have hmem0 : i0 ∈ (List.range' start remaining).filter (entryFree s now start) :=
    List.mem_filter.mpr ⟨hi0, hfree⟩
  have hn : 1 ≤ ((List.range' start remaining).filter (entryFree s now start)).length :=
    List.length_pos_of_mem hmem0
  have hn32 : ((List.range' start remaining).filter (entryFree s now start)).length
      < UINT32_MOD := by
    have h1 := List.length_filter_le (entryFree s now start) (List.range' start remaining)
    rw [List.length_range'] at h1
    unfold UINT32_MOD
    omega
  obtain ⟨no, slotIndex, prob, hidx, hrun⟩ := getNetworkEntryTimestamp64_index s now draws
    remaining p start _ hnoage hcur (by rw [hendv]; exact hcands) hn hn32
  have hmem : slotIndex ∈ (List.range' start remaining).filter (entryFree s now start) :=
    List.getElem?_mem hidx
  obtain ⟨hrange, hsfree⟩ := List.mem_filter.mp hmem
  rw [List.mem_range'_1] at hrange
  have hne : slotIndex ≠ start := by
    intro h
    rw [h, hnotfree] at hsfree
    exact Bool.false_ne_true hsfree
  obtain ⟨k, hk⟩ : ∃ k, slotIndex = start + k := ⟨slotIndex - start, by omega⟩
  have hk1 : 1 ≤ k := by omega
  have hk2 : k < remaining := by omega
  have hoff : u32sub slotIndex start = k := by
    unfold u32sub
    unfold UINT32_MOD at hN ⊢
    omega
  have hleftv : u16cast (u32sub remaining (u32sub slotIndex start)) = remaining - k := by
    rw [hoff]
    unfold u16cast u32sub
    unfold UINT32_MOD
    omega
  obtain ⟨slot, hslot⟩ := keys_range_find_some _ _ _ hring.1 (by omega : start + k < s.m_numSlots)
  have hslotfree : slot.IsFree (entryUntil s now start (start + k)) = true := by
    unfold entryFree at hsfree
    rw [hk, hslot] at hsfree
    exact hsfree
  rw [hleftv, hoff] at hrun
  refine ⟨_, k, slot, hrun, ?_, ?_, ?_, rfl, hslot, hslotfree, rfl, ?_, ?_⟩
  · show now < now + (k : Int) * s.m_slotDuration
    have : (0 : Int) < (k : Int) * s.m_slotDuration :=
      Int.mul_pos (by exact_mod_cast hk1) hsd
    linarith
  · show now + (k : Int) * s.m_slotDuration ≤ now + ((remaining : Int) - 1) * s.m_slotDuration
    have hle : (k : Int) ≤ (remaining : Int) - 1 := by omega
    have := Int.mul_le_mul_of_nonneg_right hle (le_of_lt hsd)
    linarith
  · show (now + (k : Int) * s.m_slotDuration - s.m_lastFrameStart) % s.m_slotDuration = 0
    have e : now + (k : Int) * s.m_slotDuration - s.m_lastFrameStart
        = (now - s.m_lastFrameStart) + (k : Int) * s.m_slotDuration := by ring
    rw [e, Int.add_mul_emod_self]
    exact hslotStart
  · show 1 ≤ remaining - k
    omega
  · show remaining - k ≤ remaining - 1
    omega

/-- An instance where the code agrees with C27: `takenManager` at time 0 (slot 0 is busy),
three remaining slots. -/
theorem network_entry_repick_witness :
    RingOK takenManager ∧ entryFree takenManager 0 0 0 = false ∧
    HasFreeSlotsLeft takenManager 0 3 = some (takenManager, true) ∧
    ∃ (details : RandomAccessDetails64) (k : Nat) (slot : StdmaSlot),
      GetNetworkEntryTimestamp64 takenManager 0 (fun _ => Double.ofInt 1) 3 (Double.ofInt 0)
        = some (takenManager, details) ∧
      0 < details.m_when ∧
      details.m_when ≤ 0 + (((3 : Nat) : Int) - 1) * takenManager.m_slotDuration ∧
      (details.m_when - takenManager.m_lastFrameStart) % takenManager.m_slotDuration = 0 ∧
      details.m_when = 0 + (k : Int) * takenManager.m_slotDuration ∧
      takenManager.GetSlot (0 + k) = some slot ∧
      slot.IsFree (entryUntil takenManager 0 0 (0 + k)) = true ∧
      details.m_slotsLeft = 3 - k ∧
      1 ≤ details.m_slotsLeft ∧ details.m_slotsLeft ≤ 3 - 1 :=
  ⟨by unfold RingOK; decide, by decide, by decide,
    network_entry_repick takenManager 0 (fun _ => Double.ofInt 1) 3 (Double.ofInt 0) 0
      (by unfold RingOK; decide) (by decide) (by decide) (by decide) (by decide) (by decide)
      (by decide) (by decide) (by decide) (by decide) (by decide)⟩

/-- C27 (the code at a failing input): a manager with slots of 566000 ns whose current slot 0
is allocated to a peer with `not_before = now + 566000` ns.  At the slot start `now = 0`,
`IsCurrentSlotStillFree ()` is false (it tests `Now () + m_slotDuration`, 566000 ns), three
slots remain and `HasFreeSlotsLeft (3)` is true; the scan of `GetNetworkEntryTimestamp` tests
slot 0 against `Now () + Seconds (1 * m_slotDuration.GetSeconds ())`, which is 565999 ns, takes
it as a candidate, and with `p = 1.0` returns `when = now` and the remaining count 3: the new
entry instant is not later than `now` and the count is not in `[1, remaining - 1]`. -/
theorem network_entry_repick_returns_now :
    RingOK deferredManager ∧ deferredManager.m_numSlots = 8 ∧
    deferredManager.m_slotDuration = 566000 ∧
    (0 : Time) < deferredManager.m_lastFrameStart + deferredManager.m_frameDuration ∧
    ((0 : Time) - deferredManager.m_lastFrameStart) % deferredManager.m_slotDuration = 0 ∧
    GetSlotIndexForTimestamp deferredManager 0 0 = some (deferredManager, 0) ∧
    IsCurrentSlotStillFree deferredManager 0 = some (deferredManager, false) ∧
    0 + 3 ≤ deferredManager.m_numSlots ∧
    HasFreeSlotsLeft deferredManager 0 3 = some (deferredManager, true) ∧
    (0 : Time) + deferredManager.m_slotDuration = 566000 ∧
    entryUntil deferredManager 0 0 0 = 565999 ∧
    (GetNetworkEntryTimestamp64 deferredManager 0 (fun _ => Double.ofInt 0) 3
        (Double.ofInt 1)).map (fun r => (r.2.m_when, r.2.m_slotsLeft)) = some (0, 3) ∧
    ¬ ((0 : Time) < 0) ∧ ¬ (3 ≤ 3 - 1) := by
  refine ⟨by unfold RingOK; decide, by decide, by decide, by decide, by decide, by decide,
    by decide, by decide, by decide, by decide, by decide, by decide, by decide, by decide⟩

/-! ## The window and the probability of the network entry in `double` arithmetic -/

/-- C40 (counterexample to `p1 <= 1`): a fresh manager with twenty free slots of 10 ns, nine
remaining slots (nine candidates), `p = 0` and draws just below 1, so that no trial before the
last one succeeds.  `GetNetworkEntryTimestamp` returns the last candidate with the probability
reached by nine additions of the `double` value `1.0 / 9`, which is `1.0000000000000002`
(`(2^52 + 1) * 2^-52`), above 1. -/
theorem entry_probability_exceeds_one :
    Double.le (Double.ofInt 0) (Double.ofInt 0) = true ∧
    Double.le (Double.ofInt 0) (Double.ofInt 1) = true ∧
    (GetNetworkEntryTimestamp64 (Setup create 0 200 10 4) 0
        (fun _ => ⟨9007199254740991, -53⟩) 9 (Double.ofInt 0)).map
      (fun r => (r.2.m_when, r.2.m_p, r.2.m_slotsLeft))
      = some (80, ⟨4503599627370497, -52⟩, 1) ∧
    Double.ofInt 1 = ⟨4503599627370496, -52⟩ ∧
    Double.lt (Double.ofInt 1) ⟨4503599627370497, -52⟩ = true ∧
    Double.le ⟨4503599627370497, -52⟩ (Double.ofInt 1) = false := by
  refine ⟨by decide, by decide, by decide, by decide, by decide, by decide⟩

/-! ## The time `not_before` of a moved reservation -/

/-- The two readings of `ns3::Seconds (double)` agree: on the exact value of a `double` the
function `SecondsOfRat` returns `Seconds`. -/
theorem secondsOfRat_toRat (x : Double) : SecondsOfRat x.toRat = Seconds x := by
  unfold SecondsOfRat Seconds Double.toRat
  have hden : (0 : Int) < (x.den : Int) := by
    unfold Double.den
    positivity
  have hdenq : (0 : ℚ) < (x.den : ℚ) := by exact_mod_cast hden
  have hmul : (x.num : ℚ) / (x.den : ℚ) * 1000000000
      = ((x.num * 1000000000 : Int) : ℚ) / ((x.den : Nat) : ℚ) := by
    push_cast
    ring
  rw [hmul]
  by_cases h0 : 0 ≤ x.num
  · have hq : (0 : ℚ) ≤ (x.num : ℚ) / (x.den : ℚ) :=
      div_nonneg (by exact_mod_cast h0) (le_of_lt hdenq)
    rw [if_pos hq, Rat.floor_intCast_div_natCast]
    exact (Int.tdiv_eq_ediv (by positivity) (le_of_lt hden)).symm
  · have hneg : x.num < 0 := not_le.mp h0
    have hq : ¬ (0 : ℚ) ≤ (x.num : ℚ) / (x.den : ℚ) := by
      rw [not_le]
      exact div_neg_of_neg_of_pos (by exact_mod_cast hneg) hdenq
    rw [if_neg hq]
    have hceil : ⌈((x.num * 1000000000 : Int) : ℚ) / ((x.den : Nat) : ℚ)⌉
        = -((-(x.num * 1000000000)) / (x.den : Int)) := by
      have e : ((x.num * 1000000000 : Int) : ℚ) / ((x.den : Nat) : ℚ)
          = -(((-(x.num * 1000000000) : Int) : ℚ) / ((x.den : Nat) : ℚ)) := by
        push_cast
        ring
      rw [e, Int.ceil_neg, Rat.floor_intCast_div_natCast]
    rw [hceil]
    have h1 : x.num * 1000000000 = -(-(x.num * 1000000000)) := by ring
    conv_rhs => rw [h1, Int.neg_tdiv]
    rw [Int.tdiv_eq_ediv (by omega) (le_of_lt hden)]

/-- C35 (the code at a failing input): a MAC configured with a frame duration of 85 ns and
slots of 10 ns has a slot manager of eight slots (frame duration 80 ns).  On reception at
15 ns of a packet with timeout 0, entry 0 and offset 3, `Receive` divides the configured
85 ns (not the frame duration of the manager) by the number of slots, and the new slot 4 is
allocated with `not_before = 15 + Seconds ((85 ns / 8) * 2) = 36` ns, not
`15 + 2 * slot_duration = 35` ns; from the frame duration of the manager the same expression
gives 35 ns. -/
theorem receive_not_before_uses_configured_frame :
    oddManager.m_numSlots = 8 ∧ oddManager.m_slotDuration = 10 ∧
    oddManager.GetFrameDuration = 80 ∧
    (Double.floor (Double.div (GetSeconds 85) (GetSeconds 10))).toNat = 8 ∧
    (15 : Time) + Seconds
      (Double.mul (Double.div (GetSeconds oddManager.GetFrameDuration) (Double.ofInt 8))
        (Double.ofInt (3 - 1))) = 35 ∧
    ∃ s1 slot,
      StdmaMac.Receive true 85 SecondsOfRat oddManager 15 7
        (StdmaHeader.create.SetOffset 3) = some s1 ∧
      s1.GetSlot 4 = some slot ∧ slot.m_state = State.ALLOCATED ∧ slot.m_notBefore = 36 ∧
      slot.m_notBefore ≠ 15 + (((StdmaHeader.create.SetOffset 3).GetOffset : Int) - 1)
        * oddManager.m_slotDuration := by
  refine ⟨by decide, by decide, by decide, by decide, by decide, ?_⟩
  obtain ⟨slotc, m1, hget, hm1, hslots1, hnum1, hlfs1, hfd1, hring1, hrun⟩ :=
    receive_reallocation_call 85 SecondsOfRat oddManager 15 7
      (StdmaHeader.create.SetOffset 3) 1 (by unfold RingOK; decide) (by decide) (by decide)
      (by decide) (by decide) (by decide) (by decide) (by decide) (by decide) (by decide)
  have hslotc : slotc = StdmaSlot.create 1 := by
    have h : oddManager.GetSlot 1 = some (StdmaSlot.create 1) := by decide
    rw [h] at hget
    exact (Option.some.inj hget).symm
  have hwhen : (15 : Time) + SecondsOfRat
      (Double.toRat
        (Double.mul
          (Double.div (GetSeconds 85) (Double.ofInt (oddManager.m_numSlots : Int)))
          (Double.ofInt (((StdmaHeader.create.SetOffset 3).GetOffset : Int) - 1)))) = 36 := by
    rw [secondsOfRat_toRat]
    decide
  rw [hwhen] at hrun
  have hmod : (1 + (StdmaHeader.create.SetOffset 3).GetOffset) % oddManager.m_numSlots = 4 := by
    decide
  rw [hmod] at hrun
  obtain ⟨s1, hs1, hslots, _, _, _, _⟩ := markSlotAsAllocated_effect m1 15 4 2 7
    ⟨⌊(StdmaHeader.create.SetOffset 3).GetLatitude⌋,
      ⌊(StdmaHeader.create.SetOffset 3).GetLongitude⌋, 0⟩ 36 hring1
    (by rw [hnum1]; decide) (by rw [hlfs1, hfd1]; decide)
  have hx : mapFind m1.m_slots 4 = some (StdmaSlot.create 4) := by
    rw [hslots1, hslotc]
    decide
  refine ⟨s1, (StdmaSlot.create 4).MarkAsAllocated 15 2 7
    ⟨⌊(StdmaHeader.create.SetOffset 3).GetLatitude⌋,
      ⌊(StdmaHeader.create.SetOffset 3).GetLongitude⌋, 0⟩ 36, by rw [hrun, hs1], ?_, ?_, ?_, ?_⟩
  · show mapFind s1.m_slots 4 = _
    rw [hslots, mapFind_mapModify_same, hx]
    rfl
  · rfl
  · rfl
  · decide

/-- The product of `Receive` in `double` arithmetic, where the configured frame duration is
the frame duration of the manager: for a frame of 40 ns of four slots of 10 ns and the offset
6 the time added to `now` is 49 ns, one nanosecond short of `(offset - 1) * slot_duration`,
and for the frame of the unit test (1766 slots of 566000 ns) and the offset 2 it is
565999 ns. -/
theorem receive_product_one_nanosecond_short :
    Seconds (Double.mul (Double.div (GetSeconds 40) (Double.ofInt 4)) (Double.ofInt (6 - 1)))
      = 49 ∧
    Seconds
      (Double.mul (Double.div (GetSeconds 999556000) (Double.ofInt 1766)) (Double.ofInt (2 - 1)))
      = 565999 ∧
    (999556000 : Int) = 1766 * 566000 := by
  decide

/-! ## Rounding in `double` arithmetic -/

theorem bitLength_spec : ∀ (fuel n : Nat), n ≤ fuel →
    n < 2 ^ Double.bitLength fuel n ∧ (0 < n → 2 ^ (Double.bitLength fuel n - 1) ≤ n) := by
  intro fuel
  induction fuel with
  | zero =>
    intro n hn
    have : n = 0 := by omega
    subst this
    simp [Double.bitLength]
  | succ fuel ih =>
    intro n hn
    by_cases h0 : n = 0
    · subst h0
      simp [Double.bitLength]
    · have hb : Double.bitLength (fuel + 1) n = Double.bitLength fuel (n / 2) + 1 := by
        simp [Double.bitLength, h0]
      obtain ⟨h1, h2⟩ := ih (n / 2) (by omega)
      rw [hb]
      constructor
      · rw [pow_succ]
        omega
      · intro _
        simp only [Nat.add_sub_cancel]
        by_cases hh : n / 2 = 0
        · rw [hh]
          have : Double.bitLength fuel 0 = 0 := by
            cases fuel <;> simp [Double.bitLength]
          rw [this]
          simp
          omega
        · have h3 := h2 (by omega)
          have hpos : 0 < Double.bitLength fuel (n / 2) := by
            by_contra hc
            have hz : Double.bitLength fuel (n / 2) = 0 := by omega
            rw [hz] at h1
            simp at h1
            exact hh h1
          obtain ⟨b, hb2⟩ : ∃ b, Double.bitLength fuel (n / 2) = b + 1 := ⟨_, (Nat.succ_pred_eq_of_pos hpos).symm⟩
          rw [hb2] at h3 ⊢
          simp only [Nat.add_sub_cancel] at h3
          rw [pow_succ]
          omega

theorem toRat_eq (x : Double) : x.toRat = (x.m : ℚ) * (2 : ℚ) ^ x.e := by
  unfold Double.toRat Double.num Double.den
  rcases le_or_lt 0 x.e with h | h
  · obtain ⟨k, hk⟩ := Int.eq_ofNat_of_zero_le h
    rw [hk]
    simp
  · obtain ⟨k, hk⟩ : ∃ k : Nat, x.e = -(k : Int) := ⟨(-x.e).toNat, by omega⟩
    rw [hk]
    simp
    rw [div_eq_mul_inv]

theorem scaled_eq (a d : Nat) (e : Int) :
    (((a * 2 ^ (-e).toNat : Nat) : ℚ)) / ((d * 2 ^ e.toNat : Nat) : ℚ)
      = ((a : ℚ) / (d : ℚ)) / (2 : ℚ) ^ e := by
  rcases le_or_lt 0 e with h | h
  · obtain ⟨k, hk⟩ := Int.eq_ofNat_of_zero_le h
    rw [hk]
    simp
    rw [div_div]
  · obtain ⟨k, hk⟩ : ∃ k : Nat, e = -(k : Int) := ⟨(-e).toNat, by omega⟩
    rw [hk]
    simp
    ring

theorem nat_le_div_iff (A D k : Nat) (hD : 0 < D) :
    k ≤ A / D ↔ (k : ℚ) ≤ (A : ℚ) / (D : ℚ) := by
  have hDq : (0 : ℚ) < (D : ℚ) := by exact_mod_cast hD
  rw [Nat.le_div_iff_mul_le hD, le_div_iff₀ hDq]
  exact_mod_cast Iff.rfl

theorem roundPos_unfold (a d : Nat) (e0 e : Int) (A D q1 : Nat)
    (he0 : e0 = (Double.bitLength a a : Int) - (Double.bitLength d d : Int) - 52)
    (he : e = if (a * 2 ^ (-e0).toNat) / (d * 2 ^ e0.toNat) < 2 ^ 52 then e0 - 1 else e0)
    (hA : A = a * 2 ^ (-e).toNat) (hD : D = d * 2 ^ e.toNat)
    (hq1 : q1 = if D < 2 * (A % D) ∨ (2 * (A % D) = D ∧ (A / D) % 2 = 1) then A / D + 1
      else A / D) :
    Double.roundPos a d = if q1 = 2 ^ 53 then (2 ^ 52, e + 1) else (q1, e) := by
  subst he0 he hA hD hq1
  rfl

theorem roundPos_spec (a d : Nat) (ha : 0 < a) (hd : 0 < d) :
    ∃ e : Int, (2 : ℚ) ^ (52 : Nat) * (2 : ℚ) ^ e ≤ (a : ℚ) / (d : ℚ) ∧
      (a : ℚ) / (d : ℚ) < (2 : ℚ) ^ (53 : Nat) * (2 : ℚ) ^ e ∧
      (((Double.roundPos a d).2 = e ∧ 2 ^ 52 ≤ (Double.roundPos a d).1 ∧
          (Double.roundPos a d).1 < 2 ^ 53 ∧
          ∀ k : Nat, (k : ℚ) * (2 : ℚ) ^ e ≤ (a : ℚ) / (d : ℚ) → k ≤ (Double.roundPos a d).1) ∨
        Double.roundPos a d = (2 ^ 52, e + 1)) := by
  obtain ⟨ha1, ha2⟩ := bitLength_spec a a le_rfl
  obtain ⟨hd1, hd2⟩ := bitLength_spec d d le_rfl
  have ha3 := ha2 ha
  have hd3 := hd2 hd
  generalize hba : Double.bitLength a a = ba at *
  generalize hbd : Double.bitLength d d = bd at *
  have hba1 : 1 ≤ ba := by
    by_contra hc
    have : ba = 0 := by omega
    rw [this] at ha1
    simp at ha1
    omega
  have hbd1 : 1 ≤ bd := by
    by_contra hc
    have : bd = 0 := by omega
    rw [this] at hd1
    simp at hd1
    omega
  have hXa : 2 ^ ba ≤ 2 * a := by
    obtain ⟨b, hb⟩ : ∃ b, ba = b + 1 := ⟨ba - 1, by omega⟩
    rw [hb] at ha3 ⊢
    simp only [Nat.add_sub_cancel] at ha3
    rw [pow_succ]
    omega
  have hYd : 2 ^ bd ≤ 2 * d := by
    obtain ⟨b, hb⟩ : ∃ b, bd = b + 1 := ⟨bd - 1, by omega⟩
    rw [hb] at hd3 ⊢
    simp only [Nat.add_sub_cancel] at hd3
    rw [pow_succ]
    omega
  -- the bounds in the rationals
  have qa1 : (a : ℚ) < (2 : ℚ) ^ ba := by exact_mod_cast ha1
  have qa2 : (2 : ℚ) ^ ba ≤ 2 * (a : ℚ) := by exact_mod_cast hXa
  have qd1 : (d : ℚ) < (2 : ℚ) ^ bd := by exact_mod_cast hd1
  have qd2 : (2 : ℚ) ^ bd ≤ 2 * (d : ℚ) := by exact_mod_cast hYd
  have hX : (0 : ℚ) < (2 : ℚ) ^ ba := by positivity
  have hY : (0 : ℚ) < (2 : ℚ) ^ bd := by positivity
  have hdq : (0 : ℚ) < (d : ℚ) := by exact_mod_cast hd
  have haq : (0 : ℚ) < (a : ℚ) := by exact_mod_cast ha
  obtain ⟨e0, he0⟩ : ∃ e0 : Int, e0 = (ba : Int) - (bd : Int) - 52 := ⟨_, rfl⟩
  have hE0 : (2 : ℚ) ^ e0 = (2 : ℚ) ^ ba / (2 : ℚ) ^ bd / (2 : ℚ) ^ (52 : Nat) := by
    rw [he0, zpow_sub₀ (two_ne_zero), zpow_sub₀ (two_ne_zero)]
    simp only [zpow_natCast]
    norm_cast
  have hE0pos : (0 : ℚ) < (2 : ℚ) ^ e0 := by positivity
  -- the scaled value lies between 2^51 and 2^53
  have hw1 : (2 : ℚ) ^ (51 : Nat) * (2 : ℚ) ^ e0 < (a : ℚ) / (d : ℚ) := by
    rw [hE0, lt_div_iff₀ hdq]
    have e1 : (2 : ℚ) ^ (51 : Nat) * ((2 : ℚ) ^ ba / (2 : ℚ) ^ bd / (2 : ℚ) ^ (52 : Nat))
        * (d : ℚ) = ((2 : ℚ) ^ ba * (d : ℚ)) / (2 * (2 : ℚ) ^ bd) := by
      field_simp
      ring
    rw [e1, div_lt_iff₀ (by positivity)]
    nlinarith
  have hw2 : (a : ℚ) / (d : ℚ) < (2 : ℚ) ^ (53 : Nat) * (2 : ℚ) ^ e0 := by
    rw [hE0, div_lt_iff₀ hdq]
    have e1 : (2 : ℚ) ^ (53 : Nat) * ((2 : ℚ) ^ ba / (2 : ℚ) ^ bd / (2 : ℚ) ^ (52 : Nat))
        * (d : ℚ) = (2 * (2 : ℚ) ^ ba * (d : ℚ)) / ((2 : ℚ) ^ bd) := by
      field_simp
      ring
    rw [e1, lt_div_iff₀ (by positivity)]
    nlinarith
  -- the exponent
  obtain ⟨e, he⟩ : ∃ e : Int,
      e = if (a * 2 ^ (-e0).toNat) / (d * 2 ^ e0.toNat) < 2 ^ 52 then e0 - 1 else e0 :=
    ⟨_, rfl⟩
  have hD0pos : 0 < d * 2 ^ e0.toNat := by positivity
  have hbounds : (2 : ℚ) ^ (52 : Nat) * (2 : ℚ) ^ e ≤ (a : ℚ) / (d : ℚ) ∧
      (a : ℚ) / (d : ℚ) < (2 : ℚ) ^ (53 : Nat) * (2 : ℚ) ^ e := by
    by_cases hq0 : (a * 2 ^ (-e0).toNat) / (d * 2 ^ e0.toNat) < 2 ^ 52
    · rw [if_pos hq0] at he
      have hlt : ¬ ((2 ^ 52 : Nat) : ℚ) ≤ ((a * 2 ^ (-e0).toNat : Nat) : ℚ)
          / ((d * 2 ^ e0.toNat : Nat) : ℚ) := by
        rw [← nat_le_div_iff _ _ _ hD0pos]
        omega
      rw [scaled_eq, le_div_iff₀ hE0pos, not_le] at hlt
      have hE : (2 : ℚ) ^ e = (2 : ℚ) ^ e0 / 2 := by
        rw [he, zpow_sub₀ (two_ne_zero)]
        simp
      rw [hE]
      push_cast at hlt
      constructor
      · have : (2 : ℚ) ^ (52 : Nat) * ((2 : ℚ) ^ e0 / 2) = (2 : ℚ) ^ (51 : Nat) * (2 : ℚ) ^ e0 := by
          ring
        rw [this]
        exact le_of_lt hw1
      · have : (2 : ℚ) ^ (53 : Nat) * ((2 : ℚ) ^ e0 / 2) = (2 : ℚ) ^ (52 : Nat) * (2 : ℚ) ^ e0 := by
          ring
        rw [this]
        exact hlt
    · rw [if_neg hq0] at he
      have hge : ((2 ^ 52 : Nat) : ℚ) ≤ ((a * 2 ^ (-e0).toNat : Nat) : ℚ)
          / ((d * 2 ^ e0.toNat : Nat) : ℚ) := by
        rw [← nat_le_div_iff _ _ _ hD0pos]
        omega
      rw [scaled_eq, le_div_iff₀ hE0pos] at hge
      push_cast at hge
      rw [he]
      exact ⟨hge, hw2⟩
  obtain ⟨hb1, hb2⟩ := hbounds
  have hEpos : (0 : ℚ) < (2 : ℚ) ^ e := by positivity
  obtain ⟨A, hA⟩ : ∃ A : Nat, A = a * 2 ^ (-e).toNat := ⟨_, rfl⟩
  obtain ⟨D, hD⟩ : ∃ D : Nat, D = d * 2 ^ e.toNat := ⟨_, rfl⟩
  have hDpos : 0 < D := by rw [hD]; positivity
  obtain ⟨q1, hq1⟩ : ∃ q1 : Nat, q1 = if D < 2 * (A % D) ∨ (2 * (A % D) = D ∧ (A / D) % 2 = 1)
      then A / D + 1 else A / D := ⟨_, rfl⟩
  have hval : ((A : Nat) : ℚ) / ((D : Nat) : ℚ) = ((a : ℚ) / (d : ℚ)) / (2 : ℚ) ^ e := by
    rw [hA, hD, scaled_eq]
  have hfloor : ∀ k : Nat, k ≤ A / D ↔ (k : ℚ) * (2 : ℚ) ^ e ≤ (a : ℚ) / (d : ℚ) := by
    intro k
    rw [nat_le_div_iff _ _ _ hDpos, hval, le_div_iff₀ hEpos]
  have hq52 : 2 ^ 52 ≤ A / D := by
    rw [hfloor]
    exact_mod_cast hb1
  have hq53 : A / D < 2 ^ 53 := by
    by_contra hc
    have h1 : 2 ^ 53 ≤ A / D := by omega
    rw [hfloor] at h1
    have : ((2 ^ 53 : Nat) : ℚ) * (2 : ℚ) ^ e = (2 : ℚ) ^ (53 : Nat) * (2 : ℚ) ^ e := by
      norm_cast
    rw [this] at h1
    exact absurd hb2 (not_lt.mpr h1)
  have hq1a : A / D ≤ q1 := by
    rw [hq1]
    split_ifs <;> omega
  have hq1b : q1 ≤ A / D + 1 := by
    rw [hq1]
    split_ifs <;> omega
  have hunf := roundPos_unfold a d e0 e A D q1 (by rw [hba, hbd]; exact he0) he hA hD hq1
  refine ⟨e, hb1, hb2, ?_⟩
  by_cases h53 : q1 = 2 ^ 53
  · right
    rw [hunf, if_pos h53]
  · left
    rw [hunf, if_neg h53]
    refine ⟨rfl, by show 2 ^ 52 ≤ q1; omega, by show q1 < 2 ^ 53; omega, ?_⟩
    intro k hk
    show k ≤ q1
    exact le_trans ((hfloor k).mpr hk) hq1a

theorem two_zpow_succ_le (e f : Int) (h : e + 1 ≤ f) :
    2 * (2 : ℚ) ^ e ≤ (2 : ℚ) ^ f := by
  have h1 : (2 : ℚ) ^ (e + 1) ≤ (2 : ℚ) ^ f := zpow_le_zpow_right₀ (by norm_num) h
  rw [zpow_add₀ (two_ne_zero), zpow_one] at h1
  linarith

/-- The rounding of a positive fraction is the value of a 53-bit mantissa and is not below
any `double` that is not above the fraction. -/
theorem le_roundPos (x : Double) (hm1 : 2 ^ 52 ≤ x.m) (hm2 : x.m < 2 ^ 53) (a d : Nat)
    (ha : 0 < a) (hd : 0 < d) (hle : x.toRat ≤ (a : ℚ) / (d : ℚ)) :
    x.toRat ≤ ((Double.roundPos a d).1 : ℚ) * (2 : ℚ) ^ (Double.roundPos a d).2 := by
  obtain ⟨e, hb1, hb2, hcase⟩ := roundPos_spec a d ha hd
  rw [toRat_eq] at hle ⊢
  have hEpos : (0 : ℚ) < (2 : ℚ) ^ e := by positivity
  have hXpos : (0 : ℚ) < (2 : ℚ) ^ x.e := by positivity
  have qm1 : (2 : ℚ) ^ (52 : Nat) ≤ (x.m : ℚ) := by exact_mod_cast hm1
  have qm2 : (x.m : ℚ) < (2 : ℚ) ^ (53 : Nat) := by exact_mod_cast hm2
  have hex : x.e ≤ e := by
    by_contra hc
    have h1 := two_zpow_succ_le e x.e (by omega)
    have h2 : (2 : ℚ) ^ (53 : Nat) * (2 : ℚ) ^ e ≤ (x.m : ℚ) * (2 : ℚ) ^ x.e := by
      have : (2 : ℚ) ^ (53 : Nat) * (2 : ℚ) ^ e = (2 : ℚ) ^ (52 : Nat) * (2 * (2 : ℚ) ^ e) := by
        ring
      rw [this]
      exact mul_le_mul qm1 h1 (by positivity) (by positivity)
    linarith
  rcases hcase with ⟨h2, h52, _, hk⟩ | hr
  · rw [h2]
    rcases eq_or_lt_of_le hex with heq | hlt
    · rw [heq] at hle ⊢
      obtain ⟨k, hk0⟩ : ∃ k : Nat, x.m = (k : Int) :=
        Int.eq_ofNat_of_zero_le (by omega)
      have hk1 : (x.m : ℚ) = (k : ℚ) := by rw [hk0]; simp
      rw [hk1] at hle ⊢
      have := hk k hle
      exact mul_le_mul_of_nonneg_right (by exact_mod_cast this) (le_of_lt hEpos)
    · have h1 := two_zpow_succ_le x.e e (by omega)
      have q52 : (2 : ℚ) ^ (52 : Nat) ≤ ((Double.roundPos a d).1 : ℚ) := by exact_mod_cast h52
      have h3 : (x.m : ℚ) * (2 : ℚ) ^ x.e ≤ (2 : ℚ) ^ (53 : Nat) * (2 : ℚ) ^ x.e :=
        mul_le_mul_of_nonneg_right (le_of_lt qm2) (le_of_lt hXpos)
      have h4 : (2 : ℚ) ^ (52 : Nat) * (2 : ℚ) ^ e
          ≤ ((Double.roundPos a d).1 : ℚ) * (2 : ℚ) ^ e :=
        mul_le_mul_of_nonneg_right q52 (le_of_lt hEpos)
      have h5 : (2 : ℚ) ^ (53 : Nat) * (2 : ℚ) ^ x.e ≤ (2 : ℚ) ^ (52 : Nat) * (2 : ℚ) ^ e := by
        have : (2 : ℚ) ^ (53 : Nat) * (2 : ℚ) ^ x.e
            = (2 : ℚ) ^ (52 : Nat) * (2 * (2 : ℚ) ^ x.e) := by ring
        rw [this]
        exact mul_le_mul_of_nonneg_left h1 (by positivity)
      linarith
  · rw [hr]
    have : (((2 ^ 52 : Nat) : ℚ)) * (2 : ℚ) ^ (e + 1) = (2 : ℚ) ^ (53 : Nat) * (2 : ℚ) ^ e := by
      rw [zpow_add₀ (two_ne_zero), zpow_one]
      push_cast
      ring
    show (x.m : ℚ) * (2 : ℚ) ^ x.e ≤ (((2 ^ 52 : Nat) : ℚ)) * (2 : ℚ) ^ (e + 1)
    rw [this]
    linarith

theorem roundPos_bounds (a d : Nat) (ha : 0 < a) (hd : 0 < d) :
    2 ^ 52 ≤ (Double.roundPos a d).1 ∧ (Double.roundPos a d).1 < 2 ^ 53 := by
  obtain ⟨e, _, _, hcase⟩ := roundPos_spec a d ha hd
  rcases hcase with ⟨_, h52, h53, _⟩ | hr
  · exact ⟨h52, h53⟩
  · rw [hr]
    exact ⟨le_refl _, by norm_num⟩

theorem round_m_nonneg (n : Int) (d : Nat) (h : 0 ≤ n) : 0 ≤ (Double.round n d).m := by
  unfold Double.round
  split_ifs with h1 h2
  · exact le_refl _
  · exact Int.natCast_nonneg _
  · exfalso
    have : n ≠ 0 := fun hc => h1 (Or.inl hc)
    omega

theorem round_is53 (n : Int) (d : Nat) : (Double.round n d).Is53 := by
  unfold Double.round
  split_ifs with h1 h2
  · exact Or.inl ⟨rfl, rfl⟩
  · right
    have hb := roundPos_bounds n.natAbs d (by omega) (by omega)
    simpa using hb
  · right
    have hb := roundPos_bounds n.natAbs d (by omega) (by omega)
    simpa using hb

theorem num_nonneg (x : Double) (h : 0 ≤ x.m) : 0 ≤ x.num := by
  unfold Double.num
  positivity

theorem den_pos (x : Double) : 0 < x.den := by
  unfold Double.den
  positivity

theorem toRat_nonneg_iff (x : Double) : 0 ≤ x.toRat ↔ 0 ≤ x.m := by
  rw [toRat_eq]
  have hpos : (0 : ℚ) < (2 : ℚ) ^ x.e := by positivity
  constructor
  · intro h
    have := nonneg_of_mul_nonneg_left h hpos
    exact_mod_cast this
  · intro h
    have : (0 : ℚ) ≤ (x.m : ℚ) := by exact_mod_cast h
    positivity

/-- The comparison `<=` of `double` values is the comparison of their exact values. -/
theorem le_iff_toRat (x y : Double) : Double.le x y = true ↔ x.toRat ≤ y.toRat := by
  unfold Double.le Double.toRat
  have hx : (0 : ℚ) < (x.den : ℚ) := by exact_mod_cast den_pos x
  have hy : (0 : ℚ) < (y.den : ℚ) := by exact_mod_cast den_pos y
  rw [decide_eq_true_iff, div_le_div_iff₀ hx hy]
  exact_mod_cast Iff.rfl

/-- Rounding to nearest does not fall below a non-negative `double` that is not above the
fraction rounded. -/
theorem le_round (x : Double) (hx : x.Is53) (h0 : 0 ≤ x.m) (n : Int) (d : Nat) (hd : 0 < d)
    (hle : x.toRat ≤ (n : ℚ) / (d : ℚ)) : x.toRat ≤ (Double.round n d).toRat := by
  have hdq : (0 : ℚ) < (d : ℚ) := by exact_mod_cast hd
  have hx0 : 0 ≤ x.toRat := (toRat_nonneg_iff x).mpr h0
  have hn : 0 ≤ n := by
    have h1 : (0 : ℚ) ≤ (n : ℚ) / (d : ℚ) := le_trans hx0 hle
    have h2 : (0 : ℚ) ≤ (n : ℚ) := by
      have := mul_nonneg h1 (le_of_lt hdq)
      rwa [div_mul_cancel₀ _ (ne_of_gt hdq)] at this
    exact_mod_cast h2
  by_cases hm : x.m = 0
  · have : x.toRat = 0 := by rw [toRat_eq, hm]; simp
    rw [this]
    exact (toRat_nonneg_iff _).mpr (round_m_nonneg n d hn)
  · have hmpos : 0 < x.m := lt_of_le_of_ne h0 (fun h => hm h.symm)
    have hb : 2 ^ 52 ≤ x.m ∧ x.m < 2 ^ 53 := by
      rcases hx with ⟨h, _⟩ | ⟨h1, h2⟩
      · exact absurd h hm
      · omega
    have hxpos : 0 < x.toRat := by
      rw [toRat_eq]
      have : (0 : ℚ) < (x.m : ℚ) := by exact_mod_cast hmpos
      positivity
    have hnpos : 0 < n := by
      have h1 : (0 : ℚ) < (n : ℚ) / (d : ℚ) := lt_of_lt_of_le hxpos hle
      have h2 : (0 : ℚ) < (n : ℚ) := by
        have := mul_pos h1 hdq
        rwa [div_mul_cancel₀ _ (ne_of_gt hdq)] at this
      exact_mod_cast h2
    have hcast : ((n.natAbs : Nat) : ℚ) = (n : ℚ) := by
      obtain ⟨k, hk⟩ := Int.eq_ofNat_of_zero_le hn
      rw [hk]
      simp
    have hr := le_roundPos x hb.1 hb.2 n.natAbs d (by omega) hd (by rw [hcast]; exact hle)
    have hval : (Double.round n d).toRat
        = ((Double.roundPos n.natAbs d).1 : ℚ) * (2 : ℚ) ^ (Double.roundPos n.natAbs d).2 := by
      rw [toRat_eq]
      unfold Double.round
      rw [if_neg (by omega), if_pos hnpos]
      simp
    rw [hval]
    exact hr

theorem add_arg (x y : Double) :
    ((x.num * (y.den : Int) + y.num * (x.den : Int) : Int) : ℚ) / ((x.den * y.den : Nat) : ℚ)
      = x.toRat + y.toRat := by
  unfold Double.toRat
  have hx : (x.den : ℚ) ≠ 0 := by exact_mod_cast ne_of_gt (den_pos x)
  have hy : (y.den : ℚ) ≠ 0 := by exact_mod_cast ne_of_gt (den_pos y)
  push_cast
  field_simp

/-- Adding a non-negative `double` to a non-negative `double` does not make it smaller. -/
theorem le_add (x incr : Double) (hx : x.Is53) (h0 : 0 ≤ x.m) (hi : 0 ≤ incr.m) :
    x.toRat ≤ (Double.add x incr).toRat ∧ (Double.add x incr).Is53 ∧
      0 ≤ (Double.add x incr).m := by
  refine ⟨?_, round_is53 _ _, ?_⟩
  · unfold Double.add
    apply le_round x hx h0 _ _ (Nat.mul_pos (den_pos x) (den_pos incr))
    rw [add_arg]
    have := (toRat_nonneg_iff incr).mpr hi
    linarith
  · unfold Double.add
    apply round_m_nonneg
    have h1 := num_nonneg x h0
    have h2 := num_nonneg incr hi
    positivity

theorem le_addTimes (incr : Double) (hi : 0 ≤ incr.m) :
    ∀ (j : Nat) (x : Double), x.Is53 → 0 ≤ x.m →
      x.toRat ≤ (Double.addTimes incr j x).toRat := by
  intro j
  induction j with
  | zero =>
    intro x _ _
    exact le_refl _
  | succ j ih =>
    intro x hx h0
    obtain ⟨h1, h2, h3⟩ := le_add x incr hx h0 hi
    exact le_trans h1 (ih (Double.add x incr) h2 h3)

/-- The increment of the transmit probability is not negative. -/
theorem entry_increment_nonneg (p : Double) (n : Nat) :
    0 ≤ (if Double.le p (Double.ofInt 1) = true then
        Double.div (Double.sub (Double.ofInt 1) p) (Double.ofInt (n : Int))
      else (⟨0, 0⟩ : Double)).m := by
  split_ifs with h
  · unfold Double.div
    apply round_m_nonneg
    have h1 : 0 ≤ (Double.sub (Double.ofInt 1) p).num := by
      apply num_nonneg
      unfold Double.sub
      apply round_m_nonneg
      unfold Double.le at h
      rw [decide_eq_true_iff] at h
      linarith
    have h2 : 0 ≤ (Double.ofInt (n : Int)).num := by
      apply num_nonneg
      unfold Double.ofInt
      exact round_m_nonneg _ _ (Int.natCast_nonneg n)
    have h3 : 0 ≤ (Double.ofInt (n : Int)).num.sign := Int.sign_nonneg.mpr h2
    have h4 : (0 : Int) ≤ ((Double.ofInt (n : Int)).den : Int) := Int.natCast_nonneg _
    positivity
  · exact le_refl _

/-! ## The window of the network entry and the returned probability -/

/-- C40 (amended): let no aging be due, `start` be the index of the current slot, `remaining` a
16-bit count with `start + remaining <= N`, and let one of the slots
`start, ..., start+remaining-1` be free in the scan.  Then `GetNetworkEntryTimestamp
(remaining, p)` returns `(when, p1, remaining1)` with `1 <= remaining1 <= remaining` and
`when = now + (remaining - remaining1) * slot_duration`, so that
`when + remaining1 * slot_duration = now + remaining * slot_duration`; the returned
probability `p1` is the level reached from `p` by `no + 1` additions, in `double` arithmetic,
of the increment `incr` (`(1.0 - p) / n` if `p <= 1.0`, else 0), where `n` is the number of
candidates and `no < n` the position of the candidate picked; for a `double` `p >= 0` it
satisfies `p <= p1`. -/
theorem entry_window_end_fixed (s : StdmaSlotManager) (now : Time) (draws : Nat → Double)
    (remaining : Nat) (p : Double) (start : Nat)
    (hring : RingOK s) (hN : s.m_numSlots < UINT32_MOD)
    (hnoage : now < s.m_lastFrameStart + s.m_frameDuration)
    (hcur : GetSlotIndexForTimestamp s now now = some (s, start))
    (hrem16 : remaining < 65536) (hend : start + remaining ≤ s.m_numSlots)
    (hfree : ∃ i, start ≤ i ∧ i < start + remaining ∧ entryFree s now start i = true) :
    ∃ (details : RandomAccessDetails64) (no : Nat) (incr : Double),
      GetNetworkEntryTimestamp64 s now draws remaining p = some (s, details) ∧
      1 ≤ details.m_slotsLeft ∧ details.m_slotsLeft ≤ remaining ∧
      details.m_when
        = now + ((remaining : Int) - (details.m_slotsLeft : Int)) * s.m_slotDuration ∧
      details.m_when + (details.m_slotsLeft : Int) * s.m_slotDuration
        = now + (remaining : Int) * s.m_slotDuration ∧
      no < ((List.range' start remaining).filter (entryFree s now start)).length ∧
      incr = (if Double.le p (Double.ofInt 1) = true then
          Double.div (Double.sub (Double.ofInt 1) p)
            (Double.ofInt
              ((((List.range' start remaining).filter (entryFree s now start)).length : Nat)
                : Int))
        else ⟨0, 0⟩) ∧
      details.m_p = Double.addTimes incr (no + 1) p ∧
      (p.Is53 → Double.le (Double.ofInt 0) p = true → Double.le p details.m_p = true) := by
  have hendv : u32add start remaining - start = remaining := by
    unfold u32add
    unfold UINT32_MOD at hN ⊢
    rw [Nat.mod_eq_of_lt (by omega)]
    omega
  have hcands := entryCandidates_filter s now start (List.range' start remaining)
    (by
      intro i hi
      rw [List.mem_range'_1] at hi
      obtain ⟨slot, hslot⟩ := keys_range_find_some _ _ _ hring.1 (by omega : i < s.m_numSlots)
      exact ⟨slot, hslot, (ringOK_find s hring i slot hslot).1⟩)
  obtain ⟨i0, hi1, hi2, hi3⟩ := hfree
  have hmem0 : i0 ∈ (List.range' start remaining).filter (entryFree s now start) :=
    List.mem_filter.mpr ⟨by rw [List.mem_range'_1]; omega, hi3⟩
  generalize hc : (List.range' start remaining).filter (entryFree s now start) = cands at *
  have hn : 1 ≤ cands.length := List.length_pos_of_mem hmem0
  have hn32 : cands.length < UINT32_MOD := by
    have h1 := List.length_filter_le (entryFree s now start) (List.range' start remaining)
    rw [List.length_range', hc] at h1
    unfold UINT32_MOD
    omega
  obtain ⟨no, slotIndex, incr, hno, hidx, hincr, _, _, hrun⟩ :=
    getNetworkEntryTimestamp64_pick s now draws remaining p start cands hnoage hcur
      (by rw [hendv]; exact hcands) hn hn32
  obtain ⟨w1, w2, w3⟩ := entry_details_window s now remaining start hN hrem16 hend slotIndex
    (by rw [hc]; exact List.getElem?_mem hidx)
  refine ⟨_, no, incr, hrun, w1, w2, w3, ?_, hno, hincr, rfl, ?_⟩
  · show now + ((u32sub slotIndex start : Nat) : Int) * s.m_slotDuration + _ = _
    rw [w3]
    ring
  · intro h53 hp0
    show Double.le p (Double.addTimes incr (no + 1) p) = true
    have hzero : (Double.ofInt 0).toRat = 0 := by
      have : Double.ofInt 0 = ⟨0, 0⟩ := rfl
      rw [this, toRat_eq]
      simp
    have hm : 0 ≤ p.m := by
      rw [le_iff_toRat, hzero] at hp0
      exact (toRat_nonneg_iff p).mp hp0
    have hi : 0 ≤ incr.m := by
      rw [hincr]
      exact entry_increment_nonneg p _
    rw [le_iff_toRat]
    exact le_addTimes incr hi (no + 1) p h53 hm

/-- Witness of C40 (amended): `takenManager` at time 0 (slot 0 is busy, slot 1 is free), three
remaining slots, `p = 0`. -/
theorem entry_window_end_fixed_witness :
    RingOK takenManager ∧
    GetSlotIndexForTimestamp takenManager 0 0 = some (takenManager, 0) ∧
    entryFree takenManager 0 0 1 = true ∧
    ∃ (details : RandomAccessDetails64) (no : Nat) (incr : Double),
      GetNetworkEntryTimestamp64 takenManager 0 (fun _ => ⟨9007199254740991, -53⟩) 3
        (Double.ofInt 0) = some (takenManager, details) ∧
      1 ≤ details.m_slotsLeft ∧ details.m_slotsLeft ≤ 3 ∧
      details.m_when
        = 0 + (((3 : Nat) : Int) - (details.m_slotsLeft : Int)) * takenManager.m_slotDuration ∧
      details.m_when + (details.m_slotsLeft : Int) * takenManager.m_slotDuration
        = 0 + ((3 : Nat) : Int) * takenManager.m_slotDuration ∧
      no < ((List.range' 0 3).filter (entryFree takenManager 0 0)).length ∧
      incr = (if Double.le (Double.ofInt 0) (Double.ofInt 1) = true then
          Double.div (Double.sub (Double.ofInt 1) (Double.ofInt 0))
            (Double.ofInt
              ((((List.range' 0 3).filter (entryFree takenManager 0 0)).length : Nat) : Int))
        else ⟨0, 0⟩) ∧
      details.m_p = Double.addTimes incr (no + 1) (Double.ofInt 0) ∧
      ((Double.ofInt 0).Is53 → Double.le (Double.ofInt 0) (Double.ofInt 0) = true →
        Double.le (Double.ofInt 0) details.m_p = true) :=
  ⟨by unfold RingOK; decide, by decide, by decide,
    entry_window_end_fixed takenManager 0 (fun _ => ⟨9007199254740991, -53⟩) 3
      (Double.ofInt 0) 0
      (by unfold RingOK; decide) (by decide) (by decide) (by decide) (by decide) (by decide)
      ⟨1, by decide, by decide, by decide⟩⟩

end Stdma
